import Mathlib

/-!
# simmerging: tree trimming and cluster merging (`plugins/simmerger.cc`)

A shallow embedding of the tree code of `simmerger.cc`.

* A `Node*` is an address (`Nat`); `nullptr` is `none`.  The memory holding the
  nodes is a `Heap`, a total map from addresses to node records, and every
  function that writes through a pointer takes the heap and returns the new one.
* A `Hit*` is an address into an immutable `HitStore`.
* `float` arithmetic is exact rational arithmetic (`ℚ`); `std::sqrt` is a
  parameter of the functions that call it.  The one operation of the tree code
  whose IEEE 754 result on finite numbers is not a number, the division by a zero
  energy sum in `::hitcentroid`, is followed by the `_ieee` functions.
* The C++ code can go wrong in two ways, undefined behaviour (dereferencing
  `nullptr`, `back()` of an empty vector, `top()` of an empty stack) and a C++
  exception that propagates; both are values of `Fault`.  Loops whose
  termination depends on the shape of the heap take a `fuel : Nat` and fail
  with `Fault.outOfFuel` when it is exhausted.
-/

namespace SimMerging

/-! ## Data model -/

/-- The ways in which running the C++ code can fail to produce a value. -/
inductive Fault where
  /-- a C++ exception leaves the function (a `throw` statement was executed) -/
  | exception
  /-- undefined behaviour: `nullptr` dereferenced, `back()`/`top()` on an empty container -/
  | undefinedBehaviour
  /-- the fuel of the model ran out before the loop ended -/
  | outOfFuel
  deriving DecidableEq, Repr

/-- Results of the embedded functions. -/
abbrev Res (α : Type) := Except Fault α

/-- `struct Hit`. -/
structure Hit where
  x_ : ℚ
  y_ : ℚ
  z_ : ℚ
  t_ : ℚ
  energy_ : ℚ
  trackid_ : Int
  deriving DecidableEq, Repr

/-- `GlobalPoint`, a point with three coordinates. -/
structure GlobalPoint where
  x : ℚ
  y : ℚ
  z : ℚ
  deriving DecidableEq, Repr

/-- `class Node`: the data members, pointers being addresses. -/
structure Node where
  trackid_ : Int
  energy_ : ℚ
  pdgid_ : Int
  parent_ : Option Nat
  children_ : List Nat
  hits_ : List Nat
  hitcentroidCalculated_ : Bool
  hitcentroid_ : GlobalPoint
  deriving DecidableEq, Repr

/-- The memory in which the nodes live: address to node record. -/
abbrev Heap := Nat → Node

/-- The memory in which the hits live (never written by the tree code). -/
abbrev HitStore := Nat → Hit

/-- `Node(int trackid, float energy, int pdgid)`: the constructor. -/
def Node.mk3 (trackid : Int) (energy : ℚ) (pdgid : Int) : Node :=
  { trackid_ := trackid, energy_ := energy, pdgid_ := pdgid, parent_ := none,
    children_ := [], hits_ := [], hitcentroidCalculated_ := false,
    hitcentroid_ := ⟨0, 0, 0⟩ }

instance : Inhabited Node := ⟨Node.mk3 0 0 0⟩

/-! ## Centroid -/

/-- `::hitcentroid(vector<Hit*> hits)`, on the hits the pointers point to.

The first statement, `if (hits.size()==0) cms::Exception("SimMerging") << "...";`,
builds an exception object and drops it: there is no `throw`, so for an empty
list control falls through to the two summation loops.

The division is that of the rationals, in which `a / 0 = 0`; it is the division of the
code when the energies do not sum to zero.  For two or more hits whose energies sum to
zero the code divides by zero and returns NaN or infinite coordinates: see
`hitcentroid_ieee`. -/
def hitcentroid (hits : List Hit) : Res GlobalPoint :=
  match hits with
  | [hit] => .ok ⟨hit.x_, hit.y_, hit.z_⟩
  | _ =>
    let summedEnergy : ℚ := hits.foldl (fun s hit => s + hit.energy_) 0
    .ok (hits.foldl
      (fun (c : GlobalPoint) hit =>
        let weight := hit.energy_ / summedEnergy
        ⟨c.x + weight * hit.x_, c.y + weight * hit.y_, c.z + weight * hit.z_⟩)
      ⟨0, 0, 0⟩)

/-- `Node::recomputeHitcentroid()` on the node at address `p`. -/
def recomputeHitcentroid (hs : HitStore) (h : Heap) (p : Nat) : Res (Heap × GlobalPoint) := do
  let c ← hitcentroid ((h p).hits_.map hs)
  .ok (Function.update h p { h p with hitcentroid_ := c, hitcentroidCalculated_ := true }, c)

/-- `Node::hitcentroid()` on the node at address `p`: the cached value when there is one. -/
def nodeHitcentroid (hs : HitStore) (h : Heap) (p : Nat) : Res (Heap × GlobalPoint) :=
  if (h p).hitcentroidCalculated_ then .ok (h, (h p).hitcentroid_)
  else recomputeHitcentroid hs h p

/-- `distance(Node* left, Node* right)`; `p1` is initialised before `p2`. -/
def distance (sqrt : ℚ → ℚ) (hs : HitStore) (h : Heap) (left right : Nat) : Res (Heap × ℚ) := do
  let (h1, p1) ← nodeHitcentroid hs h left
  let (h2, p2) ← nodeHitcentroid hs h1 right
  .ok (h2, sqrt ((p1.x - p2.x) ^ 2 + (p1.y - p2.y) ^ 2 + (p1.z - p2.z) ^ 2))

/-! ## Node methods -/

/-- `Node::nhits()`. -/
def nhits (h : Heap) (p : Nat) : Nat := (h p).hits_.length

/-- `Node::hasHits()`. -/
def hasHits (h : Heap) (p : Nat) : Bool := decide (0 < nhits h p)

/-- `Node::isLeaf()`. -/
def isLeaf (h : Heap) (p : Nat) : Bool := (h p).children_.isEmpty

/-- `Node::hasChildren()`. -/
def hasChildren (h : Heap) (p : Nat) : Bool := !(h p).children_.isEmpty

/-- `Node::hasParent()`. -/
def hasParent (h : Heap) (p : Nat) : Bool := (h p).parent_.isSome

/-- `Node::setParent(Node* parent)` on the node at `p`. -/
def setParent (h : Heap) (p : Nat) (parent : Nat) : Heap :=
  Function.update h p { h p with parent_ := some parent }

/-- `Node::addChild(Node* child)` on the node at `p`. -/
def addChild (h : Heap) (p : Nat) (child : Nat) : Heap :=
  Function.update h p { h p with children_ := (h p).children_ ++ [child] }

/-- `Node::addHit(Hit* hit)` on the node at `p`. -/
def addHit (h : Heap) (p : Nat) (hit : Nat) : Heap :=
  Function.update h p { h p with hits_ := (h p).hits_ ++ [hit] }

/-- `Node::hasNextSibling()`; `back()` of an empty vector is undefined. -/
def hasNextSibling (h : Heap) (p : Nat) : Res Bool :=
  match (h p).parent_ with
  | none => .ok false
  | some par =>
    match (h par).children_.getLast? with
    | none => .error .undefinedBehaviour
    | some last => .ok (last != p)

/-- `Node::nextSibling()`: `std::find` of `this` among the parent's children, then one
step; stepping the end iterator is undefined. -/
def nextSibling (h : Heap) (p : Nat) : Res (Option Nat) := do
  if (← hasNextSibling h p) then
    match (h p).parent_ with
    | none => .error .undefinedBehaviour
    | some par =>
      match (h par).children_.dropWhile (fun c => c != p) with
      | [] => .error .undefinedBehaviour
      | [_] => .ok none
      | _ :: sibling :: _ => .ok (some sibling)
  else .ok none

/-- `Node::isLeafParent()`. -/
def isLeafParent (h : Heap) (p : Nat) : Bool :=
  if isLeaf h p then false
  else (h p).children_.all (fun child => !hasChildren h child)

/-! ## Iterators -/

/-- `Node::Iterator`: `m_ptr`, `root`, `depth_` and the stack `continuation_` (top first). -/
structure Iterator where
  m_ptr : Option Nat
  root : Option Nat
  depth_ : Int
  continuation_ : List Nat
  deriving DecidableEq, Repr

/-- `Node::begin()`. -/
def Node.begin (p : Nat) : Iterator := ⟨some p, some p, 0, []⟩

/-- The `while(true)` loop of `Iterator::operator++`, entered at `m` with the stack
`continuation`: stop at the iteration root, else go to the next sibling, else pop. -/
def Iterator.climb (h : Heap) (root : Option Nat) :
    List Nat → Nat → Int → Res Iterator
  | continuation, m, depth =>
    if some m = root then .ok ⟨none, root, depth, continuation⟩
    else
      match hasNextSibling h m with
      | .error e => .error e
      | .ok true =>
        match nextSibling h m with
        | .error e => .error e
        | .ok s => .ok ⟨s, root, depth, continuation⟩
      | .ok false =>
        match continuation with
        | [] => .error .undefinedBehaviour
        | top :: rest => Iterator.climb h root rest top (depth - 1)

/-- `Iterator::operator++`. -/
def Iterator.next (h : Heap) (it : Iterator) : Res Iterator :=
  match it.m_ptr with
  | none => .error .undefinedBehaviour
  | some m =>
    match (h m).children_ with
    | child :: _ => .ok ⟨some child, it.root, it.depth_ + 1, m :: it.continuation_⟩
    | [] => Iterator.climb h it.root it.continuation_ m it.depth_

/-- A range-for over `*root` whose body does not write to the tree:
`for (auto& node : *root) acc = body(acc, node, depth)`, from iterator `it`. -/
def rangeFor {α : Type} (h : Heap) (body : α → Nat → Int → Res α) :
    Nat → Iterator → α → Res α
  | 0, _, _ => .error .outOfFuel
  | fuel + 1, it, acc =>
    match it.m_ptr with
    | none => .ok acc
    | some m => do
      let acc1 ← body acc m it.depth_
      let it1 ← it.next h
      rangeFor h body fuel it1 acc1

/-- `Node::IteratorUp::operator++` as a map on `m_ptr`. -/
def IteratorUp.next (h : Heap) (m : Nat) : Option Nat :=
  if hasParent h m then (h m).parent_ else none

/-! ## Tree mutation primitives -/

/-- `break_from_parent(Node* node)`.

The guard `if (!(node->hasParent())) cms::Exception("SimMerging") << "...";` has no
`throw`; the next statement reads `node->parent_->children_`, which for a node without
parent dereferences `nullptr`. -/
def break_from_parent (h : Heap) (node : Nat) : Res Heap :=
  match (h node).parent_ with
  | none => .error .undefinedBehaviour
  | some par =>
    .ok (Function.update h par
      { h par with children_ := (h par).children_.filter (fun c => c != node) })

/-- `remove_intermediate_node(Node* node)`. -/
def remove_intermediate_node (h : Heap) (node : Nat) : Res Heap := do
  let parent := (h node).parent_
  let h1 ← break_from_parent h node
  match parent with
  | none => .error .undefinedBehaviour
  | some par =>
    .ok ((h1 node).children_.foldl (fun hh child => setParent (addChild hh par child) child par) h1)

/-! ## Recursive traversal -/

/-- `_dfs_recursion(node, returnable, depth)`. -/
def dfs_recursion (h : Heap) : Nat → Nat → List (Nat × Int) → Int → Res (List (Nat × Int))
  | 0, _, _, _ => .error .outOfFuel
  | fuel + 1, node, returnable, depth =>
    (h node).children_.foldlM
      (fun acc child => dfs_recursion h fuel child acc (depth + 1))
      (returnable ++ [(node, depth)])

/-- `dfs(Node* root)`. -/
def dfs (h : Heap) (fuel : Nat) (root : Nat) : Res (List (Nat × Int)) :=
  dfs_recursion h fuel root [] 0

/-! ## Trimming -/

/-- The inner loop of the first traversal of `trim_tree`:
`for (auto it=node.begin_up(); it!=node.end_up(); it++) set.insert(it->trackid_)`.
The `std::set<int>` is a duplicate-free list. -/
def insertAncestors (h : Heap) : Nat → Option Nat → List Int → Res (List Int)
  | 0, _, _ => .error .outOfFuel
  | _ + 1, none, set => .ok set
  | fuel + 1, some m, set =>
    insertAncestors h fuel (IteratorUp.next h m) (List.insert (h m).trackid_ set)

/-- The body of the first traversal of `trim_tree`. -/
def keepBody (h : Heap) (fuel : Nat) (set : List Int) (node : Nat) (_depth : Int) :
    Res (List Int) :=
  if !hasHits h node then .ok set
  else insertAncestors h fuel (some node) set

/-- The `while(it!=root->end())` loop of `trim_tree`, which removes the nodes whose
track id is not in the set. -/
def trimLoop (keep : List Int) : Nat → Heap → Iterator → Res Heap
  | 0, _, _ => .error .outOfFuel
  | fuel + 1, h, it =>
    match it.m_ptr with
    | none => .ok h
    | some node =>
      if !(keep.contains (h node).trackid_) then do
        let h1 := Function.update h node { h node with children_ := [] }
        let it1 ← it.next h1
        let h2 ← break_from_parent h1 node
        trimLoop keep fuel h2 it1
      else do
        let it1 ← it.next h
        trimLoop keep fuel h it1

/-- The body of the second step of `trim_tree`. -/
def collapseBody (h : Heap) (node_depth_pair : Nat × Int) : Res Heap :=
  let node := node_depth_pair.1
  if hasParent h node && ((h node).children_.length == 1) && !hasHits h node then
    remove_intermediate_node h node
  else .ok h

/-- `trim_tree(Node* root)`. -/
def trim_tree (fuel : Nat) (h : Heap) (root : Nat) : Res Heap := do
  let keep ← rangeFor h (keepBody h fuel) fuel (Node.begin root) []
  let h1 ← trimLoop keep fuel h (Node.begin root)
  let snapshot ← dfs h1 fuel root
  snapshot.foldlM collapseBody h1

/-! ## Merging -/

/-- The variables written by the double loop over the pairs of mergeable nodes. -/
structure ScanState where
  heap : Heap
  minr : ℚ
  pairToMerge : Option (Nat × Nat)
  didUpdate : Bool
  didUpdateThisIteration : Bool

/-- The inner loop `for (int j = i+1; j < nMergeable; ++j)` for a fixed `left`. -/
def scanInner (sqrt : ℚ → ℚ) (hs : HitStore) (left : Nat) :
    List Nat → ScanState → Res ScanState
  | [], st => .ok st
  | right :: rest, st => do
    let (h1, r) ← distance sqrt hs st.heap left right
    if r < st.minr then
      scanInner sqrt hs left rest
        { heap := h1, minr := r,
          pairToMerge :=
            some (if (h1 left).energy_ > (h1 right).energy_ then (left, right) else (right, left)),
          didUpdate := true, didUpdateThisIteration := true }
    else
      scanInner sqrt hs left rest { st with heap := h1 }

/-- The outer loop `for (int i = 0; i < nMergeable; ++i)`. -/
def scanOuter (sqrt : ℚ → ℚ) (hs : HitStore) : List Nat → ScanState → Res ScanState
  | [], st => .ok st
  | left :: rest, st => do
    let st1 ← scanInner sqrt hs left rest st
    scanOuter sqrt hs rest st1

/-- The statements of the `while(true)` loop of `merge_leafparent_Mar03` that merge the
node `second` into the node `first`: move the children, move the hits, delete the
merged-away node, recompute the centroid of `first`.  (The range-for loops read the
vectors of `second` and write those of `first`.) -/
def mergePair (hs : HitStore) (h : Heap) (first second : Nat) : Res Heap :=
  -- Move children
  let h1 := (h second).children_.foldl
    (fun hh child => setParent (addChild hh first child) child first) h
  let h2 := Function.update h1 second { h1 second with children_ := [] }
  -- Move hits
  let h3 := (h2 second).hits_.foldl (fun hh hit => addHit hh first hit) h2
  let h4 := Function.update h3 second { h3 second with hits_ := [] }
  -- Delete the merged-away node
  match break_from_parent h4 second with
  | .error e => .error e
  | .ok h5 =>
    -- Recompute the hitcentroid for newly merged node
    match recomputeHitcentroid hs h5 first with
    | .error e => .error e
    | .ok (h6, _) => .ok h6

/-- The `while(true)` loop of `merge_leafparent_Mar03`.  A default-constructed
`pairToMerge` holds two null pointers. -/
def mergeLoop (sqrt : ℚ → ℚ) (hs : HitStore) (maxr : ℚ) :
    Nat → Heap → List Nat → Bool → Res (Heap × List Nat × Bool)
  | 0, _, _, _ => .error .outOfFuel
  | fuel + 1, h, mergeable, didUpdate => do
    let st ← scanOuter sqrt hs mergeable
      { heap := h, minr := maxr, pairToMerge := none, didUpdate := didUpdate,
        didUpdateThisIteration := false }
    if !st.didUpdateThisIteration then .ok (st.heap, mergeable, st.didUpdate)
    else
      match st.pairToMerge with
      | none => .error .undefinedBehaviour
      | some (first, second) =>
        match mergePair hs st.heap first second with
        | .error e => .error e
        | .ok h6 =>
          mergeLoop sqrt hs maxr fuel h6 (mergeable.filter (fun c => c != second)) st.didUpdate

/-- The special case of `merge_leafparent_Mar03` for a leaf parent that is not the root:
`if (!(leafparent->hasHits()) && mergeable.size()==1 &&
mergeable[0]->pdgid_!=leafparent->pdgid_) mergeable[0]->pdgid_ = leafparent->pdgid_;`,
evaluated after the merging. -/
def inheritPdgid (h : Heap) (leafparent : Nat) (mergeable : List Nat) : Heap :=
  match mergeable with
  | [m0] =>
    if !hasHits h leafparent && ((h m0).pdgid_ != (h leafparent).pdgid_) then
      Function.update h m0 { h m0 with pdgid_ := (h leafparent).pdgid_ }
    else h
  | _ => h

/-- `merge_leafparent_Mar03(Node* leafparent, float maxr)`.  Every turn of the
`while(true)` loop but the last erases a node from `mergeable`, so the loop is given
`mergeable.size() + 1` turns. -/
def merge_leafparent_Mar03 (sqrt : ℚ → ℚ) (hs : HitStore) (h : Heap) (leafparent : Nat)
    (maxr : ℚ) : Res (Heap × Bool) := do
  let children := (h leafparent).children_
  let h1 := Function.update h leafparent { h leafparent with children_ := [] }
  let mergeable0 :=
    if hasParent h1 leafparent && hasHits h1 leafparent then children ++ [leafparent]
    else children
  let (h2, mergeable, didUpdate) ←
    mergeLoop sqrt hs maxr (mergeable0.length + 1) h1 mergeable0 false
  if !hasParent h2 leafparent then
    .ok (Function.update h2 leafparent { h2 leafparent with children_ := mergeable }, didUpdate)
  else
    let h3 := inheritPdgid h2 leafparent mergeable
    match (h3 leafparent).parent_ with
    | none => .error .undefinedBehaviour
    | some parent => do
      let h4 ← break_from_parent h3 leafparent
      .ok (mergeable.foldl
        (fun hh child => setParent (addChild hh parent child) child parent) h4, true)

/-- The body of the range-for of `merging_algo_Mar03` that collects the leaf parents. -/
def leafparentsBody (h : Heap) (leafparents : List Nat) (node : Nat) (_depth : Int) :
    Res (List Nat) :=
  if !isLeafParent h node then .ok leafparents else .ok (leafparents ++ [node])

/-- One turn of the `while(didUpdate)` loop of `merging_algo_Mar03`; `maxr` has its
default value `10.`. -/
def mergingPass (sqrt : ℚ → ℚ) (hs : HitStore) (fuel : Nat) (h : Heap) (root : Nat)
    (didUpdate : Bool) : Res (Heap × Bool) := do
  let leafparents ← rangeFor h (leafparentsBody h) fuel (Node.begin root) []
  leafparents.foldlM
    (fun (s : Heap × Bool) node => merge_leafparent_Mar03 sqrt hs s.1 node 10)
    (h, didUpdate)

/-- The `while(didUpdate)` loop of `merging_algo_Mar03`; `fuel` bounds each traversal,
the next argument the number of turns. -/
def mergingLoop (sqrt : ℚ → ℚ) (hs : HitStore) (fuel : Nat) (root : Nat) :
    Nat → Heap → Bool → Res Heap
  | 0, _, _ => .error .outOfFuel
  | turns + 1, h, didUpdate =>
    if didUpdate then
      match mergingPass sqrt hs fuel h root didUpdate with
      | .error e => .error e
      | .ok (h1, d) => mergingLoop sqrt hs fuel root turns h1 d
    else .ok h

/-- `merging_algo_Mar03(Node* root)`. -/
def merging_algo_Mar03 (sqrt : ℚ → ℚ) (hs : HitStore) (fuel : Nat) (h : Heap) (root : Nat) :
    Res Heap :=
  mergingLoop sqrt hs fuel root fuel h true

/-! ## Trees in the heap -/

/-- A finite ordered forest of addresses, as first child / next sibling:
`cons p kids rest` is the tree with root `p` and children `kids`, followed by the
sibling trees `rest`. -/
inductive Forest where
  | nil : Forest
  | cons (p : Nat) (kids : Forest) (rest : Forest) : Forest
  deriving DecidableEq, Repr

/-- The roots of the trees of a forest, in order. -/
def Forest.roots : Forest → List Nat
  | .nil => []
  | .cons p _ rest => p :: rest.roots

/-- All the nodes of a forest, in pre-order. -/
def Forest.nodes : Forest → List Nat
  | .nil => []
  | .cons p kids rest => p :: (kids.nodes ++ rest.nodes)

/-- The nodes of a forest in pre-order, each with its depth, the roots having depth `d`. -/
def Forest.walk (d : Int) : Forest → List (Nat × Int)
  | .nil => []
  | .cons p kids rest => (p, d) :: (kids.walk (d + 1) ++ rest.walk d)

/-- Concatenation of two forests. -/
def Forest.append : Forest → Forest → Forest
  | .nil, G => G
  | .cons p kids rest, G => .cons p kids (rest.append G)

/-- The heap holds the forest `F` below the node `par`: every root of `F` has `par` as
its `parent_`, and the `children_` of every node of `F` are the roots of its subforest. -/
def Rep (h : Heap) : Nat → Forest → Prop
  | _, .nil => True
  | par, .cons p kids rest =>
    (h p).parent_ = some par ∧ (h p).children_ = kids.roots ∧ Rep h p kids ∧ Rep h par rest

/-- The nodes reachable from `root` form a well-formed tree whose children forest is `F`:
one root without parent, parent links consistent with the children lists, every node
at one place only, and distinct track ids. -/
structure IsTree (h : Heap) (root : Nat) (F : Forest) : Prop where
  root_parent : (h root).parent_ = none
  root_children : (h root).children_ = F.roots
  rep : Rep h root F
  nodup : (root :: F.nodes).Nodup
  trackids : ∀ p ∈ root :: F.nodes, ∀ q ∈ root :: F.nodes,
    (h p).trackid_ = (h q).trackid_ → p = q

/-- Where the iterator stands when it reaches the forest `F` of children of `P` (the
stack holding `P` and, below it, `S`): on the first root, or, when `F` is empty, where
the `while(true)` loop of `operator++` entered at `P` leads. -/
def enter (h : Heap) (r : Option Nat) (P : Nat) (S : List Nat) (d : Int) :
    Forest → Res Iterator
  | .nil => Iterator.climb h r S P (d - 1)
  | .cons p _ _ => .ok ⟨some p, r, d, P :: S⟩

/-- The situation of the traversal on reaching the forest `F` of children of `P`: the
heap holds `F` below `P`, the children of `P` are `pre` followed by the roots of `F`,
all these nodes are distinct, none is the node `r` the iteration started from, and no
node on the stack has its parent in `F` or at `P`. -/
structure Ctx (h : Heap) (r : Option Nat) (P : Nat) (S : List Nat) (pre : List Nat)
    (F : Forest) : Prop where
  rep : Rep h P F
  children : (h P).children_ = pre ++ F.roots
  nodup : (P :: (pre ++ F.nodes)).Nodup
  notRoot : ∀ q ∈ F.nodes, some q ≠ r
  anc : ∀ m ∈ P :: S, ∀ g, (h m).parent_ = some g → g ∉ P :: F.nodes

/-- The forest left by the first step of `trim_tree` when `K` tells which nodes are in
the set: the trees whose root is not in the set are dropped whole. -/
def Forest.pruneBy (K : Nat → Bool) : Forest → Forest
  | .nil => .nil
  | .cons p kids rest =>
    if K p then .cons p (kids.pruneBy K) (rest.pruneBy K) else rest.pruneBy K

/-- The number of nodes the removing loop of `trim_tree` stands on in the forest. -/
def Forest.visitedBy (K : Nat → Bool) : Forest → Nat
  | .nil => 0
  | .cons p kids rest => (if K p then kids.visitedBy K else 0) + rest.visitedBy K + 1

/-- The heap `h'` differs from `h` in `children_` fields only, and only at nodes of `X`. -/
def ChildrenOnly (X : List Nat) (h h' : Heap) : Prop :=
  ∀ q, h' q = { h q with children_ := (h' q).children_ } ∧ (q ∉ X → h' q = h q)

/-- Some node of the forest satisfies `hh` (has hits). -/
def Forest.anyHit (hh : Nat → Bool) : Forest → Bool
  | .nil => false
  | .cons p kids rest => hh p || kids.anyHit hh || rest.anyHit hh

/-- The nodes of the forest that satisfy `hh` or have a descendant that does. -/
def Forest.kept (hh : Nat → Bool) : Forest → List Nat
  | .nil => []
  | .cons p kids rest =>
    (if hh p || kids.anyHit hh then [p] else []) ++ (kids.kept hh ++ rest.kept hh)

/-- The number of levels of a forest. -/
def Forest.height : Forest → Nat
  | .nil => 0
  | .cons _ kids rest => max (kids.height + 1) rest.height

/-- The chain of `parent_` links from `m` is `S` and ends at a node without parent. -/
def Chain (h : Heap) : Nat → List Nat → Prop
  | m, [] => (h m).parent_ = none
  | m, g :: S => (h m).parent_ = some g ∧ Chain h g S

/-- Every node of the forest, taken with the forest of its children, satisfies `φ`. -/
def Forest.Forall (φ : Nat → Forest → Prop) : Forest → Prop
  | .nil => True
  | .cons p kids rest => φ p kids ∧ kids.Forall φ ∧ rest.Forall φ

/-- The forest left by the first step of `trim_tree`: the trees that carry no hit
(no node satisfying `hh`) are dropped. -/
def Forest.prune (hh : Nat → Bool) : Forest → Forest
  | .nil => .nil
  | .cons p kids rest =>
    if hh p || kids.anyHit hh then .cons p (kids.prune hh) (rest.prune hh) else rest.prune hh

/-- The hits attached to the nodes of a tree, in pre-order. -/
def reachableHits (h : Heap) (root : Nat) (F : Forest) : List Nat :=
  ((root :: F.nodes).map (fun q => (h q).hits_)).flatten

/-- The forest has exactly one tree. -/
def Forest.isSingle : Forest → Bool
  | .cons _ _ .nil => true
  | _ => false

/-- The effect of the second step of `trim_tree` on the forest of children of a node:
the trees that stay in place, and the trees that are re-attached at the end of the
children because their root, a node without hits and with one child, was removed. -/
def Forest.collapse (hh : Nat → Bool) : Forest → Forest × Forest
  | .nil => (.nil, .nil)
  | .cons p kids rest =>
    let ck := kids.collapse hh
    let cr := rest.collapse hh
    if !hh p && kids.isSingle then (cr.1, (ck.1.append ck.2).append cr.2)
    else (.cons p (ck.1.append ck.2) cr.1, cr.2)

/-- The forest of children of a node after the second step of `trim_tree`. -/
def Forest.flat (hh : Nat → Bool) (F : Forest) : Forest :=
  (F.collapse hh).1.append (F.collapse hh).2

/-- The heap `h'` differs from `h` in `parent_` and `children_` fields only, and only
at nodes of `X`. -/
def LinksOnly (X : List Nat) (h h' : Heap) : Prop :=
  ∀ q, h' q = { h q with children_ := (h' q).children_, parent_ := (h' q).parent_ } ∧
    (q ∉ X → h' q = h q)

/-- Some node of the tree has a hit. -/
def treeHasHit (h : Heap) (root : Nat) (F : Forest) : Prop :=
  ∃ q ∈ root :: F.nodes, (h q).hits_ ≠ []

/-- The forest of children of the root after `trim_tree`. -/
def Forest.trimmed (hh : Nat → Bool) (F : Forest) : Forest :=
  (F.prune hh).flat hh

/-! ## An example tree -/

/-- The node records of the example: track ids 10 to 17, hits on the nodes 4, 5 and 7. -/
def exampleNodes : List Node :=
  [ { Node.mk3 10 8 22 with parent_ := none, children_ := [1, 2, 3] },
    { Node.mk3 11 7 22 with parent_ := some 0, children_ := [4] },
    { Node.mk3 12 6 22 with parent_ := some 0 },
    { Node.mk3 13 5 22 with parent_ := some 0, children_ := [5, 6] },
    { Node.mk3 14 4 11 with parent_ := some 1, hits_ := [0] },
    { Node.mk3 15 3 11 with parent_ := some 3, hits_ := [1] },
    { Node.mk3 16 2 22 with parent_ := some 3, children_ := [7] },
    { Node.mk3 17 1 11 with parent_ := some 6, hits_ := [2] } ]

/-- The example heap: the tree `0 → [1 → [4], 2, 3 → [5, 6 → [7]]]`. -/
def exampleHeap : Heap := fun p => exampleNodes.getD p (Node.mk3 0 0 0)

/-- The forest below the root of the example tree. -/
def exampleForest : Forest :=
  .cons 1 (.cons 4 .nil .nil)
    (.cons 2 .nil
      (.cons 3 (.cons 5 .nil (.cons 6 (.cons 7 .nil .nil) .nil)) .nil))

/-! ## Centroids as the merge step sees them -/

/-- The point `Node::hitcentroid()` returns for the node at `q`: the cached point when
the cache is marked as calculated, the centroid of the hits of the node otherwise. -/
def centroidOf (hs : HitStore) (h : Heap) (q : Nat) : GlobalPoint :=
  if (h q).hitcentroidCalculated_ then (h q).hitcentroid_
  else
    match hitcentroid ((h q).hits_.map hs) with
    | .ok c => c
    | .error _ => ⟨0, 0, 0⟩

/-- The number `distance(left, right)` returns in the heap `h`. -/
def distOf (sqrt : ℚ → ℚ) (hs : HitStore) (h : Heap) (left right : Nat) : ℚ :=
  sqrt (((centroidOf hs h left).x - (centroidOf hs h right).x) ^ 2
    + ((centroidOf hs h left).y - (centroidOf hs h right).y) ^ 2
    + ((centroidOf hs h left).z - (centroidOf hs h right).z) ^ 2)

/-- The heap `h'` differs from `h` in the cache fields only, and every node has the same
centroid (in the sense of `centroidOf`) in both. -/
def CacheOnly (hs : HitStore) (h h' : Heap) : Prop :=
  ∀ q, h' q = { h q with hitcentroid_ := (h' q).hitcentroid_,
                         hitcentroidCalculated_ := (h' q).hitcentroidCalculated_ } ∧
    centroidOf hs h' q = centroidOf hs h q ∧
    ((h q).hitcentroidCalculated_ = true → h' q = h q)

/-- The variables of the pair scan other than the heap. -/
structure ScanVars where
  minr : ℚ
  pairToMerge : Option (Nat × Nat)
  didUpdate : Bool
  didUpdateThisIteration : Bool
  deriving DecidableEq

/-- The variables of a scan state. -/
def ScanState.vars (st : ScanState) : ScanVars :=
  ⟨st.minr, st.pairToMerge, st.didUpdate, st.didUpdateThisIteration⟩

/-- The inner loop of the pair scan on distances `D` and energies `E`. -/
def pureInner (D : Nat → Nat → ℚ) (E : Nat → ℚ) (left : Nat) : List Nat → ScanVars → ScanVars
  | [], v => v
  | right :: rest, v =>
    if D left right < v.minr then
      pureInner D E left rest
        ⟨D left right, some (if E left > E right then (left, right) else (right, left)),
          true, true⟩
    else pureInner D E left rest v

/-- The outer loop of the pair scan on distances `D` and energies `E`. -/
def pureOuter (D : Nat → Nat → ℚ) (E : Nat → ℚ) : List Nat → ScanVars → ScanVars
  | [], v => v
  | left :: rest, v => pureOuter D E rest (pureInner D E left rest v)

/-- A scan that has found a pair has set `didUpdate` and holds two distinct nodes of `X`. -/
def ScanVars.Found (X : List Nat) (v : ScanVars) : Prop :=
  v.didUpdateThisIteration = true →
    v.didUpdate = true ∧ ∃ a b, v.pairToMerge = some (a, b) ∧ a ∈ X ∧ b ∈ X ∧ a ≠ b

/-- What the `while(true)` loop of `merge_leafparent_Mar03` on the leaf parent `L` relies
on: the mergeable nodes are distinct and childless, those other than `L` have `L` as
parent, the children of `L` have been cleared, and `L`, when mergeable, has a parent. -/
structure LoopInv (L : Nat) (h : Heap) (M : List Nat) : Prop where
  nodup : M.Nodup
  leaf : ∀ q ∈ M, (h q).children_ = []
  parent : ∀ q ∈ M, q ≠ L → (h q).parent_ = some L
  cleared : (h L).children_ = []
  hasPar : L ∈ M → ∃ P0, (h L).parent_ = some P0

/-- What turns of the `while(true)` loop on the leaf parent `L` do to the heap and to the
mergeable list: nodes are only erased from the list; track id, energy, particle type and
parent of every node stay; outside the list only `children_` can change, and only by
erasing `L` from the children of its parent when `L` is merged away; merged-away nodes
end without hits, and the hits of the list are conserved. -/
structure LoopRel (L : Nat) (h : Heap) (M : List Nat) (h' : Heap) (M' : List Nat) : Prop where
  sub : M'.Sublist M
  same : ∀ q, (h' q).trackid_ = (h q).trackid_ ∧ (h' q).energy_ = (h q).energy_ ∧
    (h' q).pdgid_ = (h q).pdgid_ ∧ (h' q).parent_ = (h q).parent_
  out : ∀ q, q ∉ M → h' q = { h q with children_ := (h' q).children_ }
  children : ∀ q, (h' q).children_ = (h q).children_ ∨
    ((h L).parent_ = some q ∧ L ∈ M ∧ L ∉ M' ∧
      (h' q).children_ = (h q).children_.filter (fun c => c != L))
  hitsGone : ∀ q ∈ M, q ∉ M' → (h' q).hits_ = []
  hitsPerm : ((M'.map fun q => (h' q).hits_).flatten).Perm
    ((M.map fun q => (h q).hits_).flatten)
  nonempty : M ≠ [] → M' ≠ []

/-- The node `L` is a leaf parent with children `cs` in the heap `h`: the children are
distinct, childless and have `L` as parent. -/
structure LeafParent (h : Heap) (L : Nat) (cs : List Nat) : Prop where
  children : (h L).children_ = cs
  nonempty : cs ≠ []
  nodup : cs.Nodup
  notSelf : L ∉ cs
  leaf : ∀ c ∈ cs, (h c).children_ = []
  parent : ∀ c ∈ cs, (h c).parent_ = some L

/-- A pair scan over `M` would write no cache in the heap `h`: there is no pair, or the
centroid of every node of `M` is already calculated. -/
def Cached (h : Heap) (M : List Nat) : Prop :=
  M.length ≤ 1 ∨ ∀ q ∈ M, (h q).hitcentroidCalculated_ = true

/-- The forest has no tree. -/
def Forest.isNil : Forest → Bool
  | .nil => true
  | .cons _ _ _ => false

/-- Every tree of the forest is a single node. -/
def Forest.isLeaves : Forest → Bool
  | .nil => true
  | .cons _ kids rest => kids.isNil && rest.isLeaves

/-- The forest of single nodes `l`. -/
def Forest.leaves : List Nat → Forest
  | [] => .nil
  | q :: l => .cons q .nil (Forest.leaves l)

/-- The leaf parents of the forest, in pre-order: the nodes that have children, all of
them childless. -/
def Forest.leafParents : Forest → List Nat
  | .nil => []
  | .cons p kids rest =>
    (if !kids.isNil && kids.isLeaves then [p] else []) ++ (kids.leafParents ++ rest.leafParents)

/-- The number of nodes of the forest that have children. -/
def Forest.internal : Forest → Nat
  | .nil => 0
  | .cons _ kids rest => (if kids.isNil then 0 else 1) + kids.internal + rest.internal

/-- The mergeable set of `merge_leafparent_Mar03` for the node `L`: its children, and `L`
itself when it has a parent and hits. -/
def mergeableSet (h : Heap) (L : Nat) : List Nat :=
  if hasParent h L && hasHits h L then (h L).children_ ++ [L] else (h L).children_

/-- What merge steps do to a well-formed tree with root `root` and forest `F`: the result
is a well-formed tree on nodes of the old one, with the same root; nodes outside the old
tree are not written; track ids and energies stay; a node that left the tree carries no
hit; and the hits of the tree are conserved. -/
structure MergeStep (h : Heap) (root : Nat) (F : Forest) (h' : Heap) (F' : Forest) : Prop where
  tree : IsTree h' root F'
  nonempty : F.isNil = false → F'.isNil = false
  frame : ∀ q, q ∉ root :: F.nodes → h' q = h q
  same : ∀ q, (h' q).trackid_ = (h q).trackid_ ∧ (h' q).energy_ = (h q).energy_
  sub : ∀ q ∈ F'.nodes, q ∈ F.nodes
  gone : ∀ q ∈ F.nodes, q ∉ F'.nodes → (h' q).hits_ = []
  hits : (reachableHits h' root F').Perm (reachableHits h root F)
  internal : F'.internal ≤ F.internal

/-- The hits of the example: hit `i` lies at `x = 4 i` on the x axis and has energy `1`. -/
def exampleHits : HitStore := fun i => ⟨4 * (i : ℚ), 0, 0, 0, 1, 14⟩

/-- The tree invariant on the nodes reachable from `root`, `F` being the forest below
`root`: the root has no parent, every node below the root occurs exactly once in the
`children_` of its parent, which is a node of the tree, and every child listed in the
`children_` of a node of the tree has that node as `parent_`. -/
structure TreeInvariant (h : Heap) (root : Nat) (F : Forest) : Prop where
  root_parent : (h root).parent_ = none
  once : ∀ n ∈ F.nodes, ∃ p ∈ root :: F.nodes,
    (h n).parent_ = some p ∧ (h p).children_.count n = 1
  child_parent : ∀ p ∈ root :: F.nodes, ∀ c ∈ (h p).children_, (h c).parent_ = some p

/-- A tree of one node without hits: every address holds the record of a node without
parent, children and hits; the tree is the node at address `0`. -/
def singleHeap : Heap := fun _ => Node.mk3 1 5 22

/-- The hits of the flat example: three hits of energy `1` at `(0,0,0)`, `(1,0,0)` and
`(100,0,0)`. -/
def flatHits : HitStore := fun i =>
  match i with
  | 0 => ⟨0, 0, 0, 0, 1, 11⟩
  | 1 => ⟨1, 0, 0, 0, 1, 12⟩
  | _ => ⟨100, 0, 0, 0, 1, 13⟩

/-- The node records of the flat example: a root with three leaves of energy `1`, the
leaf `i` holding the hit `i - 1`. -/
def flatNodes : List Node :=
  [ { Node.mk3 10 8 22 with parent_ := none, children_ := [1, 2, 3] },
    { Node.mk3 11 1 11 with parent_ := some 0, hits_ := [0] },
    { Node.mk3 12 1 11 with parent_ := some 0, hits_ := [1] },
    { Node.mk3 13 1 11 with parent_ := some 0, hits_ := [2] } ]

/-- The flat example heap: the tree `0 → [1, 2, 3]`. -/
def flatHeap : Heap := fun p => flatNodes.getD p (Node.mk3 0 0 0)

/-- The node records of the particle-type example: the root, its child `1` (energy `1`,
particle type `22`, the hit `0`) and the child `2` of `1` (energy `5`, particle type `11`,
the hit `1`). -/
def pdgNodes : List Node :=
  [ { Node.mk3 10 8 22 with parent_ := none, children_ := [1] },
    { Node.mk3 11 1 22 with parent_ := some 0, children_ := [2], hits_ := [0] },
    { Node.mk3 12 5 11 with parent_ := some 1, hits_ := [1] } ]

/-- The heap of the particle-type example: the chain `0 → 1 → 2`. -/
def pdgHeap : Heap := fun p => pdgNodes.getD p (Node.mk3 0 0 0)

/-- A call on one node: `addHit(hit)`, a read `hitcentroid()`, or
`recomputeHitcentroid()`. -/
inductive CacheOp where
  | addHit (hit : Nat)
  | read
  | recompute
  deriving DecidableEq, Repr

/-- The calls `ops` made in sequence on the node at `p`; the points the reads
`hitcentroid()` return are collected in order. -/
def runOps (hs : HitStore) (p : Nat) : List CacheOp → Heap → Res (Heap × List GlobalPoint)
  | [], h => .ok (h, [])
  | .addHit hit :: ops, h => runOps hs p ops (addHit h p hit)
  | .read :: ops, h => do
    let (h1, c) ← nodeHitcentroid hs h p
    let (h2, cs) ← runOps hs p ops h1
    .ok (h2, c :: cs)
  | .recompute :: ops, h => do
    let (h1, _) ← recomputeHitcentroid hs h p
    runOps hs p ops h1

/-- What the reads of `ops` return if every read returns `::hitcentroid` of the hits
the node holds at that moment, `hits` being the hits it holds at the start. -/
def expectedReads (hs : HitStore) : List CacheOp → List Nat → List (Res GlobalPoint)
  | [], _ => []
  | .addHit hit :: ops, hits => expectedReads hs ops (hits ++ [hit])
  | .read :: ops, hits => hitcentroid (hits.map hs) :: expectedReads hs ops hits
  | .recompute :: ops, hits => expectedReads hs ops hits

/-- No read of `ops` comes after an `addHit` without a `recomputeHitcentroid()` in
between; `dirty` tells whether a hit was added since the last recomputation. -/
def disciplined : Bool → List CacheOp → Bool
  | _, [] => true
  | _, .addHit _ :: ops => disciplined true ops
  | dirty, .read :: ops => !dirty && disciplined false ops
  | _, .recompute :: ops => disciplined false ops

/-- The cache of the node at `p` is coherent: when it is marked as calculated, it holds
`::hitcentroid` of the hits of the node. -/
def Coherent (hs : HitStore) (h : Heap) (p : Nat) : Prop :=
  (h p).hitcentroidCalculated_ = true →
    hitcentroid ((h p).hits_.map hs) = .ok (h p).hitcentroid_

/-- The forest after `remove_intermediate_node` on the node `n`: the tree of `n` leaves
its place among its siblings and the trees of its children are appended to them. -/
def Forest.splice (n : Nat) : Forest → Forest
  | .nil => .nil
  | .cons p kids rest =>
    if p = n then rest.append kids else .cons p (kids.splice n) (rest.splice n)

/-- The forest of a chain: the first node, its one child the second node, and so on. -/
def Forest.chain : List Nat → Forest
  | [] => .nil
  | a :: l => .cons a (Forest.chain l) .nil

/-- The node records of the chain example: `0 → 1 → 2 → 3`, the hit `0` on the node `3`. -/
def chainNodes : List Node :=
  [ { Node.mk3 10 8 22 with parent_ := none, children_ := [1] },
    { Node.mk3 11 7 22 with parent_ := some 0, children_ := [2] },
    { Node.mk3 12 6 22 with parent_ := some 1, children_ := [3] },
    { Node.mk3 13 5 11 with parent_ := some 2, hits_ := [0] } ]

/-- The heap of the chain example. -/
def chainHeap : Heap := fun p => chainNodes.getD p (Node.mk3 0 0 0)

/-- The forest below the node `n` of the forest: the trees of the children of `n`. -/
def Forest.sub (n : Nat) : Forest → Forest
  | .nil => .nil
  | .cons p kids rest =>
    if p = n then kids else if n ∈ kids.nodes then kids.sub n else rest.sub n

/-- The body of a range-for that records each node with the depth of the iterator. -/
def recordBody (acc : List (Nat × Int)) (node : Nat) (depth : Int) : Res (List (Nat × Int)) :=
  .ok (acc ++ [(node, depth)])

/-- What the pair scan has established on distances `D`, energies `E` and radius `maxr`:
`minr` is at most `maxr`, and when a pair was found, `minr` is below `maxr` and is the
distance of the pair, whose first node has no less energy than the second. -/
def ScanVars.Best (D : Nat → Nat → ℚ) (E : Nat → ℚ) (maxr : ℚ) (v : ScanVars) : Prop :=
  v.minr ≤ maxr ∧
  (v.didUpdateThisIteration = true →
    v.minr < maxr ∧ ∃ a b, v.pairToMerge = some (a, b) ∧ D a b = v.minr ∧ E b ≤ E a)

/-- The state of the loop of `merge_leafparent_Mar03` at the head of a turn, seen from the
nodes `X` of the tree: the loop invariant, and every mergeable node that is listed among
the children of a node of `X` has that node as parent. -/
def MergeInv (X : List Nat) (L : Nat) (h : Heap) (M : List Nat) : Prop :=
  LoopInv L h M ∧ ∀ c ∈ M, ∀ q ∈ X, c ∈ (h q).children_ → (h c).parent_ = some q

/-- The node records of the pair example: a root with the leaves `1` (energy `3`, the hit
`0` at `(0,0,0)`) and `2` (energy `1`, the hit `1` at `(1,0,0)`). -/
def pairNodes : List Node :=
  [ { Node.mk3 10 8 22 with parent_ := none, children_ := [1, 2] },
    { Node.mk3 11 3 11 with parent_ := some 0, hits_ := [0] },
    { Node.mk3 12 1 11 with parent_ := some 0, hits_ := [1] } ]

/-- The heap of the pair example: the tree `0 → [1, 2]`. -/
def pairHeap : Heap := fun p => pairNodes.getD p (Node.mk3 0 0 0)

/-- The number of trees of the forest that carry a hit (some node satisfying `hh`). -/
def Forest.liveCount (hh : Nat → Bool) : Forest → Nat
  | .nil => 0
  | .cons p kids rest => (if hh p || kids.anyHit hh then 1 else 0) + rest.liveCount hh

/-- The nodes of the forest that have a hit or at least two children whose trees carry
a hit, in pre-order. -/
def Forest.survives (hh : Nat → Bool) : Forest → List Nat
  | .nil => []
  | .cons p kids rest =>
    (if hh p || decide (2 ≤ kids.liveCount hh) then [p] else [])
      ++ (kids.survives hh ++ rest.survives hh)

/-- Every node of `Forest.survives`, paired with the nearest node above it that is in
`Forest.survives` too, or with `P` when there is none in the forest: going down, the
node to pair with is replaced whenever a surviving node is passed. -/
def Forest.nearest (hh : Nat → Bool) : Forest → Nat → List (Nat × Nat)
  | .nil, _ => []
  | .cons p kids rest, P =>
    if hh p || decide (2 ≤ kids.liveCount hh) then
      (p, P) :: (kids.nearest hh p ++ rest.nearest hh P)
    else kids.nearest hh P ++ rest.nearest hh P

/-- Every node of the forest paired with its parent, the roots having the parent `P`. -/
def Forest.links : Forest → Nat → List (Nat × Nat)
  | .nil, _ => []
  | .cons p kids rest, P => (p, P) :: (kids.links p ++ rest.links P)

/-- One turn of a loop that accumulates the flag: as one turn of the `while(didUpdate)`
loop of `merging_algo_Mar03`, but the flag left by the turn is the logical OR of the
values returned by all the calls of `merge_leafparent_Mar03` of the turn
(`didUpdate = false; for (auto node : leafparents) didUpdate |= merge_leafparent_Mar03(node);`). -/
def mergingPassOr (sqrt : ℚ → ℚ) (hs : HitStore) (fuel : Nat) (h : Heap) (root : Nat) :
    Res (Heap × Bool) := do
  let leafparents ← rangeFor h (leafparentsBody h) fuel (Node.begin root) []
  leafparents.foldlM
    (fun (s : Heap × Bool) node => do
      let r ← merge_leafparent_Mar03 sqrt hs s.1 node 10
      .ok (r.1, s.2 || r.2))
    (h, false)

/-- The `while(didUpdate)` loop with the turns of `mergingPassOr`. -/
def mergingLoopOr (sqrt : ℚ → ℚ) (hs : HitStore) (fuel : Nat) (root : Nat) :
    Nat → Heap → Bool → Res Heap
  | 0, _, _ => .error .outOfFuel
  | turns + 1, h, didUpdate =>
    if didUpdate then
      match mergingPassOr sqrt hs fuel h root with
      | .error e => .error e
      | .ok (h1, d) => mergingLoopOr sqrt hs fuel root turns h1 d
    else .ok h

/-- The run of `merging_algo_Mar03` with the flag accumulated by OR in every turn. -/
def merging_algo_Mar03_or (sqrt : ℚ → ℚ) (hs : HitStore) (fuel : Nat) (h : Heap)
    (root : Nat) : Res Heap :=
  mergingLoopOr sqrt hs fuel root fuel h true

/-- The number of nodes of the tree with root `root` and forest `F` that have children
(`Node::hasChildren`). -/
def nodesWithChildren (h : Heap) (root : Nat) (F : Forest) : Nat :=
  ((root :: F.nodes).filter (fun q => hasChildren h q)).length

/-! ## The merge with a check on every distance and centroid computation

The functions below are the merge functions with a monitor: the computation of a
centroid fails on an empty list of hits (the first branch of `::hitcentroid` read as
the failure its message announces), and `distance` fails when one of its two nodes has
no hit.  Everything else is as in the functions they are copies of, so that a run of the
checked functions equals the run of the original ones exactly when no distance and no
centroid is ever computed on a node without hits. -/

/-- `::hitcentroid` with the check: the branch `hits.size()==0` fails. -/
def hitcentroid_checked (hits : List Hit) : Res GlobalPoint :=
  if hits.isEmpty then .error .exception else hitcentroid hits

/-- `Node::recomputeHitcentroid()` with the checked `::hitcentroid`. -/
def recomputeHitcentroid_checked (hs : HitStore) (h : Heap) (p : Nat) :
    Res (Heap × GlobalPoint) := do
  let c ← hitcentroid_checked ((h p).hits_.map hs)
  .ok (Function.update h p { h p with hitcentroid_ := c, hitcentroidCalculated_ := true }, c)

/-- `Node::hitcentroid()` with the checked `::hitcentroid`. -/
def nodeHitcentroid_checked (hs : HitStore) (h : Heap) (p : Nat) : Res (Heap × GlobalPoint) :=
  if (h p).hitcentroidCalculated_ then .ok (h, (h p).hitcentroid_)
  else recomputeHitcentroid_checked hs h p

/-- `distance(left, right)` with the check: it fails when `left` or `right` has no hit. -/
def distance_checked (sqrt : ℚ → ℚ) (hs : HitStore) (h : Heap) (left right : Nat) :
    Res (Heap × ℚ) :=
  if !(hasHits h left && hasHits h right) then .error .exception
  else do
    let (h1, p1) ← nodeHitcentroid_checked hs h left
    let (h2, p2) ← nodeHitcentroid_checked hs h1 right
    .ok (h2, sqrt ((p1.x - p2.x) ^ 2 + (p1.y - p2.y) ^ 2 + (p1.z - p2.z) ^ 2))

/-- The inner loop of the pair scan, `scanInner`, with the checked `distance`. -/
def scanInner_checked (sqrt : ℚ → ℚ) (hs : HitStore) (left : Nat) :
    List Nat → ScanState → Res ScanState
  | [], st => .ok st
  | right :: rest, st => do
    let (h1, r) ← distance_checked sqrt hs st.heap left right
    if r < st.minr then
      scanInner_checked sqrt hs left rest
        { heap := h1, minr := r,
          pairToMerge :=
            some (if (h1 left).energy_ > (h1 right).energy_ then (left, right) else (right, left)),
          didUpdate := true, didUpdateThisIteration := true }
    else
      scanInner_checked sqrt hs left rest { st with heap := h1 }

/-- The outer loop of the pair scan, `scanOuter`, with the checked `distance`. -/
def scanOuter_checked (sqrt : ℚ → ℚ) (hs : HitStore) : List Nat → ScanState → Res ScanState
  | [], st => .ok st
  | left :: rest, st => do
    let st1 ← scanInner_checked sqrt hs left rest st
    scanOuter_checked sqrt hs rest st1

/-- The merge of a pair, `mergePair`, with the checked `recomputeHitcentroid`. -/
def mergePair_checked (hs : HitStore) (h : Heap) (first second : Nat) : Res Heap :=
  let h1 := (h second).children_.foldl
    (fun hh child => setParent (addChild hh first child) child first) h
  let h2 := Function.update h1 second { h1 second with children_ := [] }
  let h3 := (h2 second).hits_.foldl (fun hh hit => addHit hh first hit) h2
  let h4 := Function.update h3 second { h3 second with hits_ := [] }
  match break_from_parent h4 second with
  | .error e => .error e
  | .ok h5 =>
    match recomputeHitcentroid_checked hs h5 first with
    | .error e => .error e
    | .ok (h6, _) => .ok h6

/-- The `while(true)` loop of `merge_leafparent_Mar03`, `mergeLoop`, with the checks. -/
def mergeLoop_checked (sqrt : ℚ → ℚ) (hs : HitStore) (maxr : ℚ) :
    Nat → Heap → List Nat → Bool → Res (Heap × List Nat × Bool)
  | 0, _, _, _ => .error .outOfFuel
  | fuel + 1, h, mergeable, didUpdate => do
    let st ← scanOuter_checked sqrt hs mergeable
      { heap := h, minr := maxr, pairToMerge := none, didUpdate := didUpdate,
        didUpdateThisIteration := false }
    if !st.didUpdateThisIteration then .ok (st.heap, mergeable, st.didUpdate)
    else
      match st.pairToMerge with
      | none => .error .undefinedBehaviour
      | some (first, second) =>
        match mergePair_checked hs st.heap first second with
        | .error e => .error e
        | .ok h6 =>
          mergeLoop_checked sqrt hs maxr fuel h6 (mergeable.filter (fun c => c != second))
            st.didUpdate

/-- `merge_leafparent_Mar03` with the checks. -/
def merge_leafparent_Mar03_checked (sqrt : ℚ → ℚ) (hs : HitStore) (h : Heap) (leafparent : Nat)
    (maxr : ℚ) : Res (Heap × Bool) := do
  let children := (h leafparent).children_
  let h1 := Function.update h leafparent { h leafparent with children_ := [] }
  let mergeable0 :=
    if hasParent h1 leafparent && hasHits h1 leafparent then children ++ [leafparent]
    else children
  let (h2, mergeable, didUpdate) ←
    mergeLoop_checked sqrt hs maxr (mergeable0.length + 1) h1 mergeable0 false
  if !hasParent h2 leafparent then
    .ok (Function.update h2 leafparent { h2 leafparent with children_ := mergeable }, didUpdate)
  else
    let h3 := inheritPdgid h2 leafparent mergeable
    match (h3 leafparent).parent_ with
    | none => .error .undefinedBehaviour
    | some parent => do
      let h4 ← break_from_parent h3 leafparent
      .ok (mergeable.foldl
        (fun hh child => setParent (addChild hh parent child) child parent) h4, true)

/-- One turn of the loop of `merging_algo_Mar03`, `mergingPass`, with the checks. -/
def mergingPass_checked (sqrt : ℚ → ℚ) (hs : HitStore) (fuel : Nat) (h : Heap) (root : Nat)
    (didUpdate : Bool) : Res (Heap × Bool) := do
  let leafparents ← rangeFor h (leafparentsBody h) fuel (Node.begin root) []
  leafparents.foldlM
    (fun (s : Heap × Bool) node => merge_leafparent_Mar03_checked sqrt hs s.1 node 10)
    (h, didUpdate)

/-- The loop of `merging_algo_Mar03`, `mergingLoop`, with the checks. -/
def mergingLoop_checked (sqrt : ℚ → ℚ) (hs : HitStore) (fuel : Nat) (root : Nat) :
    Nat → Heap → Bool → Res Heap
  | 0, _, _ => .error .outOfFuel
  | turns + 1, h, didUpdate =>
    if didUpdate then
      match mergingPass_checked sqrt hs fuel h root didUpdate with
      | .error e => .error e
      | .ok (h1, d) => mergingLoop_checked sqrt hs fuel root turns h1 d
    else .ok h

/-- `merging_algo_Mar03` with the checks. -/
def merging_algo_Mar03_checked (sqrt : ℚ → ℚ) (hs : HitStore) (fuel : Nat) (h : Heap)
    (root : Nat) : Res Heap :=
  mergingLoop_checked sqrt hs fuel root fuel h true

/-- Every leaf of the tree with root `root` and forest `F` has at least one hit. -/
def leavesHaveHits (h : Heap) (root : Nat) (F : Forest) : Prop :=
  ∀ q ∈ root :: F.nodes, isLeaf h q = true → hasHits h q = true

/-! ## Division by zero in the centroid

The functions above compute with exact rationals, which is what the `float` code computes,
rounding apart, as long as every operation has a finite result.  On finite hits one
operation of the merge step can leave the finite numbers: the division
`hit->energy_/summedEnergy` of `::hitcentroid` when the energies of two or more hits sum
to zero, which gives NaN or an infinity where the rational division gives `0`.  The
functions below are the functions of the merge step with this division as IEEE 754
defines it.  A value that is NaN or infinite is `none`: every product and sum with it is
NaN or infinite again, so a centroid with such a coordinate is `none`, a distance to it is
`none`, and the comparison `r < minr` with it is false. -/

/-- The division `a/b` of two finite `float`s: NaN or an infinity (`none`) when `b` is zero. -/
def floatDiv (a b : ℚ) : Option ℚ := if b = 0 then none else some (a / b)

/-- `::hitcentroid(vector<Hit*> hits)` with the division of IEEE 754: `none` is a point
with a NaN or infinite coordinate. -/
def hitcentroid_ieee (hits : List Hit) : Option GlobalPoint :=
  match hits with
  | [hit] => some ⟨hit.x_, hit.y_, hit.z_⟩
  | _ =>
    let summedEnergy : ℚ := hits.foldl (fun s hit => s + hit.energy_) 0
    hits.foldlM
      (fun (c : GlobalPoint) hit => do
        let weight ← floatDiv hit.energy_ summedEnergy
        some ⟨c.x + weight * hit.x_, c.y + weight * hit.y_, c.z + weight * hit.z_⟩)
      ⟨0, 0, 0⟩

/-- The memory of the nodes together with the cached centroids that are not finite:
`nonFinite p` tells that the `hitcentroid_` of the node at `p` holds a NaN or an infinity
(the field of the record in `heap` is then of no account). -/
structure FloatHeap where
  heap : Heap
  nonFinite : Nat → Bool

/-- `Node::recomputeHitcentroid()` with the division of IEEE 754. -/
def recomputeHitcentroid_ieee (hs : HitStore) (s : FloatHeap) (p : Nat) :
    FloatHeap × Option GlobalPoint :=
  match hitcentroid_ieee ((s.heap p).hits_.map hs) with
  | some c =>
    (⟨Function.update s.heap p
        { s.heap p with hitcentroid_ := c, hitcentroidCalculated_ := true },
      Function.update s.nonFinite p false⟩, some c)
  | none =>
    (⟨Function.update s.heap p { s.heap p with hitcentroidCalculated_ := true },
      Function.update s.nonFinite p true⟩, none)

/-- `Node::hitcentroid()` with the division of IEEE 754. -/
def nodeHitcentroid_ieee (hs : HitStore) (s : FloatHeap) (p : Nat) :
    FloatHeap × Option GlobalPoint :=
  if (s.heap p).hitcentroidCalculated_ then
    (s, if s.nonFinite p then none else some (s.heap p).hitcentroid_)
  else recomputeHitcentroid_ieee hs s p

/-- `distance(Node* left, Node* right)` with the division of IEEE 754: the distance is NaN
or infinite (`none`) when one of the two centroids is not finite. -/
def distance_ieee (sqrt : ℚ → ℚ) (hs : HitStore) (s : FloatHeap) (left right : Nat) :
    FloatHeap × Option ℚ :=
  let r1 := nodeHitcentroid_ieee hs s left
  let r2 := nodeHitcentroid_ieee hs r1.1 right
  (r2.1,
    match r1.2, r2.2 with
    | some p1, some p2 =>
      some (sqrt ((p1.x - p2.x) ^ 2 + (p1.y - p2.y) ^ 2 + (p1.z - p2.z) ^ 2))
    | _, _ => none)

/-- The variables written by the double loop over the pairs, with the memory of
`FloatHeap`. -/
structure FloatScanState where
  fheap : FloatHeap
  minr : ℚ
  pairToMerge : Option (Nat × Nat)
  didUpdate : Bool
  didUpdateThisIteration : Bool

/-- The inner loop `for (int j = i+1; j < nMergeable; ++j)` with the division of IEEE 754:
`r < minr` is false for a distance that is NaN or infinite. -/
def scanInner_ieee (sqrt : ℚ → ℚ) (hs : HitStore) (left : Nat) :
    List Nat → FloatScanState → FloatScanState
  | [], st => st
  | right :: rest, st =>
    let d := distance_ieee sqrt hs st.fheap left right
    match d.2 with
    | some r =>
      if r < st.minr then
        scanInner_ieee sqrt hs left rest
          { fheap := d.1, minr := r,
            pairToMerge :=
              some (if (d.1.heap left).energy_ > (d.1.heap right).energy_ then (left, right)
                else (right, left)),
            didUpdate := true, didUpdateThisIteration := true }
      else
        scanInner_ieee sqrt hs left rest { st with fheap := d.1 }
    | none => scanInner_ieee sqrt hs left rest { st with fheap := d.1 }

/-- The outer loop `for (int i = 0; i < nMergeable; ++i)` with the division of IEEE 754. -/
def scanOuter_ieee (sqrt : ℚ → ℚ) (hs : HitStore) :
    List Nat → FloatScanState → FloatScanState
  | [], st => st
  | left :: rest, st => scanOuter_ieee sqrt hs rest (scanInner_ieee sqrt hs left rest st)

/-- The statements that merge `second` into `first`, as `mergePair`, with the division of
IEEE 754 in the recomputation of the centroid. -/
def mergePair_ieee (hs : HitStore) (s : FloatHeap) (first second : Nat) : Res FloatHeap :=
  let h := s.heap
  let h1 := (h second).children_.foldl
    (fun hh child => setParent (addChild hh first child) child first) h
  let h2 := Function.update h1 second { h1 second with children_ := [] }
  let h3 := (h2 second).hits_.foldl (fun hh hit => addHit hh first hit) h2
  let h4 := Function.update h3 second { h3 second with hits_ := [] }
  match break_from_parent h4 second with
  | .error e => .error e
  | .ok h5 => .ok (recomputeHitcentroid_ieee hs ⟨h5, s.nonFinite⟩ first).1

/-- The `while(true)` loop of `merge_leafparent_Mar03`, as `mergeLoop`, with the division
of IEEE 754. -/
def mergeLoop_ieee (sqrt : ℚ → ℚ) (hs : HitStore) (maxr : ℚ) :
    Nat → FloatHeap → List Nat → Bool → Res (FloatHeap × List Nat × Bool)
  | 0, _, _, _ => .error .outOfFuel
  | fuel + 1, s, mergeable, didUpdate =>
    let st := scanOuter_ieee sqrt hs mergeable
      { fheap := s, minr := maxr, pairToMerge := none, didUpdate := didUpdate,
        didUpdateThisIteration := false }
    if !st.didUpdateThisIteration then .ok (st.fheap, mergeable, st.didUpdate)
    else
      match st.pairToMerge with
      | none => .error .undefinedBehaviour
      | some (first, second) =>
        match mergePair_ieee hs st.fheap first second with
        | .error e => .error e
        | .ok s6 =>
          mergeLoop_ieee sqrt hs maxr fuel s6 (mergeable.filter (fun c => c != second))
            st.didUpdate

/-- `merge_leafparent_Mar03(Node* leafparent, float maxr)` with the division of IEEE 754. -/
def merge_leafparent_Mar03_ieee (sqrt : ℚ → ℚ) (hs : HitStore) (s : FloatHeap)
    (leafparent : Nat) (maxr : ℚ) : Res (FloatHeap × Bool) := do
  let h := s.heap
  let children := (h leafparent).children_
  let h1 := Function.update h leafparent { h leafparent with children_ := [] }
  let mergeable0 :=
    if hasParent h1 leafparent && hasHits h1 leafparent then children ++ [leafparent]
    else children
  let (s2, mergeable, didUpdate) ←
    mergeLoop_ieee sqrt hs maxr (mergeable0.length + 1) ⟨h1, s.nonFinite⟩ mergeable0 false
  let h2 := s2.heap
  if !hasParent h2 leafparent then
    .ok (⟨Function.update h2 leafparent { h2 leafparent with children_ := mergeable },
      s2.nonFinite⟩, didUpdate)
  else
    let h3 := inheritPdgid h2 leafparent mergeable
    match (h3 leafparent).parent_ with
    | none => .error .undefinedBehaviour
    | some parent => do
      let h4 ← break_from_parent h3 leafparent
      .ok (⟨mergeable.foldl
        (fun hh child => setParent (addChild hh parent child) child parent) h4,
        s2.nonFinite⟩, true)

/-- The hits of the zero-energy example: two hits of energy `0` at `(0,0,0)` and `(1,0,0)`,
then hits of energy `1` at `(0,0,0)` and `(1,0,0)`. -/
def zeroHits : HitStore := fun i =>
  match i with
  | 0 => ⟨0, 0, 0, 0, 0, 11⟩
  | 1 => ⟨1, 0, 0, 0, 0, 11⟩
  | 2 => ⟨0, 0, 0, 0, 1, 12⟩
  | _ => ⟨1, 0, 0, 0, 1, 13⟩

/-- The node records of the zero-energy example: a root with three leaves of energy `1`;
the leaf `1` holds the two hits of energy `0`, the leaves `2` and `3` one hit of energy `1`
each. -/
def zeroNodes : List Node :=
  [ { Node.mk3 10 8 22 with parent_ := none, children_ := [1, 2, 3] },
    { Node.mk3 11 1 11 with parent_ := some 0, hits_ := [0, 1] },
    { Node.mk3 12 1 11 with parent_ := some 0, hits_ := [2] },
    { Node.mk3 13 1 11 with parent_ := some 0, hits_ := [3] } ]

/-- The heap of the zero-energy example: the tree `0 → [1, 2, 3]`. -/
def zeroHeap : Heap := fun p => zeroNodes.getD p (Node.mk3 0 0 0)

/-- The memory `h` with no cached centroid that is NaN or infinite. -/
def FloatHeap.finite (h : Heap) : FloatHeap := ⟨h, fun _ => false⟩

/-- The scan state `st` with no cached centroid that is NaN or infinite. -/
def ScanState.finite (st : ScanState) : FloatScanState :=
  ⟨FloatHeap.finite st.heap, st.minr, st.pairToMerge, st.didUpdate, st.didUpdateThisIteration⟩

/-! # Theorems -/

/-! ## Centroid lemmas -/

theorem foldl_weighted (w : Hit → ℚ) (hits : List Hit) (c : GlobalPoint) :
    hits.foldl (fun (c : GlobalPoint) hit =>
        (⟨c.x + w hit * hit.x_, c.y + w hit * hit.y_, c.z + w hit * hit.z_⟩ : GlobalPoint)) c
      = ⟨c.x + (hits.map fun hit => w hit * hit.x_).sum,
         c.y + (hits.map fun hit => w hit * hit.y_).sum,
         c.z + (hits.map fun hit => w hit * hit.z_).sum⟩ := by
  induction hits generalizing c with
  | nil => simp
  | cons a l ih => simp [ih, add_assoc]

theorem foldl_energy (hits : List Hit) (s : ℚ) :
    hits.foldl (fun s hit => s + hit.energy_) s = s + (hits.map Hit.energy_).sum := by
  induction hits generalizing s with
  | nil => simp
  | cons a l ih => simp [ih, add_assoc]

/-- C8: one hit gives its position; two or more hits with non-zero total energy give the
energy-weighted mean; the two concrete centroids of the specification. -/
theorem hitcentroid_correct :
    (∀ hit : Hit, hitcentroid [hit] = .ok ⟨hit.x_, hit.y_, hit.z_⟩) ∧
    (∀ hits : List Hit, 2 ≤ hits.length → (hits.map Hit.energy_).sum ≠ 0 →
      hitcentroid hits = .ok
        ⟨(hits.map fun hit => hit.energy_ / (hits.map Hit.energy_).sum * hit.x_).sum,
         (hits.map fun hit => hit.energy_ / (hits.map Hit.energy_).sum * hit.y_).sum,
         (hits.map fun hit => hit.energy_ / (hits.map Hit.energy_).sum * hit.z_).sum⟩) ∧
    (∀ t1 t2 : ℚ, ∀ i1 i2 : Int,
      hitcentroid [⟨0, 0, 0, t1, 1, i1⟩, ⟨10, 0, 0, t2, 1, i2⟩] = .ok ⟨5, 0, 0⟩) ∧
    (∀ t1 t2 : ℚ, ∀ i1 i2 : Int,
      hitcentroid [⟨0, 0, 0, t1, 3, i1⟩, ⟨10, 0, 0, t2, 1, i2⟩] = .ok ⟨5 / 2, 0, 0⟩) := by
  refine ⟨fun hit => rfl, ?_, ?_, ?_⟩
  · intro hits hlen _
    match hits, hlen with
    | a :: b :: l, _ =>
      simp only [hitcentroid, foldl_energy, zero_add]
      rw [foldl_weighted (fun hit => hit.energy_ / ((a :: b :: l).map Hit.energy_).sum)]
      simp
  · intro t1 t2 i1 i2
    simp [hitcentroid]
    norm_num
  · intro t1 t2 i1 i2
    simp [hitcentroid]
    norm_num

/-- The weighted mean of C8 at a concrete list of three hits. -/
theorem hitcentroid_correct_witness :
    hitcentroid [⟨0, 0, 0, 0, 1, 7⟩, ⟨4, 8, 0, 0, 2, 7⟩, ⟨0, 0, 12, 0, 1, 7⟩]
      = .ok ⟨2, 4, 3⟩ := by
  have h := hitcentroid_correct.2.1
    [⟨0, 0, 0, 0, 1, 7⟩, ⟨4, 8, 0, 0, 2, 7⟩, ⟨0, 0, 12, 0, 1, 7⟩] (by decide) (by norm_num)
  rw [h]
  norm_num

/-- C9: the centroid of no hits is not an error: `hitcentroid` of the empty list
returns the origin, and recomputing the centroid of a node without hits stores the
origin and marks the cache as calculated. -/
theorem hitcentroid_empty_returns :
    hitcentroid [] = .ok ⟨0, 0, 0⟩ ∧
    ∀ (hs : HitStore) (h : Heap) (p : Nat) (n : Node),
      recomputeHitcentroid hs (Function.update h p { n with hits_ := [] }) p
        = .ok (Function.update h p
            { n with hits_ := [], hitcentroid_ := ⟨0, 0, 0⟩, hitcentroidCalculated_ := true },
            ⟨0, 0, 0⟩) := by
  refine ⟨rfl, ?_⟩
  intro hs h p n
  simp [recomputeHitcentroid, hitcentroid, bind, Except.bind]

/-- C10: `break_from_parent` never throws; on a node without parent it runs into the
null dereference, on a node with parent it erases the node from the parent's children. -/
theorem break_from_parent_no_exception :
    (∀ (h : Heap) (node : Nat), break_from_parent h node ≠ .error .exception) ∧
    (∀ (h : Heap) (node : Nat) (n : Node),
      break_from_parent (Function.update h node { n with parent_ := none }) node
        = .error .undefinedBehaviour) := by
  constructor
  · intro h node
    unfold break_from_parent
    split <;> simp
  · intro h node n
    simp [break_from_parent]

/-! ## A tree of one node -/

theorem mergingPass_childless (sqrt : ℚ → ℚ) (hs : HitStore) (h : Heap) (root : Nat)
    (hc : (h root).children_ = []) (fuel : Nat) (d : Bool) :
    mergingPass sqrt hs fuel h root d = .error .outOfFuel ∨
    mergingPass sqrt hs fuel h root d = .ok (h, d) := by
  match fuel with
  | 0 => left; simp [mergingPass, rangeFor, bind, Except.bind]
  | 1 =>
    left
    cases hl : isLeafParent h root <;>
      simp [mergingPass, rangeFor, bind, Except.bind, Node.begin, leafparentsBody, Iterator.next,
        hc, Iterator.climb, hl]
  | k + 2 =>
    right
    simp [mergingPass, rangeFor, bind, Except.bind, Node.begin, leafparentsBody, Iterator.next,
      hc, Iterator.climb, isLeafParent, isLeaf, pure, Except.pure]

theorem mergingLoop_childless (sqrt : ℚ → ℚ) (hs : HitStore) (h : Heap) (root : Nat)
    (hc : (h root).children_ = []) (fuel turns : Nat) :
    mergingLoop sqrt hs fuel root turns h true = .error .outOfFuel := by
  induction turns with
  | zero => rfl
  | succ n ih =>
    rcases mergingPass_childless sqrt hs h root hc fuel true with hp | hp
    · simp [mergingLoop, hp]
    · simp [mergingLoop, hp, ih]

/-- C1: on a tree that is a single node, `merging_algo_Mar03` does not terminate: no
amount of fuel lets the `while(didUpdate)` loop end, because a turn with no leaf parent
leaves `didUpdate` at `true`; with fuel for the traversal, a turn returns the heap
unchanged and the flag still `true`. -/
theorem merging_algo_single_node_diverges (sqrt : ℚ → ℚ) (hs : HitStore) (h : Heap)
    (root : Nat) (n : Node) :
    (∀ fuel, merging_algo_Mar03 sqrt hs fuel
        (Function.update h root { n with parent_ := none, children_ := [] }) root
      = .error .outOfFuel) ∧
    (∀ fuel, mergingPass sqrt hs (fuel + 2)
        (Function.update h root { n with parent_ := none, children_ := [] }) root true
      = .ok (Function.update h root { n with parent_ := none, children_ := [] }, true)) := by
  constructor
  · intro fuel
    exact mergingLoop_childless sqrt hs _ root (by simp) fuel fuel
  · intro fuel
    simp [mergingPass, rangeFor, bind, Except.bind, Node.begin, leafparentsBody, Iterator.next,
      Iterator.climb, isLeafParent, isLeaf, pure, Except.pure]

/-! ## The result monad -/

theorem bind_ok {α β : Type} (a : α) (f : α → Res β) : (Except.ok a : Res α) >>= f = f a := rfl

theorem bind_error {α β : Type} (e : Fault) (f : α → Res β) :
    (Except.error e : Res α) >>= f = .error e := rfl

/-! ## Forests -/

theorem Forest.roots_append (F G : Forest) : (F.append G).roots = F.roots ++ G.roots := by
  induction F with
  | nil => rfl
  | cons p kids rest _ ih => simp [Forest.append, Forest.roots, ih]

theorem Forest.nodes_append (F G : Forest) : (F.append G).nodes = F.nodes ++ G.nodes := by
  induction F with
  | nil => rfl
  | cons p kids rest _ ih => simp [Forest.append, Forest.nodes, ih]

theorem Forest.roots_subset_nodes (F : Forest) : ∀ q ∈ F.roots, q ∈ F.nodes := by
  induction F with
  | nil => simp [Forest.roots]
  | cons p kids rest _ ih =>
    intro q hq
    simp only [Forest.roots, List.mem_cons] at hq
    simp only [Forest.nodes, List.mem_cons, List.mem_append]
    rcases hq with hq | hq
    · exact Or.inl hq
    · exact Or.inr (Or.inr (ih q hq))

theorem Forest.roots_sublist_nodes (F : Forest) : F.roots.Sublist F.nodes := by
  induction F with
  | nil => simp [Forest.roots, Forest.nodes]
  | cons p kids rest _ ih =>
    simp only [Forest.roots, Forest.nodes]
    exact List.Sublist.cons₂ p (ih.trans (List.sublist_append_right _ _))

theorem Forest.walk_map_fst (F : Forest) (d : Int) : (F.walk d).map Prod.fst = F.nodes := by
  induction F generalizing d with
  | nil => rfl
  | cons p kids rest ihk ihr => simp [Forest.walk, Forest.nodes, ihk, ihr]

theorem Rep_append (h : Heap) (P : Nat) (F G : Forest) :
    Rep h P (F.append G) ↔ Rep h P F ∧ Rep h P G := by
  induction F with
  | nil => simp [Forest.append, Rep]
  | cons p kids rest _ ih => simp [Forest.append, Rep, ih, and_assoc]

/-- `Rep` reads only the `parent_` and `children_` of the nodes of the forest. -/
theorem Rep_congr (h h' : Heap) (F : Forest) :
    ∀ P, (∀ q ∈ F.nodes, (h' q).parent_ = (h q).parent_ ∧ (h' q).children_ = (h q).children_) →
      Rep h P F → Rep h' P F := by
  induction F with
  | nil => intro P _ _; trivial
  | cons p kids rest ihk ihr =>
    intro P hq hr
    obtain ⟨h1, h2, h3, h4⟩ := hr
    have hp := hq p (by simp [Forest.nodes])
    refine ⟨by rw [hp.1, h1], by rw [hp.2, h2], ihk p ?_ h3, ihr P ?_ h4⟩
    · intro q hqk; exact hq q (by simp [Forest.nodes, hqk])
    · intro q hqr; exact hq q (by simp [Forest.nodes, hqr])

/-! ## The `while(true)` loop of `operator++` -/

/-- At a child `p` of `P` that is followed by the roots of `rest`, the loop of
`operator++` goes to the first root of `rest`, or pops `P` when `rest` is empty. -/
theorem climb_at (h : Heap) (r : Option Nat) (P : Nat) (S : List Nat) (d : Int)
    (p : Nat) (pre : List Nat) (rest : Forest)
    (hpar : (h p).parent_ = some P)
    (hch : (h P).children_ = pre ++ p :: rest.roots)
    (hnd : (pre ++ p :: rest.roots).Nodup)
    (hr : some p ≠ r) :
    Iterator.climb h r (P :: S) p d = enter h r P S d rest := by
  have hpre : p ∉ pre := by
    intro hp
    have := List.nodup_append.1 hnd
    exact this.2.2 hp (List.mem_cons_self _ _)
  cases rest with
  | nil =>
    rw [Iterator.climb]
    simp [hr, hasNextSibling, hpar, hch, Forest.roots, enter]
  | cons q qk qr =>
    have hlast : ∀ l, (pre ++ p :: q :: qr.roots).getLast? = some l → l ≠ p := by
      intro l hl hlp
      rw [show pre ++ p :: q :: qr.roots = (pre ++ [p]) ++ (q :: qr.roots) by simp] at hl
      rw [List.getLast?_append_of_ne_nil _ (by simp)] at hl
      have hmem : p ∈ q :: qr.roots := hlp ▸ List.mem_of_getLast?_eq_some hl
      have h2 : (p :: q :: qr.roots).Nodup := (List.nodup_append.1 hnd).2.1
      exact (List.nodup_cons.1 h2).1 hmem
    have hdrop : (pre ++ p :: q :: qr.roots).dropWhile (fun c => c != p) = p :: q :: qr.roots := by
      rw [List.dropWhile_append_of_pos]
      · simp [List.dropWhile]
      · intro x hx
        simp only [bne_iff_ne, ne_eq]
        rintro rfl
        exact hpre hx
    rw [Iterator.climb]
    simp only [Forest.roots] at hch hnd
    cases hl : (pre ++ p :: q :: qr.roots).getLast? with
    | none => simp at hl
    | some l =>
      have hne : (l != p) = true := by simpa using hlast l hl
      simp [hr, hasNextSibling, nextSibling, hpar, hch, hl, hne, hdrop, enter, bind, Except.bind]

/-! ## Traversal contexts -/

theorem Ctx.kids {h : Heap} {r : Option Nat} {P : Nat} {S pre : List Nat} {p : Nat}
    {kids rest : Forest} (c : Ctx h r P S pre (.cons p kids rest)) :
    Ctx h r p (P :: S) [] kids := by
  obtain ⟨hrep, hch, hnd, hnr, hanc⟩ := c
  obtain ⟨h1, h2, h3, _⟩ := hrep
  simp only [Forest.nodes] at hnd hnr hanc
  have hnd' := List.nodup_cons.1 hnd
  have hnd2 : (p :: (kids.nodes ++ rest.nodes)).Nodup := (List.nodup_append.1 hnd'.2).2.1
  refine ⟨h3, by simpa using h2, ?_, ?_, ?_⟩
  · simp only [List.nil_append]
    have := List.nodup_cons.1 hnd2
    exact List.nodup_cons.2 ⟨fun hm => this.1 (List.mem_append_left _ hm),
      (List.nodup_append.1 this.2).1⟩
  · intro q hq; exact hnr q (by simp [hq])
  · intro m hm g hg
    rcases List.mem_cons.1 hm with rfl | hm
    · rw [h1] at hg
      cases hg
      intro hmem
      apply hnd'.1
      rcases List.mem_cons.1 hmem with rfl | hk
      · simp
      · simp [hk]
    · have := hanc m hm g hg
      intro hmem
      apply this
      rcases List.mem_cons.1 hmem with rfl | hk
      · simp
      · simp [hk]

theorem Ctx.rest {h : Heap} {r : Option Nat} {P : Nat} {S pre : List Nat} {p : Nat}
    {kids rest : Forest} (c : Ctx h r P S pre (.cons p kids rest)) :
    Ctx h r P S (pre ++ [p]) rest := by
  obtain ⟨hrep, hch, hnd, hnr, hanc⟩ := c
  obtain ⟨_, _, _, h4⟩ := hrep
  simp only [Forest.nodes, Forest.roots] at hnd hnr hanc hch
  refine ⟨h4, by simpa using hch, ?_, ?_, ?_⟩
  · have hsub : (P :: (pre ++ [p] ++ rest.nodes)).Sublist
        (P :: (pre ++ p :: (kids.nodes ++ rest.nodes))) := by
      refine List.Sublist.cons₂ _ ?_
      rw [List.append_assoc]
      refine List.Sublist.append (List.Sublist.refl _) ?_
      simp only [List.singleton_append]
      exact List.Sublist.cons₂ _ (List.sublist_append_right _ _)
    exact hnd.sublist hsub
  · intro q hq; exact hnr q (by simp [hq])
  · intro m hm g hg
    have := hanc m hm g hg
    intro hmem
    apply this
    rcases List.mem_cons.1 hmem with rfl | hk
    · simp
    · simp [hk]

theorem Ctx.head_parent {h : Heap} {r : Option Nat} {P : Nat} {S pre : List Nat} {p : Nat}
    {kids rest : Forest} (c : Ctx h r P S pre (.cons p kids rest)) :
    (h p).parent_ = some P := c.rep.1

theorem Ctx.head_children {h : Heap} {r : Option Nat} {P : Nat} {S pre : List Nat} {p : Nat}
    {kids rest : Forest} (c : Ctx h r P S pre (.cons p kids rest)) :
    (h p).children_ = kids.roots := c.rep.2.1

theorem Ctx.nodup_children {h : Heap} {r : Option Nat} {P : Nat} {S pre : List Nat}
    {F : Forest} (c : Ctx h r P S pre F) : (pre ++ F.roots).Nodup := by
  have h1 := (List.nodup_cons.1 c.nodup).2
  exact h1.sublist (List.Sublist.append (List.Sublist.refl _) F.roots_sublist_nodes)

/-- `operator++` at a node whose children are the roots of `kids`. -/
theorem next_at (h : Heap) (r : Option Nat) (p : Nat) (T : List Nat) (d : Int)
    (kids : Forest) (hch : (h p).children_ = kids.roots) :
    Iterator.next h ⟨some p, r, d, T⟩ = enter h r p T (d + 1) kids := by
  cases kids with
  | nil => simp [Iterator.next, hch, Forest.roots, enter]
  | cons c ck cr => simp [Iterator.next, hch, Forest.roots, enter]

/-- `operator++` entered at the head of a forest whose first tree has been traversed. -/
theorem climb_head {h : Heap} {r : Option Nat} {P : Nat} {S pre : List Nat} {p : Nat}
    {kids rest : Forest} (c : Ctx h r P S pre (.cons p kids rest)) (d : Int) :
    Iterator.climb h r (P :: S) p d = enter h r P S d rest := by
  refine climb_at h r P S d p pre rest c.head_parent ?_ ?_ (c.notRoot p (by simp [Forest.nodes]))
  · simpa [Forest.roots] using c.children
  · simpa [Forest.roots] using c.nodup_children

/-! ## Read-only traversal -/

/-- A `rangeFor` that reaches the forest `F` runs the body over the nodes of `F` in
pre-order and then continues from where `operator++` leads after `F`. -/
theorem rangeFor_forest {α : Type} (h : Heap) (body : α → Nat → Int → Res α)
    (r : Option Nat) (F : Forest) :
    ∀ (P : Nat) (S : List Nat) (d : Int) (pre : List Nat) (acc : α) (k : Nat),
      Ctx h r P S pre F →
      (enter h r P S d F >>= fun it => rangeFor h body (F.nodes.length + k) it acc)
        = ((F.walk d).foldlM (fun a (x : Nat × Int) => body a x.1 x.2) acc >>= fun acc1 =>
            Iterator.climb h r S P (d - 1) >>= fun it1 => rangeFor h body k it1 acc1) := by
  induction F with
  | nil =>
    intro P S d pre acc k _
    simp [enter, Forest.nodes, Forest.walk, bind_ok, pure, Except.pure]
  | cons p kids rest ihk ihr =>
    intro P S d pre acc k c
    have hlen : (Forest.cons p kids rest).nodes.length + k
        = (kids.nodes.length + (rest.nodes.length + k)) + 1 := by
      simp [Forest.nodes]; omega
    rw [hlen]
    simp only [enter, bind_ok, rangeFor, Forest.walk, List.foldlM_cons, List.foldlM_append,
      bind_assoc]
    congr 1
    funext acc1
    rw [next_at h r p (P :: S) d kids c.head_children]
    rw [ihk p (P :: S) (d + 1) [] acc1 (rest.nodes.length + k) c.kids]
    congr 1
    funext acc2
    rw [show d + 1 - 1 = d by ring, climb_head c d]
    exact ihr P S d (pre ++ [p]) acc2 k c.rest

/-! ## Frames -/

theorem ChildrenOnly.refl (X : List Nat) (h : Heap) : ChildrenOnly X h h :=
  fun _ => ⟨rfl, fun _ => rfl⟩

theorem ChildrenOnly.parent {X : List Nat} {h h' : Heap} (c : ChildrenOnly X h h') (q : Nat) :
    (h' q).parent_ = (h q).parent_ := by
  rw [(c q).1]

theorem ChildrenOnly.trackid {X : List Nat} {h h' : Heap} (c : ChildrenOnly X h h') (q : Nat) :
    (h' q).trackid_ = (h q).trackid_ := by
  rw [(c q).1]

theorem ChildrenOnly.hits {X : List Nat} {h h' : Heap} (c : ChildrenOnly X h h') (q : Nat) :
    (h' q).hits_ = (h q).hits_ := by
  rw [(c q).1]

theorem ChildrenOnly.trans {X Y Z : List Nat} {h h1 h2 : Heap}
    (c1 : ChildrenOnly X h h1) (c2 : ChildrenOnly Y h1 h2)
    (hX : ∀ q ∈ X, q ∈ Z) (hY : ∀ q ∈ Y, q ∈ Z) : ChildrenOnly Z h h2 := by
  intro q
  constructor
  · rw [(c2 q).1, (c1 q).1]
  · intro hq
    rw [(c2 q).2 (fun hm => hq (hY q hm)), (c1 q).2 (fun hm => hq (hX q hm))]

theorem ChildrenOnly.mono {X Y : List Nat} {h h' : Heap} (c : ChildrenOnly X h h')
    (hXY : ∀ q ∈ X, q ∈ Y) : ChildrenOnly Y h h' :=
  fun q => ⟨(c q).1, fun hq => (c q).2 (fun hm => hq (hXY q hm))⟩

theorem ChildrenOnly.update (h : Heap) (p : Nat) (l : List Nat) :
    ChildrenOnly [p] h (Function.update h p { h p with children_ := l }) := by
  intro q
  by_cases hq : q = p
  · subst hq; simp
  · simp [Function.update_noteq hq, hq]

/-- The loop of `operator++` reads the `parent_` of the nodes it passes and the
`children_` of their parents only. -/
theorem climb_congr (h h' : Heap) (r : Option Nat) (hp : ∀ q, (h' q).parent_ = (h q).parent_) :
    ∀ (S : List Nat) (P : Nat) (d : Int),
      (∀ m ∈ P :: S, ∀ g, (h m).parent_ = some g → (h' g).children_ = (h g).children_) →
      Iterator.climb h' r S P d = Iterator.climb h r S P d := by
  intro S
  induction S with
  | nil =>
    intro P d hc
    rw [Iterator.climb, Iterator.climb]
    have hs : hasNextSibling h' P = hasNextSibling h P := by
      unfold hasNextSibling
      rw [hp P]
      cases hg : (h P).parent_ with
      | none => rfl
      | some g => simp only; rw [hc P (by simp) g hg]
    have hn : nextSibling h' P = nextSibling h P := by
      unfold nextSibling
      rw [hs, hp P]
      cases hg : (h P).parent_ with
      | none => rfl
      | some g => simp only; rw [hc P (by simp) g hg]
    rw [hs, hn]
  | cons top rest ih =>
    intro P d hc
    rw [Iterator.climb, Iterator.climb]
    have hs : hasNextSibling h' P = hasNextSibling h P := by
      unfold hasNextSibling
      rw [hp P]
      cases hg : (h P).parent_ with
      | none => rfl
      | some g => simp only; rw [hc P (by simp) g hg]
    have hn : nextSibling h' P = nextSibling h P := by
      unfold nextSibling
      rw [hs, hp P]
      cases hg : (h P).parent_ with
      | none => rfl
      | some g => simp only; rw [hc P (by simp) g hg]
    rw [hs, hn, ih top (d - 1) (fun m hm g hg => hc m (List.mem_cons_of_mem _ hm) g hg)]

theorem Ctx.climb_eq {h h' : Heap} {r : Option Nat} {P : Nat} {S pre : List Nat}
    {F : Forest} (c : Ctx h r P S pre F) (co : ChildrenOnly (P :: F.nodes) h h') (d : Int) :
    Iterator.climb h' r S P d = Iterator.climb h r S P d := by
  refine SimMerging.climb_congr h h' r co.parent S P d ?_
  intro m hm g hg
  rw [(co g).2 (c.anc m hm g hg)]

theorem Ctx.enter_congr {h h' : Heap} {r : Option Nat} {P : Nat} {S pre : List Nat}
    {F : Forest} (c : Ctx h r P S pre F) (co : ChildrenOnly (P :: F.nodes) h h') (d : Int)
    (G : Forest) : enter h' r P S d G = enter h r P S d G := by
  cases G with
  | nil => exact c.climb_eq co (d - 1)
  | cons q qk qr => rfl

/-- A context is kept by a change of the heap that leaves the `parent_` fields and the
`children_` of its own nodes alone. -/
theorem Ctx.congr {h h' : Heap} {r : Option Nat} {P : Nat} {S pre : List Nat} {F : Forest}
    (c : Ctx h r P S pre F) (hp : ∀ q, (h' q).parent_ = (h q).parent_)
    (hc : ∀ q ∈ P :: F.nodes, (h' q).children_ = (h q).children_) :
    Ctx h' r P S pre F := by
  refine ⟨Rep_congr h h' F P (fun q hq => ⟨hp q, hc q (List.mem_cons_of_mem _ hq)⟩) c.rep, ?_,
    c.nodup, c.notRoot, ?_⟩
  · rw [hc P (List.mem_cons_self _ _), c.children]
  · intro m hm g hg
    rw [hp m] at hg
    exact c.anc m hm g hg

theorem Forest.pruneBy_nodes_subset (K : Nat → Bool) (F : Forest) :
    ∀ q ∈ (F.pruneBy K).nodes, q ∈ F.nodes := by
  induction F with
  | nil => simp [Forest.pruneBy, Forest.nodes]
  | cons p kids rest ihk ihr =>
    intro q hq
    simp only [Forest.pruneBy] at hq
    by_cases hK : K p = true
    · simp only [hK, if_true, Forest.nodes, List.mem_cons, List.mem_append] at hq
      simp only [Forest.nodes, List.mem_cons, List.mem_append]
      rcases hq with hq | hq | hq
      · exact Or.inl hq
      · exact Or.inr (Or.inl (ihk q hq))
      · exact Or.inr (Or.inr (ihr q hq))
    · simp only [hK, Forest.nodes, List.mem_cons, List.mem_append] at hq ⊢
      exact Or.inr (Or.inr (ihr q hq))

theorem filter_ne_middle (pre post : List Nat) (p : Nat) (hnd : (pre ++ p :: post).Nodup) :
    (pre ++ p :: post).filter (fun c => c != p) = pre ++ post := by
  have h1 := List.nodup_append.1 hnd
  have hpre : p ∉ pre := fun hp => h1.2.2 hp (List.mem_cons_self _ _)
  have hpost : p ∉ post := (List.nodup_cons.1 h1.2.1).1
  rw [List.filter_append, List.filter_cons]
  simp only [bne_self_eq_false, Bool.false_eq_true, if_false]
  rw [List.filter_eq_self.2, List.filter_eq_self.2]
  · intro a ha; simp only [bne_iff_ne, ne_eq]; rintro rfl; exact hpost ha
  · intro a ha; simp only [bne_iff_ne, ne_eq]; rintro rfl; exact hpre ha

/-! ## The removing loop of `trim_tree` -/

theorem trimLoop_step_drop (keep : List Int) (fuel : Nat) (h : Heap) (it : Iterator) (p : Nat)
    (hm : it.m_ptr = some p) (hk : keep.contains (h p).trackid_ = false) :
    trimLoop keep (fuel + 1) h it =
      (it.next (Function.update h p { h p with children_ := [] }) >>= fun it1 =>
        break_from_parent (Function.update h p { h p with children_ := [] }) p >>= fun h2 =>
          trimLoop keep fuel h2 it1) := by
  rw [trimLoop]
  simp only [hm, hk, Bool.not_false, if_true]

theorem trimLoop_step_keep (keep : List Int) (fuel : Nat) (h : Heap) (it : Iterator) (p : Nat)
    (hm : it.m_ptr = some p) (hk : keep.contains (h p).trackid_ = true) :
    trimLoop keep (fuel + 1) h it = (it.next h >>= fun it1 => trimLoop keep fuel h it1) := by
  rw [trimLoop]
  simp only [hm, hk, Bool.not_true, Bool.false_eq_true, if_false]

/-- The removing loop of `trim_tree`, on reaching the forest `F`, leaves exactly the
trees of `F.pruneBy K` below `P`, writes `children_` fields of `P` and of nodes of `F`
only, and goes on from where `operator++` leads after `F`. -/
theorem trimLoop_forest (keep : List Int) (K : Nat → Bool) (r : Option Nat) (F : Forest) :
    ∀ (h : Heap) (P : Nat) (S : List Nat) (d : Int) (pre : List Nat),
      Ctx h r P S pre F →
      (∀ q ∈ F.nodes, keep.contains (h q).trackid_ = K q) →
      ∃ h' : Heap, ChildrenOnly (P :: F.nodes) h h' ∧
        (h' P).children_ = pre ++ (F.pruneBy K).roots ∧
        Rep h' P (F.pruneBy K) ∧
        ∀ k, (enter h r P S d F >>= fun it => trimLoop keep (F.visitedBy K + k) h it)
          = (Iterator.climb h r S P (d - 1) >>= fun it1 => trimLoop keep k h' it1) := by
  induction F with
  | nil =>
    intro h P S d pre c _
    refine ⟨h, ChildrenOnly.refl _ h, ?_, trivial, ?_⟩
    · simpa [Forest.pruneBy] using c.children
    · intro k; simp [enter, Forest.visitedBy]
  | cons p kids rest ihk ihr =>
    intro h P S d pre c hK
    have hnd := c.nodup
    simp only [Forest.nodes] at hnd
    have hPp : P ≠ p := by
      intro hh; exact (List.nodup_cons.1 hnd).1 (by simp [hh])
    have hKp := hK p (by simp [Forest.nodes])
    have hndc := c.nodup_children
    simp only [Forest.roots] at hndc
    cases hKv : K p with
    | false =>
      -- the node is not in the set: clear its children, advance, break from parent
      let h1 : Heap := Function.update h p { h p with children_ := [] }
      have co1 : ChildrenOnly [p] h h1 := ChildrenOnly.update h p []
      have hP1 : h1 P = h P := Function.update_noteq hPp _ _
      have hch1 : (h1 P).children_ = pre ++ p :: rest.roots := by
        rw [hP1]; simpa [Forest.roots] using c.children
      have hpar1 : (h1 p).parent_ = some P := by rw [co1.parent]; exact c.head_parent
      let h2 : Heap := Function.update h1 P { h1 P with children_ := pre ++ rest.roots }
      have co2 : ChildrenOnly [P] h1 h2 := ChildrenOnly.update h1 P _
      have hbreak : break_from_parent h1 p = .ok h2 := by
        simp only [break_from_parent, hpar1, hch1, filter_ne_middle pre rest.roots p hndc]
      have co12 : ChildrenOnly (P :: (Forest.cons p kids rest).nodes) h h2 :=
        co1.trans co2 (by intro q hq; simp at hq; simp [Forest.nodes, hq])
          (by intro q hq; simp at hq; simp [hq])
      have c2 : Ctx h2 r P S pre rest := by
        have cr := c.rest
        refine ⟨?_, by simp [h2], ?_, cr.notRoot, ?_⟩
        · refine Rep_congr h h2 rest P ?_ cr.rep
          intro q hq
          have hq' : q ∉ P :: (Forest.cons p kids rest).nodes → h2 q = h q := (co12 q).2
          have hqP : q ≠ P := by
            rintro rfl; exact (List.nodup_cons.1 hnd).1 (by simp [hq])
          have hqp : q ≠ p := by
            rintro rfl
            have := (List.nodup_append.1 (List.nodup_cons.1 hnd).2).2.1
            exact (List.nodup_cons.1 this).1 (by simp [hq])
          have e2 : h2 q = h1 q := Function.update_noteq hqP _ _
          have e1 : h1 q = h q := Function.update_noteq hqp _ _
          rw [e2, e1]; exact ⟨rfl, rfl⟩
        · refine hnd.sublist (List.Sublist.cons₂ _ (List.Sublist.append (List.Sublist.refl _) ?_))
          exact (List.sublist_append_right _ _).trans (List.sublist_cons_self _ _)
        · intro m hm g hg
          rw [co12.parent] at hg
          exact fun hmem => c.anc m hm g hg (by
            rcases List.mem_cons.1 hmem with rfl | hk
            · simp
            · simp [Forest.nodes, hk])
      obtain ⟨h', co', hch', hrep', hloop⟩ := ihr h2 P S d pre c2
        (fun q hq => by rw [co12.trackid]; exact hK q (by simp [Forest.nodes, hq]))
      refine ⟨h', co12.trans co' (fun q hq => hq) (by
          intro q hq
          rcases List.mem_cons.1 hq with rfl | hk
          · simp
          · simp [Forest.nodes, hk]), ?_, ?_, ?_⟩
      · simpa [Forest.pruneBy, hKv] using hch'
      · simpa [Forest.pruneBy, hKv] using hrep'
      · intro k
        have hfuel : (Forest.cons p kids rest).visitedBy K + k = (rest.visitedBy K + k) + 1 := by
          simp [Forest.visitedBy, hKv]; omega
        rw [hfuel]
        simp only [enter, bind_ok]
        rw [trimLoop_step_drop keep _ h _ p rfl (by rw [hKp, hKv])]
        have hnext : Iterator.next h1 ⟨some p, r, d, P :: S⟩ = enter h2 r P S d rest := by
          rw [next_at h1 r p (P :: S) d .nil (by simp [h1, Forest.roots])]
          simp only [enter]
          rw [show d + 1 - 1 = d by ring]
          rw [climb_at h1 r P S d p pre rest hpar1 hch1 hndc (c.notRoot p (by simp [Forest.nodes]))]
          have c1 : Ctx h1 r P S (pre ++ [p]) rest :=
            c.rest.congr co1.parent (by
              intro q hq
              have hqp : q ≠ p := by
                rintro rfl
                rcases List.mem_cons.1 hq with hh | hh
                · exact hPp hh.symm
                · have := (List.nodup_append.1 (List.nodup_cons.1 hnd).2).2.1
                  exact (List.nodup_cons.1 this).1 (by simp [hh])
              show (h1 q).children_ = (h q).children_
              rw [show h1 q = h q from Function.update_noteq hqp _ _])
          have co2' : ChildrenOnly (P :: rest.nodes) h1 h2 :=
            co2.mono (by intro q hq; simp at hq; simp [hq])
          exact (c1.enter_congr co2' d rest).symm
        show (Iterator.next h1 ⟨some p, r, d, P :: S⟩ >>= fun it1 =>
          break_from_parent h1 p >>= fun h2 => trimLoop keep (rest.visitedBy K + k) h2 it1) = _
        rw [hnext, hbreak]
        simp only [bind_ok]
        rw [hloop k]
        rw [c.climb_eq co12 (d - 1)]
    | true =>
      -- the node is in the set: advance into its children
      have ck := c.kids
      obtain ⟨h1, co1, hch1, hrep1, hloop1⟩ := ihk h p (P :: S) (d + 1) [] ck
        (fun q hq => hK q (by simp [Forest.nodes, hq]))
      have hdisj : ∀ q ∈ P :: rest.nodes, q ∉ p :: kids.nodes := by
        intro q hq hq'
        rcases List.mem_cons.1 hq with rfl | hq
        · exact (List.nodup_cons.1 hnd).1 (by
            rcases List.mem_cons.1 hq' with rfl | hk
            · simp
            · simp [hk])
        · have h3 := (List.nodup_append.1 (List.nodup_cons.1 hnd).2).2.1
          rcases List.mem_cons.1 hq' with rfl | hk
          · exact (List.nodup_cons.1 h3).1 (by simp [hq])
          · exact (List.nodup_append.1 (List.nodup_cons.1 h3).2).2.2 hk hq
      have c1 : Ctx h1 r P S (pre ++ [p]) rest :=
        c.rest.congr co1.parent (fun q hq => by rw [(co1 q).2 (hdisj q hq)])
      obtain ⟨h2, co2, hch2, hrep2, hloop2⟩ := ihr h1 P S d (pre ++ [p]) c1
        (fun q hq => by rw [co1.trackid]; exact hK q (by simp [Forest.nodes, hq]))
      have co12 : ChildrenOnly (P :: (Forest.cons p kids rest).nodes) h h2 :=
        co1.trans co2
          (by
            intro q hq
            rcases List.mem_cons.1 hq with rfl | hk
            · simp [Forest.nodes]
            · simp [Forest.nodes, hk])
          (by
            intro q hq
            rcases List.mem_cons.1 hq with rfl | hk
            · simp
            · simp [Forest.nodes, hk])
      have hp2 : h2 p = h1 p :=
        (co2 p).2 (fun hm => hdisj p hm (List.mem_cons_self _ _))
      refine ⟨h2, co12, ?_, ?_, ?_⟩
      · simpa [Forest.pruneBy, hKv, Forest.roots] using hch2
      · simp only [Forest.pruneBy, hKv, if_true, Rep]
        refine ⟨by rw [co12.parent]; exact c.head_parent, ?_, ?_, hrep2⟩
        · rw [hp2]; simpa using hch1
        · refine Rep_congr h1 h2 _ p ?_ hrep1
          intro q hq
          have hqk := Forest.pruneBy_nodes_subset K kids q hq
          rw [(co2 q).2 (fun hm => hdisj q hm (List.mem_cons_of_mem _ hqk))]
          exact ⟨rfl, rfl⟩
      · intro k
        have hfuel : (Forest.cons p kids rest).visitedBy K + k
            = (kids.visitedBy K + (rest.visitedBy K + k)) + 1 := by
          simp [Forest.visitedBy, hKv]; omega
        rw [hfuel]
        simp only [enter, bind_ok]
        rw [trimLoop_step_keep keep _ h _ p rfl (by rw [hKp, hKv])]
        rw [next_at h r p (P :: S) d kids c.head_children]
        rw [hloop1 (rest.visitedBy K + k)]
        rw [show d + 1 - 1 = d by ring, climb_head c d]
        have co1' : ChildrenOnly (P :: (Forest.cons p kids rest).nodes) h h1 :=
          co1.mono (by
            intro q hq
            rcases List.mem_cons.1 hq with rfl | hk
            · simp [Forest.nodes]
            · simp [Forest.nodes, hk])
        rw [← c.enter_congr co1' d rest]
        rw [hloop2 k]
        rw [c.climb_eq co1' (d - 1)]

/-! ## Read-only traversal of a whole tree -/

theorem IsTree.ctx {h : Heap} {root : Nat} {F : Forest} (t : IsTree h root F) :
    Ctx h (some root) root [] [] F := by
  refine ⟨t.rep, by simpa using t.root_children, by simpa using t.nodup, ?_, ?_⟩
  · intro q hq hqr
    cases hqr
    exact (List.nodup_cons.1 t.nodup).1 hq
  · intro m hm g hg
    simp only [List.mem_singleton] at hm
    subst hm
    rw [t.root_parent] at hg
    cases hg

theorem climb_root (h : Heap) (root : Nat) (S : List Nat) (d : Int) :
    Iterator.climb h (some root) S root d = .ok ⟨none, some root, d, S⟩ := by
  cases S <;> (rw [Iterator.climb]; simp)

theorem rangeFor_some {α : Type} (h : Heap) (body : α → Nat → Int → Res α) (fuel : Nat)
    (it : Iterator) (acc : α) (p : Nat) (hm : it.m_ptr = some p) :
    rangeFor h body (fuel + 1) it acc
      = (body acc p it.depth_ >>= fun acc1 => it.next h >>= fun it1 =>
          rangeFor h body fuel it1 acc1) := by
  rw [rangeFor]
  simp only [hm]

theorem rangeFor_none {α : Type} (h : Heap) (body : α → Nat → Int → Res α) (fuel : Nat)
    (it : Iterator) (acc : α) (hm : it.m_ptr = none) :
    rangeFor h body (fuel + 1) it acc = .ok acc := by
  rw [rangeFor]
  simp only [hm]

/-- A range-for over a well-formed tree runs the body over the root and then over the
nodes of the forest below it, in pre-order. -/
theorem rangeFor_tree {α : Type} {h : Heap} {root : Nat} {F : Forest} (t : IsTree h root F)
    (body : α → Nat → Int → Res α) (acc : α) (k : Nat) :
    rangeFor h body (F.nodes.length + 2 + k) (Node.begin root) acc
      = (((root, 0) :: F.walk 1).foldlM (fun a (x : Nat × Int) => body a x.1 x.2) acc) := by
  rw [show F.nodes.length + 2 + k = (F.nodes.length + (k + 1)) + 1 by omega]
  rw [rangeFor_some h body _ (Node.begin root) acc root rfl]
  simp only [Node.begin, List.foldlM_cons]
  congr 1
  funext acc1
  rw [next_at h (some root) root [] 0 F t.root_children]
  have := rangeFor_forest h body (some root) F root [] (0 + 1) [] acc1 (k + 1) t.ctx
  rw [this]
  simp only [zero_add, sub_self, climb_root, bind_ok]
  cases (List.foldlM (fun a (x : Nat × Int) => body a x.1 x.2) acc1 (Forest.walk 1 F)) with
  | error e => rfl
  | ok a => rw [bind_ok, rangeFor_none h body k _ a rfl]

/-! ## The set of track ids to keep -/

theorem insertAncestors_chain (h : Heap) (S : List Nat) :
    ∀ (m : Nat) (set : List Int) (fuel : Nat), Chain h m S → S.length + 2 ≤ fuel →
      ∃ set', insertAncestors h fuel (some m) set = .ok set' ∧
        ∀ t, t ∈ set' ↔ t ∈ set ∨ t ∈ (m :: S).map (fun q => (h q).trackid_) := by
  induction S with
  | nil =>
    intro m set fuel hc hf
    obtain ⟨f, rfl⟩ : ∃ f, fuel = f + 2 := ⟨fuel - 2, by simp at hf; omega⟩
    simp only [Chain] at hc
    refine ⟨List.insert (h m).trackid_ set, ?_, ?_⟩
    · simp [insertAncestors, IteratorUp.next, hasParent, hc]
    · intro t; simp [List.mem_insert_iff]; tauto
  | cons g S ih =>
    intro m set fuel hc hf
    obtain ⟨f, rfl⟩ : ∃ f, fuel = f + 1 := ⟨fuel - 1, by simp at hf; omega⟩
    obtain ⟨hc1, hc2⟩ := hc
    obtain ⟨set', h1, h2⟩ := ih g (List.insert (h m).trackid_ set) f hc2 (by simp at hf ⊢; omega)
    refine ⟨set', ?_, ?_⟩
    · simp [insertAncestors, IteratorUp.next, hasParent, hc1, h1]
    · intro t; rw [h2]; simp [List.mem_insert_iff]; tauto

theorem keepFold_forest (h : Heap) (fuel : Nat) (F : Forest) :
    ∀ (P : Nat) (S : List Nat) (d : Int) (set : List Int),
      Rep h P F → Chain h P S → F.height + S.length + 2 ≤ fuel →
      ∃ set', (F.walk d).foldlM (fun a (x : Nat × Int) => keepBody h fuel a x.1 x.2) set
          = .ok set' ∧
        ∀ t, t ∈ set' ↔ (t ∈ set ∨
          (F.anyHit (hasHits h) = true ∧ t ∈ (P :: S).map (fun q => (h q).trackid_)) ∨
          t ∈ (F.kept (hasHits h)).map (fun q => (h q).trackid_)) := by
  induction F with
  | nil =>
    intro P S d set _ _ _
    exact ⟨set, rfl, by intro t; simp [Forest.anyHit, Forest.kept]⟩
  | cons p kids rest ihk ihr =>
    intro P S d set hrep hc hf
    obtain ⟨h1, h2, h3, h4⟩ := hrep
    simp only [Forest.height] at hf
    have hcp : Chain h p (P :: S) := ⟨h1, hc⟩
    -- the body at `p`
    have hbody : ∃ set1, keepBody h fuel set p d = .ok set1 ∧
        ∀ t, t ∈ set1 ↔ t ∈ set ∨
          (hasHits h p = true ∧ t ∈ (p :: P :: S).map (fun q => (h q).trackid_)) := by
      unfold keepBody
      cases hh : hasHits h p with
      | false => exact ⟨set, by simp, by intro t; simp⟩
      | true =>
        obtain ⟨s1, e1, e2⟩ := insertAncestors_chain h (P :: S) p set fuel hcp
          (by simp; omega)
        exact ⟨s1, by simp [e1], by intro t; rw [e2]; simp⟩
    obtain ⟨set1, hb1, hb2⟩ := hbody
    obtain ⟨set2, hk1, hk2⟩ := ihk p (P :: S) (d + 1) set1 h3 hcp (by simp; omega)
    obtain ⟨set3, hr1, hr2⟩ := ihr P S d set2 h4 hc (by omega)
    refine ⟨set3, ?_, ?_⟩
    · simp only [Forest.walk, List.foldlM_cons, List.foldlM_append, hb1, bind_ok, hk1, hr1]
    · intro t
      rw [hr2, hk2, hb2]
      simp only [Forest.anyHit, Forest.kept, List.map_cons, List.mem_cons, List.map_append,
        List.mem_append, Bool.or_eq_true]
      cases hasHits h p <;> cases kids.anyHit (hasHits h) <;>
        simp only [Bool.or_true, Bool.true_or, Bool.or_false, Bool.false_or, if_true, if_false,
          Bool.false_eq_true, List.map_nil, List.map_cons, List.mem_cons, List.not_mem_nil,
          true_and, false_and, false_or, or_false, true_or, or_true] <;> tauto

/-! ## Pruning a forest -/

theorem Forest.kept_subset (hh : Nat → Bool) (F : Forest) : ∀ q ∈ F.kept hh, q ∈ F.nodes := by
  induction F with
  | nil => simp [Forest.kept]
  | cons p kids rest ihk ihr =>
    intro q hq
    simp only [Forest.kept, List.mem_append] at hq
    simp only [Forest.nodes, List.mem_cons, List.mem_append]
    rcases hq with hq | hq | hq
    · split at hq
      · simp at hq; exact Or.inl hq
      · simp at hq
    · exact Or.inr (Or.inl (ihk q hq))
    · exact Or.inr (Or.inr (ihr q hq))

/-- A test `K` that holds exactly on the kept nodes prunes like `Forest.prune`. -/
theorem Forest.pruneBy_eq_prune (hh : Nat → Bool) (F : Forest) :
    ∀ K : Nat → Bool, F.nodes.Nodup → (∀ q ∈ F.nodes, K q = decide (q ∈ F.kept hh)) →
      F.pruneBy K = F.prune hh := by
  induction F with
  | nil => intro K _ _; rfl
  | cons p kids rest ihk ihr =>
    intro K hnd hK
    simp only [Forest.nodes] at hnd hK
    have hnd1 := List.nodup_cons.1 hnd
    have hnd2 := List.nodup_append.1 hnd1.2
    have hpk : p ∉ kids.kept hh := fun hm => hnd1.1 (List.mem_append_left _ (kids.kept_subset hh p hm))
    have hpr : p ∉ rest.kept hh := fun hm => hnd1.1 (List.mem_append_right _ (rest.kept_subset hh p hm))
    have hKp : K p = (hh p || kids.anyHit hh) := by
      rw [hK p (List.mem_cons_self _ _)]
      simp only [Forest.kept, List.mem_append]
      cases hc : (hh p || kids.anyHit hh) <;> simp [hpk, hpr]
    have hkk : kids.pruneBy K = kids.prune hh := by
      refine ihk K hnd2.1 ?_
      intro q hq
      rw [hK q (by simp [hq])]
      have hqp : q ≠ p := by rintro rfl; exact hnd1.1 (List.mem_append_left _ hq)
      have hqr : q ∉ rest.kept hh := fun hm => hnd2.2.2 hq (rest.kept_subset hh q hm)
      simp only [Forest.kept, List.mem_append]
      split <;> simp [hqp, hqr]
    have hrr : rest.pruneBy K = rest.prune hh := by
      refine ihr K hnd2.2.1 ?_
      intro q hq
      rw [hK q (by simp [hq])]
      have hqp : q ≠ p := by rintro rfl; exact hnd1.1 (List.mem_append_right _ hq)
      have hqk : q ∉ kids.kept hh := fun hm => hnd2.2.2 (kids.kept_subset hh q hm) hq
      simp only [Forest.kept, List.mem_append]
      split <;> simp [hqp, hqk]
    simp only [Forest.pruneBy, Forest.prune, hKp, hkk, hrr]

theorem Forest.prune_nodes_sublist (hh : Nat → Bool) (F : Forest) :
    (F.prune hh).nodes.Sublist F.nodes := by
  induction F with
  | nil => simp [Forest.prune]
  | cons p kids rest ihk ihr =>
    simp only [Forest.prune]
    split
    · simp only [Forest.nodes]
      exact List.Sublist.cons₂ _ (List.Sublist.append ihk ihr)
    · simp only [Forest.nodes]
      exact List.Sublist.cons _ (ihr.trans (List.sublist_append_right _ _))

theorem Forest.anyHit_false_iff (hh : Nat → Bool) (F : Forest) :
    F.anyHit hh = false ↔ ∀ q ∈ F.nodes, hh q = false := by
  induction F with
  | nil => simp [Forest.anyHit, Forest.nodes]
  | cons p kids rest ihk ihr =>
    simp only [Forest.anyHit, Forest.nodes, Bool.or_eq_false_iff, ihk, ihr, List.mem_cons,
      List.mem_append]
    constructor
    · rintro ⟨⟨h1, h2⟩, h3⟩ q (rfl | hq | hq)
      · exact h1
      · exact h2 q hq
      · exact h3 q hq
    · intro hq
      exact ⟨⟨hq p (Or.inl rfl), fun q h => hq q (Or.inr (Or.inl h))⟩,
        fun q h => hq q (Or.inr (Or.inr h))⟩

/-- Pruning removes nodes without hits only. -/
theorem Forest.prune_filter (hh : Nat → Bool) (F : Forest) :
    (F.prune hh).nodes.filter hh = F.nodes.filter hh := by
  induction F with
  | nil => rfl
  | cons p kids rest ihk ihr =>
    simp only [Forest.prune]
    cases hc : (hh p || kids.anyHit hh) with
    | true =>
      simp only [if_true, Forest.nodes, List.filter_cons, List.filter_append, ihk, ihr]
    | false =>
      rw [Bool.or_eq_false_iff] at hc
      have hk : kids.nodes.filter hh = [] := by
        rw [List.filter_eq_nil_iff]
        intro q hq
        rw [(kids.anyHit_false_iff hh).1 hc.2 q hq]
        simp
      simp [Forest.nodes, List.filter_cons, List.filter_append, ihr, hc.1, hk]

theorem Forest.anyHit_eq_filter (hh : Nat → Bool) (F : Forest) :
    F.anyHit hh = !(F.nodes.filter hh).isEmpty := by
  cases hc : F.anyHit hh with
  | false =>
    have := (F.anyHit_false_iff hh).1 hc
    have hnil : F.nodes.filter hh = [] := by
      rw [List.filter_eq_nil_iff]
      intro q hq; rw [this q hq]; simp
    simp [hnil]
  | true =>
    cases hf : F.nodes.filter hh with
    | nil =>
      have : F.anyHit hh = false := by
        rw [Forest.anyHit_false_iff]
        intro q hq
        rw [List.filter_eq_nil_iff] at hf
        simpa using hf q hq
      rw [this] at hc; cases hc
    | cons a l => simp

theorem Forest.anyHit_prune (hh : Nat → Bool) (F : Forest) :
    (F.prune hh).anyHit hh = F.anyHit hh := by
  rw [Forest.anyHit_eq_filter, Forest.anyHit_eq_filter, Forest.prune_filter]

/-- After pruning, every remaining tree carries a hit. -/
theorem Forest.prune_live (hh : Nat → Bool) (F : Forest) :
    (F.prune hh).Forall (fun p kids => (hh p || kids.anyHit hh) = true) := by
  induction F with
  | nil => trivial
  | cons p kids rest ihk ihr =>
    simp only [Forest.prune]
    cases hc : (hh p || kids.anyHit hh) with
    | true =>
      simp only [if_true, Forest.Forall]
      exact ⟨by rw [Forest.anyHit_prune]; exact hc, ihk, ihr⟩
    | false => simpa using ihr

/-- A forest in which every tree carries a hit is left as it is. -/
theorem Forest.prune_of_live (hh : Nat → Bool) (F : Forest)
    (hl : F.Forall (fun p kids => (hh p || kids.anyHit hh) = true)) : F.prune hh = F := by
  induction F with
  | nil => rfl
  | cons p kids rest ihk ihr =>
    obtain ⟨h1, h2, h3⟩ := hl
    simp only [Forest.prune, h1, if_true, ihk h2, ihr h3]

/-! ## The first step of `trim_tree` on a whole tree -/

theorem Forest.height_le (F : Forest) : F.height ≤ F.nodes.length := by
  induction F with
  | nil => simp [Forest.height]
  | cons p kids rest ihk ihr =>
    simp only [Forest.height, Forest.nodes, List.length_cons, List.length_append]
    omega

theorem Forest.visitedBy_le (K : Nat → Bool) (F : Forest) : F.visitedBy K ≤ F.nodes.length := by
  induction F with
  | nil => simp [Forest.visitedBy]
  | cons p kids rest ihk ihr =>
    simp only [Forest.visitedBy, Forest.nodes, List.length_cons, List.length_append]
    split <;> omega

/-- The first traversal of `trim_tree` collects the track ids of the nodes that have
hits or a descendant with hits. -/
theorem keep_set {h : Heap} {root : Nat} {F : Forest} (t : IsTree h root F) (k : Nat) :
    ∃ keep, rangeFor h (keepBody h (F.nodes.length + 2 + k)) (F.nodes.length + 2 + k)
        (Node.begin root) [] = .ok keep ∧
      ∀ i, i ∈ keep ↔
        (((hasHits h root || F.anyHit (hasHits h)) = true ∧ i = (h root).trackid_) ∨
          i ∈ (F.kept (hasHits h)).map (fun q => (h q).trackid_)) := by
  rw [rangeFor_tree t]
  have hroot : ∃ set1, keepBody h (F.nodes.length + 2 + k) [] root 0 = .ok set1 ∧
      ∀ i, i ∈ set1 ↔ (hasHits h root = true ∧ i = (h root).trackid_) := by
    unfold keepBody
    cases hh : hasHits h root with
    | false => exact ⟨[], by simp, by intro i; simp⟩
    | true =>
      obtain ⟨s1, e1, e2⟩ := insertAncestors_chain h [] root [] (F.nodes.length + 2 + k)
        t.root_parent (by simp; omega)
      exact ⟨s1, by simp [e1], by intro i; rw [e2]; simp⟩
  obtain ⟨set1, hb1, hb2⟩ := hroot
  obtain ⟨set2, hf1, hf2⟩ := keepFold_forest h (F.nodes.length + 2 + k) F root [] 1 set1 t.rep
    t.root_parent (by have := F.height_le; simp; omega)
  refine ⟨set2, ?_, ?_⟩
  · simp only [List.foldlM_cons, hb1, bind_ok, hf1]
  · intro i
    rw [hf2, hb2]
    simp only [List.map_cons, List.map_nil, List.mem_singleton, Bool.or_eq_true]
    tauto

/-- The test of the removing loop agrees with `Forest.kept` on the nodes of the tree. -/
theorem keep_contains {h : Heap} {root : Nat} {F : Forest} (t : IsTree h root F)
    (keep : List Int)
    (hk : ∀ i, i ∈ keep ↔
        (((hasHits h root || F.anyHit (hasHits h)) = true ∧ i = (h root).trackid_) ∨
          i ∈ (F.kept (hasHits h)).map (fun q => (h q).trackid_))) :
    (keep.contains (h root).trackid_ = (hasHits h root || F.anyHit (hasHits h))) ∧
    ∀ q ∈ F.nodes, keep.contains (h q).trackid_ = decide (q ∈ F.kept (hasHits h)) := by
  have hinj := t.trackids
  have hrootF : root ∉ F.nodes := (List.nodup_cons.1 t.nodup).1
  constructor
  · rw [Bool.eq_iff_iff]
    simp only [List.contains, List.elem_iff]
    rw [hk]
    constructor
    · rintro (⟨h1, _⟩ | h2)
      · exact h1
      · exfalso
        obtain ⟨q, hq, he⟩ := List.mem_map.1 h2
        have hqn := F.kept_subset _ q hq
        have := hinj q (List.mem_cons_of_mem _ hqn) root (List.mem_cons_self _ _) he
        exact hrootF (this ▸ hqn)
    · intro h1; exact Or.inl ⟨h1, rfl⟩
  · intro q hq
    rw [Bool.eq_iff_iff]
    simp only [List.contains, List.elem_iff, decide_eq_true_eq]
    rw [hk]
    constructor
    · rintro (⟨_, h1⟩ | h2)
      · exfalso
        have := hinj q (List.mem_cons_of_mem _ hq) root (List.mem_cons_self _ _) h1
        exact hrootF (this ▸ hq)
      · obtain ⟨q', hq', he⟩ := List.mem_map.1 h2
        have hqn := F.kept_subset _ q' hq'
        have := hinj q' (List.mem_cons_of_mem _ hqn) q (List.mem_cons_of_mem _ hq) he
        exact this ▸ hq'
    · intro h1; exact Or.inr (List.mem_map.2 ⟨q, h1, rfl⟩)

/-- The removing loop of `trim_tree` on a tree that carries a hit: it ends, writes
`children_` fields only, and leaves the pruned tree. -/
theorem trim_pass1 {h : Heap} {root : Nat} {F : Forest} (t : IsTree h root F)
    (hany : (hasHits h root || F.anyHit (hasHits h)) = true) (keep : List Int)
    (hk : ∀ i, i ∈ keep ↔
        (((hasHits h root || F.anyHit (hasHits h)) = true ∧ i = (h root).trackid_) ∨
          i ∈ (F.kept (hasHits h)).map (fun q => (h q).trackid_)))
    (k : Nat) :
    ∃ h1, trimLoop keep (F.nodes.length + 2 + k) h (Node.begin root) = .ok h1 ∧
      ChildrenOnly (root :: F.nodes) h h1 ∧ IsTree h1 root (F.prune (hasHits h)) := by
  obtain ⟨hkr, hkF⟩ := keep_contains t keep hk
  let K : Nat → Bool := fun q => keep.contains (h q).trackid_
  have hprune : F.pruneBy K = F.prune (hasHits h) :=
    F.pruneBy_eq_prune (hasHits h) K (List.nodup_cons.1 t.nodup).2 hkF
  obtain ⟨h1, co, hch, hrep, hloop⟩ :=
    trimLoop_forest keep K (some root) F h root [] (0 + 1) [] t.ctx (fun q _ => rfl)
  rw [hprune] at hch hrep
  refine ⟨h1, ?_, co, ?_⟩
  · have hv := F.visitedBy_le K
    obtain ⟨j, hj⟩ : ∃ j, F.nodes.length + 2 + k = (F.visitedBy K + (j + 1)) + 1 :=
      ⟨F.nodes.length + k - F.visitedBy K, by omega⟩
    rw [hj, trimLoop_step_keep keep _ h _ root rfl (by rw [hkr, hany])]
    simp only [Node.begin]
    rw [next_at h (some root) root [] 0 F t.root_children, hloop (j + 1)]
    simp only [zero_add, sub_self, climb_root, bind_ok]
    rw [trimLoop]
  · refine ⟨by rw [co.parent]; exact t.root_parent, by simpa using hch, hrep, ?_, ?_⟩
    · have hs := (F.prune_nodes_sublist (hasHits h)).cons₂ root
      exact t.nodup.sublist hs
    · intro p hp q hq he
      have hsub : ∀ x ∈ root :: (F.prune (hasHits h)).nodes, x ∈ root :: F.nodes := by
        intro x hx
        exact ((F.prune_nodes_sublist (hasHits h)).cons₂ root).subset hx
      rw [co.trackid, co.trackid] at he
      exact t.trackids p (hsub p hp) q (hsub q hq) he

/-! ## The recursive traversal -/

theorem dfs_forest (h : Heap) (F : Forest) :
    ∀ (f : Nat) (P : Nat) (acc : List (Nat × Int)) (d : Int), Rep h P F → F.height ≤ f →
      F.roots.foldlM (fun acc child => dfs_recursion h f child acc d) acc
        = .ok (acc ++ F.walk d) := by
  induction F with
  | nil => intro f P acc d _ _; simp [Forest.roots, Forest.walk, pure, Except.pure]
  | cons p kids rest ihk ihr =>
    intro f P acc d hrep hf
    obtain ⟨_, h2, h3, h4⟩ := hrep
    simp only [Forest.height] at hf
    obtain ⟨f', rfl⟩ : ∃ f', f = f' + 1 := ⟨f - 1, by omega⟩
    simp only [Forest.roots, List.foldlM_cons]
    rw [dfs_recursion, h2, ihk f' p _ (d + 1) h3 (by omega), bind_ok]
    rw [ihr (f' + 1) P _ d h4 (by omega)]
    simp [Forest.walk]

theorem dfs_tree {h : Heap} {root : Nat} {F : Forest} (t : IsTree h root F) (k : Nat) :
    dfs h (F.nodes.length + 2 + k) root = .ok ((root, 0) :: F.walk 1) := by
  rw [dfs, show F.nodes.length + 2 + k = (F.nodes.length + 1 + k) + 1 by omega, dfs_recursion,
    t.root_children]
  rw [dfs_forest h F _ root _ (0 + 1) t.rep (by have := F.height_le; omega)]
  simp

/-! ## Frames of the second step of `trim_tree` -/

theorem LinksOnly.refl_links (X : List Nat) (h : Heap) : LinksOnly X h h :=
  fun _ => ⟨rfl, fun _ => rfl⟩

theorem LinksOnly.hits_eq {X : List Nat} {h h' : Heap} (c : LinksOnly X h h') (q : Nat) :
    (h' q).hits_ = (h q).hits_ := by
  rw [(c q).1]

theorem LinksOnly.trackid_eq {X : List Nat} {h h' : Heap} (c : LinksOnly X h h') (q : Nat) :
    (h' q).trackid_ = (h q).trackid_ := by
  rw [(c q).1]

theorem LinksOnly.hasHits {X : List Nat} {h h' : Heap} (c : LinksOnly X h h') (q : Nat) :
    hasHits h' q = hasHits h q := by
  simp only [SimMerging.hasHits, nhits, c.hits_eq]

theorem LinksOnly.trans_links {X Y Z : List Nat} {h h1 h2 : Heap}
    (c1 : LinksOnly X h h1) (c2 : LinksOnly Y h1 h2)
    (hX : ∀ q ∈ X, q ∈ Z) (hY : ∀ q ∈ Y, q ∈ Z) : LinksOnly Z h h2 := by
  intro q
  constructor
  · rw [(c2 q).1, (c1 q).1]
  · intro hq
    rw [(c2 q).2 (fun hm => hq (hY q hm)), (c1 q).2 (fun hm => hq (hX q hm))]

theorem LinksOnly.mono_links {X Y : List Nat} {h h' : Heap} (c : LinksOnly X h h')
    (hXY : ∀ q ∈ X, q ∈ Y) : LinksOnly Y h h' :=
  fun q => ⟨(c q).1, fun hq => (c q).2 (fun hm => hq (hXY q hm))⟩

theorem ChildrenOnly.linksOnly {X : List Nat} {h h' : Heap} (c : ChildrenOnly X h h') :
    LinksOnly X h h' := by
  intro q
  refine ⟨?_, (c q).2⟩
  have := (c q).1
  rw [this]

/-! ## Removing an intermediate node -/

/-- `remove_intermediate_node` on a node with the single child `c`: the node leaves the
children of its parent `P` and `c` is appended to them. -/
theorem remove_intermediate_node_single (h : Heap) (p P c : Nat) (A B : List Nat)
    (hpar : (h p).parent_ = some P) (hch : (h P).children_ = A ++ p :: B)
    (hnd : (A ++ p :: B).Nodup) (hkids : (h p).children_ = [c]) (hpP : p ≠ P) :
    remove_intermediate_node h p
      = .ok (setParent (addChild
          (Function.update h P { h P with children_ := A ++ B }) P c) c P) := by
  simp only [remove_intermediate_node, break_from_parent, hpar, hch, filter_ne_middle A B p hnd,
    bind_ok]
  rw [Function.update_noteq hpP, hkids]
  rfl

/-! ## Collapsing a forest -/

theorem Forest.isSingle_iff (F : Forest) :
    F.isSingle = true ↔ ∃ c ck, F = .cons c ck .nil := by
  cases F with
  | nil => simp [Forest.isSingle]
  | cons c ck cr =>
    cases cr with
    | nil => simp [Forest.isSingle]
    | cons _ _ _ => simp [Forest.isSingle]

theorem Forest.isSingle_eq (F : Forest) : F.isSingle = (F.roots.length == 1) := by
  cases F with
  | nil => simp [Forest.isSingle, Forest.roots]
  | cons c ck cr =>
    cases cr with
    | nil => simp [Forest.isSingle, Forest.roots]
    | cons _ _ _ => simp [Forest.isSingle, Forest.roots]

theorem Forest.flat_nodes (hh : Nat → Bool) (F : Forest) :
    (F.flat hh).nodes = (F.collapse hh).1.nodes ++ (F.collapse hh).2.nodes := by
  rw [Forest.flat, Forest.nodes_append]

theorem Forest.flat_roots (hh : Nat → Bool) (F : Forest) :
    (F.flat hh).roots = (F.collapse hh).1.roots ++ (F.collapse hh).2.roots := by
  rw [Forest.flat, Forest.roots_append]

theorem Forest.collapse_cons_drop (hh : Nat → Bool) (p : Nat) (kids rest : Forest)
    (hc : (!hh p && kids.isSingle) = true) :
    (Forest.cons p kids rest).collapse hh
      = ((rest.collapse hh).1, (kids.flat hh).append (rest.collapse hh).2) := by
  simp only [Forest.collapse, hc, if_true, Forest.flat]

theorem Forest.collapse_cons_stay (hh : Nat → Bool) (p : Nat) (kids rest : Forest)
    (hc : (!hh p && kids.isSingle) = false) :
    (Forest.cons p kids rest).collapse hh
      = (.cons p (kids.flat hh) (rest.collapse hh).1, (rest.collapse hh).2) := by
  simp only [Forest.collapse, hc, Forest.flat, Bool.false_eq_true, if_false]

/-- Collapsing creates no node and duplicates none. -/
theorem Forest.collapse_count_le (hh : Nat → Bool) (q : Nat) (F : Forest) :
    (F.flat hh).nodes.count q ≤ F.nodes.count q := by
  induction F with
  | nil => simp [Forest.flat, Forest.collapse, Forest.nodes, Forest.append]
  | cons p kids rest ihk ihr =>
    rw [Forest.flat_nodes] at ihk ihr ⊢
    cases hc : (!hh p && kids.isSingle) with
    | true =>
      rw [Forest.collapse_cons_drop hh p kids rest hc]
      simp only [Forest.nodes_append, Forest.flat_nodes, Forest.nodes, List.count_append,
        List.count_cons] at ihk ihr ⊢
      omega
    | false =>
      rw [Forest.collapse_cons_stay hh p kids rest hc]
      simp only [Forest.nodes_append, Forest.flat_nodes, Forest.nodes, List.count_append,
        List.count_cons] at ihk ihr ⊢
      omega

/-- Collapsing keeps every node that has hits. -/
theorem Forest.collapse_count_eq (hh : Nat → Bool) (q : Nat) (hq : hh q = true) (F : Forest) :
    (F.flat hh).nodes.count q = F.nodes.count q := by
  induction F with
  | nil => simp [Forest.flat, Forest.collapse, Forest.nodes, Forest.append]
  | cons p kids rest ihk ihr =>
    rw [Forest.flat_nodes] at ihk ihr ⊢
    cases hc : (!hh p && kids.isSingle) with
    | true =>
      rw [Forest.collapse_cons_drop hh p kids rest hc]
      have hpq : (p == q) = false := by
        rw [beq_eq_false_iff_ne]
        rintro rfl
        simp [hq] at hc
      simp only [Forest.nodes_append, Forest.flat_nodes, Forest.nodes, List.count_append,
        List.count_cons, hpq] at ihk ihr ⊢
      simp only [Bool.false_eq_true, if_false]
      omega
    | false =>
      rw [Forest.collapse_cons_stay hh p kids rest hc]
      simp only [Forest.nodes_append, Forest.flat_nodes, Forest.nodes, List.count_append,
        List.count_cons] at ihk ihr ⊢
      omega

theorem Forest.flat_nodes_subset (hh : Nat → Bool) (F : Forest) :
    ∀ q ∈ (F.flat hh).nodes, q ∈ F.nodes := by
  intro q hq
  have h1 := List.count_pos_iff.2 hq
  have h2 := F.collapse_count_le hh q
  exact List.count_pos_iff.1 (by omega)

theorem Forest.flat_nodes_nodup (hh : Nat → Bool) (F : Forest) (hnd : F.nodes.Nodup) :
    (F.flat hh).nodes.Nodup := by
  rw [List.nodup_iff_count_le_one] at hnd ⊢
  intro q
  exact (F.collapse_count_le hh q).trans (hnd q)

theorem Forest.collapse_roots_length (hh : Nat → Bool) (F : Forest) :
    (F.flat hh).roots.length = F.roots.length := by
  induction F with
  | nil => simp [Forest.flat, Forest.collapse, Forest.roots, Forest.append]
  | cons p kids rest ihk ihr =>
    rw [Forest.flat_roots] at ihk ihr ⊢
    cases hc : (!hh p && kids.isSingle) with
    | true =>
      rw [Forest.collapse_cons_drop hh p kids rest hc]
      have hs : kids.roots.length = 1 := by
        have : kids.isSingle = true := by simp at hc; exact hc.2
        rw [Forest.isSingle_eq] at this
        simpa using this
      simp only [Forest.roots_append, Forest.flat_roots, Forest.roots, List.length_append,
        List.length_cons] at ihk ihr ⊢
      omega
    | false =>
      rw [Forest.collapse_cons_stay hh p kids rest hc]
      simp only [Forest.roots_append, Forest.flat_roots, Forest.roots, List.length_append,
        List.length_cons] at ihk ihr ⊢
      omega

theorem Forest.Forall_append (φ : Nat → Forest → Prop) (F G : Forest) :
    (F.append G).Forall φ ↔ F.Forall φ ∧ G.Forall φ := by
  induction F with
  | nil => simp [Forest.append, Forest.Forall]
  | cons p kids rest _ ih => simp [Forest.append, Forest.Forall, ih, and_assoc]

theorem Forest.anyHit_append (hh : Nat → Bool) (F G : Forest) :
    (F.append G).anyHit hh = (F.anyHit hh || G.anyHit hh) := by
  induction F with
  | nil => simp [Forest.append, Forest.anyHit]
  | cons p kids rest _ ih => simp [Forest.append, Forest.anyHit, ih, Bool.or_assoc]

theorem Forest.anyHit_flat (hh : Nat → Bool) (F : Forest) :
    (F.flat hh).anyHit hh = F.anyHit hh := by
  induction F with
  | nil => rfl
  | cons p kids rest ihk ihr =>
    rw [Forest.flat, Forest.anyHit_append] at ihk ihr ⊢
    cases hc : (!hh p && kids.isSingle) with
    | true =>
      rw [Forest.collapse_cons_drop hh p kids rest hc]
      have hp : hh p = false := by simp at hc; exact hc.1
      simp only [Forest.anyHit_append, Forest.flat, Forest.anyHit, hp, Bool.false_or]
      rw [← ihk, ← ihr]
      cases (kids.collapse hh).1.anyHit hh <;> cases (kids.collapse hh).2.anyHit hh <;>
        cases (rest.collapse hh).1.anyHit hh <;> cases (rest.collapse hh).2.anyHit hh <;> rfl
    | false =>
      rw [Forest.collapse_cons_stay hh p kids rest hc]
      simp only [Forest.anyHit_append, Forest.flat, Forest.anyHit]
      rw [← ihk, ← ihr]
      cases hh p <;> cases (kids.collapse hh).1.anyHit hh <;>
        cases (kids.collapse hh).2.anyHit hh <;>
        cases (rest.collapse hh).1.anyHit hh <;> cases (rest.collapse hh).2.anyHit hh <;> rfl

/-- Collapsing keeps the property that every tree carries a hit. -/
theorem Forest.flat_live (hh : Nat → Bool) (F : Forest)
    (hl : F.Forall (fun p kids => (hh p || kids.anyHit hh) = true)) :
    (F.flat hh).Forall (fun p kids => (hh p || kids.anyHit hh) = true) := by
  induction F with
  | nil => trivial
  | cons p kids rest ihk ihr =>
    obtain ⟨h1, h2, h3⟩ := hl
    have ik := ihk h2
    have ir := ihr h3
    rw [Forest.flat, Forest.Forall_append] at ir ⊢
    cases hc : (!hh p && kids.isSingle) with
    | true =>
      rw [Forest.collapse_cons_drop hh p kids rest hc]
      simp only [Forest.Forall_append]
      exact ⟨ir.1, ik, ir.2⟩
    | false =>
      rw [Forest.collapse_cons_stay hh p kids rest hc]
      simp only [Forest.Forall]
      exact ⟨⟨by rw [Forest.anyHit_flat]; exact h1, ik, ir.1⟩, ir.2⟩

/-- After collapsing a forest in which every tree carries a hit, every node has hits or
at least two children. -/
theorem Forest.flat_good (hh : Nat → Bool) (F : Forest)
    (hl : F.Forall (fun p kids => (hh p || kids.anyHit hh) = true)) :
    (F.flat hh).Forall (fun p kids => hh p = true ∨ 2 ≤ kids.roots.length) := by
  induction F with
  | nil => trivial
  | cons p kids rest ihk ihr =>
    obtain ⟨h1, h2, h3⟩ := hl
    have ik := ihk h2
    have ir := ihr h3
    rw [Forest.flat, Forest.Forall_append] at ir ⊢
    cases hc : (!hh p && kids.isSingle) with
    | true =>
      rw [Forest.collapse_cons_drop hh p kids rest hc]
      simp only [Forest.Forall_append]
      exact ⟨ir.1, ik, ir.2⟩
    | false =>
      rw [Forest.collapse_cons_stay hh p kids rest hc]
      simp only [Forest.Forall]
      refine ⟨⟨?_, ik, ir.1⟩, ir.2⟩
      cases hp : hh p with
      | true => exact Or.inl rfl
      | false =>
        right
        rw [Forest.collapse_roots_length]
        rw [hp] at h1 hc
        simp only [Bool.false_or] at h1
        simp only [Bool.not_false, Bool.true_and] at hc
        rw [Forest.isSingle_eq] at hc
        have hne : kids.roots.length ≠ 0 := by
          intro h0
          cases kids with
          | nil => simp [Forest.anyHit] at h1
          | cons _ _ _ => simp [Forest.roots] at h0
        have : kids.roots.length ≠ 1 := by simpa using hc
        omega

/-! ## The second step of `trim_tree` -/

theorem filter_ne_middle' (pre post : List Nat) (p : Nat) (hpre : p ∉ pre) (hpost : p ∉ post) :
    (pre ++ p :: post).filter (fun c => c != p) = pre ++ post := by
  rw [List.filter_append, List.filter_cons]
  simp only [bne_self_eq_false, Bool.false_eq_true, if_false]
  rw [List.filter_eq_self.2, List.filter_eq_self.2]
  · intro a ha; simp only [bne_iff_ne, ne_eq]; rintro rfl; exact hpost ha
  · intro a ha; simp only [bne_iff_ne, ne_eq]; rintro rfl; exact hpre ha

theorem remove_intermediate_node_single' (h : Heap) (p P c : Nat) (A B : List Nat)
    (hpar : (h p).parent_ = some P) (hch : (h P).children_ = A ++ p :: B)
    (hpA : p ∉ A) (hpB : p ∉ B) (hkids : (h p).children_ = [c]) (hpP : p ≠ P) :
    remove_intermediate_node h p
      = .ok (setParent (addChild
          (Function.update h P { h P with children_ := A ++ B }) P c) c P) := by
  simp only [remove_intermediate_node, break_from_parent, hpar, hch,
    filter_ne_middle' A B p hpA hpB, bind_ok]
  rw [Function.update_noteq hpP, hkids]
  rfl

theorem collapseBody_skip (h : Heap) (p : Nat) (d : Int)
    (hc : (hasParent h p && ((h p).children_.length == 1) && !hasHits h p) = false) :
    collapseBody h (p, d) = .ok h := by
  simp only [collapseBody, hc, Bool.false_eq_true, if_false]

theorem collapseBody_remove (h : Heap) (p : Nat) (d : Int)
    (hc : (hasParent h p && ((h p).children_.length == 1) && !hasHits h p) = true) :
    collapseBody h (p, d) = remove_intermediate_node h p := by
  simp only [collapseBody, hc, if_true]

/-- The second step of `trim_tree` over the forest `F` below `P`, the children of `P`
being `A`, the roots of `F`, then `B`: the trees that stay are left between `A` and `B`
and the re-attached ones follow `B`; only links of `P` and of nodes of `F` are written. -/
theorem collapse_forest (hh : Nat → Bool) (F : Forest) :
    ∀ (h : Heap) (P : Nat) (A B : List Nat) (d : Int),
      (∀ q, hasHits h q = hh q) →
      Rep h P F → (h P).children_ = A ++ F.roots ++ B →
      F.nodes.Nodup → P ∉ F.nodes → (∀ q ∈ A ++ B, q ∉ F.nodes) →
      ∃ h', (F.walk d).foldlM collapseBody h = .ok h' ∧
        (h' P).children_ = A ++ (F.collapse hh).1.roots ++ B ++ (F.collapse hh).2.roots ∧
        Rep h' P (F.collapse hh).1 ∧ Rep h' P (F.collapse hh).2 ∧
        LinksOnly (P :: F.nodes) h h' ∧ (h' P).parent_ = (h P).parent_ := by
  induction F with
  | nil =>
    intro h P A B d _ _ hch _ _ _
    refine ⟨h, rfl, ?_, trivial, trivial, LinksOnly.refl_links _ h, rfl⟩
    simpa [Forest.collapse, Forest.roots] using hch
  | cons p kids rest ihk ihr =>
    intro h P A B d hhh hrep hch hnd hP hAB
    obtain ⟨r1, r2, r3, r4⟩ := hrep
    simp only [Forest.nodes] at hnd hP hAB
    simp only [Forest.roots] at hch
    have hnd1 := List.nodup_cons.1 hnd
    have hnd2 := List.nodup_append.1 hnd1.2
    have hpk : p ∉ kids.nodes := fun hm => hnd1.1 (List.mem_append_left _ hm)
    have hpr : p ∉ rest.nodes := fun hm => hnd1.1 (List.mem_append_right _ hm)
    have hkr : ∀ q ∈ kids.nodes, q ∉ rest.nodes := fun q hq hq' => hnd2.2.2 hq hq'
    have hPp : P ≠ p := fun e => hP (by simp [e])
    have hPk : P ∉ kids.nodes := fun hm => hP (by simp [hm])
    have hPr : P ∉ rest.nodes := fun hm => hP (by simp [hm])
    have hpAB : p ∉ A ++ B := fun hm => hAB p hm (by simp)
    have hpA : p ∉ A := fun hm => hpAB (List.mem_append_left _ hm)
    have hpB : p ∉ B := fun hm => hpAB (List.mem_append_right _ hm)
    have hprr : p ∉ rest.roots := fun hm => hpr (rest.roots_subset_nodes p hm)
    have hparent : hasParent h p = true := by simp [hasParent, r1]
    have hlen : ((h p).children_.length == 1) = kids.isSingle := by
      rw [r2, Forest.isSingle_eq]
    cases hc : (!hh p && kids.isSingle) with
    | true =>
      have hhp : hh p = false := by simp at hc; exact hc.1
      have hsing : kids.isSingle = true := by simp at hc; exact hc.2
      obtain ⟨c, ck, hkids⟩ := (Forest.isSingle_iff kids).1 hsing
      have hroots : kids.roots = [c] := by rw [hkids]; rfl
      have hknodes : kids.nodes = c :: ck.nodes := by rw [hkids]; simp [Forest.nodes]
      have hck : c ∈ kids.nodes := by rw [hknodes]; simp
      obtain ⟨k1, k2, k3, _⟩ : Rep h p (.cons c ck .nil) := hkids ▸ r3
      have hcP : c ≠ P := fun e => hPk (e ▸ hck)
      have hcp : c ≠ p := fun e => hpk (e ▸ hck)
      -- the heap after `remove_intermediate_node`
      let h2 : Heap := setParent (addChild
        (Function.update h P { h P with children_ := A ++ (rest.roots ++ B) }) P c) c P
      have hrem : collapseBody h (p, d) = .ok h2 := by
        rw [collapseBody_remove h p d (by rw [hparent, hlen, hsing, hhh, hhp]; rfl)]
        exact remove_intermediate_node_single' h p P c A (rest.roots ++ B) r1
          (by rw [hch]; simp) hpA
          (by
            intro hm
            rcases List.mem_append.1 hm with hm | hm
            · exact hprr hm
            · exact hpB hm)
          (by rw [r2, hroots]) hPp.symm
      have e_o : ∀ q, q ≠ P → q ≠ c → h2 q = h q := by
        intro q hqP hqc
        simp [h2, setParent, addChild, Function.update_apply, hqP, hqc]
      have e_P : h2 P = { h P with children_ := A ++ (rest.roots ++ B) ++ [c] } := by
        simp [h2, setParent, addChild, Function.update_apply, hcP.symm]
      have e_c : h2 c = { h c with parent_ := some P } := by
        simp [h2, setParent, addChild, Function.update_apply, hcP]
      have lo2 : LinksOnly [P, c] h h2 := by
        intro q
        by_cases hqP : q = P
        · subst hqP; rw [e_P]; simp
        · by_cases hqc : q = c
          · subst hqc; rw [e_c]; simp
          · rw [e_o q hqP hqc]; simp
      have hhh2 : ∀ q, hasHits h2 q = hh q := fun q => by rw [lo2.hasHits, hhh]
      have hrep2 : Rep h2 P kids := by
        rw [hkids]
        refine ⟨by rw [e_c], by rw [e_c]; exact k2, ?_, trivial⟩
        refine Rep_congr h h2 ck c ?_ k3
        intro q hq
        have hqk : q ∈ kids.nodes := by rw [hknodes]; exact List.mem_cons_of_mem _ hq
        have hqP : q ≠ P := fun e => hPk (e ▸ hqk)
        have hqc : q ≠ c := by
          rintro rfl
          have := hnd2.1
          rw [hknodes] at this
          exact (List.nodup_cons.1 this).1 hq
        rw [e_o q hqP hqc]; exact ⟨rfl, rfl⟩
      obtain ⟨h3, f3, c3, rs3, rm3, lo3, par3⟩ :=
        ihk h2 P (A ++ (rest.roots ++ B)) [] (d + 1) hhh2 hrep2
          (by rw [e_P, hroots]; simp) hnd2.1 hPk
          (by
            intro q hq hq'
            simp only [List.append_nil, List.mem_append] at hq
            rcases hq with hq | hq | hq
            · exact hAB q (List.mem_append_left _ hq) (by simp [hq'])
            · exact hkr q hq' (rest.roots_subset_nodes q hq)
            · exact hAB q (List.mem_append_right _ hq) (by simp [hq']))
      have hhh3 : ∀ q, hasHits h3 q = hh q := fun q => by rw [lo3.hasHits, hhh2]
      have hflat : ∀ q ∈ (kids.flat hh).nodes, q ∈ kids.nodes :=
        Forest.flat_nodes_subset hh kids
      have hrep3 : Rep h3 P rest := by
        refine Rep_congr h h3 rest P ?_ r4
        intro q hq
        have hq3 : h3 q = h2 q := (lo3 q).2 (by
          intro hm
          rcases List.mem_cons.1 hm with e | hm
          · exact hPr (e ▸ hq)
          · exact hkr q hm hq)
        have hqP : q ≠ P := fun e => hPr (e ▸ hq)
        have hqc : q ≠ c := fun e => hkr c hck (e ▸ hq)
        rw [hq3, e_o q hqP hqc]; exact ⟨rfl, rfl⟩
      obtain ⟨h4, f4, c4, rs4, rm4, lo4, par4⟩ :=
        ihr h3 P A (B ++ (kids.flat hh).roots) d hhh3 hrep3
          (by rw [c3, Forest.flat_roots]; simp)
          hnd2.2.1 hPr
          (by
            intro q hq hq'
            simp only [List.mem_append] at hq
            rcases hq with hq | hq | hq
            · exact hAB q (List.mem_append_left _ hq) (by simp [hq'])
            · exact hAB q (List.mem_append_right _ hq) (by simp [hq'])
            · exact hkr q (hflat q (Forest.roots_subset_nodes _ q hq)) hq')
      refine ⟨h4, ?_, ?_, ?_, ?_, ?_, ?_⟩
      · simp only [Forest.walk, List.foldlM_cons, List.foldlM_append, hrem, bind_ok, f3, f4]
      · rw [c4, Forest.collapse_cons_drop hh p _ rest hc]
        simp [Forest.roots_append]
      · rw [Forest.collapse_cons_drop hh p _ rest hc]; exact rs4
      · rw [Forest.collapse_cons_drop hh p _ rest hc]
        simp only [Rep_append]
        refine ⟨?_, rm4⟩
        have : Rep h3 P (kids.flat hh) := by
          rw [Forest.flat, Rep_append]; exact ⟨rs3, rm3⟩
        refine Rep_congr h3 h4 _ P ?_ this
        intro q hq
        have hqk := hflat q hq
        rw [(lo4 q).2 (by
          intro hm
          rcases List.mem_cons.1 hm with e | hm
          · exact hPk (e ▸ hqk)
          · exact hkr q hqk hm)]
        exact ⟨rfl, rfl⟩
      · have lo23 : LinksOnly (P :: kids.nodes) h h3 := by
          refine lo2.trans_links lo3 ?_ (fun q hq => hq)
          intro q hq
          simp only [List.mem_cons, List.mem_singleton, List.not_mem_nil, or_false] at hq
          rcases hq with rfl | rfl
          · simp
          · exact List.mem_cons_of_mem _ hck
        refine lo23.trans_links lo4 ?_ ?_
        · intro q hq
          rcases List.mem_cons.1 hq with rfl | hq
          · simp
          · simp [Forest.nodes, hq]
        · intro q hq
          rcases List.mem_cons.1 hq with rfl | hq
          · simp
          · simp [Forest.nodes, hq]
      · rw [par4, par3, e_P]
    | false =>
      have hskip : collapseBody h (p, d) = .ok h := by
        refine collapseBody_skip h p d ?_
        rw [hparent, hlen, hhh]
        simp only [Bool.true_and]
        rw [Bool.and_comm]; exact hc
      obtain ⟨h1, f1, c1, rs1, rm1, lo1, par1⟩ :=
        ihk h p [] [] (d + 1) hhh r3 (by simpa using r2) hnd2.1 hpk (by simp)
      have hhh1 : ∀ q, hasHits h1 q = hh q := fun q => by rw [lo1.hasHits, hhh]
      have hfr : ∀ q ∈ P :: rest.nodes, h1 q = h q := by
        intro q hq
        refine (lo1 q).2 ?_
        intro hm
        rcases List.mem_cons.1 hq with rfl | hq
        · rcases List.mem_cons.1 hm with e | hm
          · exact hPp e
          · exact hPk hm
        · rcases List.mem_cons.1 hm with e | hm
          · exact hpr (e ▸ hq)
          · exact hkr q hm hq
      have hrep1 : Rep h1 P rest := by
        refine Rep_congr h h1 rest P ?_ r4
        intro q hq
        rw [hfr q (List.mem_cons_of_mem _ hq)]; exact ⟨rfl, rfl⟩
      obtain ⟨h2, f2, c2, rs2, rm2, lo2, par2⟩ :=
        ihr h1 P (A ++ [p]) B d hhh1 hrep1
          (by rw [hfr P (List.mem_cons_self _ _), hch]; simp)
          hnd2.2.1 hPr
          (by
            intro q hq hq'
            simp only [List.mem_append, List.mem_singleton] at hq
            rcases hq with (hq | rfl) | hq
            · exact hAB q (List.mem_append_left _ hq) (by simp [hq'])
            · exact hpr hq'
            · exact hAB q (List.mem_append_right _ hq) (by simp [hq']))
      have hflat : ∀ q ∈ (kids.flat hh).nodes, q ∈ kids.nodes :=
        Forest.flat_nodes_subset hh kids
      have hp2 : h2 p = h1 p := (lo2 p).2 (by
        intro hm
        rcases List.mem_cons.1 hm with e | hm
        · exact hPp e.symm
        · exact hpr hm)
      refine ⟨h2, ?_, ?_, ?_, ?_, ?_, ?_⟩
      · simp only [Forest.walk, List.foldlM_cons, List.foldlM_append, hskip, bind_ok, f1, f2]
      · rw [c2, Forest.collapse_cons_stay hh p kids rest hc]
        simp [Forest.roots]
      · rw [Forest.collapse_cons_stay hh p kids rest hc]
        refine ⟨by rw [hp2, par1, r1], ?_, ?_, rs2⟩
        · rw [hp2, c1, Forest.flat_roots]; simp
        · have : Rep h1 p (kids.flat hh) := by
            rw [Forest.flat, Rep_append]; exact ⟨rs1, rm1⟩
          refine Rep_congr h1 h2 _ p ?_ this
          intro q hq
          have hqk := hflat q hq
          rw [(lo2 q).2 (by
            intro hm
            rcases List.mem_cons.1 hm with e | hm
            · exact hPk (e ▸ hqk)
            · exact hkr q hqk hm)]
          exact ⟨rfl, rfl⟩
      · rw [Forest.collapse_cons_stay hh p kids rest hc]; exact rm2
      · refine lo1.trans_links lo2 ?_ ?_
        · intro q hq
          rcases List.mem_cons.1 hq with rfl | hq
          · simp [Forest.nodes]
          · simp [Forest.nodes, hq]
        · intro q hq
          rcases List.mem_cons.1 hq with rfl | hq
          · simp
          · simp [Forest.nodes, hq]
      · rw [par2, hfr P (List.mem_cons_self _ _)]

/-! ## `trim_tree` on a whole tree -/

theorem hasHits_iff (h : Heap) (q : Nat) : hasHits h q = true ↔ (h q).hits_ ≠ [] := by
  simp [hasHits, nhits, List.length_pos]

theorem treeHasHit_iff (h : Heap) (root : Nat) (F : Forest) :
    treeHasHit h root F ↔ (hasHits h root || F.anyHit (hasHits h)) = true := by
  unfold treeHasHit
  constructor
  · rintro ⟨q, hq, hne⟩
    rw [Bool.or_eq_true]
    rcases List.mem_cons.1 hq with rfl | hq
    · exact Or.inl ((hasHits_iff h q).2 hne)
    · right
      by_contra hcon
      have := (F.anyHit_false_iff (hasHits h)).1 (by simpa using hcon) q hq
      rw [(hasHits_iff h q).2 hne] at this
      cases this
  · intro hany
    rw [Bool.or_eq_true] at hany
    rcases hany with hr | hF
    · exact ⟨root, List.mem_cons_self _ _, (hasHits_iff h root).1 hr⟩
    · by_contra hcon
      have : F.anyHit (hasHits h) = false := by
        rw [Forest.anyHit_false_iff]
        intro q hq
        by_contra hq'
        exact hcon ⟨q, List.mem_cons_of_mem _ hq, (hasHits_iff h q).1 (by simpa using hq')⟩
      rw [this] at hF
      cases hF

theorem Forest.trimmed_nodes_subset (hh : Nat → Bool) (F : Forest) :
    ∀ q ∈ (F.trimmed hh).nodes, q ∈ F.nodes := fun q hq =>
  (F.prune_nodes_sublist hh).subset (Forest.flat_nodes_subset hh _ q hq)

theorem collapse_tree {h : Heap} {root : Nat} {F : Forest} (t : IsTree h root F) :
    ∃ h', (((root, 0) :: F.walk 1).foldlM collapseBody h) = .ok h' ∧
      IsTree h' root (F.flat (hasHits h)) ∧ LinksOnly (root :: F.nodes) h h' := by
  have hroot : collapseBody h (root, 0) = .ok h :=
    collapseBody_skip h root 0 (by simp [hasParent, t.root_parent])
  have hnd := List.nodup_cons.1 t.nodup
  obtain ⟨h', f, c, rs, rm, lo, par⟩ := collapse_forest (hasHits h) F h root [] [] 1
    (fun _ => rfl) t.rep (by simpa using t.root_children) hnd.2 hnd.1 (by simp)
  refine ⟨h', by simp only [List.foldlM_cons, hroot, bind_ok, f], ?_, lo⟩
  refine ⟨by rw [par, t.root_parent], ?_, ?_, ?_, ?_⟩
  · rw [c, Forest.flat_roots]; simp
  · rw [Forest.flat, Rep_append]; exact ⟨rs, rm⟩
  · refine List.nodup_cons.2 ⟨fun hm => hnd.1 (Forest.flat_nodes_subset _ F root hm), ?_⟩
    exact Forest.flat_nodes_nodup _ F hnd.2
  · intro p hp q hq he
    have hsub : ∀ x ∈ root :: (F.flat (hasHits h)).nodes, x ∈ root :: F.nodes := by
      intro x hx
      rcases List.mem_cons.1 hx with rfl | hx
      · simp
      · exact List.mem_cons_of_mem _ (Forest.flat_nodes_subset _ F x hx)
    rw [lo.trackid_eq, lo.trackid_eq] at he
    exact t.trackids p (hsub p hp) q (hsub q hq) he

/-- `trim_tree` on a well-formed tree that carries a hit, with fuel for one traversal:
it returns, the result is the well-formed tree over the trimmed forest, and only
`parent_` and `children_` fields of nodes of the tree were written. -/
theorem trim_tree_spec {h : Heap} {root : Nat} {F : Forest} (t : IsTree h root F)
    (hany : treeHasHit h root F) (fuel : Nat) (hfuel : F.nodes.length + 2 ≤ fuel) :
    ∃ h', trim_tree fuel h root = .ok h' ∧
      IsTree h' root (F.trimmed (hasHits h)) ∧ LinksOnly (root :: F.nodes) h h' := by
  obtain ⟨k, rfl⟩ : ∃ k, fuel = F.nodes.length + 2 + k := ⟨fuel - (F.nodes.length + 2), by omega⟩
  have hany' := (treeHasHit_iff h root F).1 hany
  obtain ⟨keep, hk1, hk2⟩ := keep_set t k
  obtain ⟨h1, hl1, co1, t1⟩ := trim_pass1 t hany' keep hk2 k
  have hhh : hasHits h1 = hasHits h := by
    funext q; exact co1.linksOnly.hasHits q
  have hlen := (F.prune_nodes_sublist (hasHits h)).length_le
  obtain ⟨k', hk'⟩ : ∃ k', F.nodes.length + 2 + k = (F.prune (hasHits h)).nodes.length + 2 + k' :=
    ⟨F.nodes.length + k - (F.prune (hasHits h)).nodes.length, by omega⟩
  obtain ⟨h2, f2, t2, lo2⟩ := collapse_tree t1
  rw [hhh] at t2
  refine ⟨h2, ?_, t2, ?_⟩
  · unfold trim_tree
    rw [hk1, bind_ok, hl1, bind_ok, hk', dfs_tree t1 k', bind_ok, f2]
  · refine co1.linksOnly.trans_links lo2 (fun q hq => hq) ?_
    intro q hq
    rcases List.mem_cons.1 hq with rfl | hq
    · simp
    · exact List.mem_cons_of_mem _ ((F.prune_nodes_sublist (hasHits h)).subset hq)

/-! ## Properties of the trimmed tree -/

theorem flatten_hits_filter (h : Heap) (l : List Nat) :
    (l.map (fun q => (h q).hits_)).flatten
      = ((l.filter (hasHits h)).map (fun q => (h q).hits_)).flatten := by
  induction l with
  | nil => rfl
  | cons a l ih =>
    cases ha : hasHits h a with
    | true => simp [List.filter_cons, ha, ih]
    | false =>
      have : (h a).hits_ = [] := by
        by_contra hne
        rw [(hasHits_iff h a).2 hne] at ha
        cases ha
      simp [List.filter_cons, ha, ih, this]

theorem Forest.flat_filter_perm (hh : Nat → Bool) (F : Forest) :
    ((F.flat hh).nodes.filter hh).Perm (F.nodes.filter hh) := by
  rw [List.perm_iff_count]
  intro a
  cases ha : hh a with
  | true => rw [List.count_filter ha, List.count_filter ha, F.collapse_count_eq hh a ha]
  | false =>
    have h1 : ∀ l : List Nat, (l.filter hh).count a = 0 := by
      intro l
      rw [List.count_eq_zero]
      intro hm
      rw [(List.mem_filter.1 hm).2] at ha
      cases ha
    rw [h1, h1]

theorem Forest.trimmed_filter_perm (hh : Nat → Bool) (F : Forest) :
    ((F.trimmed hh).nodes.filter hh).Perm (F.nodes.filter hh) := by
  rw [← F.prune_filter hh]
  exact Forest.flat_filter_perm hh (F.prune hh)

/-- A node with hits survives trimming. -/
theorem Forest.mem_trimmed_of_hit (hh : Nat → Bool) (F : Forest) (q : Nat) (hq : q ∈ F.nodes)
    (hhq : hh q = true) : q ∈ (F.trimmed hh).nodes := by
  have h1 : q ∈ F.nodes.filter hh := List.mem_filter.2 ⟨hq, hhq⟩
  have h2 := (F.trimmed_filter_perm hh).symm.subset h1
  exact (List.mem_filter.1 h2).1

theorem Forest.trimmed_live (hh : Nat → Bool) (F : Forest) :
    (F.trimmed hh).Forall (fun p kids => (hh p || kids.anyHit hh) = true) :=
  Forest.flat_live hh _ (F.prune_live hh)

theorem Forest.trimmed_good (hh : Nat → Bool) (F : Forest) :
    (F.trimmed hh).Forall (fun p kids => hh p = true ∨ 2 ≤ kids.roots.length) :=
  Forest.flat_good hh _ (F.prune_live hh)

/-- What `Forall` says about the nodes of a forest held in the heap. -/
theorem Rep_forall (h : Heap) (φ : Nat → Forest → Prop) (ψ : Nat → Prop) (F : Forest)
    (hφ : ∀ p kids, φ p kids → (h p).children_ = kids.roots → ψ p) :
    ∀ P, Rep h P F → F.Forall φ → ∀ q ∈ F.nodes, ψ q := by
  induction F with
  | nil => intro P _ _ q hq; simp [Forest.nodes] at hq
  | cons p kids rest ihk ihr =>
    intro P hrep hall q hq
    obtain ⟨_, r2, r3, r4⟩ := hrep
    obtain ⟨a1, a2, a3⟩ := hall
    simp only [Forest.nodes, List.mem_cons, List.mem_append] at hq
    rcases hq with rfl | hq | hq
    · exact hφ q kids a1 r2
    · exact ihk p r3 a2 q hq
    · exact ihr P r4 a3 q hq

/-- Two heaps that hold the same forest agree on the links of its nodes. -/
theorem Rep_unique (h h' : Heap) (F : Forest) :
    ∀ P, Rep h P F → Rep h' P F →
      ∀ q ∈ F.nodes, (h' q).children_ = (h q).children_ ∧ (h' q).parent_ = (h q).parent_ := by
  induction F with
  | nil => intro P _ _ q hq; simp [Forest.nodes] at hq
  | cons p kids rest ihk ihr =>
    intro P hrep hrep' q hq
    obtain ⟨r1, r2, r3, r4⟩ := hrep
    obtain ⟨s1, s2, s3, s4⟩ := hrep'
    simp only [Forest.nodes, List.mem_cons, List.mem_append] at hq
    rcases hq with rfl | hq | hq
    · exact ⟨by rw [r2, s2], by rw [r1, s1]⟩
    · exact ihk p r3 s3 q hq
    · exact ihr P r4 s4 q hq

theorem foldlM_const {α : Type} (f : Heap → α → Res Heap) (h : Heap) (l : List α)
    (hf : ∀ a ∈ l, f h a = .ok h) : l.foldlM f h = .ok h := by
  induction l with
  | nil => rfl
  | cons a l ih =>
    rw [List.foldlM_cons, hf a (List.mem_cons_self _ _), bind_ok]
    exact ih (fun b hb => hf b (List.mem_cons_of_mem _ hb))

/-- On a tree in which every subtree carries a hit and every node below the root has
hits or at least two children, `trim_tree` writes nothing. -/
theorem trim_tree_noop {h : Heap} {root : Nat} {F : Forest} (t : IsTree h root F)
    (hany : treeHasHit h root F)
    (hlive : F.Forall (fun p kids => (hasHits h p || kids.anyHit (hasHits h)) = true))
    (hgood : F.Forall (fun p kids => hasHits h p = true ∨ 2 ≤ kids.roots.length))
    (fuel : Nat) (hfuel : F.nodes.length + 2 ≤ fuel) :
    trim_tree fuel h root = .ok h := by
  obtain ⟨k, rfl⟩ : ∃ k, fuel = F.nodes.length + 2 + k := ⟨fuel - (F.nodes.length + 2), by omega⟩
  have hany' := (treeHasHit_iff h root F).1 hany
  obtain ⟨keep, hk1, hk2⟩ := keep_set t k
  obtain ⟨h1, hl1, co1, t1⟩ := trim_pass1 t hany' keep hk2 k
  rw [F.prune_of_live (hasHits h) hlive] at t1
  have h1eq : h1 = h := by
    funext q
    by_cases hq : q ∈ root :: F.nodes
    · have hc : (h1 q).children_ = (h q).children_ := by
        rcases List.mem_cons.1 hq with rfl | hq
        · rw [t1.root_children, t.root_children]
        · exact (Rep_unique h h1 F root t.rep t1.rep q hq).1
      rw [(co1 q).1, hc]
    · exact (co1 q).2 hq
  subst h1eq
  unfold trim_tree
  rw [hk1, bind_ok, hl1, bind_ok, dfs_tree t k, bind_ok]
  refine foldlM_const collapseBody h1 _ ?_
  intro a ha
  obtain ⟨q, d⟩ := a
  refine collapseBody_skip h1 q d ?_
  have hqm : q ∈ root :: F.nodes := by
    have := List.mem_map_of_mem Prod.fst ha
    simpa [Forest.walk_map_fst] using this
  rcases List.mem_cons.1 hqm with rfl | hq
  · simp [hasParent, t.root_parent]
  · have := Rep_forall h1 _ (fun q => hasHits h1 q = true ∨ 2 ≤ (h1 q).children_.length) F
      (fun p kids hp hc => by show _ ∨ 2 ≤ (h1 p).children_.length; rw [hc]; exact hp) root t.rep hgood q hq
    rcases this with hh | hl
    · simp [hh]
    · have : ((h1 q).children_.length == 1) = false := by
        rw [beq_eq_false_iff_ne]; omega
      simp [this]

/-! ## The example tree is well formed -/

theorem exampleTree : IsTree exampleHeap 0 exampleForest := by
  refine ⟨rfl, rfl, ?_, by decide, by decide⟩
  simp [Rep, exampleForest, exampleHeap, exampleNodes, Forest.roots, Node.mk3]

theorem exampleTree_hasHit : treeHasHit exampleHeap 0 exampleForest :=
  ⟨4, by decide, by decide⟩

/-! ## Claims on `trim_tree` -/

/-- C3: `trim_tree` on a well-formed tree that carries a hit returns a well-formed tree
whose hits, taken over all the nodes reachable from the root, are a permutation of the
hits before; no hit list is changed, and every node of the tree that is no longer in
it carries no hit (so a subtree that is removed whole contains no hit). -/
theorem trim_tree_conserves_hits {h : Heap} {root : Nat} {F : Forest} (t : IsTree h root F)
    (hany : treeHasHit h root F) (fuel : Nat) (hfuel : F.nodes.length + 2 ≤ fuel) :
    ∃ h' F', trim_tree fuel h root = .ok h' ∧ IsTree h' root F' ∧
      (reachableHits h' root F').Perm (reachableHits h root F) ∧
      (∀ q, (h' q).hits_ = (h q).hits_) ∧
      (∀ q ∈ root :: F'.nodes, q ∈ root :: F.nodes) ∧
      (∀ q ∈ root :: F.nodes, q ∉ root :: F'.nodes → (h q).hits_ = []) := by
  obtain ⟨h', e, t', lo⟩ := trim_tree_spec t hany fuel hfuel
  refine ⟨h', F.trimmed (hasHits h), e, t', ?_, lo.hits_eq, ?_, ?_⟩
  · unfold reachableHits
    have hmap : ∀ l : List Nat, l.map (fun q => (h' q).hits_) = l.map (fun q => (h q).hits_) := by
      intro l; exact List.map_congr_left (fun q _ => lo.hits_eq q)
    rw [hmap, flatten_hits_filter h (root :: F.nodes),
      flatten_hits_filter h (root :: (F.trimmed (hasHits h)).nodes)]
    refine List.Perm.flatten (List.Perm.map _ ?_)
    simp only [List.filter_cons]
    split
    · exact List.Perm.cons _ (F.trimmed_filter_perm (hasHits h))
    · exact F.trimmed_filter_perm (hasHits h)
  · intro q hq
    rcases List.mem_cons.1 hq with rfl | hq
    · simp
    · exact List.mem_cons_of_mem _ (F.trimmed_nodes_subset _ q hq)
  · intro q hq hq'
    by_contra hne
    apply hq'
    rcases List.mem_cons.1 hq with rfl | hq
    · simp
    · exact List.mem_cons_of_mem _
        (F.mem_trimmed_of_hit (hasHits h) q hq ((hasHits_iff h q).2 hne))

/-- C3 on the example tree. -/
theorem trim_tree_conserves_hits_witness :
    ∃ h' F', trim_tree 9 exampleHeap 0 = .ok h' ∧ IsTree h' 0 F' ∧
      (reachableHits h' 0 F').Perm (reachableHits exampleHeap 0 exampleForest) ∧
      (∀ q, (h' q).hits_ = (exampleHeap q).hits_) ∧
      (∀ q ∈ 0 :: F'.nodes, q ∈ 0 :: exampleForest.nodes) ∧
      (∀ q ∈ 0 :: exampleForest.nodes, q ∉ 0 :: F'.nodes → (exampleHeap q).hits_ = []) :=
  trim_tree_conserves_hits exampleTree exampleTree_hasHit 9 (by decide)

/-- The tree after `trim_tree` still carries a hit, every subtree of it carries a hit,
and every node below its root has hits or at least two children. -/
theorem trim_tree_result_props {h h' : Heap} {root : Nat} {F : Forest}
    (hany : treeHasHit h root F) (lo : LinksOnly (root :: F.nodes) h h') :
    treeHasHit h' root (F.trimmed (hasHits h)) ∧
    (F.trimmed (hasHits h)).Forall
      (fun p kids => (hasHits h' p || kids.anyHit (hasHits h')) = true) ∧
    (F.trimmed (hasHits h)).Forall (fun p kids => hasHits h' p = true ∨ 2 ≤ kids.roots.length) := by
  have hhh : hasHits h' = hasHits h := by funext q; exact lo.hasHits q
  rw [hhh]
  refine ⟨?_, F.trimmed_live _, F.trimmed_good _⟩
  obtain ⟨q, hq, hne⟩ := hany
  refine ⟨q, ?_, by rw [lo.hits_eq]; exact hne⟩
  rcases List.mem_cons.1 hq with rfl | hq
  · simp
  · exact List.mem_cons_of_mem _ (F.mem_trimmed_of_hit _ q hq ((hasHits_iff h q).2 hne))

/-- C5: applying `trim_tree` to the result of `trim_tree` returns that same heap: no
node is removed and no field of any node is changed. -/
theorem trim_tree_idempotent {h : Heap} {root : Nat} {F : Forest} (t : IsTree h root F)
    (hany : treeHasHit h root F) (fuel : Nat) (hfuel : F.nodes.length + 2 ≤ fuel) :
    ∃ h', trim_tree fuel h root = .ok h' ∧
      ∀ fuel2, F.nodes.length + 2 ≤ fuel2 → trim_tree fuel2 h' root = .ok h' := by
  obtain ⟨h', e, t', lo⟩ := trim_tree_spec t hany fuel hfuel
  obtain ⟨p1, p2, p3⟩ := trim_tree_result_props hany lo
  refine ⟨h', e, ?_⟩
  intro fuel2 hf2
  refine trim_tree_noop t' p1 p2 p3 fuel2 ?_
  have hle : (F.trimmed (hasHits h)).nodes.length ≤ F.nodes.length := by
    have h1 := Forest.flat_nodes_nodup (hasHits h) (F.prune (hasHits h))
      ((List.nodup_cons.1 t.nodup).2.sublist (F.prune_nodes_sublist _))
    have h2 : (F.trimmed (hasHits h)).nodes ⊆ F.nodes := F.trimmed_nodes_subset _
    exact (List.subperm_of_subset h1 h2).length_le
  omega

/-- C5 on the example tree. -/
theorem trim_tree_idempotent_witness :
    ∃ h', trim_tree 9 exampleHeap 0 = .ok h' ∧
      ∀ fuel2, exampleForest.nodes.length + 2 ≤ fuel2 → trim_tree fuel2 h' 0 = .ok h' :=
  trim_tree_idempotent exampleTree exampleTree_hasHit 9 (by decide)

/-- C7: after `trim_tree` on a well-formed tree that carries a hit, every node below
the root has a hit or at least two children; and removing an intermediate node with one
child changes the number of children of no node. -/
theorem trim_tree_no_pass_through {h : Heap} {root : Nat} {F : Forest} (t : IsTree h root F)
    (hany : treeHasHit h root F) (fuel : Nat) (hfuel : F.nodes.length + 2 ≤ fuel) :
    (∃ h' F', trim_tree fuel h root = .ok h' ∧ IsTree h' root F' ∧
      ∀ q ∈ F'.nodes, (h' q).hits_ ≠ [] ∨ 2 ≤ (h' q).children_.length) ∧
    (∀ (g : Heap) (p P c : Nat) (A B : List Nat),
      (g p).parent_ = some P → (g P).children_ = A ++ p :: B → p ∉ A → p ∉ B →
      (g p).children_ = [c] → p ≠ P →
      ∃ g', remove_intermediate_node g p = .ok g' ∧
        ∀ q, (g' q).children_.length = (g q).children_.length) := by
  constructor
  · obtain ⟨h', e, t', lo⟩ := trim_tree_spec t hany fuel hfuel
    obtain ⟨_, _, p3⟩ := trim_tree_result_props hany lo
    refine ⟨h', F.trimmed (hasHits h), e, t', ?_⟩
    intro q hq
    have := Rep_forall h' _ (fun q => hasHits h' q = true ∨ 2 ≤ (h' q).children_.length) _
      (fun p kids hp hc => by
        show _ ∨ 2 ≤ (h' p).children_.length
        rw [hc]; exact hp) root t'.rep p3 q hq
    rcases this with hh | hl
    · exact Or.inl ((hasHits_iff h' q).1 hh)
    · exact Or.inr hl
  · intro g p P c A B hpar hch hpA hpB hkids hpP
    refine ⟨_, remove_intermediate_node_single' g p P c A B hpar hch hpA hpB hkids hpP, ?_⟩
    intro q
    by_cases hqc : q = c <;> by_cases hqP : q = P <;>
      simp [setParent, addChild, Function.update_apply, hqc, hqP, hch] <;>
      (try subst hqc) <;> (try subst hqP) <;> simp_all

/-- C7 on the example tree. -/
theorem trim_tree_no_pass_through_witness :
    ∃ h' F', trim_tree 9 exampleHeap 0 = .ok h' ∧ IsTree h' 0 F' ∧
      ∀ q ∈ F'.nodes, (h' q).hits_ ≠ [] ∨ 2 ≤ (h' q).children_.length :=
  (trim_tree_no_pass_through exampleTree exampleTree_hasHit 9 (by decide)).1

/-! ## Cache frames -/

theorem hitcentroid_ok (hits : List Hit) : ∃ c, hitcentroid hits = .ok c := by
  unfold hitcentroid
  split <;> exact ⟨_, rfl⟩

theorem CacheOnly.refl_cache (hs : HitStore) (h : Heap) : CacheOnly hs h h :=
  fun _ => ⟨rfl, rfl, fun _ => rfl⟩

theorem CacheOnly.trans_cache {hs : HitStore} {h h1 h2 : Heap} (c1 : CacheOnly hs h h1)
    (c2 : CacheOnly hs h1 h2) : CacheOnly hs h h2 := by
  intro q
  refine ⟨?_, (c2 q).2.1.trans (c1 q).2.1, ?_⟩
  · rw [(c2 q).1, (c1 q).1]
  · intro hc
    have e1 := (c1 q).2.2 hc
    rw [(c2 q).2.2 (by rw [e1]; exact hc), e1]

theorem CacheOnly.energy_eq {hs : HitStore} {h h' : Heap} (c : CacheOnly hs h h') (q : Nat) :
    (h' q).energy_ = (h q).energy_ := by
  rw [(c q).1]

theorem CacheOnly.distOf_eq {hs : HitStore} {h h' : Heap} (c : CacheOnly hs h h')
    (sqrt : ℚ → ℚ) (a b : Nat) : distOf sqrt hs h' a b = distOf sqrt hs h a b := by
  unfold distOf
  rw [(c a).2.1, (c b).2.1]

/-- `Node::hitcentroid()` returns `centroidOf` and writes the cache of its node only. -/
theorem nodeHitcentroid_spec (hs : HitStore) (h : Heap) (q : Nat) :
    ∃ h', nodeHitcentroid hs h q = .ok (h', centroidOf hs h q) ∧ CacheOnly hs h h' := by
  unfold nodeHitcentroid
  cases hc : (h q).hitcentroidCalculated_ with
  | true =>
    refine ⟨h, ?_, CacheOnly.refl_cache hs h⟩
    simp [centroidOf, hc]
  | false =>
    obtain ⟨c, hcv⟩ := hitcentroid_ok ((h q).hits_.map hs)
    refine ⟨Function.update h q { h q with hitcentroid_ := c, hitcentroidCalculated_ := true },
      ?_, ?_⟩
    · simp [recomputeHitcentroid, hcv, centroidOf, hc, bind, Except.bind]
    · intro q'
      by_cases hq : q' = q
      · subst hq
        refine ⟨by simp, ?_, ?_⟩
        · simp [centroidOf, hc, hcv]
        · intro h1; rw [hc] at h1; cases h1
      · simp [centroidOf, Function.update_noteq hq]

/-- `distance` returns `distOf` and writes caches only. -/
theorem distance_spec (sqrt : ℚ → ℚ) (hs : HitStore) (h : Heap) (a b : Nat) :
    ∃ h', distance sqrt hs h a b = .ok (h', distOf sqrt hs h a b) ∧ CacheOnly hs h h' := by
  obtain ⟨h1, e1, c1⟩ := nodeHitcentroid_spec hs h a
  obtain ⟨h2, e2, c2⟩ := nodeHitcentroid_spec hs h1 b
  refine ⟨h2, ?_, c1.trans_cache c2⟩
  unfold distance
  rw [e1, bind_ok]
  simp only [e2, bind_ok]
  rw [(c1 b).2.1]
  rfl

/-! ## The pair scan -/

theorem scanInner_spec (sqrt : ℚ → ℚ) (hs : HitStore) (left : Nat) (rest : List Nat) :
    ∀ st : ScanState, ∃ st', scanInner sqrt hs left rest st = .ok st' ∧
      CacheOnly hs st.heap st'.heap ∧
      st'.vars = pureInner (distOf sqrt hs st.heap) (fun q => (st.heap q).energy_) left rest
        st.vars := by
  induction rest with
  | nil => intro st; exact ⟨st, rfl, CacheOnly.refl_cache hs _, rfl⟩
  | cons right rest ih =>
    intro st
    obtain ⟨h1, e1, c1⟩ := distance_spec sqrt hs st.heap left right
    have hD : distOf sqrt hs h1 = distOf sqrt hs st.heap := by
      funext a b; exact c1.distOf_eq sqrt a b
    have hE : (fun q => (h1 q).energy_) = (fun q => (st.heap q).energy_) := by
      funext q; exact c1.energy_eq q
    by_cases hlt : distOf sqrt hs st.heap left right < st.minr
    · obtain ⟨st', e', c', v'⟩ := ih
        { heap := h1, minr := distOf sqrt hs st.heap left right,
          pairToMerge := some (if (h1 left).energy_ > (h1 right).energy_ then (left, right)
            else (right, left)),
          didUpdate := true, didUpdateThisIteration := true }
      refine ⟨st', ?_, c1.trans_cache c', ?_⟩
      · rw [scanInner, e1, bind_ok]
        simp only [hlt, if_true]
        exact e'
      · rw [v']
        simp only [hD, hE, ScanState.vars, pureInner, hlt, if_true, c1.energy_eq]
    · obtain ⟨st', e', c', v'⟩ := ih { st with heap := h1 }
      refine ⟨st', ?_, c1.trans_cache c', ?_⟩
      · rw [scanInner, e1, bind_ok]
        simp only [hlt, if_false]
        exact e'
      · rw [v']
        simp only [hD, hE, ScanState.vars, pureInner, hlt, if_false]

theorem scanOuter_spec (sqrt : ℚ → ℚ) (hs : HitStore) (M : List Nat) :
    ∀ st : ScanState, ∃ st', scanOuter sqrt hs M st = .ok st' ∧
      CacheOnly hs st.heap st'.heap ∧
      st'.vars = pureOuter (distOf sqrt hs st.heap) (fun q => (st.heap q).energy_) M st.vars := by
  induction M with
  | nil => intro st; exact ⟨st, rfl, CacheOnly.refl_cache hs _, rfl⟩
  | cons left rest ih =>
    intro st
    obtain ⟨st1, e1, c1, v1⟩ := scanInner_spec sqrt hs left rest st
    obtain ⟨st2, e2, c2, v2⟩ := ih st1
    have hD : distOf sqrt hs st1.heap = distOf sqrt hs st.heap := by
      funext a b; exact c1.distOf_eq sqrt a b
    have hE : (fun q => (st1.heap q).energy_) = (fun q => (st.heap q).energy_) := by
      funext q; exact c1.energy_eq q
    refine ⟨st2, ?_, c1.trans_cache c2, ?_⟩
    · rw [scanOuter, e1, bind_ok, e2]
    · rw [v2, hD, hE, v1]; rfl

/-! ## The pair scan on distances -/

theorem pureInner_noclose (D : Nat → Nat → ℚ) (E : Nat → ℚ) (left : Nat) (rest : List Nat)
    (v : ScanVars) (hn : ∀ r ∈ rest, ¬ D left r < v.minr) : pureInner D E left rest v = v := by
  induction rest with
  | nil => rfl
  | cons r rest ih =>
    rw [pureInner, if_neg (hn r (List.mem_cons_self _ _))]
    exact ih (fun x hx => hn x (List.mem_cons_of_mem _ hx))

/-- A scan over a list without a pair closer than `minr` changes nothing. -/
theorem pureOuter_noclose (D : Nat → Nat → ℚ) (E : Nat → ℚ) (M : List Nat) (v : ScanVars)
    (hn : M.Pairwise (fun a b => ¬ D a b < v.minr)) : pureOuter D E M v = v := by
  induction M with
  | nil => rfl
  | cons a M ih =>
    rw [List.pairwise_cons] at hn
    rw [pureOuter, pureInner_noclose D E a M v hn.1]
    exact ih hn.2

theorem pureInner_flag (D : Nat → Nat → ℚ) (E : Nat → ℚ) (left : Nat) (rest : List Nat) :
    ∀ v : ScanVars, v.didUpdateThisIteration = true →
      (pureInner D E left rest v).didUpdateThisIteration = true := by
  induction rest with
  | nil => intro v hv; exact hv
  | cons r rest ih =>
    intro v hv
    rw [pureInner]
    split
    · exact ih _ rfl
    · exact ih v hv

theorem pureOuter_flag (D : Nat → Nat → ℚ) (E : Nat → ℚ) (M : List Nat) :
    ∀ v : ScanVars, v.didUpdateThisIteration = true →
      (pureOuter D E M v).didUpdateThisIteration = true := by
  induction M with
  | nil => intro v hv; exact hv
  | cons a M ih =>
    intro v hv
    rw [pureOuter]
    exact ih _ (pureInner_flag D E a M v hv)

theorem pureInner_unchanged (D : Nat → Nat → ℚ) (E : Nat → ℚ) (left : Nat) (rest : List Nat) :
    ∀ v : ScanVars, (pureInner D E left rest v).didUpdateThisIteration = false →
      pureInner D E left rest v = v ∧ ∀ r ∈ rest, ¬ D left r < v.minr := by
  induction rest with
  | nil => intro v _; exact ⟨rfl, by simp⟩
  | cons r rest ih =>
    intro v hv
    rw [pureInner] at hv ⊢
    by_cases hlt : D left r < v.minr
    · rw [if_pos hlt] at hv
      rw [pureInner_flag D E left rest _ rfl] at hv
      cases hv
    · rw [if_neg hlt] at hv ⊢
      obtain ⟨h1, h2⟩ := ih v hv
      refine ⟨h1, ?_⟩
      intro x hx
      rcases List.mem_cons.1 hx with rfl | hx
      · exact hlt
      · exact h2 x hx

/-- A scan that ends without having found a pair has changed nothing, and no pair of
the list is closer than `minr`. -/
theorem pureOuter_unchanged (D : Nat → Nat → ℚ) (E : Nat → ℚ) (M : List Nat) :
    ∀ v : ScanVars, (pureOuter D E M v).didUpdateThisIteration = false →
      pureOuter D E M v = v ∧ M.Pairwise (fun a b => ¬ D a b < v.minr) := by
  induction M with
  | nil => intro v _; exact ⟨rfl, List.Pairwise.nil⟩
  | cons a M ih =>
    intro v hv
    rw [pureOuter] at hv ⊢
    obtain ⟨h1, h2⟩ := ih _ hv
    have hin : (pureInner D E a M v).didUpdateThisIteration = false := by
      rw [← h1]; exact hv
    obtain ⟨h3, h4⟩ := pureInner_unchanged D E a M v hin
    rw [h3] at h1 h2 ⊢
    exact ⟨h1, List.pairwise_cons.2 ⟨h4, h2⟩⟩

theorem pureInner_found (D : Nat → Nat → ℚ) (E : Nat → ℚ) (X : List Nat) (left : Nat)
    (rest : List Nat) (hl : left ∈ X) (hr : ∀ r ∈ rest, r ∈ X) (hne : left ∉ rest) :
    ∀ v : ScanVars, v.Found X → (pureInner D E left rest v).Found X := by
  induction rest with
  | nil => intro v hv; exact hv
  | cons r rest ih =>
    intro v hv
    have ih' := ih (fun x hx => hr x (List.mem_cons_of_mem _ hx))
      (fun hm => hne (List.mem_cons_of_mem _ hm))
    have hlr : left ≠ r := fun e => hne (e ▸ List.mem_cons_self _ _)
    rw [pureInner]
    split
    · refine ih' _ ?_
      intro _
      refine ⟨rfl, ?_⟩
      by_cases he : E left > E r
      · exact ⟨left, r, by simp [he], hl, hr r (List.mem_cons_self _ _), hlr⟩
      · exact ⟨r, left, by simp [he], hr r (List.mem_cons_self _ _), hl, hlr.symm⟩
    · exact ih' v hv

/-- A scan that has found a pair holds two distinct nodes of the scanned list. -/
theorem pureOuter_found (D : Nat → Nat → ℚ) (E : Nat → ℚ) (X : List Nat) (M : List Nat)
    (hM : ∀ q ∈ M, q ∈ X) (hnd : M.Nodup) :
    ∀ v : ScanVars, v.Found X → (pureOuter D E M v).Found X := by
  induction M with
  | nil => intro v hv; exact hv
  | cons a M ih =>
    intro v hv
    rw [pureOuter]
    have hnd' := List.nodup_cons.1 hnd
    exact ih (fun q hq => hM q (List.mem_cons_of_mem _ hq)) hnd'.2 _
      (pureInner_found D E X a M (hM a (List.mem_cons_self _ _))
        (fun q hq => hM q (List.mem_cons_of_mem _ hq)) hnd'.1 v hv)

/-! ## Frames of the pair scan -/

theorem nodeHitcentroid_frame (hs : HitStore) (h h' : Heap) (q : Nat) (c : GlobalPoint)
    (e : nodeHitcentroid hs h q = .ok (h', c)) : ∀ x, x ≠ q → h' x = h x := by
  intro x hx
  unfold nodeHitcentroid at e
  split at e
  · cases e; rfl
  · unfold recomputeHitcentroid at e
    obtain ⟨cv, hcv⟩ := hitcentroid_ok ((h q).hits_.map hs)
    rw [hcv, bind_ok] at e
    cases e
    exact Function.update_noteq hx _ _

theorem distance_frame (sqrt : ℚ → ℚ) (hs : HitStore) (h h' : Heap) (a b : Nat) (d : ℚ)
    (e : distance sqrt hs h a b = .ok (h', d)) : ∀ x, x ≠ a → x ≠ b → h' x = h x := by
  intro x hxa hxb
  obtain ⟨h1, e1, _⟩ := nodeHitcentroid_spec hs h a
  obtain ⟨h2, e2, _⟩ := nodeHitcentroid_spec hs h1 b
  unfold distance at e
  rw [e1, bind_ok] at e
  simp only [e2, bind_ok] at e
  cases e
  rw [nodeHitcentroid_frame hs h1 h' b _ e2 x hxb, nodeHitcentroid_frame hs h h1 a _ e1 x hxa]

theorem scanInner_frame (sqrt : ℚ → ℚ) (hs : HitStore) (left : Nat) (rest : List Nat) :
    ∀ st st' : ScanState, scanInner sqrt hs left rest st = .ok st' →
      ∀ x, x ≠ left → x ∉ rest → st'.heap x = st.heap x := by
  induction rest with
  | nil => intro st st' e x _ _; cases e; rfl
  | cons right rest ih =>
    intro st st' e x hxl hxr
    obtain ⟨h1, e1, _⟩ := distance_spec sqrt hs st.heap left right
    have hx1 : h1 x = st.heap x :=
      distance_frame sqrt hs st.heap h1 left right _ e1 x hxl
        (fun e => hxr (e ▸ List.mem_cons_self _ _))
    rw [scanInner, e1, bind_ok] at e
    simp only at e
    split at e
    · rw [ih _ st' e x hxl (fun hm => hxr (List.mem_cons_of_mem _ hm))]; exact hx1
    · rw [ih _ st' e x hxl (fun hm => hxr (List.mem_cons_of_mem _ hm))]; exact hx1

theorem scanOuter_frame (sqrt : ℚ → ℚ) (hs : HitStore) (M : List Nat) :
    ∀ st st' : ScanState, scanOuter sqrt hs M st = .ok st' →
      ∀ x, x ∉ M → st'.heap x = st.heap x := by
  induction M with
  | nil => intro st st' e x _; cases e; rfl
  | cons left rest ih =>
    intro st st' e x hx
    obtain ⟨st1, e1, _, _⟩ := scanInner_spec sqrt hs left rest st
    rw [scanOuter, e1, bind_ok] at e
    rw [ih st1 st' e x (fun hm => hx (List.mem_cons_of_mem _ hm))]
    exact scanInner_frame sqrt hs left rest st st1 e1 x
      (fun e => hx (e ▸ List.mem_cons_self _ _)) (fun hm => hx (List.mem_cons_of_mem _ hm))

/-! ## Relations between the states of the merge loop -/

theorem LoopRel.of_cache {hs : HitStore} {h h' : Heap} (L : Nat) (M : List Nat)
    (c : CacheOnly hs h h') (hf : ∀ x, x ∉ M → h' x = h x) : LoopRel L h M h' M := by
  have hfield : ∀ q, (h' q).children_ = (h q).children_ ∧ (h' q).hits_ = (h q).hits_ := by
    intro q; rw [(c q).1]; exact ⟨rfl, rfl⟩
  refine ⟨List.Sublist.refl _, ?_, ?_, ?_, ?_, ?_, fun hne => hne⟩
  · intro q; rw [(c q).1]; exact ⟨rfl, rfl, rfl, rfl⟩
  · intro q hq; rw [hf q hq]
  · intro q; exact Or.inl (hfield q).1
  · intro q hq hq'; exact absurd hq hq'
  · have : (M.map fun q => (h' q).hits_) = (M.map fun q => (h q).hits_) :=
      List.map_congr_left (fun q _ => (hfield q).2)
    rw [this]

theorem LoopInv.of_links {L : Nat} {h h' : Heap} {M : List Nat} (i : LoopInv L h M)
    (hl : ∀ q, (h' q).children_ = (h q).children_ ∧ (h' q).parent_ = (h q).parent_) :
    LoopInv L h' M := by
  refine ⟨i.nodup, ?_, ?_, ?_, ?_⟩
  · intro q hq; rw [(hl q).1]; exact i.leaf q hq
  · intro q hq hne; rw [(hl q).2]; exact i.parent q hq hne
  · rw [(hl L).1]; exact i.cleared
  · intro hL; rw [(hl L).2]; exact i.hasPar hL

theorem LoopRel.trans_loop {L : Nat} {h h1 h2 : Heap} {M M1 M2 : List Nat}
    (r1 : LoopRel L h M h1 M1) (r2 : LoopRel L h1 M1 h2 M2) : LoopRel L h M h2 M2 := by
  refine ⟨r2.sub.trans r1.sub, ?_, ?_, ?_, ?_, ?_, fun hne => r2.nonempty (r1.nonempty hne)⟩
  · intro q
    obtain ⟨a1, a2, a3, a4⟩ := r1.same q
    obtain ⟨b1, b2, b3, b4⟩ := r2.same q
    exact ⟨b1.trans a1, b2.trans a2, b3.trans a3, b4.trans a4⟩
  · intro q hq
    have hq1 : q ∉ M1 := fun hm => hq (r1.sub.subset hm)
    rw [r2.out q hq1, r1.out q hq]
  · intro q
    have hpar : (h1 L).parent_ = (h L).parent_ := (r1.same L).2.2.2
    rcases r1.children q with c1 | ⟨p1, l1, n1, c1⟩
    · rcases r2.children q with c2 | ⟨p2, l2, n2, c2⟩
      · exact Or.inl (c2.trans c1)
      · right
        exact ⟨hpar ▸ p2, r1.sub.subset l2, n2, by rw [c2, c1]⟩
    · right
      refine ⟨p1, l1, fun hm => n1 (r2.sub.subset hm), ?_⟩
      rcases r2.children q with c2 | ⟨_, _, _, c2⟩
      · rw [c2, c1]
      · rw [c2, c1, List.filter_filter]; simp
  · intro q hq hq2
    by_cases hq1 : q ∈ M1
    · exact r2.hitsGone q hq1 hq2
    · have := r2.out q hq1
      rw [this]
      exact r1.hitsGone q hq hq1
  · exact r2.hitsPerm.trans r1.hitsPerm

/-! ## Merging one pair -/

theorem foldl_addHit (first : Nat) (l : List Nat) :
    ∀ h : Heap, l.foldl (fun hh hit => addHit hh first hit) h
      = Function.update h first { h first with hits_ := (h first).hits_ ++ l } := by
  induction l with
  | nil =>
    intro h
    simp only [List.foldl_nil, List.append_nil]
    exact (Function.update_eq_self first h).symm
  | cons a l ih =>
    intro h
    rw [List.foldl_cons, ih]
    simp [addHit]

/-- The heap after `mergePair` on two distinct childless nodes, field by field. -/
theorem mergePair_fields (hs : HitStore) (h : Heap) (first second par : Nat)
    (hne : first ≠ second) (hkids : (h second).children_ = [])
    (hpar : (h second).parent_ = some par) :
    ∃ h', mergePair hs h first second = .ok h' ∧
      (∀ q, (h' q).trackid_ = (h q).trackid_ ∧ (h' q).energy_ = (h q).energy_ ∧
        (h' q).pdgid_ = (h q).pdgid_ ∧ (h' q).parent_ = (h q).parent_) ∧
      (∀ q, (h' q).children_ =
        if q = par then (h q).children_.filter (fun c => c != second) else (h q).children_) ∧
      (h' first).hits_ = (h first).hits_ ++ (h second).hits_ ∧
      (h' second).hits_ = [] ∧
      (∀ q, q ≠ first → q ≠ second → (h' q).hits_ = (h q).hits_) ∧
      (∀ q, q ≠ first → q ≠ second → h' q = { h q with children_ := (h' q).children_ }) ∧
      (h' first).hitcentroidCalculated_ = true ∧
      hitcentroid ((h' first).hits_.map hs) = .ok (h' first).hitcentroid_ := by
  obtain ⟨c, hc⟩ := hitcentroid_ok
    ((((h first).hits_ ++ (h second).hits_)).map hs)
  let h2 : Heap := Function.update h second { h second with children_ := [] }
  let h3 : Heap := Function.update h2 first
    { h2 first with hits_ := (h2 first).hits_ ++ (h2 second).hits_ }
  let h4 : Heap := Function.update h3 second { h3 second with hits_ := [] }
  let h5 : Heap := Function.update h4 par
    { h4 par with children_ := (h4 par).children_.filter (fun c => c != second) }
  let h6 : Heap := Function.update h5 first
    { h5 first with hitcentroid_ := c, hitcentroidCalculated_ := true }
  have e2f : h2 first = h first := Function.update_noteq hne _ _
  have e2s : h2 second = { h second with children_ := [] } := Function.update_same _ _ _
  have e3f : h3 first = { h first with hits_ := (h first).hits_ ++ (h second).hits_ } := by
    simp only [h3, Function.update_same, e2f, e2s]
  have e3s : h3 second = { h second with children_ := [] } := by
    simp only [h3]
    rw [Function.update_noteq hne.symm, e2s]
  have e4s : h4 second = { h second with children_ := [], hits_ := [] } := by
    simp only [h4, Function.update_same, e3s]
  have e4f : h4 first = { h first with hits_ := (h first).hits_ ++ (h second).hits_ } := by
    simp only [h4]
    rw [Function.update_noteq hne, e3f]
  have e4o : ∀ q, q ≠ first → q ≠ second → h4 q = h q := by
    intro q hq1 hq2
    simp only [h4, h3, h2]
    rw [Function.update_noteq hq2, Function.update_noteq hq1, Function.update_noteq hq2]
  have e4c : ∀ q, (h4 q).children_ = (h q).children_ := by
    intro q
    by_cases hq2 : q = second
    · subst hq2; rw [e4s]; exact hkids.symm
    · by_cases hq1 : q = first
      · subst hq1; rw [e4f]
      · rw [e4o q hq1 hq2]
  have e5f : (h5 first).hits_ = (h first).hits_ ++ (h second).hits_ := by
    simp only [h5, Function.update_apply]
    split
    · rename_i hq; rw [← hq, e4f]
    · rw [e4f]
  have hrun : mergePair hs h first second = .ok h6 := by
    unfold mergePair
    simp only [hkids, List.foldl_nil]
    rw [foldl_addHit]
    have hbr : break_from_parent h4 second = .ok h5 := by
      unfold break_from_parent
      rw [e4s]
      simp only [hpar]
    show (match break_from_parent h4 second with
      | Except.error e => Except.error e
      | Except.ok h5 => match recomputeHitcentroid hs h5 first with
        | Except.error e => Except.error e
        | Except.ok (h6, _) => Except.ok h6) = _
    rw [hbr]
    have hc5 : hitcentroid ((h5 first).hits_.map hs) = .ok c := by rw [e5f]; exact hc
    simp only [recomputeHitcentroid, hc5, bind_ok]
  have k6 : ∀ q, (h6 q).trackid_ = (h5 q).trackid_ ∧ (h6 q).energy_ = (h5 q).energy_ ∧
      (h6 q).pdgid_ = (h5 q).pdgid_ ∧ (h6 q).parent_ = (h5 q).parent_ ∧
      (h6 q).children_ = (h5 q).children_ ∧ (h6 q).hits_ = (h5 q).hits_ := by
    intro q
    by_cases hq : q = first
    · subst hq; simp [h6]
    · simp [h6, Function.update_noteq hq]
  have k5 : ∀ q, (h5 q).trackid_ = (h4 q).trackid_ ∧ (h5 q).energy_ = (h4 q).energy_ ∧
      (h5 q).pdgid_ = (h4 q).pdgid_ ∧ (h5 q).parent_ = (h4 q).parent_ ∧
      (h5 q).hits_ = (h4 q).hits_ ∧
      (h5 q).hitcentroid_ = (h4 q).hitcentroid_ ∧
      (h5 q).hitcentroidCalculated_ = (h4 q).hitcentroidCalculated_ ∧
      (h5 q).children_ =
        if q = par then (h4 q).children_.filter (fun c => c != second) else (h4 q).children_ := by
    intro q
    by_cases hq : q = par
    · subst hq; simp [h5]
    · simp [h5, Function.update_noteq hq, hq]
  have k4 : ∀ q, (h4 q).trackid_ = (h q).trackid_ ∧ (h4 q).energy_ = (h q).energy_ ∧
      (h4 q).pdgid_ = (h q).pdgid_ ∧ (h4 q).parent_ = (h q).parent_ := by
    intro q
    by_cases hq2 : q = second
    · subst hq2; rw [e4s]; exact ⟨rfl, rfl, rfl, rfl⟩
    · by_cases hq1 : q = first
      · subst hq1; rw [e4f]; exact ⟨rfl, rfl, rfl, rfl⟩
      · rw [e4o q hq1 hq2]; exact ⟨rfl, rfl, rfl, rfl⟩
  refine ⟨h6, hrun, ?_, ?_, ?_, ?_, ?_, ?_, ?_, ?_⟩
  · intro q
    obtain ⟨a1, a2, a3, a4, _, _⟩ := k6 q
    obtain ⟨b1, b2, b3, b4, _⟩ := k5 q
    obtain ⟨c1, c2, c3, c4⟩ := k4 q
    exact ⟨a1.trans (b1.trans c1), a2.trans (b2.trans c2), a3.trans (b3.trans c3),
      a4.trans (b4.trans c4)⟩
  · intro q
    rw [(k6 q).2.2.2.2.1, (k5 q).2.2.2.2.2.2.2, e4c]
  · rw [(k6 first).2.2.2.2.2, e5f]
  · rw [(k6 second).2.2.2.2.2, (k5 second).2.2.2.2.1, e4s]
  · intro q hq1 hq2
    rw [(k6 q).2.2.2.2.2, (k5 q).2.2.2.2.1, e4o q hq1 hq2]
  · intro q hq1 hq2
    have e6q : h6 q = h5 q := by simp only [h6]; exact Function.update_noteq hq1 _ _
    rw [e6q]
    by_cases hq : q = par
    · subst hq; simp [h5, e4o q hq1 hq2]
    · have e5q : h5 q = h4 q := by simp only [h5]; exact Function.update_noteq hq _ _
      rw [e5q, e4o q hq1 hq2]
  · simp [h6]
  · have : (h6 first).hits_ = (h first).hits_ ++ (h second).hits_ := by
      rw [(k6 first).2.2.2.2.2, e5f]
    rw [this, hc]
    simp [h6]

/-! ## Caches after a scan -/

theorem nodeHitcentroid_calc (hs : HitStore) (h h' : Heap) (q : Nat) (c : GlobalPoint)
    (e : nodeHitcentroid hs h q = .ok (h', c)) : (h' q).hitcentroidCalculated_ = true := by
  unfold nodeHitcentroid at e
  split at e
  · rename_i hc; cases e; exact hc
  · unfold recomputeHitcentroid at e
    obtain ⟨cv, hcv⟩ := hitcentroid_ok ((h q).hits_.map hs)
    rw [hcv, bind_ok] at e
    cases e
    simp

theorem CacheOnly.calc_mono {hs : HitStore} {h h' : Heap} (c : CacheOnly hs h h') (q : Nat)
    (hq : (h q).hitcentroidCalculated_ = true) : (h' q).hitcentroidCalculated_ = true := by
  rw [(c q).2.2 hq]; exact hq

theorem distance_calc (sqrt : ℚ → ℚ) (hs : HitStore) (h h' : Heap) (a b : Nat) (d : ℚ)
    (e : distance sqrt hs h a b = .ok (h', d)) :
    (h' a).hitcentroidCalculated_ = true ∧ (h' b).hitcentroidCalculated_ = true := by
  obtain ⟨h1, e1, _⟩ := nodeHitcentroid_spec hs h a
  obtain ⟨h2, e2, c2⟩ := nodeHitcentroid_spec hs h1 b
  unfold distance at e
  rw [e1, bind_ok] at e
  simp only [e2, bind_ok] at e
  cases e
  exact ⟨c2.calc_mono a (nodeHitcentroid_calc hs h h1 a _ e1),
    nodeHitcentroid_calc hs h1 h' b _ e2⟩

theorem scanInner_calc (sqrt : ℚ → ℚ) (hs : HitStore) (left : Nat) (rest : List Nat) :
    ∀ st st' : ScanState, scanInner sqrt hs left rest st = .ok st' → rest ≠ [] →
      ∀ q ∈ left :: rest, (st'.heap q).hitcentroidCalculated_ = true := by
  induction rest with
  | nil => intro st st' _ hne; exact absurd rfl hne
  | cons right rest ih =>
    intro st st' e _ q hq
    obtain ⟨h1, e1, _⟩ := distance_spec sqrt hs st.heap left right
    obtain ⟨k1, k2⟩ := distance_calc sqrt hs st.heap h1 left right _ e1
    rw [scanInner, e1, bind_ok] at e
    simp only at e
    -- the state the rest of the loop starts from has heap `h1`
    have key : ∀ st1 : ScanState, st1.heap = h1 → scanInner sqrt hs left rest st1 = .ok st' →
        (st'.heap q).hitcentroidCalculated_ = true := by
      intro st1 hst1 e'
      obtain ⟨st2, e2, c2, _⟩ := scanInner_spec sqrt hs left rest st1
      rw [e2] at e'
      cases e'
      rw [hst1] at c2
      by_cases hr : rest = []
      · subst hr
        simp only [List.mem_cons, List.mem_singleton, List.not_mem_nil, or_false] at hq
        rcases hq with rfl | rfl
        · exact c2.calc_mono _ k1
        · exact c2.calc_mono _ k2
      · rcases List.mem_cons.1 hq with rfl | hq
        · exact c2.calc_mono _ k1
        · rcases List.mem_cons.1 hq with rfl | hq
          · exact c2.calc_mono _ k2
          · exact ih st1 _ e2 hr q (List.mem_cons_of_mem _ hq)
    split at e
    · exact key _ rfl e
    · exact key _ rfl e

/-- After a pair scan a second scan over the same list would write no cache. -/
theorem scanOuter_cached (sqrt : ℚ → ℚ) (hs : HitStore) (M : List Nat) (st st' : ScanState)
    (e : scanOuter sqrt hs M st = .ok st') : Cached st'.heap M := by
  match M, e with
  | [], _ => left; simp
  | [a], _ => left; simp
  | a :: b :: M, e =>
    right
    obtain ⟨st1, e1, _, _⟩ := scanInner_spec sqrt hs a (b :: M) st
    rw [scanOuter, e1, bind_ok] at e
    obtain ⟨st2, e2, c2, _⟩ := scanOuter_spec sqrt hs (b :: M) st1
    rw [e2] at e
    cases e
    intro q hq
    exact c2.calc_mono q (scanInner_calc sqrt hs a (b :: M) st st1 e1 (by simp) q hq)

/-- A pair scan over a list that is `Cached` leaves the heap as it is. -/
theorem scanOuter_heap_eq (sqrt : ℚ → ℚ) (hs : HitStore) (M : List Nat) (st st' : ScanState)
    (hc : Cached st.heap M) (e : scanOuter sqrt hs M st = .ok st') : st'.heap = st.heap := by
  rcases hc with hlen | hall
  · match M, hlen, e with
    | [], _, e => simp only [scanOuter] at e; cases e; rfl
    | [a], _, e =>
      simp only [scanOuter, scanInner, bind_ok] at e
      cases e; rfl
  · obtain ⟨st2, e2, c2, _⟩ := scanOuter_spec sqrt hs M st
    rw [e2] at e
    cases e
    funext q
    by_cases hq : q ∈ M
    · exact (c2 q).2.2 (hall q hq)
    · exact scanOuter_frame sqrt hs M st st' e2 q hq

/-! ## One turn of the merge loop -/

/-- Moving the list of `second` to the end of the list of `first` and dropping `second`
permutes the concatenation of the lists. -/
theorem absorb_perm (M : List Nat) (hnd : M.Nodup) (first second : Nat) (hf : first ∈ M)
    (hs : second ∈ M) (hne : first ≠ second) (f f' : Nat → List Nat)
    (h1 : f' first = f first ++ f second)
    (h2 : ∀ q, q ≠ first → q ≠ second → f' q = f q) :
    (((M.filter (fun c => c != second)).map f').flatten).Perm ((M.map f).flatten) := by
  rw [← hnd.erase_eq_filter second]
  have hnd1 : (M.erase second).Nodup := hnd.erase second
  have hf1 : first ∈ M.erase second := (hnd.mem_erase_iff).2 ⟨hne, hf⟩
  have p1 : M.Perm (second :: first :: (M.erase second).erase first) :=
    (List.perm_cons_erase hs).trans (List.Perm.cons _ (List.perm_cons_erase hf1))
  have p2 : (M.erase second).Perm (first :: (M.erase second).erase first) :=
    List.perm_cons_erase hf1
  have hrest : ((M.erase second).erase first).map f' = ((M.erase second).erase first).map f := by
    refine List.map_congr_left ?_
    intro q hq
    have hq1 := (hnd1.mem_erase_iff).1 hq
    have hq2 := (hnd.mem_erase_iff).1 hq1.2
    exact h2 q hq1.1 hq2.1
  refine ((p2.map f').flatten).trans (List.Perm.trans ?_ ((p1.map f).flatten).symm)
  simp only [List.map_cons, List.flatten_cons, h1, hrest, ← List.append_assoc]
  exact List.Perm.append_right _ List.perm_append_comm

/-- One merge in the loop keeps the loop invariant and is a loop relation. -/
theorem mergePair_loop (hs : HitStore) (L : Nat) (h : Heap) (M : List Nat) (i : LoopInv L h M)
    (first second : Nat) (hf : first ∈ M) (hs2 : second ∈ M) (hne : first ≠ second) :
    ∃ h', mergePair hs h first second = .ok h' ∧
      LoopInv L h' (M.filter (fun c => c != second)) ∧
      LoopRel L h M h' (M.filter (fun c => c != second)) ∧
      (h' first).hits_ = (h first).hits_ ++ (h second).hits_ ∧
      (h' first).hitcentroidCalculated_ = true ∧
      hitcentroid ((h' first).hits_.map hs) = .ok (h' first).hitcentroid_ := by
  have hpar : ∃ par, (h second).parent_ = some par := by
    by_cases hsl : second = L
    · subst hsl; exact i.hasPar hs2
    · exact ⟨L, i.parent second hs2 hsl⟩
  obtain ⟨par, hpar⟩ := hpar
  obtain ⟨h', e, f1, f2, f3, f4, f5, f6, f7, f8⟩ :=
    mergePair_fields hs h first second par hne (i.leaf second hs2) hpar
  have hmem : ∀ q, q ∈ M.filter (fun c => c != second) ↔ q ∈ M ∧ q ≠ second := by
    intro q; simp [List.mem_filter]
  have hch : ∀ q, (h q).children_ = [] → (h' q).children_ = [] := by
    intro q hq
    rw [f2 q, hq]
    split <;> rfl
  -- when the merged-away node is not `L`, the parent written to is `L`
  have hparL : second ≠ L → par = L := by
    intro hsl
    have := i.parent second hs2 hsl
    rw [hpar] at this
    exact Option.some.inj this
  refine ⟨h', e, ?_, ?_, f3, f7, f8⟩
  · refine ⟨i.nodup.filter _, ?_, ?_, hch L i.cleared, ?_⟩
    · intro q hq; exact hch q (i.leaf q ((hmem q).1 hq).1)
    · intro q hq hqL; rw [(f1 q).2.2.2]; exact i.parent q ((hmem q).1 hq).1 hqL
    · intro hL; rw [(f1 L).2.2.2]; exact i.hasPar ((hmem L).1 hL).1
  · refine ⟨List.filter_sublist _, f1, ?_, ?_, ?_, ?_,
      fun _ => List.ne_nil_of_mem ((hmem first).2 ⟨hf, hne⟩)⟩
    · intro q hq
      exact f6 q (fun e => hq (e ▸ hf)) (fun e => hq (e ▸ hs2))
    · intro q
      rw [f2 q]
      by_cases hqp : q = par
      · rw [if_pos hqp]
        by_cases hsl : second = L
        · right
          subst hsl
          refine ⟨by rw [hpar, hqp], hs2, fun hm => ((hmem second).1 hm).2 rfl, rfl⟩
        · left
          rw [hqp, hparL hsl, i.cleared]; rfl
      · rw [if_neg hqp]; exact Or.inl rfl
    · intro q hq hq'
      have : q = second := by
        by_contra hc; exact hq' ((hmem q).2 ⟨hq, hc⟩)
      rw [this]; exact f4
    · exact absorb_perm M i.nodup first second hf hs2 hne (fun q => (h q).hits_)
        (fun q => (h' q).hits_) f3 f5

/-! ## The merge loop -/

/-- The `while(true)` loop of `merge_leafparent_Mar03` ends (the fuel it is given is
enough), keeps its invariant, and returns a list without a pair closer than `maxr`;
`didUpdate` is set exactly when a node was erased from the list. -/
theorem mergeLoop_spec (sqrt : ℚ → ℚ) (hs : HitStore) (maxr : ℚ) (L : Nat) :
    ∀ (fuel : Nat) (h : Heap) (M : List Nat) (b : Bool), LoopInv L h M → M.length < fuel →
      ∃ h' M' b', mergeLoop sqrt hs maxr fuel h M b = .ok (h', M', b') ∧
        LoopInv L h' M' ∧ LoopRel L h M h' M' ∧
        b' = (b || decide (M'.length < M.length)) ∧
        M'.Pairwise (fun x y => ¬ distOf sqrt hs h' x y < maxr) ∧ Cached h' M' := by
  intro fuel
  induction fuel with
  | zero => intro h M b _ hlt; omega
  | succ fuel ih =>
    intro h M b i hlt
    obtain ⟨st, e, c, v⟩ := scanOuter_spec sqrt hs M
      { heap := h, minr := maxr, pairToMerge := none, didUpdate := b,
        didUpdateThisIteration := false }
    have hframe := scanOuter_frame sqrt hs M _ st e
    simp only at c hframe
    have hD : distOf sqrt hs st.heap = distOf sqrt hs h := by
      funext x y; exact c.distOf_eq sqrt x y
    have hlinks : ∀ q, (st.heap q).children_ = (h q).children_ ∧
        (st.heap q).parent_ = (h q).parent_ := by
      intro q; rw [(c q).1]; exact ⟨rfl, rfl⟩
    have i1 : LoopInv L st.heap M := i.of_links hlinks
    have r1 : LoopRel L h M st.heap M := LoopRel.of_cache L M c hframe
    simp only [ScanState.vars] at v
    cases hflag : st.didUpdateThisIteration with
    | false =>
      have hv : (pureOuter (distOf sqrt hs h) (fun q => (h q).energy_) M
          ⟨maxr, none, b, false⟩).didUpdateThisIteration = false := by
        rw [← v]; exact hflag
      obtain ⟨u1, u2⟩ := pureOuter_unchanged _ _ M _ hv
      rw [u1] at v
      have hb : st.didUpdate = b := congrArg ScanVars.didUpdate v
      refine ⟨st.heap, M, b, ?_, i1, r1, by simp, ?_, scanOuter_cached sqrt hs M _ st e⟩
      · rw [mergeLoop, e, bind_ok]
        simp [hflag, hb]
      · rw [hD]; exact u2
    | true =>
      have hfound : (ScanVars.mk st.minr st.pairToMerge st.didUpdate
          st.didUpdateThisIteration).Found M := by
        rw [v]
        refine pureOuter_found _ _ M M (fun q hq => hq) i.nodup _ ?_
        intro hcon; cases hcon
      obtain ⟨hd, first, second, hp, hf, hs2, hne⟩ := hfound hflag
      simp only at hd hp
      obtain ⟨h6, e6, i6, r6, _⟩ := mergePair_loop hs L st.heap M i1 first second hf hs2 hne
      have hlen : (M.filter (fun c => c != second)).length < M.length := by
        exact (List.length_filter_lt_length_iff_exists (p := fun c => c != second)).2
          ⟨second, hs2, by simp⟩
      obtain ⟨h', M', b', e', i', r', hb', hp', hc'⟩ :=
        ih h6 (M.filter (fun c => c != second)) st.didUpdate i6 (by omega)
      refine ⟨h', M', b', ?_, i', (r1.trans_loop r6).trans_loop r', ?_, hp', hc'⟩
      · rw [mergeLoop, e, bind_ok]
        simp only [hflag, Bool.not_true, Bool.false_eq_true, if_false, hp, e6]
        exact e'
      · rw [hb', hd]
        have : M'.length < M.length := lt_of_le_of_lt r'.sub.length_le hlen
        simp [this]

/-- The hits of the mergeable nodes after one merge of the loop of
`merge_leafparent_Mar03`: the first node of the pair has those of both, the others keep
theirs. -/
theorem mergeTurn_hits (hs : HitStore) (L : Nat) (g : Heap) (M : List Nat) (i : LoopInv L g M)
    (first second : Nat) (hs2 : second ∈ M) (hne : first ≠ second)
    (h6 : Heap) (e6 : mergePair hs g first second = .ok h6) :
    ∀ q, q ≠ second → (g q).hits_ ≠ [] → (h6 q).hits_ ≠ [] := by
  have hpar : ∃ par, (g second).parent_ = some par := by
    by_cases hsl : second = L
    · subst hsl; exact i.hasPar hs2
    · exact ⟨L, i.parent second hs2 hsl⟩
  obtain ⟨par, hpar⟩ := hpar
  obtain ⟨h6', e6', _, _, f3, _, f5, _⟩ :=
    mergePair_fields hs g first second par hne (i.leaf second hs2) hpar
  rw [e6] at e6'
  cases e6'
  intro q hq hh
  by_cases hqf : q = first
  · subst hqf
    rw [f3]
    intro hcon
    exact hh (List.append_eq_nil.1 hcon).1
  · rw [f5 q hqf hq]; exact hh

/-- The loop of `merge_leafparent_Mar03` only erases nodes from the mergeable list, and a
node that stays in the list and had a hit has one afterwards. -/
theorem mergeLoop_keeps_hits (sqrt : ℚ → ℚ) (hs : HitStore) (maxr : ℚ) (L : Nat) :
    ∀ (fuel : Nat) (h : Heap) (M : List Nat) (b : Bool) (h' : Heap) (M' : List Nat) (b' : Bool),
      LoopInv L h M → mergeLoop sqrt hs maxr fuel h M b = .ok (h', M', b') →
      M'.Sublist M ∧ ∀ q ∈ M', (h q).hits_ ≠ [] → (h' q).hits_ ≠ [] := by
  intro fuel
  induction fuel with
  | zero => intro h M b h' M' b' _ e; simp [mergeLoop] at e
  | succ fuel ih =>
    intro h M b h' M' b' i e
    obtain ⟨st, es, c, v⟩ := scanOuter_spec sqrt hs M
      { heap := h, minr := maxr, pairToMerge := none, didUpdate := b,
        didUpdateThisIteration := false }
    simp only at c
    have hfields : ∀ q, (st.heap q).hits_ = (h q).hits_ := by
      intro q; rw [(c q).1]
    have hlinks : ∀ q, (st.heap q).children_ = (h q).children_ ∧
        (st.heap q).parent_ = (h q).parent_ := by
      intro q; rw [(c q).1]; exact ⟨rfl, rfl⟩
    have i1 : LoopInv L st.heap M := i.of_links hlinks
    simp only [ScanState.vars] at v
    rw [mergeLoop, es, bind_ok] at e
    cases hflag : st.didUpdateThisIteration with
    | false =>
      simp only [hflag, Bool.not_false, if_true] at e
      have e' := Except.ok.inj e
      have e1 : st.heap = h' := congrArg Prod.fst e'
      have e2 : M = M' := congrArg (fun x => x.2.1) e'
      subst e1; subst e2
      exact ⟨List.Sublist.refl _, fun q _ hq => by rw [hfields]; exact hq⟩
    | true =>
      have hfound : (ScanVars.mk st.minr st.pairToMerge st.didUpdate
          st.didUpdateThisIteration).Found M := by
        rw [v]
        refine pureOuter_found _ _ M M (fun q hq => hq) i.nodup _ ?_
        intro hcon; cases hcon
      obtain ⟨_, first, second, hp, _, hs2, hne⟩ := hfound hflag
      simp only at hp
      obtain ⟨h6, e6, i6, _⟩ := mergePair_loop hs L st.heap M i1 first second
        (by assumption) hs2 hne
      simp only [hflag, Bool.not_true, Bool.false_eq_true, if_false, hp, e6] at e
      obtain ⟨hsub, hh⟩ := ih h6 _ st.didUpdate h' M' b' i6 e
      refine ⟨hsub.trans (List.filter_sublist _), ?_⟩
      intro q hq hne0
      have hqf := hsub.subset hq
      have hq2 : q ≠ second := by
        have := (List.mem_filter.1 hqf).2
        simpa using this
      refine hh q hq ?_
      exact mergeTurn_hits hs L st.heap M i1 first second hs2 hne h6 e6 q hq2
        (by rw [hfields]; exact hne0)

/-! ## `merge_leafparent_Mar03` on the root -/

theorem centroidOf_congr (hs : HitStore) (h h' : Heap) (q : Nat)
    (e : (h' q).hits_ = (h q).hits_ ∧ (h' q).hitcentroid_ = (h q).hitcentroid_ ∧
      (h' q).hitcentroidCalculated_ = (h q).hitcentroidCalculated_) :
    centroidOf hs h' q = centroidOf hs h q := by
  unfold centroidOf
  rw [e.1, e.2.1, e.2.2]

theorem distOf_congr (sqrt : ℚ → ℚ) (hs : HitStore) (h h' : Heap)
    (e : ∀ q, (h' q).hits_ = (h q).hits_ ∧ (h' q).hitcentroid_ = (h q).hitcentroid_ ∧
      (h' q).hitcentroidCalculated_ = (h q).hitcentroidCalculated_) :
    distOf sqrt hs h' = distOf sqrt hs h := by
  funext a b
  unfold distOf
  rw [centroidOf_congr hs h h' a (e a), centroidOf_congr hs h h' b (e b)]

theorem LeafParent.loopInv_root {h : Heap} {L : Nat} {cs : List Nat} (lp : LeafParent h L cs) :
    LoopInv L (Function.update h L { h L with children_ := [] }) cs := by
  have hq : ∀ q ∈ cs, Function.update h L { h L with children_ := [] } q = h q := by
    intro q hq
    have hne : q ≠ L := fun e => lp.notSelf (e ▸ hq)
    exact Function.update_noteq hne _ _
  refine ⟨lp.nodup, ?_, ?_, by simp, fun hL => absurd hL lp.notSelf⟩
  · intro q hm; rw [hq q hm]; exact lp.leaf q hm
  · intro q hm _; rw [hq q hm]; exact lp.parent q hm

/-- `merge_leafparent_Mar03` on a leaf parent without parent: it returns; the children
of the node become a sublist `M` of the former children, nothing else but hits and
caches of the children is written, the hits of the children are conserved, no pair
of `M` is closer than `maxr`, and the value returned tells whether a node was merged
away. -/
theorem merge_leafparent_root (sqrt : ℚ → ℚ) (hs : HitStore) (h : Heap) (L : Nat)
    (cs : List Nat) (maxr : ℚ) (lp : LeafParent h L cs) (hroot : (h L).parent_ = none) :
    ∃ h' M, merge_leafparent_Mar03 sqrt hs h L maxr = .ok (h', decide (M.length < cs.length)) ∧
      M.Sublist cs ∧ M ≠ [] ∧
      h' L = { h L with children_ := M } ∧
      (∀ q, (h' q).trackid_ = (h q).trackid_ ∧ (h' q).energy_ = (h q).energy_ ∧
        (h' q).pdgid_ = (h q).pdgid_ ∧ (h' q).parent_ = (h q).parent_) ∧
      (∀ q, q ≠ L → (h' q).children_ = (h q).children_) ∧
      (∀ q, q ∉ cs → q ≠ L → h' q = h q) ∧
      (∀ q ∈ cs, q ∉ M → (h' q).hits_ = []) ∧
      ((M.map fun q => (h' q).hits_).flatten).Perm ((cs.map fun q => (h q).hits_).flatten) ∧
      M.Pairwise (fun x y => ¬ distOf sqrt hs h' x y < maxr) ∧ Cached h' M ∧
      (∀ q ∈ M, (h q).hits_ ≠ [] → (h' q).hits_ ≠ []) := by
  let h1 : Heap := Function.update h L { h L with children_ := [] }
  have hL1 : h1 L = { h L with children_ := [] } := Function.update_same _ _ _
  have hq1 : ∀ q, q ≠ L → h1 q = h q := fun q hq => Function.update_noteq hq _ _
  obtain ⟨h2, M, b', e, i2, r2, hb, hp, hcached⟩ :=
    mergeLoop_spec sqrt hs maxr L (cs.length + 1) h1 cs false lp.loopInv_root (by omega)
  have hkeep := (mergeLoop_keeps_hits sqrt hs maxr L (cs.length + 1) h1 cs false h2 M b'
    lp.loopInv_root e).2
  have hch2 : ∀ q, (h2 q).children_ = (h1 q).children_ := by
    intro q
    rcases r2.children q with c | ⟨_, hL, _⟩
    · exact c
    · exact absurd hL lp.notSelf
  have hout2 : ∀ q, q ∉ cs → h2 q = h1 q := by
    intro q hq
    rw [r2.out q hq, hch2 q]
  let h' : Heap := Function.update h2 L { h2 L with children_ := M }
  have hL' : h' L = { h L with children_ := M } := by
    simp only [h', Function.update_same, hout2 L lp.notSelf, hL1]
  have hq' : ∀ q, q ≠ L → h' q = h2 q := fun q hq => Function.update_noteq hq _ _
  have hrun : merge_leafparent_Mar03 sqrt hs h L maxr
      = .ok (h', decide (M.length < cs.length)) := by
    unfold merge_leafparent_Mar03
    have hpar1 : hasParent h1 L = false := by simp [hasParent, hL1, hroot]
    have hpar2 : hasParent h2 L = false := by
      simp [hasParent, (r2.same L).2.2.2, hL1, hroot]
    simp only [lp.children]
    show (mergeLoop sqrt hs maxr
      ((if (hasParent h1 L && hasHits h1 L) = true then cs ++ [L] else cs).length + 1) h1
      (if (hasParent h1 L && hasHits h1 L) = true then cs ++ [L] else cs) false >>= _) = _
    simp only [hpar1, Bool.false_and, Bool.false_eq_true, if_false]
    rw [e, bind_ok]
    simp only [hpar2, Bool.not_false, if_true]
    rw [hb]
    simp
  refine ⟨h', M, hrun, r2.sub, r2.nonempty lp.nonempty, hL', ?_, ?_, ?_, ?_, ?_, ?_, ?_, ?_⟩
  rotate_right
  · intro q hq hne
    have hqL : q ≠ L := fun e => lp.notSelf (e ▸ r2.sub.subset hq)
    rw [hq' q hqL]
    refine hkeep q hq ?_
    rw [hq1 q hqL]; exact hne
  rotate_right
  · rcases hcached with hc | hc
    · exact Or.inl hc
    · right
      intro q hq
      rw [hq' q (fun e => lp.notSelf (e ▸ r2.sub.subset hq))]
      exact hc q hq
  · intro q
    by_cases hq : q = L
    · subst hq; rw [hL']; exact ⟨rfl, rfl, rfl, rfl⟩
    · rw [hq' q hq]
      obtain ⟨a1, a2, a3, a4⟩ := r2.same q
      rw [hq1 q hq] at a1 a2 a3 a4
      exact ⟨a1, a2, a3, a4⟩
  · intro q hq
    rw [hq' q hq, hch2 q, hq1 q hq]
  · intro q hqc hq
    rw [hq' q hq, hout2 q hqc, hq1 q hq]
  · intro q hqc hqM
    have hqL : q ≠ L := fun e => lp.notSelf (e ▸ hqc)
    rw [hq' q hqL]
    exact r2.hitsGone q hqc hqM
  · have e1 : (M.map fun q => (h' q).hits_) = (M.map fun q => (h2 q).hits_) := by
      refine List.map_congr_left (fun q hq => ?_)
      rw [hq' q (fun e => lp.notSelf (e ▸ r2.sub.subset hq))]
    have e2 : (cs.map fun q => (h1 q).hits_) = (cs.map fun q => (h q).hits_) := by
      refine List.map_congr_left (fun q hq => ?_)
      rw [hq1 q (fun e => lp.notSelf (e ▸ hq))]
    rw [e1, ← e2]
    exact r2.hitsPerm
  · have : distOf sqrt hs h' = distOf sqrt hs h2 := by
      refine distOf_congr sqrt hs h2 h' ?_
      intro q
      by_cases hq : q = L
      · subst hq; simp [h']
      · rw [hq' q hq]; exact ⟨rfl, rfl, rfl⟩
    rw [this]; exact hp

/-! ## `merge_leafparent_Mar03` below the root -/

/-- The loop `for (auto child : l) { parent->addChild(child); child->setParent(parent); }`,
node by node. -/
theorem foldl_attach (P : Nat) (l : List Nat) :
    ∀ (h : Heap) (q : Nat),
      (l.foldl (fun hh child => setParent (addChild hh P child) child P) h) q
        = { h q with
            children_ := if q = P then (h q).children_ ++ l else (h q).children_,
            parent_ := if q ∈ l then some P else (h q).parent_ } := by
  induction l with
  | nil => intro h q; simp
  | cons c l ih =>
    intro h q
    rw [List.foldl_cons, ih]
    by_cases hqc : q = c <;> by_cases hqP : q = P <;> by_cases hql : q ∈ l <;>
      simp [setParent, addChild, Function.update_apply, hqc, hqP, hql] <;>
      simp_all

theorem inheritPdgid_spec (h : Heap) (L : Nat) (M : List Nat) :
    ∀ q, inheritPdgid h L M q = { h q with pdgid_ := (inheritPdgid h L M q).pdgid_ } ∧
      (q ∉ M → inheritPdgid h L M q = h q) := by
  intro q
  unfold inheritPdgid
  split
  · rename_i m0
    split
    · by_cases hq : q = m0
      · subst hq; simp
      · simp [Function.update_noteq hq, hq]
    · exact ⟨rfl, fun _ => rfl⟩
  · exact ⟨rfl, fun _ => rfl⟩

theorem LeafParent.loopInv_inner {h : Heap} {L P0 : Nat} {cs : List Nat}
    (lp : LeafParent h L cs) (hpar : (h L).parent_ = some P0) (M0 : List Nat)
    (hM0 : M0 = cs ∨ M0 = cs ++ [L]) :
    LoopInv L (Function.update h L { h L with children_ := [] }) M0 := by
  have hq : ∀ q ∈ cs, Function.update h L { h L with children_ := [] } q = h q := by
    intro q hq
    have hne : q ≠ L := fun e => lp.notSelf (e ▸ hq)
    exact Function.update_noteq hne _ _
  have hmem : ∀ q ∈ M0, q ∈ cs ∨ q = L := by
    intro q hm
    rcases hM0 with rfl | rfl
    · exact Or.inl hm
    · simpa using hm
  refine ⟨?_, ?_, ?_, by simp, fun _ => ⟨P0, by simp [hpar]⟩⟩
  · rcases hM0 with rfl | rfl
    · exact lp.nodup
    · exact List.nodup_append.2 ⟨lp.nodup, List.nodup_singleton L, by
        intro a ha hb
        rw [List.mem_singleton] at hb
        exact lp.notSelf (hb ▸ ha)⟩
  · intro q hm
    rcases hmem q hm with hc | rfl
    · rw [hq q hc]; exact lp.leaf q hc
    · simp
  · intro q hm hne
    rcases hmem q hm with hc | rfl
    · rw [hq q hc]; exact lp.parent q hc
    · exact absurd rfl hne

/-- `merge_leafparent_Mar03` on a leaf parent `L` with parent `P0`: it returns `true`;
`L` leaves the children of `P0` and a sublist `M` of the children of `L`, followed by `L`
when `L` has hits, is appended to them, with `P0` as parent; apart from that only hits,
caches and particle types of these nodes are written, and their hits are conserved. -/
theorem merge_leafparent_inner (sqrt : ℚ → ℚ) (hs : HitStore) (h : Heap) (L P0 : Nat)
    (cs A B : List Nat) (maxr : ℚ) (lp : LeafParent h L cs) (hpar : (h L).parent_ = some P0)
    (hch : (h P0).children_ = A ++ L :: B) (hLA : L ∉ A) (hLB : L ∉ B) (hP0 : P0 ≠ L)
    (hP0cs : P0 ∉ cs) :
    ∃ h' M, merge_leafparent_Mar03 sqrt hs h L maxr = .ok (h', true) ∧
      M.Sublist (cs ++ [L]) ∧ M ≠ [] ∧ M.Nodup ∧
      h' P0 = { h P0 with children_ := A ++ B ++ M } ∧
      (∀ q ∈ M, (h' q).parent_ = some P0 ∧ (h' q).children_ = []) ∧
      (h' L).children_ = [] ∧
      (∀ q, (h' q).trackid_ = (h q).trackid_ ∧ (h' q).energy_ = (h q).energy_) ∧
      (∀ q, q ∉ cs → q ≠ L → q ≠ P0 → h' q = h q) ∧
      (∀ q ∈ L :: cs, q ∉ M → (h' q).hits_ = []) ∧
      ((M.map fun q => (h' q).hits_).flatten).Perm
        (((L :: cs).map fun q => (h q).hits_).flatten) ∧
      M.Pairwise (fun x y => ¬ distOf sqrt hs h' x y < maxr) ∧
      (∀ q ∈ M, (h q).hits_ ≠ [] → (h' q).hits_ ≠ []) ∧
      (L ∈ M → (h L).hits_ ≠ []) ∧
      (∀ q, q ∉ M → (h' q).parent_ = (h q).parent_) := by
  let h1 : Heap := Function.update h L { h L with children_ := [] }
  have hL1 : h1 L = { h L with children_ := [] } := Function.update_same _ _ _
  have hq1 : ∀ q, q ≠ L → h1 q = h q := fun q hq => Function.update_noteq hq _ _
  have hhits1 : ∀ q, (h1 q).hits_ = (h q).hits_ := by
    intro q
    by_cases hq : q = L
    · subst hq; rw [hL1]
    · rw [hq1 q hq]
  have hpar1 : hasParent h1 L = true := by simp [hasParent, hL1, hpar]
  have hhit1 : hasHits h1 L = hasHits h L := by simp [hasHits, nhits, hhits1]
  let M0 : List Nat := if (hasParent h1 L && hasHits h1 L) = true then cs ++ [L] else cs
  have hM0 : M0 = cs ∨ M0 = cs ++ [L] := by
    simp only [M0]; split
    · exact Or.inr rfl
    · exact Or.inl rfl
  have hM0sub : M0.Sublist (cs ++ [L]) := by
    rcases hM0 with e | e <;> rw [e]
    exact List.sublist_append_left _ _
  have hM0mem : ∀ q ∈ M0, q ∈ cs ∨ q = L := by
    intro q hm
    have := hM0sub.subset hm
    simpa using this
  have hM0ne : M0 ≠ [] := by
    rcases hM0 with e | e <;> rw [e]
    · exact lp.nonempty
    · simp
  have hlen : M0.length ≤ cs.length + 1 := by
    have := hM0sub.length_le
    simpa using this
  obtain ⟨h2, M, b', e, i2, r2, _, hpw2, _⟩ :=
    mergeLoop_spec sqrt hs maxr L (M0.length + 1) h1 M0 false
      (lp.loopInv_inner hpar M0 hM0) (by omega)
  have hkeep := (mergeLoop_keeps_hits sqrt hs maxr L (M0.length + 1) h1 M0 false h2 M b'
    (lp.loopInv_inner hpar M0 hM0) e).2
  have hMmem : ∀ q ∈ M, q ∈ cs ∨ q = L := fun q hq => hM0mem q (r2.sub.subset hq)
  have hP0M0 : P0 ∉ M0 := by
    intro hm
    rcases hM0mem P0 hm with hc | hc
    · exact hP0cs hc
    · exact hP0 hc
  have hP0M : P0 ∉ M := fun hm => hP0M0 (r2.sub.subset hm)
  -- the particle type special case
  let h3 : Heap := inheritPdgid h2 L M
  have h3eq : ∀ q, h3 q = { h2 q with pdgid_ := (h3 q).pdgid_ } ∧ (q ∉ M → h3 q = h2 q) :=
    inheritPdgid_spec h2 L M
  have hpar3 : (h3 L).parent_ = some P0 := by
    rw [(h3eq L).1]
    show (h2 L).parent_ = some P0
    rw [(r2.same L).2.2.2, hL1]; exact hpar
  -- the children of `P0` before `L` is broken from it
  have hch2 : (h2 P0).children_ = A ++ L :: B ∨ (h2 P0).children_ = A ++ B := by
    have h1P : (h1 P0).children_ = A ++ L :: B := by rw [hq1 P0 hP0]; exact hch
    rcases r2.children P0 with c | ⟨_, _, _, c⟩
    · left; rw [c, h1P]
    · right; rw [c, h1P, filter_ne_middle' A B L hLA hLB]
  have hfil : (h3 P0).children_.filter (fun c => c != L) = A ++ B := by
    rw [(h3eq P0).1]
    show (h2 P0).children_.filter (fun c => c != L) = A ++ B
    rcases hch2 with c | c
    · rw [c, filter_ne_middle' A B L hLA hLB]
    · rw [c, List.filter_eq_self]
      intro a ha
      simp only [bne_iff_ne, ne_eq]
      rintro rfl
      rcases List.mem_append.1 ha with ha | ha
      · exact hLA ha
      · exact hLB ha
  let h4 : Heap := Function.update h3 P0 { h3 P0 with children_ := A ++ B }
  have hbreak : break_from_parent h3 L = .ok h4 := by
    simp only [break_from_parent, hpar3, hfil]
  let h' : Heap := M.foldl (fun hh child => setParent (addChild hh P0 child) child P0) h4
  have hrun : merge_leafparent_Mar03 sqrt hs h L maxr = .ok (h', true) := by
    unfold merge_leafparent_Mar03
    simp only [lp.children]
    show (mergeLoop sqrt hs maxr (M0.length + 1) h1 M0 false >>= _) = _
    rw [e, bind_ok]
    have hpar2 : hasParent h2 L = true := by
      simp [hasParent, (r2.same L).2.2.2, hL1, hpar]
    simp only [hpar2, Bool.not_true, Bool.false_eq_true, if_false]
    show (match (h3 L).parent_ with
      | none => Except.error Fault.undefinedBehaviour
      | some parent => break_from_parent h3 L >>= fun h4 =>
          Except.ok (M.foldl (fun hh child => setParent (addChild hh parent child) child parent) h4,
            true)) = _
    rw [hpar3]
    simp only [hbreak, bind_ok]
  have h4P : h4 P0 = { h3 P0 with children_ := A ++ B } := Function.update_same _ _ _
  have h4q : ∀ q, q ≠ P0 → h4 q = h3 q := fun q hq => Function.update_noteq hq _ _
  have hfin : ∀ q, h' q = { h4 q with
      children_ := if q = P0 then (h4 q).children_ ++ M else (h4 q).children_,
      parent_ := if q ∈ M then some P0 else (h4 q).parent_ } := foldl_attach P0 M h4
  have h2out : ∀ q, q ∉ M0 → q ≠ P0 → h2 q = h1 q := by
    intro q hq hqP
    rw [r2.out q hq]
    rcases r2.children q with c | ⟨hp, _⟩
    · rw [c]
    · rw [hL1] at hp
      exact absurd (Option.some.inj (hpar.symm.trans hp)).symm hqP
  have hhits' : ∀ q, (h' q).hits_ = (h2 q).hits_ := by
    intro q
    rw [hfin q]
    show (h4 q).hits_ = _
    by_cases hq : q = P0
    · subst hq; rw [h4P]; show (h3 q).hits_ = _; rw [(h3eq q).1]
    · rw [h4q q hq, (h3eq q).1]
  have hcache' : ∀ q, (h' q).hits_ = (h2 q).hits_ ∧ (h' q).hitcentroid_ = (h2 q).hitcentroid_ ∧
      (h' q).hitcentroidCalculated_ = (h2 q).hitcentroidCalculated_ := by
    intro q
    rw [hfin q]
    show (h4 q).hits_ = _ ∧ (h4 q).hitcentroid_ = _ ∧ (h4 q).hitcentroidCalculated_ = _
    by_cases hq : q = P0
    · subst hq; rw [h4P]
      show (h3 q).hits_ = _ ∧ (h3 q).hitcentroid_ = _ ∧ (h3 q).hitcentroidCalculated_ = _
      rw [(h3eq q).1]
      exact ⟨rfl, rfl, rfl⟩
    · rw [h4q q hq, (h3eq q).1]
      exact ⟨rfl, rfl, rfl⟩
  have hpw' : M.Pairwise (fun x y => ¬ distOf sqrt hs h' x y < maxr) := by
    rw [distOf_congr sqrt hs h2 h' hcache']
    exact hpw2
  have hkeep' : ∀ q ∈ M, (h q).hits_ ≠ [] → (h' q).hits_ ≠ [] := by
    intro q hq hne
    rw [hhits' q]
    refine hkeep q hq ?_
    rw [hhits1]; exact hne
  have hLM : L ∈ M → (h L).hits_ ≠ [] := by
    intro hm
    have hm0 : L ∈ M0 := r2.sub.subset hm
    have hcond : hasHits h L = true := by
      by_contra hcon
      have : M0 = cs := by
        simp only [M0, hpar1, hhit1, Bool.true_and]
        rw [if_neg hcon]
      rw [this] at hm0
      exact lp.notSelf hm0
    exact (hasHits_iff h L).1 hcond
  have hparM : ∀ q, q ∉ M → (h' q).parent_ = (h q).parent_ := by
    intro q hq
    rw [hfin q]
    simp only [if_neg hq]
    have e4 : (h4 q).parent_ = (h3 q).parent_ := by
      by_cases hqP : q = P0
      · subst hqP; rw [h4P]
      · rw [h4q q hqP]
    have e3 : (h3 q).parent_ = (h2 q).parent_ := by
      rw [(h3eq q).1]
    have e1 : (h1 q).parent_ = (h q).parent_ := by
      by_cases hqL : q = L
      · subst hqL; rw [hL1]
      · rw [hq1 q hqL]
    exact e4.trans (e3.trans ((r2.same q).2.2.2.trans e1))
  refine ⟨h', M, hrun, r2.sub.trans hM0sub, r2.nonempty hM0ne, i2.nodup, ?_, ?_, ?_, ?_, ?_, ?_, ?_,
    hpw', hkeep', hLM, hparM⟩
  · rw [hfin P0, h4P, (h3eq P0).2 hP0M]
    simp only [if_true, if_neg hP0M]
    have : h2 P0 = { h1 P0 with children_ := (h2 P0).children_ } := r2.out P0 hP0M0
    rw [this, hq1 P0 hP0]
  · intro q hq
    have hqP : q ≠ P0 := fun e => hP0M (e ▸ hq)
    rw [hfin q]
    simp only [if_pos hq, if_neg hqP, true_and]
    rw [h4q q hqP, (h3eq q).1]
    exact i2.leaf q hq
  · have hLP : L ≠ P0 := hP0.symm
    rw [hfin L]
    simp only [if_neg hLP]
    rw [h4q L hLP, (h3eq L).1]
    exact i2.cleared
  · intro q
    have e4 : (h4 q).trackid_ = (h3 q).trackid_ ∧ (h4 q).energy_ = (h3 q).energy_ := by
      by_cases hq : q = P0
      · subst hq; rw [h4P]; exact ⟨rfl, rfl⟩
      · rw [h4q q hq]; exact ⟨rfl, rfl⟩
    have e3 : (h3 q).trackid_ = (h2 q).trackid_ ∧ (h3 q).energy_ = (h2 q).energy_ := by
      rw [(h3eq q).1]; exact ⟨rfl, rfl⟩
    have e1 : (h1 q).trackid_ = (h q).trackid_ ∧ (h1 q).energy_ = (h q).energy_ := by
      by_cases hq : q = L
      · subst hq; rw [hL1]; exact ⟨rfl, rfl⟩
      · rw [hq1 q hq]; exact ⟨rfl, rfl⟩
    rw [hfin q]
    exact ⟨e4.1.trans (e3.1.trans ((r2.same q).1.trans e1.1)),
      e4.2.trans (e3.2.trans ((r2.same q).2.1.trans e1.2))⟩
  · intro q hqc hqL hqP
    have hqM0 : q ∉ M0 := fun hm => by
      rcases hM0mem q hm with hc | hc
      · exact hqc hc
      · exact hqL hc
    have hqM : q ∉ M := fun hm => hqM0 (r2.sub.subset hm)
    rw [hfin q]
    simp only [if_neg hqP, if_neg hqM]
    rw [h4q q hqP, (h3eq q).2 hqM, h2out q hqM0 hqP, hq1 q hqL]
  · intro q hq hqM
    rw [hhits' q]
    by_cases hqM0 : q ∈ M0
    · exact r2.hitsGone q hqM0 hqM
    · -- `q` is `L`, which has no hits
      have hqL : q = L := by
        rcases List.mem_cons.1 hq with hc | hc
        · exact hc
        · exfalso
          apply hqM0
          rcases hM0 with e0 | e0 <;> rw [e0]
          · exact hc
          · exact List.mem_append_left _ hc
      subst hqL
      have hnh : hasHits h q = false := by
        by_contra hcon
        apply hqM0
        simp only [M0, hpar1, hhit1, Bool.true_and]
        rw [if_pos (by simpa using hcon)]
        simp
      rw [r2.out q hqM0]
      show (h1 q).hits_ = []
      rw [hhits1]
      by_contra hne
      rw [(hasHits_iff h q).2 hne] at hnh
      cases hnh
  · have e1 : (M.map fun q => (h' q).hits_) = (M.map fun q => (h2 q).hits_) :=
      List.map_congr_left (fun q _ => hhits' q)
    have e2 : (M0.map fun q => (h1 q).hits_) = (M0.map fun q => (h q).hits_) :=
      List.map_congr_left (fun q _ => hhits1 q)
    rw [e1]
    refine r2.hitsPerm.trans ?_
    rw [e2]
    by_cases hhL : hasHits h L = true
    · have : M0 = cs ++ [L] := by
        simp only [M0, hpar1, hhit1, hhL, Bool.true_and, if_true]
      rw [this]
      refine List.Perm.flatten (List.Perm.map _ ?_)
      exact List.perm_append_comm
    · have hM0cs : M0 = cs := by
        simp only [M0, hpar1, hhit1, Bool.true_and]
        rw [if_neg hhL]
      have hnil : (h L).hits_ = [] := by
        by_contra hne
        exact hhL ((hasHits_iff h L).2 hne)
      rw [hM0cs]
      simp [hnil]

/-! ## `merge_leafparent_Mar03` on a settled root -/

theorem update_children_self (h : Heap) (L : Nat) (cs : List Nat) (hc : (h L).children_ = cs) :
    Function.update (Function.update h L { h L with children_ := [] }) L
      { Function.update h L { h L with children_ := [] } L with children_ := cs } = h := by
  funext q
  by_cases hq : q = L
  · subst hq
    simp only [Function.update_same]
    rw [← hc]
  · simp [Function.update_noteq hq]

/-- On a root whose children hold no pair closer than `maxr` and whose scan would write
no cache, `merge_leafparent_Mar03` returns `false` and the heap it was given. -/
theorem merge_leafparent_root_settled (sqrt : ℚ → ℚ) (hs : HitStore) (h : Heap) (L : Nat)
    (cs : List Nat) (maxr : ℚ) (lp : LeafParent h L cs) (hroot : (h L).parent_ = none)
    (hset : cs.Pairwise (fun x y => ¬ distOf sqrt hs h x y < maxr)) (hc : Cached h cs) :
    merge_leafparent_Mar03 sqrt hs h L maxr = .ok (h, false) := by
  let h1 : Heap := Function.update h L { h L with children_ := [] }
  have hL1 : h1 L = { h L with children_ := [] } := Function.update_same _ _ _
  have hq1 : ∀ q, q ≠ L → h1 q = h q := fun q hq => Function.update_noteq hq _ _
  have hD : distOf sqrt hs h1 = distOf sqrt hs h := by
    refine distOf_congr sqrt hs h h1 ?_
    intro q
    by_cases hq : q = L
    · subst hq; rw [hL1]; exact ⟨rfl, rfl, rfl⟩
    · rw [hq1 q hq]; exact ⟨rfl, rfl, rfl⟩
  have hc1 : Cached h1 cs := by
    rcases hc with hc | hc
    · exact Or.inl hc
    · right
      intro q hq
      rw [hq1 q (fun e => lp.notSelf (e ▸ hq))]
      exact hc q hq
  obtain ⟨st, e, _, v⟩ := scanOuter_spec sqrt hs cs
    { heap := h1, minr := maxr, pairToMerge := none, didUpdate := false,
      didUpdateThisIteration := false }
  have hheap : st.heap = h1 := scanOuter_heap_eq sqrt hs cs _ st hc1 e
  simp only [ScanState.vars, hD] at v
  rw [pureOuter_noclose _ _ cs _ hset] at v
  have hflag : st.didUpdateThisIteration = false := congrArg ScanVars.didUpdateThisIteration v
  have hdid : st.didUpdate = false := congrArg ScanVars.didUpdate v
  have hloop : mergeLoop sqrt hs maxr (cs.length + 1) h1 cs false = .ok (h1, cs, false) := by
    rw [mergeLoop, e, bind_ok]
    simp [hflag, hdid, hheap]
  unfold merge_leafparent_Mar03
  have hpar1 : hasParent h1 L = false := by simp [hasParent, hL1, hroot]
  simp only [lp.children]
  show (mergeLoop sqrt hs maxr
    ((if (hasParent h1 L && hasHits h1 L) = true then cs ++ [L] else cs).length + 1) h1
    (if (hasParent h1 L && hasHits h1 L) = true then cs ++ [L] else cs) false >>= _) = _
  simp only [hpar1, Bool.false_and, Bool.false_eq_true, if_false]
  rw [hloop, bind_ok]
  simp only [hpar1, Bool.not_false, if_true]
  rw [update_children_self h L cs lp.children]

/-! ## Leaves and leaf parents of a forest -/

theorem Forest.isNil_iff (F : Forest) : F.isNil = true ↔ F = .nil := by
  cases F <;> simp [Forest.isNil]

theorem Forest.leaves_roots (l : List Nat) : (Forest.leaves l).roots = l := by
  induction l with
  | nil => rfl
  | cons a l ih => simp [Forest.leaves, Forest.roots, ih]

theorem Forest.leaves_nodes (l : List Nat) : (Forest.leaves l).nodes = l := by
  induction l with
  | nil => rfl
  | cons a l ih => simp [Forest.leaves, Forest.nodes, ih]

theorem Forest.leaves_isLeaves (l : List Nat) : (Forest.leaves l).isLeaves = true := by
  induction l with
  | nil => rfl
  | cons a l ih => simp [Forest.leaves, Forest.isLeaves, Forest.isNil, ih]

theorem Forest.leaves_internal (l : List Nat) : (Forest.leaves l).internal = 0 := by
  induction l with
  | nil => rfl
  | cons a l ih => simp [Forest.leaves, Forest.internal, Forest.isNil, ih]

theorem Forest.isLeaves_nodes (F : Forest) (hF : F.isLeaves = true) : F.nodes = F.roots := by
  induction F with
  | nil => rfl
  | cons p kids rest _ ihr =>
    simp only [Forest.isLeaves, Bool.and_eq_true] at hF
    rw [(Forest.isNil_iff kids).1 hF.1]
    simp [Forest.nodes, Forest.roots, ihr hF.2]

theorem Forest.isLeaves_eq_leaves (F : Forest) (hF : F.isLeaves = true) :
    F = Forest.leaves F.roots := by
  induction F with
  | nil => rfl
  | cons p kids rest _ ihr =>
    simp only [Forest.isLeaves, Bool.and_eq_true] at hF
    rw [(Forest.isNil_iff kids).1 hF.1]
    simp only [Forest.roots, Forest.leaves]
    rw [← ihr hF.2]

theorem Forest.isLeaves_leafParents (F : Forest) (hF : F.isLeaves = true) :
    F.leafParents = [] := by
  induction F with
  | nil => rfl
  | cons p kids rest _ ihr =>
    simp only [Forest.isLeaves, Bool.and_eq_true] at hF
    rw [(Forest.isNil_iff kids).1 hF.1]
    simp [Forest.leafParents, Forest.isNil, ihr hF.2]

theorem Forest.isLeaves_internal (F : Forest) (hF : F.isLeaves = true) : F.internal = 0 := by
  rw [F.isLeaves_eq_leaves hF, Forest.leaves_internal]

/-- A forest that is not made of single nodes has a leaf parent. -/
theorem Forest.leafParents_ne_nil (F : Forest) (hF : F.isLeaves = false) :
    F.leafParents ≠ [] := by
  induction F with
  | nil => simp [Forest.isLeaves] at hF
  | cons p kids rest ihk ihr =>
    simp only [Forest.leafParents]
    cases hk : kids.isNil with
    | true =>
      simp only [Forest.isLeaves, hk, Bool.true_and] at hF
      intro hcon
      simp only [List.append_eq_nil] at hcon
      exact ihr hF hcon.2.2
    | false =>
      cases hl : kids.isLeaves with
      | true => simp
      | false =>
        intro hcon
        simp only [List.append_eq_nil] at hcon
        exact ihk hl hcon.2.1

theorem Forest.internal_pos (F : Forest) (hF : F.isLeaves = false) : 0 < F.internal := by
  induction F with
  | nil => simp [Forest.isLeaves] at hF
  | cons p kids rest _ ihr =>
    simp only [Forest.internal]
    cases hk : kids.isNil with
    | true =>
      simp only [Forest.isLeaves, hk, Bool.true_and] at hF
      have := ihr hF
      omega
    | false => simp

theorem Forest.internal_append (F G : Forest) :
    (F.append G).internal = F.internal + G.internal := by
  induction F with
  | nil => simp [Forest.append, Forest.internal]
  | cons p kids rest _ ih => simp [Forest.append, Forest.internal, ih]; omega

theorem Forest.leafParents_subset (F : Forest) : ∀ q ∈ F.leafParents, q ∈ F.nodes := by
  induction F with
  | nil => simp [Forest.leafParents]
  | cons p kids rest ihk ihr =>
    intro q hq
    simp only [Forest.leafParents, List.mem_append] at hq
    simp only [Forest.nodes, List.mem_cons, List.mem_append]
    rcases hq with hq | hq | hq
    · split at hq
      · simp at hq; exact Or.inl hq
      · simp at hq
    · exact Or.inr (Or.inl (ihk q hq))
    · exact Or.inr (Or.inr (ihr q hq))

/-! ## Leaf parents in the heap -/

theorem Rep_roots (h : Heap) (F : Forest) :
    ∀ P, Rep h P F → ∀ c ∈ F.roots, (h c).parent_ = some P := by
  induction F with
  | nil => intro P _ c hc; simp [Forest.roots] at hc
  | cons p kids rest _ ihr =>
    intro P hrep c hc
    obtain ⟨r1, _, _, r4⟩ := hrep
    rcases List.mem_cons.1 hc with rfl | hc
    · exact r1
    · exact ihr P r4 c hc

theorem Rep_isLeaves (h : Heap) (F : Forest) :
    ∀ P, Rep h P F → (F.roots.all (fun c => !hasChildren h c)) = F.isLeaves := by
  induction F with
  | nil => intro P _; rfl
  | cons p kids rest _ ihr =>
    intro P hrep
    obtain ⟨_, r2, _, r4⟩ := hrep
    simp only [Forest.roots, List.all_cons, Forest.isLeaves, ihr P r4]
    congr 1
    cases kids <;> simp [hasChildren, r2, Forest.roots, Forest.isNil]

theorem Rep_leaves (h : Heap) (P : Nat) (l : List Nat)
    (hl : ∀ q ∈ l, (h q).parent_ = some P ∧ (h q).children_ = []) :
    Rep h P (Forest.leaves l) := by
  induction l with
  | nil => trivial
  | cons a l ih =>
    refine ⟨(hl a (List.mem_cons_self _ _)).1, (hl a (List.mem_cons_self _ _)).2, trivial, ?_⟩
    exact ih (fun q hq => hl q (List.mem_cons_of_mem _ hq))

theorem isLeafParent_rep (h : Heap) (p : Nat) (kids : Forest) (hc : (h p).children_ = kids.roots)
    (hrep : Rep h p kids) : isLeafParent h p = (!kids.isNil && kids.isLeaves) := by
  unfold isLeafParent isLeaf
  rw [hc, Rep_isLeaves h kids p hrep]
  cases kids <;> simp [Forest.roots, Forest.isNil]

/-- The range-for of `merging_algo_Mar03` collects the leaf parents of a forest. -/
theorem leafparents_forest (h : Heap) (F : Forest) :
    ∀ (P : Nat) (d : Int) (acc : List Nat), Rep h P F →
      (F.walk d).foldlM (fun a (x : Nat × Int) => leafparentsBody h a x.1 x.2) acc
        = .ok (acc ++ F.leafParents) := by
  induction F with
  | nil => intro P d acc _; simp [Forest.walk, Forest.leafParents, pure, Except.pure]
  | cons p kids rest ihk ihr =>
    intro P d acc hrep
    obtain ⟨_, r2, r3, r4⟩ := hrep
    have hb : leafparentsBody h acc p d
        = .ok (acc ++ (if (!kids.isNil && kids.isLeaves) = true then [p] else [])) := by
      unfold leafparentsBody
      rw [isLeafParent_rep h p kids r2 r3]
      cases (!kids.isNil && kids.isLeaves) <;> simp
    simp only [Forest.walk, List.foldlM_cons, List.foldlM_append, hb, bind_ok]
    rw [ihk p (d + 1) _ r3, bind_ok, ihr P d _ r4]
    simp [Forest.leafParents]

/-! ## One pass over the leaf parents of a forest -/

theorem Forest.isNil_append (F G : Forest) : (F.append G).isNil = (F.isNil && G.isNil) := by
  cases F <;> simp [Forest.append, Forest.isNil]

theorem Forest.isNil_roots (F : Forest) : F.isNil = false → F.roots ≠ [] := by
  cases F <;> simp [Forest.isNil, Forest.roots]

theorem Forest.leaves_isNil (l : List Nat) (hl : l ≠ []) : (Forest.leaves l).isNil = false := by
  cases l with
  | nil => exact absurd rfl hl
  | cons a l => rfl

theorem mem_of_count_le {l1 l2 : List Nat} (hc : ∀ q, l1.count q ≤ l2.count q) :
    ∀ q ∈ l1, q ∈ l2 := by
  intro q hq
  have h1 := List.count_pos_iff.2 hq
  have h2 := hc q
  exact List.count_pos_iff.1 (by omega)

/-- A node of a forest in the heap whose children are all childless is a `LeafParent`. -/
theorem LeafParent.of_rep (h : Heap) (p : Nat) (kids : Forest)
    (hc : (h p).children_ = kids.roots) (hrep : Rep h p kids) (hnil : kids.isNil = false)
    (hleaves : kids.isLeaves = true) (hnd : kids.nodes.Nodup) (hp : p ∉ kids.nodes) :
    LeafParent h p kids.roots := by
  refine ⟨hc, Forest.isNil_roots kids hnil, hnd.sublist kids.roots_sublist_nodes,
    fun hm => hp (kids.roots_subset_nodes p hm), ?_, Rep_roots h kids p hrep⟩
  intro c hcm
  have hall := Rep_isLeaves h kids p hrep
  rw [hleaves, List.all_eq_true] at hall
  have := hall c hcm
  simpa [hasChildren] using this

theorem Forest.leafParents_filter_cons (sel : Nat → Bool) (p : Nat) (kids rest : Forest) :
    (Forest.cons p kids rest).leafParents.filter sel
      = (if (!kids.isNil && kids.isLeaves && sel p) = true then [p] else [])
        ++ (kids.leafParents.filter sel ++ rest.leafParents.filter sel) := by
  cases h1 : kids.isNil <;> cases h2 : kids.isLeaves <;> cases h3 : sel p <;>
    simp [Forest.leafParents, h1, h2, h3, List.filter_cons]

/-- The loop over the leaf parents of the forest `F` below `P` that `sel` selects, the
children of `P` being `A`, the roots of `F`, then `B`: trees `S` stay between `A` and `B`
and trees `Mv` are re-attached after `B`; only `P` and nodes of `F` are written, no node
is created, the hits of the nodes of `F` are conserved, every leaf parent met is
dissolved, and the flag is `true` after the loop when there was a leaf parent. -/
theorem mergePass_forest (sqrt : ℚ → ℚ) (hs : HitStore) (maxr : ℚ) (sel : Nat → Bool)
    (F : Forest) :
    ∀ (h : Heap) (P : Nat) (A B : List Nat) (b : Bool),
      Rep h P F → (h P).children_ = A ++ F.roots ++ B → F.nodes.Nodup → P ∉ F.nodes →
      (∀ q ∈ A ++ B, q ∉ F.nodes) →
      ∃ (h' : Heap) (b' : Bool) (S Mv : Forest),
        (F.leafParents.filter sel).foldlM
          (fun (s : Heap × Bool) node => merge_leafparent_Mar03 sqrt hs s.1 node maxr) (h, b)
          = .ok (h', b') ∧
        h' P = { h P with children_ := A ++ S.roots ++ B ++ Mv.roots } ∧
        Rep h' P S ∧ Rep h' P Mv ∧
        (∀ q, q ∉ P :: F.nodes → h' q = h q) ∧
        (∀ q, (h' q).trackid_ = (h q).trackid_ ∧ (h' q).energy_ = (h q).energy_) ∧
        (∀ q, (S.nodes ++ Mv.nodes).count q ≤ F.nodes.count q) ∧
        (∀ q ∈ F.nodes, q ∉ S.nodes ++ Mv.nodes → (h' q).hits_ = []) ∧
        (((S.nodes ++ Mv.nodes).map fun q => (h' q).hits_).flatten).Perm
          ((F.nodes.map fun q => (h q).hits_).flatten) ∧
        (F.leafParents.filter sel ≠ [] → b' = true) ∧
        (F.leafParents.filter sel = [] → b' = b) ∧
        S.internal + Mv.internal + (F.leafParents.filter sel).length ≤ F.internal ∧
        (F.isNil = false → (S.append Mv).isNil = false) := by
  induction F with
  | nil =>
    intro h P A B b _ hch _ _ _
    refine ⟨h, b, .nil, .nil, rfl, ?_, trivial, trivial, fun _ _ => rfl,
      fun _ => ⟨rfl, rfl⟩, fun _ => le_refl _, ?_, List.Perm.refl _, ?_, fun _ => rfl,
      le_refl _, ?_⟩
    · have : (h P).children_ = A ++ Forest.nil.roots ++ B ++ Forest.nil.roots := by
        rw [hch]; simp [Forest.roots]
      rw [← this]
    · intro q hq; simp [Forest.nodes] at hq
    · intro hne; exact absurd rfl hne
    · intro hne; simp [Forest.isNil] at hne
  | cons p kids rest ihk ihr =>
    intro h P A B b hrep hch hnd hP hAB
    obtain ⟨r1, r2, r3, r4⟩ := hrep
    simp only [Forest.nodes] at hnd hP hAB
    simp only [Forest.roots] at hch
    have hnd1 := List.nodup_cons.1 hnd
    have hnd2 := List.nodup_append.1 hnd1.2
    have hpk : p ∉ kids.nodes := fun hm => hnd1.1 (List.mem_append_left _ hm)
    have hpr : p ∉ rest.nodes := fun hm => hnd1.1 (List.mem_append_right _ hm)
    have hkr : ∀ q ∈ kids.nodes, q ∉ rest.nodes := fun q hq hq' => hnd2.2.2 hq hq'
    have hPp : P ≠ p := fun e => hP (by simp [e])
    have hPk : P ∉ kids.nodes := fun hm => hP (by simp [hm])
    have hPr : P ∉ rest.nodes := fun hm => hP (by simp [hm])
    have hpAB : p ∉ A ++ B := fun hm => hAB p hm (by simp)
    have hpA : p ∉ A := fun hm => hpAB (List.mem_append_left _ hm)
    have hpB : p ∉ B := fun hm => hpAB (List.mem_append_right _ hm)
    have hprr : p ∉ rest.roots := fun hm => hpr (rest.roots_subset_nodes p hm)
    cases hk : kids.isNil with
    | true =>
      -- `p` is a leaf
      have hkn : kids = .nil := (Forest.isNil_iff kids).1 hk
      subst hkn
      have hLP : (Forest.cons p .nil rest).leafParents.filter sel = rest.leafParents.filter sel := by
        rw [Forest.leafParents_filter_cons]; simp [Forest.isNil, Forest.leafParents]
      obtain ⟨h2, b2, Sr, Mr, e2, hP2, rs2, rm2, fr2, sm2, ct2, gn2, pm2, ba2, bb2, ms2, nl2⟩ :=
        ihr h P (A ++ [p]) B b r4 (by rw [hch]; simp) hnd2.2.1 hPr
          (by
            intro q hq hq'
            simp only [List.mem_append, List.mem_singleton] at hq
            rcases hq with (hq | rfl) | hq
            · exact hAB q (List.mem_append_left _ hq) (by simp [hq'])
            · exact hpr hq'
            · exact hAB q (List.mem_append_right _ hq) (by simp [hq']))
      have hp2 : h2 p = h p := fr2 p (by
        intro hm
        rcases List.mem_cons.1 hm with e | hm
        · exact hPp e.symm
        · exact hpr hm)
      refine ⟨h2, b2, .cons p .nil Sr, Mr, ?_, ?_, ?_, rm2, ?_, sm2, ?_, ?_, ?_, ?_, ?_, ?_, ?_⟩
      · rw [hLP]; exact e2
      · rw [hP2]; simp [Forest.roots]
      · exact ⟨by rw [hp2, r1], by rw [hp2, r2], trivial, rs2⟩
      · intro q hq
        exact fr2 q (fun hm => hq (by
          rcases List.mem_cons.1 hm with rfl | hm
          · simp
          · simp [Forest.nodes, hm]))
      · intro q
        have := ct2 q
        simp only [Forest.nodes, List.nil_append, List.cons_append, List.count_cons] at this ⊢
        omega
      · intro q hq hq'
        simp only [Forest.nodes, List.nil_append, List.mem_cons, List.cons_append] at hq hq'
        rcases hq with rfl | hq
        · exact absurd (Or.inl rfl) hq'
        · exact gn2 q hq (fun hm => hq' (Or.inr hm))
      · simp only [Forest.nodes, List.nil_append, List.cons_append, List.map_cons,
          List.flatten_cons, hp2]
        exact List.Perm.append_left _ pm2
      · intro hne
        exact ba2 (by rwa [hLP] at hne)
      · intro he
        exact bb2 (by rwa [hLP] at he)
      · rw [hLP]
        simp only [Forest.internal, Forest.isNil] at ms2 ⊢
        simp
        omega
      · intro _; rfl
    | false =>
      cases hc : (kids.isLeaves && sel p) with
      | true =>
        -- `p` is a selected leaf parent
        have hl : kids.isLeaves = true := (Bool.and_eq_true_iff.1 hc).1
        have hsp : sel p = true := (Bool.and_eq_true_iff.1 hc).2
        have hLP : (Forest.cons p kids rest).leafParents.filter sel
            = p :: rest.leafParents.filter sel := by
          rw [Forest.leafParents_filter_cons]
          simp [hk, hl, hsp, kids.isLeaves_leafParents hl]
        have hkn : kids.nodes = kids.roots := kids.isLeaves_nodes hl
        have lp : LeafParent h p kids.roots := LeafParent.of_rep h p kids r2 r3 hk hl hnd2.1 hpk
        obtain ⟨h1, M, e1, hMsub, hMne, hMnd, hP1, hMpar, _, sm1, fr1, gn1, pm1, _⟩ :=
          merge_leafparent_inner sqrt hs h p P kids.roots A (rest.roots ++ B) maxr lp r1
            (by rw [hch]; simp) hpA
            (by
              intro hm
              rcases List.mem_append.1 hm with hm | hm
              · exact hprr hm
              · exact hpB hm)
            hPp (fun hm => hPk (kids.roots_subset_nodes P hm))
        have hMmem : ∀ q ∈ M, q ∈ kids.nodes ∨ q = p := by
          intro q hq
          have := hMsub.subset hq
          rw [hkn]
          simpa using this
        have hfr1 : ∀ q ∈ P :: rest.nodes, q ≠ P → h1 q = h q := by
          intro q hq hqP
          rcases List.mem_cons.1 hq with e | hq
          · exact absurd e hqP
          · refine fr1 q ?_ (fun e => hpr (e ▸ hq)) hqP
            rw [← hkn]
            exact fun hm => hkr q hm hq
        have hrep1 : Rep h1 P rest := by
          refine Rep_congr h h1 rest P ?_ r4
          intro q hq
          rw [hfr1 q (List.mem_cons_of_mem _ hq) (fun e => hPr (e ▸ hq))]
          exact ⟨rfl, rfl⟩
        obtain ⟨h2, b2, Sr, Mr, e2, hP2, rs2, rm2, fr2, sm2, ct2, gn2, pm2, ba2, bb2, ms2, nl2⟩ :=
          ihr h1 P A (B ++ M) true hrep1 (by rw [hP1]; simp) hnd2.2.1 hPr
            (by
              intro q hq hq'
              simp only [List.mem_append] at hq
              rcases hq with hq | hq | hq
              · exact hAB q (List.mem_append_left _ hq) (by simp [hq'])
              · exact hAB q (List.mem_append_right _ hq) (by simp [hq'])
              · rcases hMmem q hq with hm | rfl
                · exact hkr q hm hq'
                · exact hpr hq')
        have hM2 : ∀ q, q ∈ kids.nodes ∨ q = p → h2 q = h1 q := by
          intro q hq
          refine fr2 q ?_
          intro hm
          rcases List.mem_cons.1 hm with e | hm
          · rcases hq with hq | hq
            · exact hPk (e ▸ hq)
            · exact hPp (e.symm.trans hq)
          · rcases hq with hq | hq
            · exact hkr q hq hm
            · exact hpr (hq ▸ hm)
        have hb2 : b2 = true := by
          by_cases hlp : rest.leafParents.filter sel = []
          · exact bb2 hlp
          · exact ba2 hlp
        have hcM : ∀ q, M.count q ≤ (if p = q then 1 else 0) + kids.nodes.count q := by
          intro q
          have := hMsub.count_le q
          rw [hkn]
          simp only [List.count_append, List.count_cons, List.count_nil, beq_iff_eq] at this
          omega
        refine ⟨h2, b2, Sr, (Forest.leaves M).append Mr, ?_, ?_, rs2, ?_, ?_, ?_, ?_, ?_, ?_,
          fun _ => hb2, ?_, ?_, ?_⟩
        · rw [hLP]
          simp only [List.foldlM_cons, e1, bind_ok]
          exact e2
        · rw [hP2, hP1]
          simp [Forest.roots_append, Forest.leaves_roots]
        · rw [Rep_append]
          refine ⟨Rep_leaves h2 P M ?_, rm2⟩
          intro q hq
          rw [hM2 q (hMmem q hq)]
          exact hMpar q hq
        · intro q hq
          have hqP : q ≠ P := fun e => hq (by simp [e])
          have hqp : q ≠ p := fun e => hq (by simp [Forest.nodes, e])
          have hqk : q ∉ kids.nodes := fun hm => hq (by simp [Forest.nodes, hm])
          have hqr : q ∉ rest.nodes := fun hm => hq (by simp [Forest.nodes, hm])
          rw [fr2 q (by
            intro hm
            rcases List.mem_cons.1 hm with e | hm
            · exact hqP e
            · exact hqr hm)]
          exact fr1 q (by rw [← hkn]; exact hqk) hqp hqP
        · intro q
          exact ⟨(sm2 q).1.trans (sm1 q).1, (sm2 q).2.trans (sm1 q).2⟩
        · intro q
          have c1 := ct2 q
          have c2 := hcM q
          simp only [Forest.nodes_append, Forest.leaves_nodes, Forest.nodes, List.count_append,
            List.count_cons, beq_iff_eq] at c1 c2 ⊢
          omega
        · intro q hq hq'
          simp only [Forest.nodes_append, Forest.leaves_nodes, List.mem_append] at hq'
          simp only [Forest.nodes, List.mem_cons, List.mem_append] at hq
          rcases hq with rfl | hq | hq
          · rw [hM2 q (Or.inr rfl)]
            exact gn1 q (by simp) (fun hm => hq' (Or.inr (Or.inl hm)))
          · rw [hM2 q (Or.inl hq)]
            exact gn1 q (by rw [← hkn]; simp [hq]) (fun hm => hq' (Or.inr (Or.inl hm)))
          · refine gn2 q hq ?_
            intro hm
            rcases List.mem_append.1 hm with hm | hm
            · exact hq' (Or.inl hm)
            · exact hq' (Or.inr (Or.inr hm))
        · have eM : (M.map fun q => (h2 q).hits_) = (M.map fun q => (h1 q).hits_) :=
            List.map_congr_left (fun q hq => by rw [hM2 q (hMmem q hq)])
          have eR : (rest.nodes.map fun q => (h1 q).hits_) = (rest.nodes.map fun q => (h q).hits_) :=
            List.map_congr_left (fun q hq => by
              rw [hfr1 q (List.mem_cons_of_mem _ hq) (fun e => hPr (e ▸ hq))])
          rw [eR] at pm2
          simp only [Forest.nodes_append, Forest.leaves_nodes, Forest.nodes, List.map_append,
            List.flatten_append, List.map_cons, List.flatten_cons] at pm2 ⊢
          rw [eM]
          rw [hkn]
          simp only [List.map_cons, List.flatten_cons] at pm1
          refine List.Perm.trans ?_ ((pm1.append pm2).trans ?_)
          · exact List.perm_append_comm_assoc _ _ _
          · rw [List.append_assoc]
        · intro he
          rw [hLP] at he
          exact absurd he (List.cons_ne_nil _ _)
        · have hki := kids.isLeaves_internal hl
          rw [hLP]
          simp only [Forest.internal, hk, Forest.internal_append,
            Forest.leaves_internal, hki, List.length_cons] at ms2 ⊢
          simp
          omega
        · intro _
          rw [Forest.isNil_append, Forest.isNil_append, Forest.leaves_isNil M hMne]
          simp
      | false =>
        -- `p` has children and is not a selected leaf parent
        have hLP : (Forest.cons p kids rest).leafParents.filter sel
            = kids.leafParents.filter sel ++ rest.leafParents.filter sel := by
          rw [Forest.leafParents_filter_cons]
          simp [hk, hc]
        obtain ⟨h1, b1, Sk, Mk, e1, hP1, rs1, rm1, fr1, sm1, ct1, gn1, pm1, ba1, bb1, ms1, nl1⟩ :=
          ihk h p [] [] b r3 (by simpa using r2) hnd2.1 hpk (by simp)
        have hsubk : ∀ q ∈ Sk.nodes ++ Mk.nodes, q ∈ kids.nodes := mem_of_count_le ct1
        have hfr1 : ∀ q ∈ P :: rest.nodes, h1 q = h q := by
          intro q hq
          refine fr1 q ?_
          intro hm
          rcases List.mem_cons.1 hq with rfl | hq
          · rcases List.mem_cons.1 hm with e | hm
            · exact hPp e
            · exact hPk hm
          · rcases List.mem_cons.1 hm with e | hm
            · exact hpr (e ▸ hq)
            · exact hkr q hm hq
        have hrep1 : Rep h1 P rest := by
          refine Rep_congr h h1 rest P ?_ r4
          intro q hq
          rw [hfr1 q (List.mem_cons_of_mem _ hq)]; exact ⟨rfl, rfl⟩
        obtain ⟨h2, b2, Sr, Mr, e2, hP2, rs2, rm2, fr2, sm2, ct2, gn2, pm2, ba2, bb2, ms2, nl2⟩ :=
          ihr h1 P (A ++ [p]) B b1 hrep1
            (by rw [hfr1 P (List.mem_cons_self _ _), hch]; simp) hnd2.2.1 hPr
            (by
              intro q hq hq'
              simp only [List.mem_append, List.mem_singleton] at hq
              rcases hq with (hq | rfl) | hq
              · exact hAB q (List.mem_append_left _ hq) (by simp [hq'])
              · exact hpr hq'
              · exact hAB q (List.mem_append_right _ hq) (by simp [hq']))
        have hk2 : ∀ q, q ∈ kids.nodes ∨ q = p → h2 q = h1 q := by
          intro q hq
          refine fr2 q ?_
          intro hm
          rcases List.mem_cons.1 hm with e | hm
          · rcases hq with hq | hq
            · exact hPk (e ▸ hq)
            · exact hPp (e.symm.trans hq)
          · rcases hq with hq | hq
            · exact hkr q hq hm
            · exact hpr (hq ▸ hm)
        refine ⟨h2, b2, .cons p (Sk.append Mk) Sr, Mr, ?_, ?_, ?_, rm2, ?_, ?_, ?_, ?_, ?_, ?_,
          ?_, ?_, ?_⟩
        · rw [hLP]
          simp only [List.foldlM_append, e1, bind_ok]
          exact e2
        · rw [hP2, hfr1 P (List.mem_cons_self _ _)]
          simp [Forest.roots]
        · refine ⟨?_, ?_, ?_, rs2⟩
          · rw [hk2 p (Or.inr rfl), hP1]; exact r1
          · rw [hk2 p (Or.inr rfl), hP1]; simp [Forest.roots_append]
          · have : Rep h1 p (Sk.append Mk) := (Rep_append h1 p Sk Mk).2 ⟨rs1, rm1⟩
            refine Rep_congr h1 h2 _ p ?_ this
            intro q hq
            rw [Forest.nodes_append] at hq
            rw [hk2 q (Or.inl (hsubk q hq))]
            exact ⟨rfl, rfl⟩
        · intro q hq
          have hqP : q ≠ P := fun e => hq (by simp [e])
          have hqp : q ≠ p := fun e => hq (by simp [Forest.nodes, e])
          have hqk : q ∉ kids.nodes := fun hm => hq (by simp [Forest.nodes, hm])
          have hqr : q ∉ rest.nodes := fun hm => hq (by simp [Forest.nodes, hm])
          rw [fr2 q (by
            intro hm
            rcases List.mem_cons.1 hm with e | hm
            · exact hqP e
            · exact hqr hm)]
          exact fr1 q (by
            intro hm
            rcases List.mem_cons.1 hm with e | hm
            · exact hqp e
            · exact hqk hm)
        · intro q
          exact ⟨(sm2 q).1.trans (sm1 q).1, (sm2 q).2.trans (sm1 q).2⟩
        · intro q
          have c1 := ct1 q
          have c2 := ct2 q
          simp only [Forest.nodes_append, Forest.nodes, List.count_append, List.count_cons,
            List.cons_append] at c1 c2 ⊢
          omega
        · intro q hq hq'
          simp only [Forest.nodes, Forest.nodes_append, List.cons_append, List.mem_cons,
            List.mem_append] at hq hq'
          rcases hq with rfl | hq | hq
          · exact absurd (Or.inl rfl) hq'
          · rw [hk2 q (Or.inl hq)]
            refine gn1 q hq ?_
            intro hm
            rcases List.mem_append.1 hm with hm | hm
            · exact hq' (Or.inr (Or.inl (Or.inl (Or.inl hm))))
            · exact hq' (Or.inr (Or.inl (Or.inl (Or.inr hm))))
          · refine gn2 q hq ?_
            intro hm
            rcases List.mem_append.1 hm with hm | hm
            · exact hq' (Or.inr (Or.inl (Or.inr hm)))
            · exact hq' (Or.inr (Or.inr hm))
        · have eK : ((Sk.nodes ++ Mk.nodes).map fun q => (h2 q).hits_)
              = ((Sk.nodes ++ Mk.nodes).map fun q => (h1 q).hits_) :=
            List.map_congr_left (fun q hq => by rw [hk2 q (Or.inl (hsubk q hq))])
          have eR : (rest.nodes.map fun q => (h1 q).hits_) = (rest.nodes.map fun q => (h q).hits_) :=
            List.map_congr_left (fun q hq => by rw [hfr1 q (List.mem_cons_of_mem _ hq)])
          have ep : (h2 p).hits_ = (h p).hits_ := by rw [hk2 p (Or.inr rfl), hP1]
          rw [eR] at pm2
          rw [← eK] at pm1
          simp only [Forest.nodes_append, Forest.nodes, List.map_append, List.flatten_append,
            List.map_cons, List.flatten_cons, List.cons_append, ep] at pm1 pm2 ⊢
          refine List.Perm.append_left _ ?_
          refine List.Perm.trans ?_ (pm1.append pm2)
          simp only [List.append_assoc]
          exact List.Perm.refl _
        · intro hne
          by_cases hlr : rest.leafParents.filter sel = []
          · rw [bb2 hlr]
            apply ba1
            intro hlk
            apply hne
            rw [hLP, hlk, hlr]; rfl
          · exact ba2 hlr
        · intro he
          rw [hLP, List.append_eq_nil] at he
          rw [bb2 he.2, bb1 he.1]
        · rw [hLP]
          simp only [Forest.internal, hk, Forest.internal_append,
            List.length_append] at ms1 ms2 ⊢
          simp
          split <;> omega
        · intro _; rfl

/-! ## Merge steps on a tree -/

theorem MergeStep.refl_step {h : Heap} {root : Nat} {F : Forest} (t : IsTree h root F) :
    MergeStep h root F h F :=
  ⟨t, fun e => e, fun _ _ => rfl, fun _ => ⟨rfl, rfl⟩, fun _ e => e,
    fun _ e e' => absurd e e', List.Perm.refl _, le_refl _⟩

theorem MergeStep.trans_step {h h1 h2 : Heap} {root : Nat} {F F1 F2 : Forest}
    (t : IsTree h root F) (s1 : MergeStep h root F h1 F1) (s2 : MergeStep h1 root F1 h2 F2) :
    MergeStep h root F h2 F2 := by
  refine ⟨s2.tree, fun e => s2.nonempty (s1.nonempty e), ?_, ?_, ?_, ?_,
    s2.hits.trans s1.hits, s2.internal.trans s1.internal⟩
  · intro q hq
    have hq1 : q ∉ root :: F1.nodes := by
      intro hm
      rcases List.mem_cons.1 hm with e | hm
      · exact hq (by simp [e])
      · exact hq (List.mem_cons_of_mem _ (s1.sub q hm))
    rw [s2.frame q hq1, s1.frame q hq]
  · intro q
    exact ⟨(s2.same q).1.trans (s1.same q).1, (s2.same q).2.trans (s1.same q).2⟩
  · intro q hq
    exact s1.sub q (s2.sub q hq)
  · intro q hq hq2
    by_cases hq1 : q ∈ F1.nodes
    · exact s2.gone q hq1 hq2
    · have hne : q ≠ root := fun e => (List.nodup_cons.1 t.nodup).1 (e ▸ hq)
      rw [s2.frame q (by
        intro hm
        rcases List.mem_cons.1 hm with e | hm
        · exact hne e
        · exact hq1 hm)]
      exact s1.gone q hq hq1

theorem MergeStep.length_le {h h' : Heap} {root : Nat} {F F' : Forest}
    (s : MergeStep h root F h' F') : F'.nodes.length ≤ F.nodes.length :=
  (List.subperm_of_subset (List.nodup_cons.1 s.tree.nodup).2 s.sub).length_le

/-- The merge on the root of a flat tree: the children that remain hold no pair closer
than `maxr`, their centroids are cached, and the flag tells whether a node was merged. -/
theorem merge_leafparent_flat (sqrt : ℚ → ℚ) (hs : HitStore) (maxr : ℚ) {h : Heap} {root : Nat}
    {F : Forest} (t : IsTree h root F) (hF : F.isNil = false) (hl : F.isLeaves = true) :
    ∃ h' M, merge_leafparent_Mar03 sqrt hs h root maxr
        = .ok (h', decide (M.length < F.roots.length)) ∧
      MergeStep h root F h' (Forest.leaves M) ∧ M.Sublist F.roots ∧
      M.Pairwise (fun x y => ¬ distOf sqrt hs h' x y < maxr) ∧ Cached h' M ∧
      (∀ q, (h' q).pdgid_ = (h q).pdgid_) ∧
      (∀ q ∈ M, (h q).hits_ ≠ [] → (h' q).hits_ ≠ []) := by
  have hnd := List.nodup_cons.1 t.nodup
  have hkn : F.nodes = F.roots := F.isLeaves_nodes hl
  have lp : LeafParent h root F.roots :=
    LeafParent.of_rep h root F t.root_children t.rep hF hl hnd.2 hnd.1
  obtain ⟨h', M, e, hsub, hne, hL, hsame, hch, hfr, hgone, hperm, hpw, hcached, hkeep⟩ :=
    merge_leafparent_root sqrt hs h root F.roots maxr lp t.root_parent
  have hMF : ∀ q ∈ M, q ∈ F.nodes := fun q hq => by rw [hkn]; exact hsub.subset hq
  have hMr : ∀ q ∈ M, q ≠ root := fun q hq e => hnd.1 (e ▸ hMF q hq)
  refine ⟨h', M, e, ⟨⟨?_, ?_, ?_, ?_, ?_⟩, ?_, ?_, ?_, ?_, ?_, ?_, ?_⟩, hsub, hpw, hcached,
    fun q => (hsame q).2.2.1, hkeep⟩
  · rw [hL]; exact t.root_parent
  · rw [hL, Forest.leaves_roots]
  · refine Rep_leaves h' root M ?_
    intro q hq
    refine ⟨?_, ?_⟩
    · rw [(hsame q).2.2.2]
      exact lp.parent q (hsub.subset hq)
    · rw [hch q (hMr q hq)]
      exact lp.leaf q (hsub.subset hq)
  · rw [Forest.leaves_nodes]
    refine List.nodup_cons.2 ⟨fun hm => hMr root hm rfl, lp.nodup.sublist hsub⟩
  · intro p hp q hq e
    refine t.trackids p ?_ q ?_ ?_
    · rw [Forest.leaves_nodes] at hp
      rcases List.mem_cons.1 hp with rfl | hp
      · simp
      · exact List.mem_cons_of_mem _ (hMF p hp)
    · rw [Forest.leaves_nodes] at hq
      rcases List.mem_cons.1 hq with rfl | hq
      · simp
      · exact List.mem_cons_of_mem _ (hMF q hq)
    · rw [← (hsame p).1, ← (hsame q).1]; exact e
  · intro _; exact Forest.leaves_isNil M hne
  · intro q hq
    refine hfr q ?_ ?_
    · rw [← hkn]; exact fun hm => hq (List.mem_cons_of_mem _ hm)
    · exact fun e => hq (by simp [e])
  · intro q; exact ⟨(hsame q).1, (hsame q).2.1⟩
  · intro q hq; rw [Forest.leaves_nodes] at hq; exact hMF q hq
  · intro q hq hq'
    rw [Forest.leaves_nodes] at hq'
    exact hgone q (by rw [← hkn]; exact hq) hq'
  · unfold reachableHits
    rw [Forest.leaves_nodes, hkn]
    simp only [List.map_cons, List.flatten_cons]
    rw [hL]
    exact List.Perm.append_left _ hperm
  · rw [Forest.leaves_internal]; exact Nat.zero_le _

/-- The merges on the selected leaf parents of a tree that is not flat, one after the
other. -/
theorem merge_leafparents_tree (sqrt : ℚ → ℚ) (hs : HitStore) (maxr : ℚ) (sel : Nat → Bool)
    {h : Heap} {root : Nat} {F : Forest} (t : IsTree h root F) (b : Bool) :
    ∃ h' b' F', (F.leafParents.filter sel).foldlM
          (fun (s : Heap × Bool) node => merge_leafparent_Mar03 sqrt hs s.1 node maxr) (h, b)
          = .ok (h', b') ∧
      MergeStep h root F h' F' ∧
      (F.leafParents.filter sel ≠ [] → b' = true) ∧
      (F.leafParents.filter sel = [] → b' = b) ∧
      F'.internal + (F.leafParents.filter sel).length ≤ F.internal := by
  have hnd := List.nodup_cons.1 t.nodup
  obtain ⟨h', b', S, Mv, e, hP, rs, rm, fr, sm, ct, gn, pm, ba, bb, ms, nl⟩ :=
    mergePass_forest sqrt hs maxr sel F h root [] [] b t.rep (by simp [t.root_children])
      hnd.2 hnd.1 (by simp)
  have hsub : ∀ q ∈ (S.append Mv).nodes, q ∈ F.nodes := by
    intro q hq
    rw [Forest.nodes_append] at hq
    exact mem_of_count_le ct q hq
  refine ⟨h', b', S.append Mv, e, ⟨⟨?_, ?_, ?_, ?_, ?_⟩, nl, fr, sm, hsub, ?_, ?_, ?_⟩, ba, bb, ?_⟩
  · rw [hP]; exact t.root_parent
  · rw [hP]; simp [Forest.roots_append]
  · exact (Rep_append h' root S Mv).2 ⟨rs, rm⟩
  · refine List.nodup_cons.2 ⟨fun hm => hnd.1 (hsub root hm), ?_⟩
    rw [Forest.nodes_append]
    refine List.nodup_iff_count_le_one.2 ?_
    intro q
    exact (ct q).trans (List.nodup_iff_count_le_one.1 hnd.2 q)
  · intro p hp q hq e
    refine t.trackids p ?_ q ?_ ?_
    · rcases List.mem_cons.1 hp with rfl | hp
      · simp
      · exact List.mem_cons_of_mem _ (hsub p hp)
    · rcases List.mem_cons.1 hq with rfl | hq
      · simp
      · exact List.mem_cons_of_mem _ (hsub q hq)
    · rw [← (sm p).1, ← (sm q).1]; exact e
  · intro q hq hq'
    rw [Forest.nodes_append] at hq'
    exact gn q hq hq'
  · unfold reachableHits
    rw [Forest.nodes_append]
    simp only [List.map_cons, List.flatten_cons]
    rw [hP]
    exact List.Perm.append_left _ pm
  · rw [Forest.internal_append]; omega
  · rw [Forest.internal_append]; omega

/-- Among the nodes of a forest in the heap, `isLeafParent` holds of the members of
`leafParents`. -/
theorem mem_leafParents (h : Heap) (F : Forest) :
    ∀ P, Rep h P F → ∀ L ∈ F.nodes, isLeafParent h L = true → L ∈ F.leafParents := by
  induction F with
  | nil => intro P _ L hL; simp [Forest.nodes] at hL
  | cons p kids rest ihk ihr =>
    intro P hrep L hL hlp
    obtain ⟨_, r2, r3, r4⟩ := hrep
    simp only [Forest.nodes, List.mem_cons, List.mem_append] at hL
    simp only [Forest.leafParents, List.mem_append]
    rcases hL with rfl | hL | hL
    · left
      rw [isLeafParent_rep h L kids r2 r3] at hlp
      simp [hlp]
    · exact Or.inr (Or.inl (ihk p r3 L hL hlp))
    · exact Or.inr (Or.inr (ihr P r4 L hL hlp))

theorem Forest.leafParents_sublist (F : Forest) : F.leafParents.Sublist F.nodes := by
  induction F with
  | nil => simp [Forest.leafParents, Forest.nodes]
  | cons p kids rest ihk ihr =>
    simp only [Forest.leafParents, Forest.nodes]
    split
    · exact List.Sublist.cons₂ p (ihk.append ihr)
    · exact List.Sublist.cons p (ihk.append ihr)

theorem filter_beq_nodup (l : List Nat) (L : Nat) (hnd : l.Nodup) (hL : L ∈ l) :
    l.filter (fun q => q == L) = [L] := by
  induction l with
  | nil => simp at hL
  | cons a l ih =>
    have hnd1 := List.nodup_cons.1 hnd
    by_cases ha : a = L
    · subst ha
      rw [List.filter_cons_of_pos (by simp)]
      congr 1
      refine List.filter_eq_nil_iff.2 ?_
      intro q hq hqa
      exact hnd1.1 ((beq_iff_eq.1 hqa) ▸ hq)
    · rw [List.filter_cons_of_neg (by simpa using ha)]
      rcases List.mem_cons.1 hL with e | hL
      · exact absurd e.symm ha
      · exact ih hnd1.2 hL

/-- One call of `merge_leafparent_Mar03` on a leaf parent of a well-formed tree returns,
and the result is a well-formed tree with the same hits. -/
theorem merge_leafparent_tree (sqrt : ℚ → ℚ) (hs : HitStore) (maxr : ℚ) {h : Heap} {root : Nat}
    {F : Forest} (t : IsTree h root F) (L : Nat) (hL : L ∈ root :: F.nodes)
    (hlp : isLeafParent h L = true) :
    ∃ h' b' F', merge_leafparent_Mar03 sqrt hs h L maxr = .ok (h', b') ∧
      MergeStep h root F h' F' := by
  rcases List.mem_cons.1 hL with rfl | hL
  · rw [isLeafParent_rep h L F t.root_children t.rep] at hlp
    simp only [Bool.and_eq_true, Bool.not_eq_true'] at hlp
    obtain ⟨h', M, e, s, _⟩ := merge_leafparent_flat sqrt hs maxr t hlp.1 hlp.2
    exact ⟨h', _, _, e, s⟩
  · have hmem := mem_leafParents h F root t.rep L hL hlp
    have hnd : F.leafParents.Nodup :=
      (List.nodup_cons.1 t.nodup).2.sublist F.leafParents_sublist
    obtain ⟨h', b', F', e, s, _⟩ :=
      merge_leafparents_tree sqrt hs maxr (fun q => q == L) t false
    rw [filter_beq_nodup F.leafParents L hnd hmem] at e
    simp only [List.foldlM_cons, List.foldlM_nil] at e
    refine ⟨h', b', F', ?_, s⟩
    cases hm : merge_leafparent_Mar03 sqrt hs h L maxr with
    | error err => rw [hm] at e; cases e
    | ok r =>
      rw [hm] at e
      simp only [bind_ok, pure, Except.pure] at e
      rw [e]

/-! ## Fuel -/

theorem foldlM_mono {α β : Type} (f g : β → α → Res β)
    (hfg : ∀ acc x r, f acc x = .ok r → g acc x = .ok r) (l : List α) :
    ∀ (acc r : β), l.foldlM f acc = .ok r → l.foldlM g acc = .ok r := by
  induction l with
  | nil => intro acc r e; exact e
  | cons a l ih =>
    intro acc r e
    simp only [List.foldlM_cons] at e ⊢
    cases hf : f acc a with
    | error err => rw [hf] at e; cases e
    | ok acc1 =>
      rw [hf, bind_ok] at e
      rw [hfg acc a acc1 hf, bind_ok]
      exact ih acc1 r e

/-- More fuel, and a body that returns whenever the given one does, do not change what a
range-for returns. -/
theorem rangeFor_mono {α : Type} (h : Heap) (body body' : α → Nat → Int → Res α)
    (hb : ∀ acc m d r, body acc m d = .ok r → body' acc m d = .ok r) (k : Nat) :
    ∀ (fuel : Nat) (it : Iterator) (acc r : α),
      rangeFor h body fuel it acc = .ok r → rangeFor h body' (fuel + k) it acc = .ok r := by
  intro fuel
  induction fuel with
  | zero => intro it acc r e; simp [rangeFor] at e
  | succ n ih =>
    intro it acc r e
    rw [show n + 1 + k = (n + k) + 1 by omega]
    cases hm : it.m_ptr with
    | none =>
      rw [rangeFor_none h body n it acc hm] at e
      rw [rangeFor_none h body' (n + k) it acc hm]
      exact e
    | some m =>
      rw [rangeFor_some h body n it acc m hm] at e
      rw [rangeFor_some h body' (n + k) it acc m hm]
      cases hbd : body acc m it.depth_ with
      | error err => rw [hbd] at e; cases e
      | ok acc1 =>
        rw [hbd, bind_ok] at e
        rw [hb acc m it.depth_ acc1 hbd, bind_ok]
        cases hn : it.next h with
        | error err => rw [hn] at e; cases e
        | ok it1 =>
          rw [hn, bind_ok] at e
          rw [bind_ok]
          exact ih it1 acc1 r e

theorem mergingPass_mono (sqrt : ℚ → ℚ) (hs : HitStore) (fuel k : Nat) (h : Heap) (root : Nat)
    (b : Bool) (r : Heap × Bool) (e : mergingPass sqrt hs fuel h root b = .ok r) :
    mergingPass sqrt hs (fuel + k) h root b = .ok r := by
  unfold mergingPass at e ⊢
  cases hr : rangeFor h (leafparentsBody h) fuel (Node.begin root) [] with
  | error err => rw [hr] at e; cases e
  | ok l =>
    rw [hr, bind_ok] at e
    rw [rangeFor_mono h _ _ (fun _ _ _ _ x => x) k fuel _ _ l hr, bind_ok]
    exact e

theorem mergingLoop_mono (sqrt : ℚ → ℚ) (hs : HitStore) (fuel k j : Nat) (root : Nat) :
    ∀ (turns : Nat) (h : Heap) (b : Bool) (r : Heap),
      mergingLoop sqrt hs fuel root turns h b = .ok r →
      mergingLoop sqrt hs (fuel + k) root (turns + j) h b = .ok r := by
  intro turns
  induction turns with
  | zero => intro h b r e; simp [mergingLoop] at e
  | succ n ih =>
    intro h b r e
    rw [show n + 1 + j = (n + j) + 1 by omega]
    rw [mergingLoop] at e ⊢
    cases b with
    | false => simpa using e
    | true =>
      simp only [if_true] at e ⊢
      cases hp : mergingPass sqrt hs fuel h root true with
      | error err => rw [hp] at e; cases e
      | ok p =>
        rw [hp] at e
        rw [mergingPass_mono sqrt hs fuel k h root true p hp]
        exact ih p.1 p.2 r e

/-- A run of `merging_algo_Mar03` that returns, returns the same with more fuel. -/
theorem merging_algo_mono (sqrt : ℚ → ℚ) (hs : HitStore) (fuel k : Nat) (h : Heap) (root : Nat)
    (r : Heap) (e : merging_algo_Mar03 sqrt hs fuel h root = .ok r) :
    merging_algo_Mar03 sqrt hs (fuel + k) h root = .ok r :=
  mergingLoop_mono sqrt hs fuel k k root fuel h true r e

/-! ## The loop of `merging_algo_Mar03` -/

theorem Forest.internal_le_length (F : Forest) : F.internal ≤ F.nodes.length := by
  induction F with
  | nil => simp [Forest.internal]
  | cons p kids rest ihk ihr =>
    simp only [Forest.internal, Forest.nodes, List.length_cons, List.length_append]
    split <;> omega

/-- The leaf parents `merging_algo_Mar03` collects in a tree whose root has children: the
root when the tree is flat, the leaf parents of the forest below the root otherwise. -/
theorem leafparents_tree {h : Heap} {root : Nat} {F : Forest} (t : IsTree h root F)
    (hF : F.isNil = false) (k : Nat) :
    rangeFor h (leafparentsBody h) (F.nodes.length + 2 + k) (Node.begin root) []
      = .ok (if F.isLeaves then [root] else F.leafParents) := by
  rw [rangeFor_tree t]
  simp only [List.foldlM_cons]
  have hlp : isLeafParent h root = F.isLeaves := by
    rw [isLeafParent_rep h root F t.root_children t.rep, hF]; simp
  cases hl : F.isLeaves with
  | true =>
    have : leafparentsBody h [] root 0 = .ok [root] := by
      simp [leafparentsBody, hlp, hl]
    rw [this, bind_ok, leafparents_forest h F root 1 [root] t.rep, F.isLeaves_leafParents hl]
    rfl
  | false =>
    have : leafparentsBody h [] root 0 = .ok [] := by
      simp [leafparentsBody, hlp, hl]
    rw [this, bind_ok, leafparents_forest h F root 1 [] t.rep]
    rfl

/-- One turn of the loop of `merging_algo_Mar03` on a tree whose root has children. -/
theorem mergingPass_tree (sqrt : ℚ → ℚ) (hs : HitStore) {h : Heap} {root : Nat} {F : Forest}
    (t : IsTree h root F) (hF : F.isNil = false) (k : Nat) (b : Bool) :
    ∃ h' b' F', mergingPass sqrt hs (F.nodes.length + 2 + k) h root b = .ok (h', b') ∧
      MergeStep h root F h' F' ∧
      (F.isLeaves = false → b' = true ∧ F'.internal < F.internal) ∧
      (F.isLeaves = true → ∃ M, F' = Forest.leaves M ∧
        M.Pairwise (fun x y => ¬ distOf sqrt hs h' x y < 10) ∧ Cached h' M) := by
  unfold mergingPass
  rw [leafparents_tree t hF k, bind_ok]
  cases hl : F.isLeaves with
  | true =>
    obtain ⟨h', M, e, s, _, hpw, hc, _⟩ := merge_leafparent_flat sqrt hs 10 t hF hl
    refine ⟨h', decide (M.length < F.roots.length), Forest.leaves M, ?_, s,
      fun x => (by cases x), fun _ => ⟨M, rfl, hpw, hc⟩⟩
    simp only [if_true, List.foldlM_cons, List.foldlM_nil, e, bind_ok]
    rfl
  | false =>
    obtain ⟨h', b', F', e, s, ba, _, ms⟩ :=
      merge_leafparents_tree sqrt hs 10 (fun _ => true) t b
    have hfl : F.leafParents.filter (fun _ => true) = F.leafParents := List.filter_true _
    rw [hfl] at e ba ms
    have hne := F.leafParents_ne_nil hl
    have hlen : 0 < F.leafParents.length := List.length_pos.2 hne
    refine ⟨h', b', F', ?_, s, fun _ => ⟨ba hne, by omega⟩, fun x => by cases x⟩
    simp only [Bool.false_eq_true, if_false]
    exact e

/-- One turn on a flat tree that holds no close pair and whose centroids are cached
changes nothing and clears the flag. -/
theorem mergingPass_settled (sqrt : ℚ → ℚ) (hs : HitStore) {h : Heap} {root : Nat}
    {M : List Nat} (t : IsTree h root (Forest.leaves M)) (hM : M ≠ [])
    (hpw : M.Pairwise (fun x y => ¬ distOf sqrt hs h x y < 10)) (hc : Cached h M)
    (k : Nat) (b : Bool) :
    mergingPass sqrt hs (M.length + 2 + k) h root b = .ok (h, false) := by
  have hF : (Forest.leaves M).isNil = false := Forest.leaves_isNil M hM
  have hl : (Forest.leaves M).isLeaves = true := Forest.leaves_isLeaves M
  have hnd := List.nodup_cons.1 t.nodup
  have lp : LeafParent h root (Forest.leaves M).roots :=
    LeafParent.of_rep h root _ t.root_children t.rep hF hl hnd.2 hnd.1
  rw [Forest.leaves_roots] at lp
  have e := merge_leafparent_root_settled sqrt hs h root M 10 lp t.root_parent hpw hc
  unfold mergingPass
  have hr := leafparents_tree t hF k
  rw [Forest.leaves_nodes] at hr
  rw [hr, bind_ok, hl]
  simp only [if_true, List.foldlM_cons, List.foldlM_nil, e, bind_ok]
  rfl

/-- The loop of `merging_algo_Mar03` on a tree whose root has children ends, on a flat
tree that holds no pair closer than the radius. -/
theorem mergingLoop_tree (sqrt : ℚ → ℚ) (hs : HitStore) (root : Nat) :
    ∀ (n : Nat) (h : Heap) (F : Forest), IsTree h root F → F.isNil = false → F.internal ≤ n →
      ∃ h' M, MergeStep h root F h' (Forest.leaves M) ∧ M ≠ [] ∧
        M.Pairwise (fun x y => ¬ distOf sqrt hs h' x y < 10) ∧ Cached h' M ∧
        mergingLoop sqrt hs (F.nodes.length + 2) root (n + 3) h true = .ok h' := by
  intro n
  induction n with
  | zero =>
    intro h F t hF hn
    have hl : F.isLeaves = true := by
      cases hl : F.isLeaves with
      | true => rfl
      | false => have := F.internal_pos hl; omega
    obtain ⟨h1, b1, F1, e1, s1, _, hfl⟩ := mergingPass_tree sqrt hs t hF 0 true
    obtain ⟨M, rfl, hpw, hc⟩ := hfl hl
    have hMne : M ≠ [] := by
      intro e
      have := s1.nonempty hF
      rw [e] at this
      cases this
    refine ⟨h1, M, s1, hMne, hpw, hc, ?_⟩
    rw [Nat.add_zero] at e1
    rw [show 0 + 3 = 2 + 1 by rfl, mergingLoop]
    simp only [if_true, e1]
    cases b1 with
    | false => simp [mergingLoop]
    | true =>
      have hlen := s1.length_le
      rw [Forest.leaves_nodes] at hlen
      have e2 := mergingPass_settled sqrt hs s1.tree hMne hpw hc (F.nodes.length - M.length) true
      rw [show M.length + 2 + (F.nodes.length - M.length) = F.nodes.length + 2 by omega] at e2
      rw [show 2 = 1 + 1 by rfl, mergingLoop]
      simp only [if_true, e2]
      simp [mergingLoop]
  | succ m ih =>
    intro h F t hF hn
    cases hl : F.isLeaves with
    | true =>
      obtain ⟨h', M, s, hMne, hpw, hc, e⟩ :=
        ih h F t hF (by rw [F.isLeaves_internal hl]; exact Nat.zero_le _)
      refine ⟨h', M, s, hMne, hpw, hc, ?_⟩
      have := mergingLoop_mono sqrt hs _ 0 1 root _ h true h' e
      simpa using this
    | false =>
      obtain ⟨h1, b1, F1, e1, s1, hnf, _⟩ := mergingPass_tree sqrt hs t hF 0 true
      obtain ⟨hb1, hint⟩ := hnf hl
      subst hb1
      obtain ⟨h', M, s, hMne, hpw, hc, e⟩ :=
        ih h1 F1 s1.tree (s1.nonempty hF) (by omega)
      refine ⟨h', M, MergeStep.trans_step t s1 s, hMne, hpw, hc, ?_⟩
      rw [Nat.add_zero] at e1
      rw [show m + 1 + 3 = (m + 3) + 1 by omega, mergingLoop]
      simp only [if_true, e1]
      have hlen := s1.length_le
      have := mergingLoop_mono sqrt hs _ (F.nodes.length - F1.nodes.length) 0 root _ h1 true h' e
      rw [show F1.nodes.length + 2 + (F.nodes.length - F1.nodes.length) = F.nodes.length + 2
        by omega] at this
      simpa using this

/-- A run of `merging_algo_Mar03` on a well-formed tree whose root has children returns;
the result is a flat well-formed tree with the same hits, whose leaves hold no pair closer
than the radius `10`, and a second run returns this heap again. -/
theorem merging_algo_tree (sqrt : ℚ → ℚ) (hs : HitStore) {h : Heap} {root : Nat} {F : Forest}
    (t : IsTree h root F) (hF : F.isNil = false) :
    ∃ h' M, MergeStep h root F h' (Forest.leaves M) ∧ M ≠ [] ∧
      M.Pairwise (fun x y => ¬ distOf sqrt hs h' x y < 10) ∧ Cached h' M ∧
      (∀ fuel, F.nodes.length + 3 ≤ fuel → merging_algo_Mar03 sqrt hs fuel h root = .ok h') ∧
      (∀ fuel, M.length + 2 ≤ fuel → merging_algo_Mar03 sqrt hs fuel h' root = .ok h') := by
  obtain ⟨h', M, s, hMne, hpw, hc, e⟩ := mergingLoop_tree sqrt hs root F.internal h F t hF (le_refl _)
  refine ⟨h', M, s, hMne, hpw, hc, ?_, ?_⟩
  · intro fuel hfuel
    have hi := F.internal_le_length
    have := mergingLoop_mono sqrt hs _ (fuel - (F.nodes.length + 2)) (fuel - (F.internal + 3))
      root _ h true h' e
    rw [show F.nodes.length + 2 + (fuel - (F.nodes.length + 2)) = fuel by omega,
      show F.internal + 3 + (fuel - (F.internal + 3)) = fuel by omega] at this
    exact this
  · intro fuel hfuel
    have e2 := mergingPass_settled sqrt hs s.tree hMne hpw hc (fuel - (M.length + 2)) true
    rw [show M.length + 2 + (fuel - (M.length + 2)) = fuel by omega] at e2
    unfold merging_algo_Mar03
    obtain ⟨n, rfl⟩ : ∃ n, fuel = n + 2 := ⟨fuel - 2, by omega⟩
    rw [mergingLoop]
    simp only [if_true, e2]
    simp [mergingLoop]

/-- A run of `merging_algo_Mar03` on a well-formed tree that returns started on a tree whose
root has children. -/
theorem merging_algo_ok_nonempty (sqrt : ℚ → ℚ) (hs : HitStore) {h : Heap} {root : Nat}
    {F : Forest} (t : IsTree h root F) (fuel : Nat) (h1 : Heap)
    (e : merging_algo_Mar03 sqrt hs fuel h root = .ok h1) : F.isNil = false := by
  cases hF : F.isNil with
  | false => rfl
  | true =>
    have hc : (h root).children_ = [] := by
      rw [t.root_children, (Forest.isNil_iff F).1 hF]; rfl
    have := mergingLoop_childless sqrt hs h root hc fuel fuel
    unfold merging_algo_Mar03 at e
    rw [this] at e
    cases e

/-! ## Claims on merging -/

theorem distOf_comm (sqrt : ℚ → ℚ) (hs : HitStore) (h : Heap) (x y : Nat) :
    distOf sqrt hs h x y = distOf sqrt hs h y x := by
  unfold distOf
  congr 1
  ring

/-- In a flat tree the root is the only leaf parent, and its mergeable set is the list of
its children. -/
theorem flat_leafParent {h : Heap} {root : Nat} {M : List Nat}
    (t : IsTree h root (Forest.leaves M)) (L : Nat) (hL : L ∈ root :: (Forest.leaves M).nodes)
    (hlp : isLeafParent h L = true) : L = root ∧ mergeableSet h L = M := by
  rw [Forest.leaves_nodes] at hL
  have hroot : mergeableSet h root = M := by
    unfold mergeableSet hasParent
    rw [t.root_parent, t.root_children, Forest.leaves_roots]
    simp
  rcases List.mem_cons.1 hL with rfl | hL
  · exact ⟨rfl, hroot⟩
  · exfalso
    have hrep := t.rep
    have hc : (h L).children_ = [] := by
      have : ∀ (l : List Nat) (P : Nat), Rep h P (Forest.leaves l) → L ∈ l →
          (h L).children_ = [] := by
        intro l
        induction l with
        | nil => intro P _ hm; simp at hm
        | cons a l ih =>
          intro P hr hm
          obtain ⟨_, r2, _, r4⟩ := hr
          rcases List.mem_cons.1 hm with rfl | hm
          · exact r2
          · exact ih P r4 hm
      exact this M root hrep hL
    simp [isLeafParent, isLeaf, hasChildren, hc] at hlp

/-- C2: a run of `merging_algo_Mar03` on a well-formed tree whose root has children
returns (with fuel for the traversals and the turns), and whenever a run on a well-formed
tree has returned, the result is a well-formed tree in which no two distinct nodes of the
mergeable set of any leaf parent (its children, and itself when it has a parent and hits)
are at a distance below the radius `10` of the run, and a second run returns the very
heap it is given: no link, children order, hit list or particle type changes.  The
hypothesis of the claim that every leaf has a hit is not needed. -/
theorem merging_algo_fixed_point (sqrt : ℚ → ℚ) (hs : HitStore) {h : Heap} {root : Nat}
    {F : Forest} (t : IsTree h root F) :
    (F.isNil = false → ∀ fuel, F.nodes.length + 3 ≤ fuel →
      ∃ h', merging_algo_Mar03 sqrt hs fuel h root = .ok h') ∧
    (∀ fuel h', merging_algo_Mar03 sqrt hs fuel h root = .ok h' →
      ∃ F', IsTree h' root F' ∧
        (∀ L ∈ root :: F'.nodes, isLeafParent h' L = true →
          ∀ x ∈ mergeableSet h' L, ∀ y ∈ mergeableSet h' L, x ≠ y →
            ¬ distOf sqrt hs h' x y < 10) ∧
        (∀ fuel2, F'.nodes.length + 2 ≤ fuel2 →
          merging_algo_Mar03 sqrt hs fuel2 h' root = .ok h')) := by
  constructor
  · intro hF fuel hfuel
    obtain ⟨h', M, _, _, _, _, e, _⟩ := merging_algo_tree sqrt hs t hF
    exact ⟨h', e fuel hfuel⟩
  · intro fuel h1 e1
    have hF := merging_algo_ok_nonempty sqrt hs t fuel h1 e1
    obtain ⟨h', M, s, hMne, hpw, hc, e, e2⟩ := merging_algo_tree sqrt hs t hF
    have hh : h1 = h' := by
      have a := merging_algo_mono sqrt hs fuel (F.nodes.length + 3) h root h1 e1
      have b := e (fuel + (F.nodes.length + 3)) (by omega)
      rw [a] at b
      exact Except.ok.inj b
    subst hh
    refine ⟨Forest.leaves M, s.tree, ?_, ?_⟩
    · intro L hL hlp x hx y hy hxy
      obtain ⟨_, hm⟩ := flat_leafParent s.tree L hL hlp
      rw [hm] at hx hy
      have hsymm : Symmetric (fun x y => ¬ distOf sqrt hs h1 x y < 10) := by
        intro a b hab
        rw [distOf_comm]
        exact hab
      exact hpw.forall hsymm hx hy hxy
    · intro fuel2 hfuel2
      rw [Forest.leaves_nodes] at hfuel2
      exact e2 fuel2 hfuel2

/-- C2 on the example tree: the run returns, and the stated properties hold of what it
returns. -/
theorem merging_algo_fixed_point_witness :
    ∃ h', merging_algo_Mar03 (fun q => q) exampleHits 10 exampleHeap 0 = .ok h' ∧
      ∃ F', IsTree h' 0 F' ∧
        (∀ L ∈ 0 :: F'.nodes, isLeafParent h' L = true →
          ∀ x ∈ mergeableSet h' L, ∀ y ∈ mergeableSet h' L, x ≠ y →
            ¬ distOf (fun q => q) exampleHits h' x y < 10) ∧
        (∀ fuel2, F'.nodes.length + 2 ≤ fuel2 →
          merging_algo_Mar03 (fun q => q) exampleHits fuel2 h' 0 = .ok h') := by
  obtain ⟨h', e⟩ :=
    (merging_algo_fixed_point (fun q => q) exampleHits exampleTree).1 rfl 10 (by decide)
  exact ⟨h', e, (merging_algo_fixed_point (fun q => q) exampleHits exampleTree).2 10 h' e⟩

/-- C4: one call of `merge_leafparent_Mar03` on a leaf parent of a well-formed tree, with
any radius, returns a well-formed tree whose hits, taken over the nodes reachable from the
root, are a permutation of the hits before; hence no hit is attached to two nodes
afterwards when none was before, and a node that left the tree keeps no hit.  The same
holds for a whole run of `merging_algo_Mar03`, which returns on every tree whose root has
children. -/
theorem merge_conserves_hits (sqrt : ℚ → ℚ) (hs : HitStore) {h : Heap} {root : Nat}
    {F : Forest} (t : IsTree h root F) :
    (∀ L ∈ root :: F.nodes, isLeafParent h L = true → ∀ maxr : ℚ,
      ∃ h' b' F', merge_leafparent_Mar03 sqrt hs h L maxr = .ok (h', b') ∧
        IsTree h' root F' ∧
        (reachableHits h' root F').Perm (reachableHits h root F) ∧
        ((reachableHits h root F).Nodup → (reachableHits h' root F').Nodup) ∧
        (∀ q ∈ root :: F.nodes, q ∉ root :: F'.nodes → (h' q).hits_ = [])) ∧
    (F.isNil = false → ∀ fuel, F.nodes.length + 3 ≤ fuel →
      ∃ h', merging_algo_Mar03 sqrt hs fuel h root = .ok h') ∧
    (∀ fuel h', merging_algo_Mar03 sqrt hs fuel h root = .ok h' →
      ∃ F', IsTree h' root F' ∧
        (reachableHits h' root F').Perm (reachableHits h root F) ∧
        ((reachableHits h root F).Nodup → (reachableHits h' root F').Nodup) ∧
        (∀ q ∈ root :: F.nodes, q ∉ root :: F'.nodes → (h' q).hits_ = [])) := by
  have hgone : ∀ (h' : Heap) (F' : Forest), MergeStep h root F h' F' →
      ∀ q ∈ root :: F.nodes, q ∉ root :: F'.nodes → (h' q).hits_ = [] := by
    intro h' F' s q hq hq'
    rcases List.mem_cons.1 hq with rfl | hq
    · exact absurd (List.mem_cons_self _ _) hq'
    · exact s.gone q hq (fun hm => hq' (List.mem_cons_of_mem _ hm))
  refine ⟨?_, ?_, ?_⟩
  · intro L hL hlp maxr
    obtain ⟨h', b', F', e, s⟩ := merge_leafparent_tree sqrt hs maxr t L hL hlp
    exact ⟨h', b', F', e, s.tree, s.hits, fun hnd => (s.hits.nodup_iff).2 hnd, hgone h' F' s⟩
  · intro hF fuel hfuel
    obtain ⟨h', M, _, _, _, _, e, _⟩ := merging_algo_tree sqrt hs t hF
    exact ⟨h', e fuel hfuel⟩
  · intro fuel h1 e1
    have hF := merging_algo_ok_nonempty sqrt hs t fuel h1 e1
    obtain ⟨h', M, s, _, _, _, e, _⟩ := merging_algo_tree sqrt hs t hF
    have hh : h1 = h' := by
      have a := merging_algo_mono sqrt hs fuel (F.nodes.length + 3) h root h1 e1
      have b := e (fuel + (F.nodes.length + 3)) (by omega)
      rw [a] at b
      exact Except.ok.inj b
    subst hh
    exact ⟨_, s.tree, s.hits, fun hnd => (s.hits.nodup_iff).2 hnd, hgone h1 _ s⟩

/-- C4 on the example tree, whose node `1` is a leaf parent and whose hits are distinct. -/
theorem merge_conserves_hits_witness :
    (∃ h' b' F', merge_leafparent_Mar03 (fun q => q) exampleHits exampleHeap 1 10
        = .ok (h', b') ∧
      IsTree h' 0 F' ∧
      (reachableHits h' 0 F').Perm (reachableHits exampleHeap 0 exampleForest) ∧
      (reachableHits h' 0 F').Nodup ∧
      (∀ q ∈ 0 :: exampleForest.nodes, q ∉ 0 :: F'.nodes → (h' q).hits_ = [])) ∧
    (∃ h', merging_algo_Mar03 (fun q => q) exampleHits 10 exampleHeap 0 = .ok h' ∧
      ∃ F', IsTree h' 0 F' ∧
        (reachableHits h' 0 F').Perm (reachableHits exampleHeap 0 exampleForest) ∧
        (reachableHits h' 0 F').Nodup ∧
        (∀ q ∈ 0 :: exampleForest.nodes, q ∉ 0 :: F'.nodes → (h' q).hits_ = [])) := by
  have hnd : (reachableHits exampleHeap 0 exampleForest).Nodup := by decide
  constructor
  · obtain ⟨h', b', F', e, t', hp, hn, hg⟩ :=
      (merge_conserves_hits (fun q => q) exampleHits exampleTree).1 1 (by decide) (by decide) 10
    exact ⟨h', b', F', e, t', hp, hn hnd, hg⟩
  · obtain ⟨h', e⟩ :=
      (merge_conserves_hits (fun q => q) exampleHits exampleTree).2.1 rfl 10 (by decide)
    obtain ⟨F', t', hp, hn, hg⟩ :=
      (merge_conserves_hits (fun q => q) exampleHits exampleTree).2.2 10 h' e
    exact ⟨h', e, F', t', hp, hn hnd, hg⟩

/-! ## Fuel of `trim_tree` -/

theorem insertAncestors_mono (h : Heap) (k : Nat) :
    ∀ (fuel : Nat) (o : Option Nat) (set r : List Int),
      insertAncestors h fuel o set = .ok r → insertAncestors h (fuel + k) o set = .ok r := by
  intro fuel
  induction fuel with
  | zero => intro o set r e; simp [insertAncestors] at e
  | succ n ih =>
    intro o set r e
    rw [show n + 1 + k = (n + k) + 1 by omega]
    cases o with
    | none => simpa [insertAncestors] using e
    | some m =>
      rw [insertAncestors] at e ⊢
      exact ih _ _ r e

theorem trimLoop_mono (keep : List Int) (k : Nat) :
    ∀ (fuel : Nat) (h : Heap) (it : Iterator) (r : Heap),
      trimLoop keep fuel h it = .ok r → trimLoop keep (fuel + k) h it = .ok r := by
  intro fuel
  induction fuel with
  | zero => intro h it r e; simp [trimLoop] at e
  | succ n ih =>
    intro h it r e
    rw [show n + 1 + k = (n + k) + 1 by omega]
    rw [trimLoop] at e ⊢
    cases hm : it.m_ptr with
    | none => rw [hm] at e; simpa using e
    | some node =>
      rw [hm] at e
      simp only at e ⊢
      by_cases hkeep : keep.contains (h node).trackid_ = true
      · simp only [hkeep, Bool.not_true, Bool.false_eq_true, if_false] at e ⊢
        cases hn : it.next h with
        | error err => rw [hn] at e; cases e
        | ok it1 =>
          rw [hn, bind_ok] at e
          rw [bind_ok]
          exact ih h it1 r e
      · have hkeep' : keep.contains (h node).trackid_ = false := by
          cases hc : keep.contains (h node).trackid_ with
          | true => exact absurd hc hkeep
          | false => rfl
        simp only [hkeep', Bool.not_false, if_true] at e ⊢
        cases hn : it.next (Function.update h node { h node with children_ := [] }) with
        | error err => rw [hn] at e; cases e
        | ok it1 =>
          rw [hn, bind_ok] at e
          rw [bind_ok]
          cases hb : break_from_parent (Function.update h node { h node with children_ := [] })
              node with
          | error err => rw [hb] at e; cases e
          | ok h2 =>
            rw [hb, bind_ok] at e
            rw [bind_ok]
            exact ih h2 it1 r e

theorem dfs_recursion_mono (h : Heap) (k : Nat) :
    ∀ (fuel : Nat) (node : Nat) (ret : List (Nat × Int)) (d : Int) (r : List (Nat × Int)),
      dfs_recursion h fuel node ret d = .ok r → dfs_recursion h (fuel + k) node ret d = .ok r := by
  intro fuel
  induction fuel with
  | zero => intro node ret d r e; simp [dfs_recursion] at e
  | succ n ih =>
    intro node ret d r e
    rw [show n + 1 + k = (n + k) + 1 by omega]
    rw [dfs_recursion] at e ⊢
    exact foldlM_mono _ _ (fun acc x r1 e1 => ih x acc (d + 1) r1 e1) _ _ r e

/-- A run of `trim_tree` that returns, returns the same with more fuel. -/
theorem trim_tree_mono (fuel k : Nat) (h : Heap) (root : Nat) (r : Heap)
    (e : trim_tree fuel h root = .ok r) : trim_tree (fuel + k) h root = .ok r := by
  unfold trim_tree at e ⊢
  cases h1 : rangeFor h (keepBody h fuel) fuel (Node.begin root) [] with
  | error err => rw [h1] at e; cases e
  | ok keep =>
    rw [h1, bind_ok] at e
    have hb : ∀ (acc : List Int) (m : Nat) (d : Int) (r1 : List Int),
        keepBody h fuel acc m d = .ok r1 → keepBody h (fuel + k) acc m d = .ok r1 := by
      intro acc m d r1 e1
      unfold keepBody at e1 ⊢
      split
      · rename_i hh; rw [if_pos hh] at e1; exact e1
      · rename_i hh; rw [if_neg hh] at e1
        exact insertAncestors_mono h k fuel _ _ r1 e1
    rw [rangeFor_mono h _ _ hb k fuel _ _ keep h1, bind_ok]
    cases h2 : trimLoop keep fuel h (Node.begin root) with
    | error err => rw [h2] at e; cases e
    | ok hp =>
      rw [h2, bind_ok] at e
      rw [trimLoop_mono keep k fuel h _ hp h2, bind_ok]
      cases h3 : dfs hp fuel root with
      | error err => rw [h3] at e; cases e
      | ok snap =>
        rw [h3, bind_ok] at e
        have : dfs hp (fuel + k) root = .ok snap := dfs_recursion_mono hp k fuel root [] 0 snap h3
        rw [this, bind_ok]
        exact e

/-- On a well-formed tree without any hit the removing loop of `trim_tree` detaches the
root, which has no parent: `trim_tree` does not return. -/
theorem trim_tree_no_hit {h : Heap} {root : Nat} {F : Forest} (t : IsTree h root F)
    (hno : ¬ treeHasHit h root F) (k : Nat) :
    trim_tree (F.nodes.length + 2 + k) h root = .error .undefinedBehaviour := by
  have hany : (hasHits h root || F.anyHit (hasHits h)) = false := by
    cases hc : (hasHits h root || F.anyHit (hasHits h)) with
    | false => rfl
    | true => exact absurd ((treeHasHit_iff h root F).2 hc) hno
  obtain ⟨keep, hk1, hk2⟩ := keep_set t k
  have hkc := (keep_contains t keep hk2).1
  rw [hany] at hkc
  unfold trim_tree
  rw [hk1, bind_ok]
  have : trimLoop keep (F.nodes.length + 2 + k) h (Node.begin root)
      = .error .undefinedBehaviour := by
    rw [show F.nodes.length + 2 + k = (F.nodes.length + 1 + k) + 1 by omega, trimLoop]
    simp only [Node.begin, hkc, Bool.not_false, if_true, Iterator.next, Function.update_same,
      climb_root, bind_ok, break_from_parent, t.root_parent]
    rfl
  rw [this]
  rfl

/-- A run of `trim_tree` on a well-formed tree that returns started on a tree with a hit. -/
theorem trim_tree_ok_hasHit {h : Heap} {root : Nat} {F : Forest} (t : IsTree h root F)
    (fuel : Nat) (h' : Heap) (e : trim_tree fuel h root = .ok h') : treeHasHit h root F := by
  by_contra hno
  have a := trim_tree_mono fuel (F.nodes.length + 2) h root h' e
  have b := trim_tree_no_hit t hno fuel
  rw [show F.nodes.length + 2 + fuel = fuel + (F.nodes.length + 2) by omega, a] at b
  cases b

/-! ## The tree invariant -/

theorem Rep_once (h : Heap) (F : Forest) :
    ∀ P, Rep h P F → ∀ n ∈ F.nodes, (n ∈ F.roots ∧ (h n).parent_ = some P) ∨
      ∃ p ∈ F.nodes, (h n).parent_ = some p ∧ n ∈ (h p).children_ := by
  induction F with
  | nil => intro P _ n hn; simp [Forest.nodes] at hn
  | cons p kids rest ihk ihr =>
    intro P hrep n hn
    obtain ⟨r1, r2, r3, r4⟩ := hrep
    simp only [Forest.nodes, List.mem_cons, List.mem_append] at hn
    rcases hn with rfl | hn | hn
    · left; exact ⟨by simp [Forest.roots], r1⟩
    · right
      rcases ihk p r3 n hn with ⟨hr, hp⟩ | ⟨q, hq, hp, hc⟩
      · exact ⟨p, by simp [Forest.nodes], hp, by rw [r2]; exact hr⟩
      · exact ⟨q, by simp [Forest.nodes, hq], hp, hc⟩
    · rcases ihr P r4 n hn with ⟨hr, hp⟩ | ⟨q, hq, hp, hc⟩
      · left; exact ⟨by simp [Forest.roots, hr], hp⟩
      · right; exact ⟨q, by simp [Forest.nodes, hq], hp, hc⟩

theorem Rep_children (h : Heap) (F : Forest) :
    ∀ P, Rep h P F → F.nodes.Nodup → ∀ p ∈ F.nodes,
      (h p).children_.Nodup ∧ ∀ c ∈ (h p).children_, (h c).parent_ = some p := by
  induction F with
  | nil => intro P _ _ p hp; simp [Forest.nodes] at hp
  | cons p kids rest ihk ihr =>
    intro P hrep hnd q hq
    obtain ⟨r1, r2, r3, r4⟩ := hrep
    simp only [Forest.nodes] at hnd hq
    have hnd2 := List.nodup_append.1 (List.nodup_cons.1 hnd).2
    simp only [List.mem_cons, List.mem_append] at hq
    rcases hq with rfl | hq | hq
    · rw [r2]
      exact ⟨hnd2.1.sublist kids.roots_sublist_nodes, Rep_roots h kids q r3⟩
    · exact ihk p r3 hnd2.1 q hq
    · exact ihr P r4 hnd2.2.1 q hq

/-- A well-formed tree satisfies the tree invariant. -/
theorem IsTree.invariant {h : Heap} {root : Nat} {F : Forest} (t : IsTree h root F) :
    TreeInvariant h root F := by
  have hnd := List.nodup_cons.1 t.nodup
  refine ⟨t.root_parent, ?_, ?_⟩
  · intro n hn
    rcases Rep_once h F root t.rep n hn with ⟨hr, hp⟩ | ⟨q, hq, hp, hc⟩
    · refine ⟨root, by simp, hp, ?_⟩
      rw [t.root_children]
      exact List.count_eq_one_of_mem (hnd.2.sublist F.roots_sublist_nodes) hr
    · exact ⟨q, List.mem_cons_of_mem _ hq, hp,
        List.count_eq_one_of_mem (Rep_children h F root t.rep hnd.2 q hq).1 hc⟩
  · intro p hp c hc
    rcases List.mem_cons.1 hp with rfl | hp
    · rw [t.root_children] at hc
      exact Rep_roots h F p t.rep c hc
    · exact (Rep_children h F root t.rep hnd.2 p hp).2 c hc

/-- C6: on a well-formed tree, whenever `trim_tree`, one call of `merge_leafparent_Mar03`
on a leaf parent (with any radius), or `merging_algo_Mar03` has returned, the nodes
reachable from the root form a well-formed tree again, in which the root has no parent,
every node below the root occurs exactly once in the `children_` of its parent, and
every child listed in the `children_` of a reachable node has that node as `parent_`.
The merge of a leaf parent always returns; `trim_tree` returns when the tree carries a
hit, and `merging_algo_Mar03` when the root has children. -/
theorem tree_invariant_preserved (sqrt : ℚ → ℚ) (hs : HitStore) {h : Heap} {root : Nat}
    {F : Forest} (t : IsTree h root F) :
    (∀ fuel h', trim_tree fuel h root = .ok h' →
      ∃ F', IsTree h' root F' ∧ TreeInvariant h' root F') ∧
    (treeHasHit h root F → ∀ fuel, F.nodes.length + 2 ≤ fuel →
      ∃ h', trim_tree fuel h root = .ok h') ∧
    (∀ L ∈ root :: F.nodes, isLeafParent h L = true → ∀ maxr : ℚ,
      ∃ h' b' F', merge_leafparent_Mar03 sqrt hs h L maxr = .ok (h', b') ∧
        IsTree h' root F' ∧ TreeInvariant h' root F') ∧
    (∀ fuel h', merging_algo_Mar03 sqrt hs fuel h root = .ok h' →
      ∃ F', IsTree h' root F' ∧ TreeInvariant h' root F') ∧
    (F.isNil = false → ∀ fuel, F.nodes.length + 3 ≤ fuel →
      ∃ h', merging_algo_Mar03 sqrt hs fuel h root = .ok h') := by
  refine ⟨?_, ?_, ?_, ?_, ?_⟩
  · intro fuel h1 e1
    have hany := trim_tree_ok_hasHit t fuel h1 e1
    obtain ⟨h', e, t', _⟩ := trim_tree_spec t hany (fuel + (F.nodes.length + 2)) (by omega)
    have a := trim_tree_mono fuel (F.nodes.length + 2) h root h1 e1
    rw [a] at e
    have hh : h1 = h' := Except.ok.inj e
    subst hh
    exact ⟨_, t', t'.invariant⟩
  · intro hany fuel hfuel
    obtain ⟨h', e, _⟩ := trim_tree_spec t hany fuel hfuel
    exact ⟨h', e⟩
  · intro L hL hlp maxr
    obtain ⟨h', b', F', e, s⟩ := merge_leafparent_tree sqrt hs maxr t L hL hlp
    exact ⟨h', b', F', e, s.tree, s.tree.invariant⟩
  · intro fuel h1 e1
    have hF := merging_algo_ok_nonempty sqrt hs t fuel h1 e1
    obtain ⟨h', M, s, _, _, _, e, _⟩ := merging_algo_tree sqrt hs t hF
    have hh : h1 = h' := by
      have a := merging_algo_mono sqrt hs fuel (F.nodes.length + 3) h root h1 e1
      have b := e (fuel + (F.nodes.length + 3)) (by omega)
      rw [a] at b
      exact Except.ok.inj b
    subst hh
    exact ⟨_, s.tree, s.tree.invariant⟩
  · intro hF fuel hfuel
    obtain ⟨h', M, _, _, _, _, e, _⟩ := merging_algo_tree sqrt hs t hF
    exact ⟨h', e fuel hfuel⟩

/-- C6 on the example tree, which carries a hit and whose node `1` is a leaf parent. -/
theorem tree_invariant_preserved_witness :
    (∃ h', trim_tree 9 exampleHeap 0 = .ok h' ∧
      ∃ F', IsTree h' 0 F' ∧ TreeInvariant h' 0 F') ∧
    (∃ h' b' F', merge_leafparent_Mar03 (fun q => q) exampleHits exampleHeap 1 10
        = .ok (h', b') ∧
      IsTree h' 0 F' ∧ TreeInvariant h' 0 F') ∧
    (∃ h', merging_algo_Mar03 (fun q => q) exampleHits 10 exampleHeap 0 = .ok h' ∧
      ∃ F', IsTree h' 0 F' ∧ TreeInvariant h' 0 F') := by
  refine ⟨?_, ?_, ?_⟩
  · obtain ⟨h', e⟩ :=
      (tree_invariant_preserved (fun q => q) exampleHits exampleTree).2.1 exampleTree_hasHit 9
        (by decide)
    exact ⟨h', e, (tree_invariant_preserved (fun q => q) exampleHits exampleTree).1 9 h' e⟩
  · exact (tree_invariant_preserved (fun q => q) exampleHits exampleTree).2.2.1 1 (by decide)
      (by decide) 10
  · obtain ⟨h', e⟩ :=
      (tree_invariant_preserved (fun q => q) exampleHits exampleTree).2.2.2.2 rfl 10 (by decide)
    exact ⟨h', e,
      (tree_invariant_preserved (fun q => q) exampleHits exampleTree).2.2.2.1 10 h' e⟩

/-! ## The root in the first step of `trim_tree` -/

theorem singleTree : IsTree singleHeap 0 .nil := by
  refine ⟨rfl, rfl, trivial, by decide, ?_⟩
  intro p hp q hq _
  simp only [Forest.nodes, List.mem_singleton] at hp hq
  rw [hp, hq]

theorem singleTree_noHit : ¬ treeHasHit singleHeap 0 .nil := by
  rintro ⟨q, _, hq⟩
  exact hq rfl

/-- The root in the first pass of `trim_tree`.  On a well-formed tree that carries a hit
the track id of the root is in the set of kept ids and `trim_tree` returns a well-formed
tree with the same root, whose record keeps its parent (none) and its hits.  On a
well-formed tree without any hit the set does not hold the track id of the root: the
removing loop, which tests every node it visits, clears the children of the root and
calls `break_from_parent` on it, and `trim_tree` does not return. -/
theorem trim_tree_root_not_exempt {h : Heap} {root : Nat} {F : Forest} (t : IsTree h root F) :
    (treeHasHit h root F → ∀ fuel, F.nodes.length + 2 ≤ fuel →
      ∃ h' F', trim_tree fuel h root = .ok h' ∧ IsTree h' root F' ∧
        (h' root).parent_ = none ∧ (h' root).hits_ = (h root).hits_) ∧
    (¬ treeHasHit h root F →
      (∀ fuel h', trim_tree fuel h root ≠ .ok h') ∧
      ∀ k, ∃ keep,
        rangeFor h (keepBody h (F.nodes.length + 2 + k)) (F.nodes.length + 2 + k)
          (Node.begin root) [] = .ok keep ∧
        keep.contains (h root).trackid_ = false ∧
        trimLoop keep (F.nodes.length + 2 + k) h (Node.begin root)
          = (break_from_parent (Function.update h root { h root with children_ := [] }) root
              >>= fun h2 => trimLoop keep (F.nodes.length + 1 + k) h2 ⟨none, some root, 0, []⟩)) := by
  constructor
  · intro hany fuel hfuel
    obtain ⟨h', e, t', lo⟩ := trim_tree_spec t hany fuel hfuel
    exact ⟨h', _, e, t', t'.root_parent, lo.hits_eq root⟩
  · intro hno
    refine ⟨fun fuel h' e => hno (trim_tree_ok_hasHit t fuel h' e), ?_⟩
    intro k
    have hany : (hasHits h root || F.anyHit (hasHits h)) = false := by
      cases hc : (hasHits h root || F.anyHit (hasHits h)) with
      | false => rfl
      | true => exact absurd ((treeHasHit_iff h root F).2 hc) hno
    obtain ⟨keep, hk1, hk2⟩ := keep_set t k
    have hkc := (keep_contains t keep hk2).1
    rw [hany] at hkc
    refine ⟨keep, hk1, hkc, ?_⟩
    rw [show F.nodes.length + 2 + k = (F.nodes.length + 1 + k) + 1 by omega, trimLoop]
    simp only [Node.begin, hkc, Bool.not_false, if_true, Iterator.next, Function.update_same,
      climb_root, bind_ok]

/-- The root in the first pass of `trim_tree`, on the example tree (which carries a hit)
and on the tree of one node without hits. -/
theorem trim_tree_root_not_exempt_witness :
    (∃ h' F', trim_tree 9 exampleHeap 0 = .ok h' ∧ IsTree h' 0 F' ∧
        (h' 0).parent_ = none ∧ (h' 0).hits_ = (exampleHeap 0).hits_) ∧
    (∀ fuel h', trim_tree fuel singleHeap 0 ≠ .ok h') :=
  ⟨(trim_tree_root_not_exempt exampleTree).1 exampleTree_hasHit 9 (by decide),
    ((trim_tree_root_not_exempt singleTree).2 singleTree_noHit).1⟩

/-- C11: on the tree of one node without hits `trim_tree` does not leave the tree
untouched.  The set of kept track ids is empty, the removing loop, which has no test that
spares the root, clears the children of the root and calls `break_from_parent` on it, a
node without parent, and `trim_tree` does not return, whatever the fuel. -/
theorem trim_tree_single_hitless_fails :
    rangeFor singleHeap (keepBody singleHeap 3) 3 (Node.begin 0) [] = .ok [] ∧
    trimLoop [] 3 singleHeap (Node.begin 0)
      = (break_from_parent (Function.update singleHeap 0 { singleHeap 0 with children_ := [] }) 0
          >>= fun h2 => trimLoop [] 2 h2 ⟨none, some 0, 0, []⟩) ∧
    break_from_parent (Function.update singleHeap 0 { singleHeap 0 with children_ := [] }) 0
      = .error .undefinedBehaviour ∧
    trim_tree 3 singleHeap 0 = .error .undefinedBehaviour ∧
    ∀ fuel h', trim_tree fuel singleHeap 0 ≠ .ok h' := by
  refine ⟨rfl, rfl, rfl, trim_tree_no_hit singleTree singleTree_noHit 1, ?_⟩
  intro fuel h' e
  exact singleTree_noHit (trim_tree_ok_hasHit singleTree fuel h' e)

/-! ## The value `merge_leafparent_Mar03` returns -/

theorem flatTree : IsTree flatHeap 0 (Forest.leaves [1, 2, 3]) := by
  refine ⟨rfl, rfl, ?_, by decide, by decide⟩
  simp [Rep, Forest.leaves, flatHeap, flatNodes, Forest.roots, Node.mk3]

/-- C12, counterexample: on the leaf parent `1` of the example tree, which is not the
root and whose mergeable set is its one child `4`, the `while(true)` loop ends at its
first turn with the mergeable set unchanged and `didUpdate` false (no pair is merged),
and `merge_leafparent_Mar03` returns `true`. -/
theorem merge_leafparent_true_without_merge :
    isLeafParent exampleHeap 1 = true ∧
    mergeableSet exampleHeap 1 = [4] ∧
    (mergeLoop (fun q => q) exampleHits 10 2
      (Function.update exampleHeap 1 { exampleHeap 1 with children_ := [] }) [4] false).map
        Prod.snd = .ok ([4], false) ∧
    (merge_leafparent_Mar03 (fun q => q) exampleHits exampleHeap 1 10).map Prod.snd
      = .ok true :=
  ⟨rfl, rfl, rfl, rfl⟩

/-- C12, amended: on a leaf parent of a well-formed tree `merge_leafparent_Mar03`
returns; on the root it returns `true` exactly when a pair was merged, that is when the
root is left with fewer children than it had; on a leaf parent that is not the root it
returns `true` in every case. -/
theorem merge_leafparent_return_value (sqrt : ℚ → ℚ) (hs : HitStore) (maxr : ℚ) {h : Heap}
    {root : Nat} {F : Forest} (t : IsTree h root F) (L : Nat) (hL : L ∈ root :: F.nodes)
    (hlp : isLeafParent h L = true) :
    ∃ h' b', merge_leafparent_Mar03 sqrt hs h L maxr = .ok (h', b') ∧
      (L = root → (b' = true ↔ (h' root).children_.length < (h root).children_.length)) ∧
      (L ≠ root → b' = true) := by
  rcases List.mem_cons.1 hL with rfl | hL
  · rw [isLeafParent_rep h L F t.root_children t.rep] at hlp
    simp only [Bool.and_eq_true, Bool.not_eq_true'] at hlp
    obtain ⟨h', M, e, s, _⟩ := merge_leafparent_flat sqrt hs maxr t hlp.1 hlp.2
    refine ⟨h', _, e, fun _ => ?_, fun hne => absurd rfl hne⟩
    rw [s.tree.root_children, t.root_children, Forest.leaves_roots]
    simp
  · have hne : L ≠ root := fun e => (List.nodup_cons.1 t.nodup).1 (e ▸ hL)
    have hmem := mem_leafParents h F root t.rep L hL hlp
    have hnd : F.leafParents.Nodup :=
      (List.nodup_cons.1 t.nodup).2.sublist F.leafParents_sublist
    obtain ⟨h', b', F', e, s, hb, _⟩ :=
      merge_leafparents_tree sqrt hs maxr (fun q => q == L) t false
    rw [filter_beq_nodup F.leafParents L hnd hmem] at e hb
    simp only [List.foldlM_cons, List.foldlM_nil] at e
    have hb' : b' = true := hb (List.cons_ne_nil _ _)
    refine ⟨h', b', ?_, fun e' => absurd e' hne, fun _ => hb'⟩
    cases hm : merge_leafparent_Mar03 sqrt hs h L maxr with
    | error err => rw [hm] at e; cases e
    | ok r =>
      rw [hm] at e
      simp only [bind_ok, pure, Except.pure] at e
      rw [e]

/-- C12, amended, on the root of the flat example tree and on the leaf parent `1` of the
example tree. -/
theorem merge_leafparent_return_value_witness :
    (∃ h' b', merge_leafparent_Mar03 (fun q => q) flatHits flatHeap 0 10 = .ok (h', b') ∧
      (0 = 0 → (b' = true ↔ (h' 0).children_.length < (flatHeap 0).children_.length)) ∧
      (0 ≠ 0 → b' = true)) ∧
    (∃ h' b', merge_leafparent_Mar03 (fun q => q) exampleHits exampleHeap 1 10 = .ok (h', b') ∧
      (1 = 0 → (b' = true ↔ (h' 0).children_.length < (exampleHeap 0).children_.length)) ∧
      (1 ≠ 0 → b' = true)) :=
  ⟨merge_leafparent_return_value (fun q => q) flatHits 10 flatTree 0 (by decide) (by decide),
    merge_leafparent_return_value (fun q => q) exampleHits 10 exampleTree 1 (by decide)
      (by decide)⟩

/-! ## The particle type of the survivor -/

theorem pdgTree : IsTree pdgHeap 0 (.cons 1 (.cons 2 .nil .nil) .nil) := by
  refine ⟨rfl, rfl, ?_, by decide, by decide⟩
  simp [Rep, pdgHeap, pdgNodes, Forest.roots, Node.mk3]

/-- C13: in the chain `0 → 1 → 2` the leaf parent `1` is not the root and has a hit on
entry, so it is mergeable; its child `2` has the higher energy and absorbs it, which
clears the hits of `1`; the test `!(leafparent->hasHits())` of the special case comes
after the merging, finds no hit, and the particle type of `2` changes from `11` to `22`. -/
theorem merge_leafparent_pdgid_after_absorb :
    isLeafParent pdgHeap 1 = true ∧ hasHits pdgHeap 1 = true ∧
    mergeableSet pdgHeap 1 = [2, 1] ∧ (pdgHeap 2).pdgid_ = 11 ∧
    ((merge_leafparent_Mar03 (fun q => q) flatHits pdgHeap 1 10).toOption.map
      (fun r => ((r.1 2).pdgid_, (r.1 2).hits_, (r.1 1).hits_, (r.1 0).children_)))
      = some (22, [1, 0], [], [2]) := by
  refine ⟨rfl, rfl, rfl, rfl, ?_⟩
  decide!

/-! ## The cached centroid and `addHit` -/

/-- C14, counterexample: on the leaf `1` of the flat example, which holds the hit at
`(0,0,0)`, a read, then `addHit` of the hit at `(1,0,0)`, then a second read: the second
read returns `(0,0,0)`, the point cached by the first, while `::hitcentroid` of the two
hits the node now holds is `(1/2,0,0)`; the cache is marked as calculated and stale. -/
theorem hitcentroid_stale_after_addHit :
    ((runOps flatHits 1 [.read, .addHit 1, .read] flatHeap).toOption.map
      (fun r => (r.2, (r.1 1).hits_, (r.1 1).hitcentroidCalculated_, (r.1 1).hitcentroid_)))
      = some ([⟨0, 0, 0⟩, ⟨0, 0, 0⟩], [0, 1], true, ⟨0, 0, 0⟩) ∧
    (hitcentroid ([0, 1].map flatHits)).toOption = some ⟨1 / 2, 0, 0⟩ := by
  constructor <;> decide!

theorem runOps_disciplined (hs : HitStore) (p : Nat) (ops : List CacheOp) :
    ∀ (dirty : Bool) (h : Heap), (dirty = false → Coherent hs h p) →
      disciplined dirty ops = true →
      ∃ h' rs, runOps hs p ops h = .ok (h', rs) ∧
        rs.map Except.ok = expectedReads hs ops (h p).hits_ := by
  induction ops with
  | nil => intro dirty h _ _; exact ⟨h, [], rfl, rfl⟩
  | cons op ops ih =>
    intro dirty h hco hd
    cases op with
    | addHit hit =>
      obtain ⟨h', rs, e, hr⟩ := ih true (addHit h p hit) (fun x => by cases x) hd
      refine ⟨h', rs, e, ?_⟩
      rw [hr]
      simp [expectedReads, addHit]
    | read =>
      simp only [disciplined, Bool.and_eq_true, Bool.not_eq_true'] at hd
      have hc := hco hd.1
      cases hf : (h p).hitcentroidCalculated_ with
      | true =>
        obtain ⟨h', rs, e, hr⟩ := ih false h (fun _ => hc) hd.2
        refine ⟨h', (h p).hitcentroid_ :: rs, ?_, ?_⟩
        · simp only [runOps, nodeHitcentroid, hf, if_true, bind_ok, e]
        · simp only [List.map_cons, expectedReads, hr, hc hf]
      | false =>
        obtain ⟨c, hcv⟩ := hitcentroid_ok ((h p).hits_.map hs)
        have hco1 : Coherent hs
            (Function.update h p { h p with hitcentroid_ := c, hitcentroidCalculated_ := true })
            p := by
          intro _
          simp only [Function.update_same]
          exact hcv
        obtain ⟨h', rs, e, hr⟩ := ih false _ (fun _ => hco1) hd.2
        refine ⟨h', c :: rs, ?_, ?_⟩
        · simp only [runOps, nodeHitcentroid, hf, Bool.false_eq_true, if_false,
            recomputeHitcentroid, hcv, bind_ok, e]
        · simp only [Function.update_same] at hr
          simp only [List.map_cons, expectedReads, hr, hcv]
    | recompute =>
      obtain ⟨c, hcv⟩ := hitcentroid_ok ((h p).hits_.map hs)
      have hco1 : Coherent hs
          (Function.update h p { h p with hitcentroid_ := c, hitcentroidCalculated_ := true })
          p := by
        intro _
        simp only [Function.update_same]
        exact hcv
      obtain ⟨h', rs, e, hr⟩ := ih false _ (fun _ => hco1) hd
      refine ⟨h', rs, ?_, ?_⟩
      · simp only [runOps, recomputeHitcentroid, hcv, bind_ok, e]
      · simp only [Function.update_same] at hr
        simp only [expectedReads, hr]

/-- C14, amended: `addHit` appends the hit and leaves both cache fields as they are; a
read `hitcentroid()` of a node whose cache is marked as calculated returns the cached
point and writes nothing; `recomputeHitcentroid()` returns `::hitcentroid` of the hits
the node holds and caches it.  Hence, from a coherent cache, in every sequence of calls
in which a `recomputeHitcentroid()` comes between an `addHit` and the next read, each read
returns `::hitcentroid` of the hits the node holds at that moment. -/
theorem hitcentroid_cache_contract (hs : HitStore) (h : Heap) (p : Nat) :
    (∀ hit, addHit h p hit p = { h p with hits_ := (h p).hits_ ++ [hit] }) ∧
    ((h p).hitcentroidCalculated_ = true →
      nodeHitcentroid hs h p = .ok (h, (h p).hitcentroid_)) ∧
    (∃ c, hitcentroid ((h p).hits_.map hs) = .ok c ∧
      recomputeHitcentroid hs h p = .ok
        (Function.update h p { h p with hitcentroid_ := c, hitcentroidCalculated_ := true },
          c)) ∧
    (∀ ops, Coherent hs h p → disciplined false ops = true →
      ∃ h' rs, runOps hs p ops h = .ok (h', rs) ∧
        rs.map Except.ok = expectedReads hs ops (h p).hits_) := by
  refine ⟨?_, ?_, ?_, ?_⟩
  · intro hit
    simp [addHit]
  · intro hf
    simp [nodeHitcentroid, hf]
  · obtain ⟨c, hcv⟩ := hitcentroid_ok ((h p).hits_.map hs)
    exact ⟨c, hcv, by simp [recomputeHitcentroid, hcv, bind_ok]⟩
  · intro ops hco hd
    exact runOps_disciplined hs p ops false h (fun _ => hco) hd

/-- C14, amended, on the leaf `1` of the flat example: with a recomputation after the
`addHit`, the second read returns the centroid `(1/2,0,0)` of the two hits. -/
theorem hitcentroid_cache_contract_witness :
    ∃ h' rs, runOps flatHits 1 [.read, .addHit 1, .recompute, .read] flatHeap = .ok (h', rs) ∧
      rs.map Except.ok = [Except.ok ⟨0, 0, 0⟩, hitcentroid ([0, 1].map flatHits)] :=
  (hitcentroid_cache_contract flatHits flatHeap 1).2.2.2 [.read, .addHit 1, .recompute, .read]
    (fun hf => by cases hf) rfl

/-! ## `remove_intermediate_node` on any node with a parent -/

theorem Forest.splice_of_not_mem (n : Nat) (F : Forest) (hn : n ∉ F.nodes) :
    F.splice n = F := by
  induction F with
  | nil => rfl
  | cons p kids rest ihk ihr =>
    simp only [Forest.nodes, List.mem_cons, List.mem_append, not_or] at hn
    simp only [Forest.splice]
    rw [if_neg (fun e => hn.1 e.symm), ihk hn.2.1, ihr hn.2.2]

theorem Forest.splice_nodes_perm (n : Nat) (F : Forest) (hnd : F.nodes.Nodup)
    (hn : n ∈ F.nodes) : (n :: (F.splice n).nodes).Perm F.nodes := by
  induction F with
  | nil => simp [Forest.nodes] at hn
  | cons p kids rest ihk ihr =>
    simp only [Forest.nodes] at hnd hn ⊢
    have hnd1 := List.nodup_cons.1 hnd
    have hnd2 := List.nodup_append.1 hnd1.2
    simp only [Forest.splice]
    by_cases hp : p = n
    · subst hp
      rw [if_pos rfl, Forest.nodes_append]
      exact List.Perm.cons _ List.perm_append_comm
    · rw [if_neg hp]
      simp only [Forest.nodes]
      rcases List.mem_cons.1 hn with e | hn
      · exact absurd e.symm hp
      · rcases List.mem_append.1 hn with hk | hr
        · have hnr : n ∉ rest.nodes := fun hm => hnd2.2.2 hk hm
          rw [Forest.splice_of_not_mem n rest hnr]
          refine (List.Perm.swap _ _ _).trans (List.Perm.cons _ ?_)
          exact List.Perm.append_right _ (ihk hnd2.1 hk)
        · have hnk : n ∉ kids.nodes := fun hm => hnd2.2.2 hm hr
          rw [Forest.splice_of_not_mem n kids hnk]
          refine (List.Perm.swap _ _ _).trans (List.Perm.cons _ ?_)
          exact List.perm_middle.symm.trans (List.Perm.append_left _ (ihr hnd2.2.1 hr))

/-- `remove_intermediate_node` on a node `n` that stands between `A` and `B` in the
children of its parent `P`. -/
theorem remove_intermediate_node_at (h : Heap) (n P : Nat) (A B : List Nat)
    (hpar : (h n).parent_ = some P) (hch : (h P).children_ = A ++ n :: B)
    (hnA : n ∉ A) (hnB : n ∉ B) (hnP : n ≠ P) :
    ∃ h', remove_intermediate_node h n = .ok h' ∧
      ∀ q, h' q = { h q with
        children_ := if q = P then A ++ B ++ (h n).children_ else (h q).children_,
        parent_ := if q ∈ (h n).children_ then some P else (h q).parent_ } := by
  refine ⟨(h n).children_.foldl (fun hh child => setParent (addChild hh P child) child P)
    (Function.update h P { h P with children_ := A ++ B }), ?_, ?_⟩
  · simp only [remove_intermediate_node, break_from_parent, hpar, hch,
      filter_ne_middle' A B n hnA hnB, bind_ok]
    rw [Function.update_noteq hnP]
  · intro q
    rw [foldl_attach]
    by_cases hq : q = P
    · subst hq
      simp
    · simp [Function.update_noteq hq, hq]

/-- Trees whose roots get the parent `P` and whose other nodes are untouched form a
forest below `P`. -/
theorem Rep_reparent (h h' : Heap) (P : Nat) (F : Forest) :
    ∀ Q, Rep h Q F → F.nodes.Nodup →
      (∀ c ∈ F.roots, h' c = { h c with parent_ := some P }) →
      (∀ q ∈ F.nodes, q ∉ F.roots → h' q = h q) → Rep h' P F := by
  induction F with
  | nil => intro Q _ _ _ _; trivial
  | cons c ck cr _ ihr =>
    intro Q hrep hnd hroots hrest
    obtain ⟨_, r2, r3, r4⟩ := hrep
    simp only [Forest.nodes] at hnd hrest
    simp only [Forest.roots] at hroots hrest
    have hnd1 := List.nodup_cons.1 hnd
    have hnd2 := List.nodup_append.1 hnd1.2
    have hc := hroots c (List.mem_cons_self _ _)
    refine ⟨by rw [hc], by rw [hc]; exact r2, ?_, ?_⟩
    · refine Rep_congr h h' ck c ?_ r3
      intro q hq
      have : h' q = h q := by
        refine hrest q (by simp [hq]) ?_
        intro hm
        rcases List.mem_cons.1 hm with e | hm
        · exact hnd1.1 (e ▸ List.mem_append_left _ hq)
        · exact hnd2.2.2 hq (cr.roots_subset_nodes q hm)
      rw [this]; exact ⟨rfl, rfl⟩
    · refine ihr Q r4 hnd2.2.1 (fun x hx => hroots x (List.mem_cons_of_mem _ hx)) ?_
      intro q hq hqr
      refine hrest q (by simp [hq]) ?_
      intro hm
      rcases List.mem_cons.1 hm with e | hm
      · exact hnd1.1 (e ▸ List.mem_append_right _ hq)
      · exact hqr hm

/-- `remove_intermediate_node` on a node `n` of the forest `F` below `P`, `F` being the
children of `P` that follow `A`: the forest becomes `F.splice n`, and only the children
of the parent of `n` and the parents of the children of `n` are written. -/
theorem splice_forest (n : Nat) (F : Forest) :
    ∀ (h : Heap) (P : Nat) (A : List Nat),
      Rep h P F → (h P).children_ = A ++ F.roots → F.nodes.Nodup → P ∉ F.nodes →
      (∀ q ∈ A, q ∉ F.nodes) → n ∈ F.nodes →
      ∃ h' p, (h n).parent_ = some p ∧ p ∈ P :: F.nodes ∧
        remove_intermediate_node h n = .ok h' ∧
        (h' P).children_ = A ++ (F.splice n).roots ∧ (h' P).parent_ = (h P).parent_ ∧
        Rep h' P (F.splice n) ∧
        (∀ q, q ∉ P :: F.nodes → h' q = h q) ∧
        (∀ q, h' q = { h q with children_ := (h' q).children_, parent_ := (h' q).parent_ }) ∧
        (h' p).children_ = (h p).children_.filter (fun c => c != n) ++ (h n).children_ ∧
        (∀ c ∈ (h n).children_, (h' c).parent_ = some p) ∧
        (∀ q, q ∉ (h n).children_ → (h' q).parent_ = (h q).parent_) ∧
        (∀ q, q ≠ p → (h' q).children_ = (h q).children_) := by
  induction F with
  | nil => intro h P A _ _ _ _ _ hn; simp [Forest.nodes] at hn
  | cons q kids rest ihk ihr =>
    intro h P A hrep hch hnd hP hA hn
    obtain ⟨r1, r2, r3, r4⟩ := hrep
    simp only [Forest.nodes] at hnd hP hA hn
    simp only [Forest.roots] at hch
    have hnd1 := List.nodup_cons.1 hnd
    have hnd2 := List.nodup_append.1 hnd1.2
    have hqk : q ∉ kids.nodes := fun hm => hnd1.1 (List.mem_append_left _ hm)
    have hqr : q ∉ rest.nodes := fun hm => hnd1.1 (List.mem_append_right _ hm)
    have hkr : ∀ x ∈ kids.nodes, x ∉ rest.nodes := fun x hx hx' => hnd2.2.2 hx hx'
    have hPq : P ≠ q := fun e => hP (by simp [e])
    have hPk : P ∉ kids.nodes := fun hm => hP (by simp [hm])
    have hPr : P ∉ rest.nodes := fun hm => hP (by simp [hm])
    have hqA : q ∉ A := fun hm => hA q hm (by simp)
    by_cases hqn : q = n
    · -- the node is the first tree of the forest
      subst hqn
      obtain ⟨h', e, hd⟩ := remove_intermediate_node_at h q P A rest.roots r1 hch hqA
        (fun hm => hqr (rest.roots_subset_nodes q hm)) (fun e => hPq e.symm)
      have hPc : P ∉ (h q).children_ := by
        rw [r2]; exact fun hm => hPk (kids.roots_subset_nodes P hm)
      have hqc : q ∉ (h q).children_ := by
        rw [r2]; exact fun hm => hqk (kids.roots_subset_nodes q hm)
      have hfr : ∀ x, x ≠ P → x ∉ kids.roots → h' x = h x := by
        intro x hxP hxk
        rw [hd x, r2]
        simp [hxP, hxk]
      refine ⟨h', P, r1, by simp, e, ?_, ?_, ?_, ?_, ?_, ?_, ?_, ?_, ?_⟩
      · rw [hd P]
        simp [Forest.splice, Forest.roots_append, r2]
      · rw [hd P]
        simp [hPc]
      · simp only [Forest.splice, if_true]
        rw [Rep_append]
        constructor
        · refine Rep_congr h h' rest P ?_ r4
          intro x hx
          rw [hfr x (fun e => hPr (e ▸ hx))
            (fun hm => hkr x (kids.roots_subset_nodes x hm) hx)]
          exact ⟨rfl, rfl⟩
        · refine Rep_reparent h h' P kids q r3 hnd2.1 ?_ ?_
          · intro c hc
            have hcP : c ≠ P := fun e => hPk (e ▸ kids.roots_subset_nodes c hc)
            rw [hd c, r2]
            simp [hcP, hc]
          · intro x hx hxr
            exact hfr x (fun e => hPk (e ▸ hx)) hxr
      · intro x hx
        refine hfr x (fun e => hx (by simp [e])) ?_
        exact fun hm => hx (by simp [Forest.nodes, kids.roots_subset_nodes x hm])
      · intro x
        rw [hd x]
      · rw [hd P, hch, filter_ne_middle' A rest.roots q hqA
          (fun hm => hqr (rest.roots_subset_nodes q hm))]
        simp
      · intro c hc
        rw [hd c]
        simp [hc]
      · intro x hx
        rw [hd x]
        simp [hx]
      · intro x hx
        rw [hd x]
        simp [hx]
    · have hn' : n ∈ kids.nodes ∨ n ∈ rest.nodes := by
        rcases List.mem_cons.1 hn with e | hn
        · exact absurd e.symm hqn
        · exact List.mem_append.1 hn
      rcases hn' with hnk | hnr
      · -- the node is below the first tree
        have hnr : n ∉ rest.nodes := hkr n hnk
        obtain ⟨h', p, hp, hpm, e, hc', hpar', hrep', hfr, hlo, hpc, hcp, hpo, hco⟩ :=
          ihk h q [] r3 (by simpa using r2) hnd2.1 hqk (by simp) hnk
        have hpq : p ∈ q :: kids.nodes := hpm
        have hPne : P ≠ p := by
          intro e
          rcases List.mem_cons.1 hpq with e' | hm
          · exact hPq (e.trans e')
          · exact hPk (e ▸ hm)
        have hP' : h' P = h P := hfr P (by
          intro hm
          rcases List.mem_cons.1 hm with e' | hm
          · exact hPq e'
          · exact hPk hm)
        refine ⟨h', p, hp, ?_, e, ?_, by rw [hP'], ?_, ?_, hlo, hpc, hcp, hpo, hco⟩
        · rcases List.mem_cons.1 hpq with e' | hm
          · simp [Forest.nodes, e']
          · simp [Forest.nodes, hm]
        · rw [hP', hch]
          simp [Forest.splice, hqn, Forest.roots, Forest.splice_of_not_mem n rest hnr]
        · simp only [Forest.splice, if_neg hqn, Forest.splice_of_not_mem n rest hnr]
          refine ⟨?_, by simpa using hc', hrep', ?_⟩
          · rw [hpar']; exact r1
          · refine Rep_congr h h' rest P ?_ r4
            intro x hx
            rw [hfr x (by
              intro hm
              rcases List.mem_cons.1 hm with e' | hm
              · exact hqr (e' ▸ hx)
              · exact hkr x hm hx)]
            exact ⟨rfl, rfl⟩
        · intro x hx
          refine hfr x ?_
          intro hm
          apply hx
          rcases List.mem_cons.1 hm with e' | hm
          · simp [Forest.nodes, e']
          · simp [Forest.nodes, hm]
      · -- the node is in a later tree
        have hnk : n ∉ kids.nodes := fun hm => hkr n hm hnr
        obtain ⟨h', p, hp, hpm, e, hc', hpar', hrep', hfr, hlo, hpc, hcp, hpo, hco⟩ :=
          ihr h P (A ++ [q]) r4 (by rw [hch]; simp) hnd2.2.1 hPr
            (by
              intro x hx
              rcases List.mem_append.1 hx with hx | hx
              · exact fun hm => hA x hx (by simp [hm])
              · rw [List.mem_singleton.1 hx]; exact hqr) hnr
        have hq' : ∀ x, x = q ∨ x ∈ kids.nodes → h' x = h x := by
          intro x hx
          refine hfr x ?_
          intro hm
          rcases List.mem_cons.1 hm with e' | hm
          · rcases hx with hx | hx
            · exact hPq (e'.symm.trans hx)
            · exact hPk (e' ▸ hx)
          · rcases hx with hx | hx
            · exact hqr (hx ▸ hm)
            · exact hkr x hx hm
        refine ⟨h', p, hp, ?_, e, ?_, hpar', ?_, ?_, hlo, hpc, hcp, hpo, hco⟩
        · rcases List.mem_cons.1 hpm with e' | hm
          · simp [e']
          · simp [Forest.nodes, hm]
        · rw [hc']
          simp [Forest.splice, hqn, Forest.roots]
        · simp only [Forest.splice, if_neg hqn, Forest.splice_of_not_mem n kids hnk]
          refine ⟨?_, ?_, ?_, hrep'⟩
          · rw [hq' q (Or.inl rfl)]; exact r1
          · rw [hq' q (Or.inl rfl)]; exact r2
          · refine Rep_congr h h' kids q ?_ r3
            intro x hx
            rw [hq' x (Or.inr hx)]
            exact ⟨rfl, rfl⟩
        · intro x hx
          refine hfr x ?_
          intro hm
          apply hx
          rcases List.mem_cons.1 hm with e' | hm
          · simp [e']
          · simp [Forest.nodes, hm]

/-- C15: on a node `n` below the root of a well-formed tree, with parent `p`,
`remove_intermediate_node` returns; afterwards the children of `p` are its former
children without `n`, in their order, followed by the former children of `n` in their
order; each of those has `p` as parent; the nodes reachable from the root form a
well-formed tree that holds every node of the old one but `n`; and the children of every
node other than `p`, the parent of every node other than the children of `n`, and the
hits of every node are unchanged. -/
theorem remove_intermediate_node_effect {h : Heap} {root : Nat} {F : Forest}
    (t : IsTree h root F) (n : Nat) (hn : n ∈ F.nodes) :
    ∃ h' p, (h n).parent_ = some p ∧ p ∈ root :: F.nodes ∧
      remove_intermediate_node h n = .ok h' ∧
      (h' p).children_ = (h p).children_.filter (fun c => c != n) ++ (h n).children_ ∧
      (∀ c ∈ (h n).children_, (h' c).parent_ = some p) ∧
      IsTree h' root (F.splice n) ∧ n ∉ root :: (F.splice n).nodes ∧
      (∀ q ∈ root :: F.nodes, q ≠ n → q ∈ root :: (F.splice n).nodes) ∧
      (∀ q, q ≠ p → (h' q).children_ = (h q).children_) ∧
      (∀ q, q ∉ (h n).children_ → (h' q).parent_ = (h q).parent_) ∧
      (∀ q, (h' q).hits_ = (h q).hits_) := by
  have hnd := List.nodup_cons.1 t.nodup
  obtain ⟨h', p, hp, hpm, e, hc', hpar', hrep', hfr, hlo, hpc, hcp, hpo, hco⟩ :=
    splice_forest n F h root [] t.rep (by simpa using t.root_children) hnd.2 hnd.1 (by simp) hn
  have hperm := Forest.splice_nodes_perm n F hnd.2 hn
  have hnd' : (n :: (F.splice n).nodes).Nodup := hperm.nodup_iff.2 hnd.2
  have hsub : ∀ q ∈ (F.splice n).nodes, q ∈ F.nodes :=
    fun q hq => hperm.subset (List.mem_cons_of_mem _ hq)
  have hnroot : n ≠ root := fun e => hnd.1 (e ▸ hn)
  have htr : ∀ q, (h' q).trackid_ = (h q).trackid_ := fun q => by rw [hlo q]
  refine ⟨h', p, hp, hpm, e, hpc, hcp, ⟨?_, by simpa using hc', hrep', ?_, ?_⟩, ?_, ?_, hco, hpo,
    fun q => by rw [hlo q]⟩
  · rw [hpar']; exact t.root_parent
  · exact List.nodup_cons.2 ⟨fun hm => hnd.1 (hsub root hm), (List.nodup_cons.1 hnd').2⟩
  · intro a ha b hb hab
    refine t.trackids a ?_ b ?_ ?_
    · rcases List.mem_cons.1 ha with rfl | ha
      · simp
      · exact List.mem_cons_of_mem _ (hsub a ha)
    · rcases List.mem_cons.1 hb with rfl | hb
      · simp
      · exact List.mem_cons_of_mem _ (hsub b hb)
    · rw [← htr a, ← htr b]; exact hab
  · intro hm
    rcases List.mem_cons.1 hm with e' | hm
    · exact hnroot e'
    · exact (List.nodup_cons.1 hnd').1 hm
  · intro q hq hqn
    rcases List.mem_cons.1 hq with rfl | hq
    · simp
    · have := hperm.symm.subset hq
      rcases List.mem_cons.1 this with e' | hm
      · exact absurd e' hqn
      · exact List.mem_cons_of_mem _ hm

/-- C15 on the example tree: the node `3`, whose parent is the root and whose children
are `5` and `6`. -/
theorem remove_intermediate_node_effect_witness :
    ∃ h' p, (exampleHeap 3).parent_ = some p ∧ p ∈ 0 :: exampleForest.nodes ∧
      remove_intermediate_node exampleHeap 3 = .ok h' ∧
      (h' p).children_
        = (exampleHeap p).children_.filter (fun c => c != 3) ++ (exampleHeap 3).children_ ∧
      (∀ c ∈ (exampleHeap 3).children_, (h' c).parent_ = some p) ∧
      IsTree h' 0 (exampleForest.splice 3) ∧ 3 ∉ 0 :: (exampleForest.splice 3).nodes ∧
      (∀ q ∈ 0 :: exampleForest.nodes, q ≠ 3 → q ∈ 0 :: (exampleForest.splice 3).nodes) ∧
      (∀ q, q ≠ p → (h' q).children_ = (exampleHeap q).children_) ∧
      (∀ q, q ∉ (exampleHeap 3).children_ → (h' q).parent_ = (exampleHeap q).parent_) ∧
      (∀ q, (h' q).hits_ = (exampleHeap q).hits_) :=
  remove_intermediate_node_effect exampleTree 3 (by decide)

/-! ## A chain of nodes without hits above a leaf with a hit -/

theorem Forest.chain_nodes (l : List Nat) : (Forest.chain l).nodes = l := by
  induction l with
  | nil => rfl
  | cons a l ih => simp [Forest.chain, Forest.nodes, ih]

theorem Forest.chain_anyHit (hh : Nat → Bool) (ns : List Nat) (leaf : Nat)
    (hleaf : hh leaf = true) : (Forest.chain (ns ++ [leaf])).anyHit hh = true := by
  induction ns with
  | nil => simp [Forest.chain, Forest.anyHit, hleaf]
  | cons a l ih =>
    show (hh a || (Forest.chain (l ++ [leaf])).anyHit hh || Forest.nil.anyHit hh) = true
    rw [ih]
    simp

theorem Forest.chain_live (hh : Nat → Bool) (ns : List Nat) (leaf : Nat)
    (hleaf : hh leaf = true) :
    (Forest.chain (ns ++ [leaf])).Forall (fun p kids => (hh p || kids.anyHit hh) = true) := by
  induction ns with
  | nil => simp [Forest.chain, Forest.Forall, hleaf]
  | cons a l ih =>
    show (hh a || (Forest.chain (l ++ [leaf])).anyHit hh) = true ∧
      (Forest.chain (l ++ [leaf])).Forall _ ∧ Forest.nil.Forall _
    refine ⟨?_, ih, trivial⟩
    rw [Forest.chain_anyHit hh l leaf hleaf]
    simp

theorem Forest.chain_isSingle (ns : List Nat) (leaf : Nat) :
    (Forest.chain (ns ++ [leaf])).isSingle = true := by
  cases ns <;> simp [Forest.chain, Forest.isSingle]

theorem Forest.chain_flat (hh : Nat → Bool) (ns : List Nat) (leaf : Nat)
    (hleaf : hh leaf = true) (hns : ∀ a ∈ ns, hh a = false) :
    (Forest.chain (ns ++ [leaf])).flat hh = .cons leaf .nil .nil := by
  induction ns with
  | nil => simp [Forest.chain, Forest.flat, Forest.collapse, hleaf, Forest.append]
  | cons a l ih =>
    have hl := ih (fun x hx => hns x (List.mem_cons_of_mem _ hx))
    have ha := hns a (List.mem_cons_self _ _)
    have happ : ∀ G : Forest, G.append .nil = G := by
      intro G
      induction G with
      | nil => rfl
      | cons p kids rest _ ihr => simp [Forest.append, ihr]
    have hc : (Forest.cons a (Forest.chain (l ++ [leaf])) .nil).collapse hh
        = (.nil, (Forest.chain (l ++ [leaf])).flat hh) := by
      simp only [Forest.collapse, ha, Bool.not_false, Forest.chain_isSingle, Bool.and_self,
        if_true, Forest.flat, happ]
    show ((Forest.cons a (Forest.chain (l ++ [leaf])) .nil).collapse hh).1.append
      ((Forest.cons a (Forest.chain (l ++ [leaf])) .nil).collapse hh).2 = _
    rw [hc, hl]
    rfl

/-- The trimmed forest of a chain whose last node only has a hit is that node. -/
theorem Forest.chain_trimmed (hh : Nat → Bool) (ns : List Nat) (leaf : Nat)
    (hleaf : hh leaf = true) (hns : ∀ a ∈ ns, hh a = false) :
    (Forest.chain (ns ++ [leaf])).trimmed hh = .cons leaf .nil .nil := by
  unfold Forest.trimmed
  rw [Forest.prune_of_live hh _ (Forest.chain_live hh ns leaf hleaf)]
  exact Forest.chain_flat hh ns leaf hleaf hns

theorem chainTree : IsTree chainHeap 0 (Forest.chain ([1, 2] ++ [3])) := by
  refine ⟨rfl, rfl, ?_, by decide, by decide⟩
  simp [Rep, Forest.chain, chainHeap, chainNodes, Forest.roots, Node.mk3]

/-- C16: on a well-formed chain `root → n1 → … → nk → leaf` (`k ≥ 0`) in which `leaf` has
a hit and `n1, …, nk` have none, `trim_tree` returns the tree `root → leaf`: `leaf` is the
only child of the root and has the root as parent, no children and its hits; the nodes
`n1, …, nk`, and only these, have left the tree. -/
theorem trim_tree_chain {h : Heap} {root leaf : Nat} {ns : List Nat}
    (t : IsTree h root (Forest.chain (ns ++ [leaf])))
    (hleaf : (h leaf).hits_ ≠ []) (hns : ∀ a ∈ ns, (h a).hits_ = [])
    (fuel : Nat) (hfuel : ns.length + 3 ≤ fuel) :
    ∃ h', trim_tree fuel h root = .ok h' ∧ IsTree h' root (.cons leaf .nil .nil) ∧
      (h' root).children_ = [leaf] ∧ (h' leaf).parent_ = some root ∧
      (h' leaf).children_ = [] ∧ (h' leaf).hits_ = (h leaf).hits_ ∧
      (∀ q ∈ root :: ns ++ [leaf],
        (q ∈ root :: (Forest.cons leaf .nil .nil).nodes ↔ q ∉ ns)) := by
  have hany : treeHasHit h root (Forest.chain (ns ++ [leaf])) :=
    ⟨leaf, by simp [Forest.chain_nodes], hleaf⟩
  obtain ⟨h', e, t', lo⟩ := trim_tree_spec t hany fuel
    (by rw [Forest.chain_nodes]; simp; omega)
  rw [Forest.chain_trimmed (hasHits h) ns leaf ((hasHits_iff h leaf).2 hleaf)
    (fun a ha => by
      cases hc : hasHits h a with
      | false => rfl
      | true => exact absurd (hns a ha) ((hasHits_iff h a).1 hc))] at t'
  have hnd := t.nodup
  rw [Forest.chain_nodes] at hnd
  have hnd1 := List.nodup_cons.1 hnd
  have hnd2 := List.nodup_append.1 hnd1.2
  refine ⟨h', e, t', t'.root_children, t'.rep.1, t'.rep.2.1, lo.hits_eq leaf, ?_⟩
  intro q hq
  simp only [Forest.nodes, List.append_nil, List.mem_cons, List.mem_singleton,
    List.not_mem_nil, or_false]
  constructor
  · rintro (rfl | rfl)
    · exact fun hm => hnd1.1 (List.mem_append_left _ hm)
    · exact fun hm => hnd2.2.2 hm (List.mem_singleton_self _)
  · intro hqn
    simp only [List.cons_append, List.mem_cons, List.mem_append, List.mem_singleton,
      List.not_mem_nil, or_false] at hq
    rcases hq with hq | hq | hq
    · exact Or.inl hq
    · exact absurd hq hqn
    · exact Or.inr hq

/-- C16 on the chain `0 → 1 → 2 → 3` with a hit on `3` only: it becomes `0 → 3`. -/
theorem trim_tree_chain_witness :
    ∃ h', trim_tree 5 chainHeap 0 = .ok h' ∧ IsTree h' 0 (.cons 3 .nil .nil) ∧
      (h' 0).children_ = [3] ∧ (h' 3).parent_ = some 0 ∧
      (h' 3).children_ = [] ∧ (h' 3).hits_ = (chainHeap 3).hits_ ∧
      (∀ q ∈ 0 :: [1, 2] ++ [3],
        (q ∈ 0 :: (Forest.cons 3 .nil .nil).nodes ↔ q ∉ [1, 2])) :=
  trim_tree_chain chainTree (by decide) (by decide) 5 (by decide)

/-! ## The iterator on a subtree -/

/-- The forest below a node of a forest in the heap: it is held below the node, its
nodes are nodes of the forest, distinct and other than the node, and the parent of the
node is not among them. -/
theorem Rep_sub (h : Heap) (n : Nat) (F : Forest) :
    ∀ P, Rep h P F → (P :: F.nodes).Nodup → n ∈ F.nodes →
      (h n).children_ = (F.sub n).roots ∧ Rep h n (F.sub n) ∧
      (n :: (F.sub n).nodes).Nodup ∧ (∀ q ∈ (F.sub n).nodes, q ∈ F.nodes) ∧
      ∃ g, (h n).parent_ = some g ∧ g ∉ n :: (F.sub n).nodes := by
  induction F with
  | nil => intro P _ _ hn; simp [Forest.nodes] at hn
  | cons p kids rest ihk ihr =>
    intro P hrep hnd hn
    obtain ⟨r1, r2, r3, r4⟩ := hrep
    simp only [Forest.nodes] at hnd hn
    have hnd0 := List.nodup_cons.1 hnd
    have hnd1 := List.nodup_cons.1 hnd0.2
    have hnd2 := List.nodup_append.1 hnd1.2
    have hPk : P ∉ kids.nodes := fun hm => hnd0.1 (by simp [hm])
    have hPr : P ∉ rest.nodes := fun hm => hnd0.1 (by simp [hm])
    have hpk : p ∉ kids.nodes := fun hm => hnd1.1 (List.mem_append_left _ hm)
    by_cases hpn : p = n
    · subst hpn
      simp only [Forest.sub, if_true]
      refine ⟨r2, r3, List.nodup_cons.2 ⟨hpk, hnd2.1⟩, ?_, P, r1, ?_⟩
      · intro q hq; simp [Forest.nodes, hq]
      · intro hm
        rcases List.mem_cons.1 hm with e | hm
        · exact hnd0.1 (by simp [e])
        · exact hPk hm
    · simp only [Forest.sub, if_neg hpn]
      by_cases hnk : n ∈ kids.nodes
      · rw [if_pos hnk]
        obtain ⟨a, b, c, d, e⟩ := ihk p r3 (List.nodup_cons.2 ⟨hpk, hnd2.1⟩) hnk
        exact ⟨a, b, c, fun q hq => by simp [Forest.nodes, d q hq], e⟩
      · rw [if_neg hnk]
        have hnr : n ∈ rest.nodes := by
          rcases List.mem_cons.1 hn with e | hn
          · exact absurd e.symm hpn
          · rcases List.mem_append.1 hn with hn | hn
            · exact absurd hn hnk
            · exact hn
        obtain ⟨a, b, c, d, e⟩ := ihr P r4 (List.nodup_cons.2 ⟨hPr, hnd2.2.1⟩) hnr
        exact ⟨a, b, c, fun q hq => by simp [Forest.nodes, d q hq], e⟩

/-- A range-for over the subtree of a node `n` whose children forest is `K` runs the
body over `n` and then over the nodes of `K` in pre-order, whatever the parent and the
siblings of `n`. -/
theorem rangeFor_sub {α : Type} {h : Heap} {n : Nat} {K : Forest}
    (c : Ctx h (some n) n [] [] K) (body : α → Nat → Int → Res α) (acc : α) (k : Nat) :
    rangeFor h body (K.nodes.length + 2 + k) (Node.begin n) acc
      = (((n, 0) :: K.walk 1).foldlM (fun a (x : Nat × Int) => body a x.1 x.2) acc) := by
  rw [show K.nodes.length + 2 + k = (K.nodes.length + (k + 1)) + 1 by omega]
  rw [rangeFor_some h body _ (Node.begin n) acc n rfl]
  simp only [Node.begin, List.foldlM_cons]
  congr 1
  funext acc1
  rw [next_at h (some n) n [] 0 K (by simpa using c.children)]
  have := rangeFor_forest h body (some n) K n [] (0 + 1) [] acc1 (k + 1) c
  rw [this]
  simp only [zero_add, sub_self, climb_root, bind_ok]
  cases (List.foldlM (fun a (x : Nat × Int) => body a x.1 x.2) acc1 (Forest.walk 1 K)) with
  | error e => rfl
  | ok a => rw [bind_ok, rangeFor_none h body k _ a rfl]

theorem dfs_sub {h : Heap} {n : Nat} {K : Forest} (hc : (h n).children_ = K.roots)
    (hrep : Rep h n K) (k : Nat) :
    dfs h (K.nodes.length + 2 + k) n = .ok ((n, 0) :: K.walk 1) := by
  rw [dfs, show K.nodes.length + 2 + k = (K.nodes.length + 1 + k) + 1 by omega, dfs_recursion,
    hc]
  rw [dfs_forest h K _ n _ (0 + 1) hrep (by have := K.height_le; omega)]
  simp

theorem foldlM_record (l : List (Nat × Int)) :
    ∀ acc : List (Nat × Int),
      l.foldlM (fun a (x : Nat × Int) => recordBody a x.1 x.2) acc = .ok (acc ++ l) := by
  induction l with
  | nil => intro acc; simp [pure, Except.pure]
  | cons a l ih =>
    intro acc
    rw [List.foldlM_cons]
    have : recordBody acc a.1 a.2 = .ok (acc ++ [a]) := rfl
    rw [this, bind_ok, ih]
    simp

/-- C20: for every node `n` of a well-formed tree, with `K` the forest below `n` in the
heap, a range-for from `n.begin()` to `n.end()` that records each node with the depth of
the iterator ends and returns what the recursive `dfs(n)` returns: `n` at depth `0`,
then the nodes of `K` in pre-order (a node before the trees of its children, these in
the order of `children_`), each with its depth below `n`; every node of the subtree
comes once, and no node outside `n :: K.nodes` comes, whatever the siblings of `n`. -/
theorem iterator_is_dfs {h : Heap} {root : Nat} {F : Forest} (t : IsTree h root F) (n : Nat)
    (hn : n ∈ root :: F.nodes) :
    ∃ K : Forest, (h n).children_ = K.roots ∧ Rep h n K ∧ (n :: K.nodes).Nodup ∧
      (∀ q ∈ n :: K.nodes, q ∈ root :: F.nodes) ∧
      ∀ fuel, K.nodes.length + 2 ≤ fuel →
        rangeFor h recordBody fuel (Node.begin n) [] = dfs h fuel n ∧
        dfs h fuel n = .ok ((n, 0) :: K.walk 1) ∧
        ((n, (0 : Int)) :: K.walk 1).map Prod.fst = n :: K.nodes := by
  have main : ∀ K : Forest, Ctx h (some n) n [] [] K → ∀ fuel, K.nodes.length + 2 ≤ fuel →
      rangeFor h recordBody fuel (Node.begin n) [] = dfs h fuel n ∧
      dfs h fuel n = .ok ((n, 0) :: K.walk 1) ∧
      ((n, (0 : Int)) :: K.walk 1).map Prod.fst = n :: K.nodes := by
    intro K c fuel hfuel
    obtain ⟨k, rfl⟩ : ∃ k, fuel = K.nodes.length + 2 + k :=
      ⟨fuel - (K.nodes.length + 2), by omega⟩
    have hd := dfs_sub (by simpa using c.children) c.rep k
    refine ⟨?_, hd, by simp [Forest.walk_map_fst]⟩
    rw [hd, rangeFor_sub c, foldlM_record]
    rfl
  rcases List.mem_cons.1 hn with rfl | hn
  · exact ⟨F, t.root_children, t.rep, t.nodup, fun q hq => hq, main F t.ctx⟩
  · obtain ⟨a, b, c, d, g, hg, hgn⟩ := Rep_sub h n F root t.rep t.nodup hn
    refine ⟨F.sub n, a, b, c, ?_, main (F.sub n) ⟨b, by simpa using a, by simpa using c, ?_, ?_⟩⟩
    · intro q hq
      rcases List.mem_cons.1 hq with rfl | hq
      · exact List.mem_cons_of_mem _ hn
      · exact List.mem_cons_of_mem _ (d q hq)
    · intro q hq hqr
      cases hqr
      exact (List.nodup_cons.1 c).1 hq
    · intro m hm g' hg'
      simp only [List.mem_singleton] at hm
      subst hm
      rw [hg] at hg'
      cases hg'
      exact hgn

/-- C20 on the node `1` of the example tree, which has the later siblings `2` and `3`:
the iterator yields `1` at depth `0` and its child `4` at depth `1`, as `dfs` does. -/
theorem iterator_is_dfs_witness :
    (∃ K : Forest, (exampleHeap 1).children_ = K.roots ∧ Rep exampleHeap 1 K ∧
      (1 :: K.nodes).Nodup ∧ (∀ q ∈ 1 :: K.nodes, q ∈ 0 :: exampleForest.nodes) ∧
      ∀ fuel, K.nodes.length + 2 ≤ fuel →
        rangeFor exampleHeap recordBody fuel (Node.begin 1) [] = dfs exampleHeap fuel 1 ∧
        dfs exampleHeap fuel 1 = .ok ((1, 0) :: K.walk 1) ∧
        ((1, (0 : Int)) :: K.walk 1).map Prod.fst = 1 :: K.nodes) ∧
    rangeFor exampleHeap recordBody 3 (Node.begin 1) [] = .ok [(1, 0), (4, 1)] ∧
    dfs exampleHeap 3 1 = .ok [(1, 0), (4, 1)] :=
  ⟨iterator_is_dfs exampleTree 1 (by decide), rfl, rfl⟩

/-! ## The pair the scan selects -/

theorem pureInner_best (D : Nat → Nat → ℚ) (E : Nat → ℚ) (maxr : ℚ)
    (hsym : ∀ x y, D x y = D y x) (left : Nat) (rest : List Nat) :
    ∀ v : ScanVars, v.Best D E maxr → (pureInner D E left rest v).Best D E maxr := by
  induction rest with
  | nil => intro v hv; exact hv
  | cons r rest ih =>
    intro v hv
    rw [pureInner]
    split
    · rename_i hlt
      refine ih _ ⟨le_of_lt (lt_of_lt_of_le hlt hv.1), fun _ => ⟨lt_of_lt_of_le hlt hv.1, ?_⟩⟩
      by_cases he : E left > E r
      · exact ⟨left, r, by simp [he], rfl, le_of_lt he⟩
      · exact ⟨r, left, by simp [he], hsym r left, not_lt.1 he⟩
    · exact ih v hv

theorem pureOuter_best (D : Nat → Nat → ℚ) (E : Nat → ℚ) (maxr : ℚ)
    (hsym : ∀ x y, D x y = D y x) (M : List Nat) :
    ∀ v : ScanVars, v.Best D E maxr → (pureOuter D E M v).Best D E maxr := by
  induction M with
  | nil => intro v hv; exact hv
  | cons a M ih =>
    intro v hv
    rw [pureOuter]
    exact ih _ (pureInner_best D E maxr hsym a M v hv)

theorem pureInner_le (D : Nat → Nat → ℚ) (E : Nat → ℚ) (left : Nat) (rest : List Nat) :
    ∀ v : ScanVars, (pureInner D E left rest v).minr ≤ v.minr ∧
      ∀ r ∈ rest, (pureInner D E left rest v).minr ≤ D left r := by
  induction rest with
  | nil => intro v; exact ⟨le_refl _, by simp⟩
  | cons r rest ih =>
    intro v
    rw [pureInner]
    split
    · rename_i hlt
      obtain ⟨h1, h2⟩ := ih ⟨D left r, some (if E left > E r then (left, r) else (r, left)),
        true, true⟩
      refine ⟨le_trans h1 (le_of_lt hlt), ?_⟩
      intro x hx
      rcases List.mem_cons.1 hx with rfl | hx
      · exact h1
      · exact h2 x hx
    · rename_i hlt
      obtain ⟨h1, h2⟩ := ih v
      refine ⟨h1, ?_⟩
      intro x hx
      rcases List.mem_cons.1 hx with rfl | hx
      · exact le_trans h1 (not_lt.1 hlt)
      · exact h2 x hx

theorem pureOuter_le (D : Nat → Nat → ℚ) (E : Nat → ℚ) (M : List Nat) :
    ∀ v : ScanVars, (pureOuter D E M v).minr ≤ v.minr ∧
      M.Pairwise (fun x y => (pureOuter D E M v).minr ≤ D x y) := by
  induction M with
  | nil => intro v; exact ⟨le_refl _, List.Pairwise.nil⟩
  | cons a M ih =>
    intro v
    rw [pureOuter]
    obtain ⟨h1, h2⟩ := ih (pureInner D E a M v)
    obtain ⟨h3, h4⟩ := pureInner_le D E a M v
    exact ⟨le_trans h1 h3, List.pairwise_cons.2 ⟨fun x hx => le_trans h1 (h4 x hx), h2⟩⟩

/-- One turn of the `while(true)` loop of `merge_leafparent_Mar03` from a state that
satisfies the loop invariant: the scan finds a pair exactly when two distinct mergeable
nodes are closer than `maxr`; without a pair the loop ends; with a pair, the pair is at
the least distance of all pairs, its first node has no less energy than the second, the
second is merged into the first and the loop goes on from a state that satisfies the
invariant. -/
theorem mergeTurn_spec (sqrt : ℚ → ℚ) (hs : HitStore) (maxr : ℚ) (L : Nat) (h : Heap)
    (M : List Nat) (b : Bool) (i : LoopInv L h M) :
    ∃ st, scanOuter sqrt hs M
        { heap := h, minr := maxr, pairToMerge := none, didUpdate := b,
          didUpdateThisIteration := false } = .ok st ∧
      CacheOnly hs h st.heap ∧
      ((∃ x ∈ M, ∃ y ∈ M, x ≠ y ∧ distOf sqrt hs h x y < maxr) ↔
        st.didUpdateThisIteration = true) ∧
      (st.didUpdateThisIteration = false →
        ∀ fuel, mergeLoop sqrt hs maxr (fuel + 1) h M b = .ok (st.heap, M, b)) ∧
      (st.didUpdateThisIteration = true →
        ∃ first second h6, st.pairToMerge = some (first, second) ∧
          first ∈ M ∧ second ∈ M ∧ first ≠ second ∧
          distOf sqrt hs h first second < maxr ∧
          (∀ x ∈ M, ∀ y ∈ M, x ≠ y →
            distOf sqrt hs h first second ≤ distOf sqrt hs h x y) ∧
          (h second).energy_ ≤ (h first).energy_ ∧
          mergePair hs st.heap first second = .ok h6 ∧
          (∀ fuel, mergeLoop sqrt hs maxr (fuel + 1) h M b
            = mergeLoop sqrt hs maxr fuel h6 (M.filter (fun c => c != second)) true) ∧
          LoopInv L h6 (M.filter (fun c => c != second)) ∧
          (h6 first).hits_ = (h first).hits_ ++ (h second).hits_ ∧
          (h6 second).hits_ = [] ∧ (h6 second).children_ = [] ∧
          (h6 first).hitcentroidCalculated_ = true ∧
          hitcentroid ((h6 first).hits_.map hs) = .ok (h6 first).hitcentroid_ ∧
          (∀ q, (h6 q).children_ =
            if (h second).parent_ = some q then (h q).children_.filter (fun c => c != second)
            else (h q).children_) ∧
          (∀ q, (h6 q).parent_ = (h q).parent_)) := by
  obtain ⟨st, e, c, v⟩ := scanOuter_spec sqrt hs M
    { heap := h, minr := maxr, pairToMerge := none, didUpdate := b,
      didUpdateThisIteration := false }
  simp only at c
  simp only [ScanState.vars] at v
  have hsym : ∀ x y, distOf sqrt hs h x y = distOf sqrt hs h y x := distOf_comm sqrt hs h
  have hlinks : ∀ q, (st.heap q).children_ = (h q).children_ ∧
      (st.heap q).parent_ = (h q).parent_ := by
    intro q; rw [(c q).1]; exact ⟨rfl, rfl⟩
  have hfields : ∀ q, (st.heap q).hits_ = (h q).hits_ ∧ (st.heap q).energy_ = (h q).energy_ := by
    intro q; rw [(c q).1]; exact ⟨rfl, rfl⟩
  have i1 : LoopInv L st.heap M := i.of_links hlinks
  have hbest := pureOuter_best (distOf sqrt hs h) (fun q => (h q).energy_) maxr hsym M
    ⟨maxr, none, b, false⟩ ⟨le_refl _, fun hc => by cases hc⟩
  have hle := (pureOuter_le (distOf sqrt hs h) (fun q => (h q).energy_) M
    ⟨maxr, none, b, false⟩).2
  rw [← v] at hbest hle
  simp only at hle
  have hall : ∀ x ∈ M, ∀ y ∈ M, x ≠ y → st.minr ≤ distOf sqrt hs h x y := by
    intro x hx y hy hxy
    have hs' : Symmetric (fun x y => st.minr ≤ distOf sqrt hs h x y) := by
      intro a b hab
      rw [hsym]; exact hab
    exact hle.forall hs' hx hy hxy
  have hfalse : st.didUpdateThisIteration = false →
      st.didUpdate = b ∧ M.Pairwise (fun x y => ¬ distOf sqrt hs h x y < maxr) := by
    intro hflag
    have hv : (pureOuter (distOf sqrt hs h) (fun q => (h q).energy_) M
        ⟨maxr, none, b, false⟩).didUpdateThisIteration = false := by
      rw [← v]; exact hflag
    obtain ⟨u1, u2⟩ := pureOuter_unchanged _ _ M _ hv
    rw [u1] at v
    exact ⟨congrArg ScanVars.didUpdate v, u2⟩
  refine ⟨st, e, c, ?_, ?_, ?_⟩
  · constructor
    · rintro ⟨x, hx, y, hy, hxy, hlt⟩
      cases hflag : st.didUpdateThisIteration with
      | true => rfl
      | false =>
        exfalso
        have hs' : Symmetric (fun x y => ¬ distOf sqrt hs h x y < maxr) := by
          intro a b hab
          rw [hsym]; exact hab
        exact (hfalse hflag).2.forall hs' hx hy hxy hlt
    · intro hflag
      obtain ⟨hlt, a, b', hp, hd, _⟩ := hbest.2 hflag
      have hfound : (ScanVars.mk st.minr st.pairToMerge st.didUpdate
          st.didUpdateThisIteration).Found M := by
        rw [v]
        refine pureOuter_found _ _ M M (fun q hq => hq) i.nodup _ ?_
        intro hcon; cases hcon
      obtain ⟨_, first, second, hp', hf, hs2, hne⟩ := hfound hflag
      simp only at hp hp'
      rw [hp] at hp'
      cases hp'
      simp only at hd hlt
      exact ⟨a, hf, b', hs2, hne, by rw [hd]; exact hlt⟩
  · intro hflag fuel
    rw [mergeLoop, e, bind_ok]
    simp [hflag, (hfalse hflag).1]
  · intro hflag
    obtain ⟨hlt, a, b', hp, hd, hE⟩ := hbest.2 hflag
    have hfound : (ScanVars.mk st.minr st.pairToMerge st.didUpdate
        st.didUpdateThisIteration).Found M := by
      rw [v]
      refine pureOuter_found _ _ M M (fun q hq => hq) i.nodup _ ?_
      intro hcon; cases hcon
    obtain ⟨hdu, first, second, hp', hf, hs2, hne⟩ := hfound hflag
    simp only at hp hp' hd hlt hdu hE
    rw [hp] at hp'
    cases hp'
    obtain ⟨h6, e6, i6, _, hh6, hc6, hcen6⟩ :=
      mergePair_loop hs L st.heap M i1 a b' hf hs2 hne
    have hpar : ∃ par, (st.heap b').parent_ = some par := by
      by_cases hsl : b' = L
      · subst hsl; exact i1.hasPar hs2
      · exact ⟨L, i1.parent b' hs2 hsl⟩
    obtain ⟨par, hpar⟩ := hpar
    obtain ⟨h6', e6', f1, f2, _, f4, _⟩ :=
      mergePair_fields hs st.heap a b' par hne (i1.leaf b' hs2) hpar
    rw [e6] at e6'
    cases e6'
    refine ⟨a, b', h6, hp, hf, hs2, hne, by rw [hd]; exact hlt, ?_, hE, e6, ?_, i6, ?_, f4, ?_,
      hc6, hcen6, ?_, ?_⟩
    · intro x hx y hy hxy
      rw [hd]; exact hall x hx y hy hxy
    · intro fuel
      rw [mergeLoop, e, bind_ok]
      simp only [hflag, Bool.not_true, Bool.false_eq_true, if_false, hp, e6, hdu]
    · rw [hh6, (hfields a).1, (hfields b').1]
    · rw [f2 b']
      have := i1.leaf b' hs2
      split <;> simp [this]
    · intro q
      rw [f2 q, (hlinks q).1, ← (hlinks b').2, hpar]
      by_cases hq : q = par
      · subst hq; simp
      · have : ¬ (some par = some q) := fun e => hq (Option.some.inj e).symm
        simp [hq, this]
    · intro q
      rw [(f1 q).2.2.2, (hlinks q).2]

/-! ## The loop of `merge_leafparent_Mar03` on a leaf parent of a tree -/

theorem pairTree : IsTree pairHeap 0 (Forest.leaves [1, 2]) := by
  refine ⟨rfl, rfl, ?_, by decide, by decide⟩
  simp [Rep, Forest.leaves, pairHeap, pairNodes, Forest.roots, Node.mk3]

/-- A leaf parent of a well-formed tree is a `LeafParent`, and, when it is not the root,
it stands once among the children of its parent, which is a node of the tree other than
the leaf parent and its children. -/
theorem leafParent_of_tree {h : Heap} {root : Nat} {F : Forest} (t : IsTree h root F)
    (L : Nat) (hL : L ∈ root :: F.nodes) (hlp : isLeafParent h L = true) :
    LeafParent h L (h L).children_ ∧
    (L = root → (h L).parent_ = none) ∧
    (L ≠ root → ∃ P0 A B, (h L).parent_ = some P0 ∧ P0 ∈ root :: F.nodes ∧
      (h P0).children_ = A ++ L :: B ∧ L ∉ A ∧ L ∉ B ∧ P0 ≠ L ∧ P0 ∉ (h L).children_) := by
  have hnd := List.nodup_cons.1 t.nodup
  rcases List.mem_cons.1 hL with rfl | hL
  · rw [isLeafParent_rep h L F t.root_children t.rep] at hlp
    simp only [Bool.and_eq_true, Bool.not_eq_true'] at hlp
    have lp := LeafParent.of_rep h L F t.root_children t.rep hlp.1 hlp.2 hnd.2 hnd.1
    rw [← t.root_children] at lp
    exact ⟨lp, fun _ => t.root_parent, fun hne => absurd rfl hne⟩
  · have hne : L ≠ root := fun e => hnd.1 (e ▸ hL)
    obtain ⟨a, b, c, _, g, hg, hgn⟩ := Rep_sub h L F root t.rep t.nodup hL
    rw [isLeafParent_rep h L (F.sub L) a b] at hlp
    simp only [Bool.and_eq_true, Bool.not_eq_true'] at hlp
    have hc := List.nodup_cons.1 c
    have lp := LeafParent.of_rep h L (F.sub L) a b hlp.1 hlp.2 hc.2 hc.1
    rw [← a] at lp
    refine ⟨lp, fun e => absurd e hne, fun _ => ?_⟩
    obtain ⟨p, hp, hpar, hcount⟩ := t.invariant.once L hL
    rw [hg] at hpar
    cases hpar
    have hmem : L ∈ (h g).children_ := List.count_pos_iff.1 (by omega)
    obtain ⟨A, B, hAB⟩ := List.append_of_mem hmem
    rw [hAB] at hcount
    simp only [List.count_append, List.count_cons_self] at hcount
    refine ⟨g, A, B, hg, hp, hAB, ?_, ?_, ?_, ?_⟩
    · intro hm
      have := List.count_pos_iff.2 hm
      omega
    · intro hm
      have := List.count_pos_iff.2 hm
      omega
    · exact fun e => hgn (by simp [e])
    · rw [a]
      exact fun hm => hgn (List.mem_cons_of_mem _ ((F.sub L).roots_subset_nodes g hm))

/-- The first turn of the loop of `merge_leafparent_Mar03` on a leaf parent of a
well-formed tree starts from a state that satisfies the invariant. -/
theorem mergeInv_entry {h : Heap} {root : Nat} {F : Forest} (t : IsTree h root F)
    (L : Nat) (hL : L ∈ root :: F.nodes) (hlp : isLeafParent h L = true) :
    MergeInv (root :: F.nodes) L (Function.update h L { h L with children_ := [] })
      (mergeableSet h L) := by
  obtain ⟨lp, hroot, hinner⟩ := leafParent_of_tree t L hL hlp
  have hq1 : ∀ q, q ≠ L → Function.update h L { h L with children_ := [] } q = h q :=
    fun q hq => Function.update_noteq hq _ _
  constructor
  · by_cases hLr : L = root
    · have : mergeableSet h L = (h L).children_ := by
        simp [mergeableSet, hasParent, hroot hLr]
      rw [this]
      exact lp.loopInv_root
    · obtain ⟨P0, A, B, hpar, _⟩ := hinner hLr
      refine lp.loopInv_inner hpar _ ?_
      unfold mergeableSet
      split
      · exact Or.inr rfl
      · exact Or.inl rfl
  · intro c _ q hq hc
    have hqL : q ≠ L := by
      rintro rfl
      simp at hc
    rw [hq1 q hqL] at hc
    have := t.invariant.child_parent q hq c hc
    by_cases hcL : c = L
    · subst hcL
      simp only [Function.update_same]
      exact this
    · rw [hq1 c hcL]; exact this

/-- `merge_leafparent_Mar03` on a leaf parent `L` of a well-formed tree returns; the
mergeable nodes that survive, `M`, are the children of `L` afterwards when `L` is the
root, and follow the former siblings of `L` among the children of its parent otherwise;
no two of them are closer than `maxr`. -/
theorem merge_leafparent_survivors (sqrt : ℚ → ℚ) (hs : HitStore) (maxr : ℚ) {h : Heap}
    {root : Nat} {F : Forest} (t : IsTree h root F) (L : Nat) (hL : L ∈ root :: F.nodes)
    (hlp : isLeafParent h L = true) :
    ∃ h' b' M, merge_leafparent_Mar03 sqrt hs h L maxr = .ok (h', b') ∧
      M.Sublist ((h L).children_ ++ [L]) ∧
      (∀ x ∈ M, ∀ y ∈ M, x ≠ y → ¬ distOf sqrt hs h' x y < maxr) ∧
      (L = root → (h' L).children_ = M) ∧
      (L ≠ root → ∃ P0 A B, (h L).parent_ = some P0 ∧ (h P0).children_ = A ++ L :: B ∧
        (h' P0).children_ = A ++ B ++ M) := by
  obtain ⟨lp, hroot, hinner⟩ := leafParent_of_tree t L hL hlp
  have hsymm : ∀ g : Heap, Symmetric (fun x y => ¬ distOf sqrt hs g x y < maxr) := by
    intro g a b hab
    rw [distOf_comm]
    exact hab
  by_cases hLr : L = root
  · obtain ⟨h', M, e, hsub, _, hL', _, _, _, _, _, hpw, _⟩ :=
      merge_leafparent_root sqrt hs h L (h L).children_ maxr lp (hroot hLr)
    refine ⟨h', _, M, e, hsub.trans (List.sublist_append_left _ _), ?_, fun _ => by rw [hL'],
      fun hne => absurd hLr hne⟩
    intro x hx y hy hxy
    exact hpw.forall (hsymm h') hx hy hxy
  · obtain ⟨P0, A, B, hpar, _, hch, hLA, hLB, hP0, hP0c⟩ := hinner hLr
    obtain ⟨h', M, e, hsub, _, _, hP', _, _, _, _, _, _, hpw, _⟩ :=
      merge_leafparent_inner sqrt hs h L P0 (h L).children_ A B maxr lp hpar hch hLA hLB hP0
        hP0c
    refine ⟨h', true, M, e, hsub, ?_, fun e' => absurd e' hLr,
      fun _ => ⟨P0, A, B, hpar, hch, by rw [hP']⟩⟩
    intro x hx y hy hxy
    exact hpw.forall (hsymm h') hx hy hxy

/-- C18: in every turn of the `while(true)` loop of `merge_leafparent_Mar03` that merges
a pair, from a state `(h, M)` that satisfies the invariant for the nodes `X` of the tree:
the pair is two distinct mergeable nodes, and when their energies differ the survivor
`first` is the one with the higher energy; after the merge the hits of the survivor are
its former hits followed by those of the absorbed node `second`, in order; the absorbed
node has no hits and no children, is not in the mergeable set and is in the children of no
node of `X`; the cache of the survivor is marked as calculated and holds the centroid of
its hits; and the next turn starts from a state that satisfies the invariant.  The
invariant holds at the first turn of a call on a leaf parent of a well-formed tree. -/
theorem merge_pair_effect (sqrt : ℚ → ℚ) (hs : HitStore) (maxr : ℚ) :
    (∀ (X : List Nat) (L : Nat) (h : Heap) (M : List Nat) (b : Bool), MergeInv X L h M →
      ∃ st, scanOuter sqrt hs M
          { heap := h, minr := maxr, pairToMerge := none, didUpdate := b,
            didUpdateThisIteration := false } = .ok st ∧
        (st.didUpdateThisIteration = true →
          ∃ first second h6, st.pairToMerge = some (first, second) ∧
            first ∈ M ∧ second ∈ M ∧ first ≠ second ∧
            ((h first).energy_ ≠ (h second).energy_ →
              (h second).energy_ < (h first).energy_) ∧
            mergePair hs st.heap first second = .ok h6 ∧
            (∀ fuel, mergeLoop sqrt hs maxr (fuel + 1) h M b
              = mergeLoop sqrt hs maxr fuel h6 (M.filter (fun c => c != second)) true) ∧
            (h6 first).hits_ = (h first).hits_ ++ (h second).hits_ ∧
            (h6 second).hits_ = [] ∧ (h6 second).children_ = [] ∧
            second ∉ M.filter (fun c => c != second) ∧
            (∀ q ∈ X, second ∉ (h6 q).children_) ∧
            (h6 first).hitcentroidCalculated_ = true ∧
            hitcentroid ((h6 first).hits_.map hs) = .ok (h6 first).hitcentroid_ ∧
            MergeInv X L h6 (M.filter (fun c => c != second)))) ∧
    (∀ (h : Heap) (root : Nat) (F : Forest), IsTree h root F →
      ∀ L ∈ root :: F.nodes, isLeafParent h L = true →
        MergeInv (root :: F.nodes) L (Function.update h L { h L with children_ := [] })
          (mergeableSet h L)) := by
  constructor
  · intro X L h M b inv
    obtain ⟨st, e, _, _, _, hyes⟩ := mergeTurn_spec sqrt hs maxr L h M b inv.1
    refine ⟨st, e, ?_⟩
    intro hflag
    obtain ⟨first, second, h6, hp, hf, hs2, hne, _, _, hE, e6, hloop, i6, hh, hh2, hc2, hcal,
      hcen, hch, hpar⟩ := hyes hflag
    refine ⟨first, second, h6, hp, hf, hs2, hne, ?_, e6, hloop, hh, hh2, hc2, ?_, ?_, hcal, hcen,
      i6, ?_⟩
    · intro hne'
      exact lt_of_le_of_ne hE (fun e' => hne' e'.symm)
    · simp [List.mem_filter]
    · intro q hq hm
      rw [hch q] at hm
      by_cases hpq : (h second).parent_ = some q
      · rw [if_pos hpq] at hm
        simp [List.mem_filter] at hm
      · rw [if_neg hpq] at hm
        exact hpq (inv.2 second hs2 q hq hm)
    · intro c hc q hq hm
      have hcM : c ∈ M := (List.mem_filter.1 hc).1
      rw [hpar c]
      refine inv.2 c hcM q hq ?_
      rw [hch q] at hm
      by_cases hpq : (h second).parent_ = some q
      · rw [if_pos hpq] at hm
        exact (List.mem_filter.1 hm).1
      · rw [if_neg hpq] at hm
        exact hm
  · intro h root F t L hL hlp
    exact mergeInv_entry t L hL hlp

/-- C18 on the pair example, two leaves that hold one hit of energy `1` each, at
`(0,0,0)` and `(1,0,0)`, the leaf `1` having the higher energy: the first turn of the
call on the root starts from a state that satisfies the invariant, and the call leaves
the one child `1`, which holds both hits and the cached centroid `(1/2,0,0)`; the
absorbed leaf `2` has no hits. -/
theorem merge_pair_effect_witness :
    MergeInv (0 :: (Forest.leaves [1, 2]).nodes) 0
      (Function.update pairHeap 0 { pairHeap 0 with children_ := [] })
      (mergeableSet pairHeap 0) ∧
    ((merge_leafparent_Mar03 (fun q => q) flatHits pairHeap 0 10).toOption.map
      (fun r => ((r.1 0).children_, (r.1 1).hits_, (r.1 2).hits_, (r.1 1).hitcentroid_,
        (r.1 1).hitcentroidCalculated_)))
      = some ([1], [0, 1], [], ⟨1 / 2, 0, 0⟩, true) :=
  ⟨(merge_pair_effect (fun q => q) flatHits 10).2 pairHeap 0 _ pairTree 0 (by decide)
    (by decide), by decide!⟩

/-! ## The nodes that survive `trim_tree` and their parents -/

theorem Forest.links_append (F G : Forest) (P : Nat) :
    (F.append G).links P = F.links P ++ G.links P := by
  induction F with
  | nil => rfl
  | cons p kids rest _ ih => simp [Forest.append, Forest.links, ih]

theorem Forest.links_map_fst (F : Forest) : ∀ P, (F.links P).map Prod.fst = F.nodes := by
  induction F with
  | nil => intro P; rfl
  | cons p kids rest ihk ihr => intro P; simp [Forest.links, Forest.nodes, ihk, ihr]

theorem Forest.nearest_map_fst (hh : Nat → Bool) (F : Forest) :
    ∀ P, (F.nearest hh P).map Prod.fst = F.survives hh := by
  induction F with
  | nil => intro P; rfl
  | cons p kids rest ihk ihr =>
    intro P
    simp only [Forest.nearest, Forest.survives]
    split <;> simp [ihk, ihr]

theorem Forest.survives_subset (hh : Nat → Bool) (F : Forest) :
    ∀ q ∈ F.survives hh, q ∈ F.nodes := by
  induction F with
  | nil => intro q hq; simp [Forest.survives] at hq
  | cons p kids rest ihk ihr =>
    intro q hq
    simp only [Forest.survives, List.mem_append] at hq
    simp only [Forest.nodes, List.mem_cons, List.mem_append]
    rcases hq with hq | hq | hq
    · split at hq
      · exact Or.inl (List.mem_singleton.1 hq)
      · simp at hq
    · exact Or.inr (Or.inl (ihk q hq))
    · exact Or.inr (Or.inr (ihr q hq))

theorem Forest.liveCount_dead (hh : Nat → Bool) (F : Forest) (hd : F.anyHit hh = false) :
    F.liveCount hh = 0 := by
  induction F with
  | nil => rfl
  | cons p kids rest _ ihr =>
    simp only [Forest.anyHit, Bool.or_eq_false_iff] at hd
    simp [Forest.liveCount, hd.1.1, hd.1.2, ihr hd.2]

theorem Forest.liveCount_pos (hh : Nat → Bool) (F : Forest) (hl : F.anyHit hh = true) :
    1 ≤ F.liveCount hh := by
  induction F with
  | nil => simp [Forest.anyHit] at hl
  | cons p kids rest _ ihr =>
    simp only [Forest.liveCount]
    cases hc : (hh p || kids.anyHit hh) with
    | true => simp
    | false =>
      simp only [Forest.anyHit, hc, Bool.false_or] at hl
      have := ihr hl
      simp only [Bool.false_eq_true, if_false]
      omega

theorem Forest.nearest_dead (hh : Nat → Bool) (F : Forest) :
    ∀ P, F.anyHit hh = false → F.nearest hh P = [] := by
  induction F with
  | nil => intro P _; rfl
  | cons p kids rest ihk ihr =>
    intro P hd
    simp only [Forest.anyHit, Bool.or_eq_false_iff] at hd
    simp [Forest.nearest, hd.1.1, Forest.liveCount_dead hh kids hd.1.2, ihk _ hd.1.2,
      ihr _ hd.2]

theorem Forest.prune_roots_length (hh : Nat → Bool) (F : Forest) :
    (F.prune hh).roots.length = F.liveCount hh := by
  induction F with
  | nil => rfl
  | cons p kids rest _ ihr =>
    simp only [Forest.prune, Forest.liveCount]
    cases hc : (hh p || kids.anyHit hh) with
    | true => simp [Forest.roots, ihr]; omega
    | false => simp [ihr]

/-- The parent links of the trimmed forest are the pairs of `Forest.nearest`. -/
theorem Forest.trimmed_links_perm (hh : Nat → Bool) (F : Forest) :
    ∀ P, ((F.trimmed hh).links P).Perm (F.nearest hh P) := by
  induction F with
  | nil => intro P; exact List.Perm.refl _
  | cons p kids rest ihk ihr =>
    intro P
    cases hlive : (hh p || kids.anyHit hh) with
    | false =>
      simp only [Bool.or_eq_false_iff] at hlive
      have e1 : (Forest.cons p kids rest).trimmed hh = rest.trimmed hh := by
        simp [Forest.trimmed, Forest.prune, hlive.1, hlive.2]
      have e2 : (Forest.cons p kids rest).nearest hh P = rest.nearest hh P := by
        simp [Forest.nearest, hlive.1, Forest.liveCount_dead hh kids hlive.2,
          Forest.nearest_dead hh kids _ hlive.2]
      rw [e1, e2]
      exact ihr P
    | true =>
      have e1 : (Forest.cons p kids rest).trimmed hh
          = (Forest.cons p (kids.prune hh) (rest.prune hh)).flat hh := by
        simp [Forest.trimmed, Forest.prune, hlive]
      have hK : (kids.prune hh).flat hh = kids.trimmed hh := rfl
      have hR : ((rest.prune hh).collapse hh).1.links P ++ ((rest.prune hh).collapse hh).2.links P
          = (rest.trimmed hh).links P := by
        rw [Forest.trimmed, Forest.flat, Forest.links_append]
      rw [e1]
      cases hc : (!hh p && (kids.prune hh).isSingle) with
      | true =>
        simp only [Bool.and_eq_true, Bool.not_eq_true'] at hc
        have hlen : kids.liveCount hh = 1 := by
          have := hc.2
          rw [Forest.isSingle_eq, Forest.prune_roots_length] at this
          simpa using this
        have e2 : (Forest.cons p kids rest).nearest hh P
            = kids.nearest hh P ++ rest.nearest hh P := by
          simp [Forest.nearest, hc.1, hlen]
        rw [e2, Forest.flat, Forest.collapse_cons_drop hh p _ _ (by simp [hc.1, hc.2]),
          Forest.links_append, Forest.links_append, hK]
        refine (List.perm_append_comm_assoc _ _ _).trans ?_
        rw [hR]
        exact (ihk P).append (ihr P)
      | false =>
        have hcond : (hh p || decide (2 ≤ kids.liveCount hh)) = true := by
          cases hp : hh p with
          | true => rfl
          | false =>
            rw [hp] at hc hlive
            simp only [Bool.not_false, Bool.true_and] at hc
            simp only [Bool.false_or] at hlive
            have h1 := Forest.liveCount_pos hh kids hlive
            rw [Forest.isSingle_eq, Forest.prune_roots_length] at hc
            have h2 : kids.liveCount hh ≠ 1 := by simpa using hc
            simp only [Bool.false_or, decide_eq_true_eq]
            omega
        have e2 : (Forest.cons p kids rest).nearest hh P
            = (p, P) :: (kids.nearest hh p ++ rest.nearest hh P) := by
          simp only [Forest.nearest, hcond, if_true]
        rw [e2, Forest.flat, Forest.collapse_cons_stay hh p _ _ hc, Forest.links_append]
        simp only [Forest.links, List.cons_append, hK]
        refine List.Perm.cons _ ?_
        rw [List.append_assoc, hR]
        exact (ihk p).append (ihr P)

theorem Rep_links (h : Heap) (F : Forest) :
    ∀ P, Rep h P F → ∀ x ∈ F.links P, (h x.1).parent_ = some x.2 := by
  induction F with
  | nil => intro P _ x hx; simp [Forest.links] at hx
  | cons p kids rest ihk ihr =>
    intro P hrep x hx
    obtain ⟨r1, _, r3, r4⟩ := hrep
    simp only [Forest.links, List.mem_cons, List.mem_append] at hx
    rcases hx with rfl | hx | hx
    · exact r1
    · exact ihk p r3 x hx
    · exact ihr P r4 x hx

/-- A node of a forest without duplicates that fails the survival test is not in
`Forest.survives`. -/
theorem Forest.survives_forall (hh : Nat → Bool) (F : Forest) :
    ∀ S : List Nat, F.nodes.Nodup → (∀ x ∈ F.nodes, x ∈ S → x ∈ F.survives hh) →
      F.Forall (fun p kids => (hh p || decide (2 ≤ kids.liveCount hh)) = false → p ∉ S) := by
  induction F with
  | nil => intro S _ _; trivial
  | cons p kids rest ihk ihr =>
    intro S hnd hS
    simp only [Forest.nodes] at hnd hS
    have hnd1 := List.nodup_cons.1 hnd
    have hnd2 := List.nodup_append.1 hnd1.2
    refine ⟨?_, ?_, ?_⟩
    · intro hc hp
      have := hS p (by simp) hp
      simp only [Forest.survives, hc, Bool.false_eq_true, if_false, List.nil_append,
        List.mem_append] at this
      rcases this with hm | hm
      · exact hnd1.1 (List.mem_append_left _ (kids.survives_subset hh p hm))
      · exact hnd1.1 (List.mem_append_right _ (rest.survives_subset hh p hm))
    · refine ihk S hnd2.1 ?_
      intro x hx hxS
      have := hS x (by simp [hx]) hxS
      simp only [Forest.survives, List.mem_append] at this
      rcases this with hm | hm | hm
      · exfalso
        split at hm
        · exact hnd1.1 (List.mem_append_left _ ((List.mem_singleton.1 hm) ▸ hx))
        · simp at hm
      · exact hm
      · exact absurd (rest.survives_subset hh x hm) (fun hm' => hnd2.2.2 hx hm')
    · refine ihr S hnd2.2.1 ?_
      intro x hx hxS
      have := hS x (by simp [hx]) hxS
      simp only [Forest.survives, List.mem_append] at this
      rcases this with hm | hm | hm
      · exfalso
        split at hm
        · exact hnd1.1 (List.mem_append_right _ ((List.mem_singleton.1 hm) ▸ hx))
        · simp at hm
      · exact absurd (kids.survives_subset hh x hm) (fun hm' => hnd2.2.2 hm' hx)
      · exact hm

/-- The chain of parents of a node paired by `Forest.nearest`: it reaches the node it is
paired with through nodes that fail the survival test. -/
theorem nearest_chain (hh : Nat → Bool) (h : Heap) (Q : Nat → Prop) (F : Forest) :
    ∀ (D P : Nat) (CD N T : List Nat), Rep h D F → Chain h D CD → D :: CD = N ++ P :: T →
      (∀ x ∈ N, Q x) →
      F.Forall (fun p kids => (hh p || decide (2 ≤ kids.liveCount hh)) = false → Q p) →
      ∀ x ∈ F.nearest hh P, ∃ N' T', Chain h x.1 (N' ++ x.2 :: T') ∧ ∀ y ∈ N', Q y := by
  induction F with
  | nil => intro D P CD N T _ _ _ _ _ x hx; simp [Forest.nearest] at hx
  | cons p kids rest ihk ihr =>
    intro D P CD N T hrep hch hsplit hN hall x hx
    obtain ⟨r1, _, r3, r4⟩ := hrep
    obtain ⟨a1, a2, a3⟩ := hall
    have hchp : Chain h p (D :: CD) := ⟨r1, hch⟩
    cases hc : (hh p || decide (2 ≤ kids.liveCount hh)) with
    | true =>
      simp only [Forest.nearest, hc, if_true, List.mem_cons, List.mem_append] at hx
      rcases hx with rfl | hx | hx
      · exact ⟨N, T, by rw [← hsplit]; exact hchp, hN⟩
      · exact ihk p p (D :: CD) [] (D :: CD) r3 hchp rfl (by simp) a2 x hx
      · exact ihr D P CD N T r4 hch hsplit hN a3 x hx
    | false =>
      simp only [Forest.nearest, hc, Bool.false_eq_true, if_false, List.mem_append] at hx
      rcases hx with hx | hx
      · refine ihk p P (D :: CD) (p :: N) T r3 hchp (by rw [hsplit]; rfl) ?_ a2 x hx
        intro y hy
        rcases List.mem_cons.1 hy with rfl | hy
        · exact a1 hc
        · exact hN y hy
      · exact ihr D P CD N T r4 hch hsplit hN a3 x hx

theorem Forest.nearest_target (hh : Nat → Bool) (F : Forest) :
    ∀ P, ∀ x ∈ F.nearest hh P, x.2 = P ∨ x.2 ∈ F.survives hh := by
  induction F with
  | nil => intro P x hx; simp [Forest.nearest] at hx
  | cons p kids rest ihk ihr =>
    intro P x hx
    simp only [Forest.nearest] at hx
    simp only [Forest.survives, List.mem_append]
    split at hx
    · rename_i hc
      simp only [hc, if_true, List.mem_singleton]
      rcases List.mem_cons.1 hx with rfl | hx
      · exact Or.inl rfl
      · rcases List.mem_append.1 hx with hx | hx
        · rcases ihk p x hx with e | hm
          · exact Or.inr (Or.inl e)
          · exact Or.inr (Or.inr (Or.inl hm))
        · rcases ihr P x hx with e | hm
          · exact Or.inl e
          · exact Or.inr (Or.inr (Or.inr hm))
    · rcases List.mem_append.1 hx with hx | hx
      · rcases ihk P x hx with e | hm
        · exact Or.inl e
        · exact Or.inr (Or.inr (Or.inl hm))
      · rcases ihr P x hx with e | hm
        · exact Or.inl e
        · exact Or.inr (Or.inr (Or.inr hm))

/-- In a forest without duplicates, a node survives when it passes the survival test
with the forest below it. -/
theorem Forest.mem_survives_iff (hh : Nat → Bool) (F : Forest) (hnd : F.nodes.Nodup) :
    ∀ q ∈ F.nodes, (q ∈ F.survives hh ↔
      (hh q || decide (2 ≤ (F.sub q).liveCount hh)) = true) := by
  induction F with
  | nil => intro q hq; simp [Forest.nodes] at hq
  | cons p kids rest ihk ihr =>
    intro q hq
    simp only [Forest.nodes] at hnd hq
    have hnd1 := List.nodup_cons.1 hnd
    have hnd2 := List.nodup_append.1 hnd1.2
    have hpk : p ∉ kids.nodes := fun hm => hnd1.1 (List.mem_append_left _ hm)
    have hpr : p ∉ rest.nodes := fun hm => hnd1.1 (List.mem_append_right _ hm)
    simp only [Forest.survives, List.mem_append]
    by_cases hpq : p = q
    · subst hpq
      have hsub : (Forest.cons p kids rest).sub p = kids := by simp [Forest.sub]
      rw [hsub]
      constructor
      · rintro (hm | hm | hm)
        · split at hm
          · assumption
          · simp at hm
        · exact absurd (kids.survives_subset hh p hm) hpk
        · exact absurd (rest.survives_subset hh p hm) hpr
      · intro hc
        left
        rw [if_pos hc]
        simp
    · have hq' : q ∈ kids.nodes ∨ q ∈ rest.nodes := by
        rcases List.mem_cons.1 hq with e | hq
        · exact absurd e.symm hpq
        · exact List.mem_append.1 hq
      have hhead : q ∉ (if (hh p || decide (2 ≤ kids.liveCount hh)) = true then [p] else []) := by
        split
        · simp only [List.mem_singleton]; exact fun e => hpq e.symm
        · simp
      rcases hq' with hk | hr
      · have hsub : (Forest.cons p kids rest).sub q = kids.sub q := by
          simp [Forest.sub, hpq, hk]
        rw [hsub, ← ihk hnd2.1 q hk]
        constructor
        · rintro (hm | hm | hm)
          · exact absurd hm hhead
          · exact hm
          · exact absurd (rest.survives_subset hh q hm) (fun hm' => hnd2.2.2 hk hm')
        · exact fun hm => Or.inr (Or.inl hm)
      · have hnk : q ∉ kids.nodes := fun hm => hnd2.2.2 hm hr
        have hsub : (Forest.cons p kids rest).sub q = rest.sub q := by
          simp [Forest.sub, hpq, hnk]
        rw [hsub, ← ihr hnd2.2.1 q hr]
        constructor
        · rintro (hm | hm | hm)
          · exact absurd hm hhead
          · exact absurd (kids.survives_subset hh q hm) hnk
          · exact hm
        · exact fun hm => Or.inr (Or.inr hm)

theorem Forest.sub_nodes_subset (n : Nat) (F : Forest) :
    ∀ q ∈ (F.sub n).nodes, q ∈ F.nodes := by
  induction F with
  | nil => intro q hq; simp [Forest.sub, Forest.nodes] at hq
  | cons p kids rest ihk ihr =>
    intro q hq
    simp only [Forest.sub] at hq
    simp only [Forest.nodes, List.mem_cons, List.mem_append]
    split at hq
    · exact Or.inr (Or.inl hq)
    · split at hq
      · exact Or.inr (Or.inl (ihk q hq))
      · exact Or.inr (Or.inr (ihr q hq))

/-- The forest below a node of the forest below another node is the forest below the
first node in the whole forest. -/
theorem Forest.sub_sub (q c : Nat) (F : Forest) (hnd : F.nodes.Nodup) :
    c ∈ (F.sub q).nodes → (F.sub q).sub c = F.sub c := by
  induction F with
  | nil => intro hc; simp [Forest.sub, Forest.nodes] at hc
  | cons p kids rest ihk ihr =>
    intro hc
    simp only [Forest.nodes] at hnd
    have hnd1 := List.nodup_cons.1 hnd
    have hnd2 := List.nodup_append.1 hnd1.2
    have hpk : p ∉ kids.nodes := fun hm => hnd1.1 (List.mem_append_left _ hm)
    have hpr : p ∉ rest.nodes := fun hm => hnd1.1 (List.mem_append_right _ hm)
    by_cases hpq : p = q
    · have hsub : (Forest.cons p kids rest).sub q = kids := by simp [Forest.sub, hpq]
      rw [hsub] at hc ⊢
      have hpc : p ≠ c := fun e => hpk (e ▸ hc)
      simp [Forest.sub, hpc, hc]
    · by_cases hk : q ∈ kids.nodes
      · have hsub : (Forest.cons p kids rest).sub q = kids.sub q := by
          simp [Forest.sub, hpq, hk]
        rw [hsub] at hc ⊢
        have hck := kids.sub_nodes_subset q c hc
        have hpc : p ≠ c := fun e => hpk (e ▸ hck)
        rw [ihk hnd2.1 hc]
        simp [Forest.sub, hpc, hck]
      · have hsub : (Forest.cons p kids rest).sub q = rest.sub q := by
          simp [Forest.sub, hpq, hk]
        rw [hsub] at hc ⊢
        have hcr := rest.sub_nodes_subset q c hc
        have hpc : p ≠ c := fun e => hpr (e ▸ hcr)
        have hck : c ∉ kids.nodes := fun hm => hnd2.2.2 hm hcr
        rw [ihr hnd2.2.1 hc]
        simp [Forest.sub, hpc, hck]

/-- The trees of a forest without duplicates that carry a hit, counted on the roots. -/
theorem Forest.liveCount_eq_filter (hh : Nat → Bool) (F : Forest) (hnd : F.nodes.Nodup) :
    F.liveCount hh = (F.roots.filter (fun c => hh c || (F.sub c).anyHit hh)).length := by
  induction F with
  | nil => rfl
  | cons p kids rest _ ihr =>
    simp only [Forest.nodes] at hnd
    have hnd1 := List.nodup_cons.1 hnd
    have hnd2 := List.nodup_append.1 hnd1.2
    have hpr : p ∉ rest.nodes := fun hm => hnd1.1 (List.mem_append_right _ hm)
    have hsub : (Forest.cons p kids rest).sub p = kids := by simp [Forest.sub]
    have hfil : rest.roots.filter (fun c => hh c || ((Forest.cons p kids rest).sub c).anyHit hh)
        = rest.roots.filter (fun c => hh c || (rest.sub c).anyHit hh) := by
      apply List.filter_congr
      intro c hc
      have hcr := rest.roots_subset_nodes c hc
      have hpc : p ≠ c := fun e => hpr (e ▸ hcr)
      have hck : c ∉ kids.nodes := fun hm => hnd2.2.2 hm hcr
      have : (Forest.cons p kids rest).sub c = rest.sub c := by simp [Forest.sub, hpc, hck]
      rw [this]
    simp only [Forest.liveCount, Forest.roots, List.filter_cons, hsub, hfil, ihr hnd2.2.1]
    split
    · simp; omega
    · simp

/-! ## Claim on the nodes that survive `trim_tree` -/

/-- C19: on a well-formed tree that carries a hit, `trim_tree` (given fuel for its loops)
returns a well-formed tree in which a node of the original tree is still reachable from
the root exactly when it is the root, or has a hit, or has at least two children, in the
original tree, whose subtree (the child and everything below it) contains a node with a
hit. No node is added, and the parent of every node below the root afterwards is its
nearest ancestor in the original tree that is still in the tree: the chain of parents of
the node before the call reaches it through nodes `N` that are no longer in the tree. -/
theorem trim_tree_survivors {h : Heap} {root : Nat} {F : Forest} (t : IsTree h root F)
    (hany : treeHasHit h root F) (fuel : Nat) (hfuel : F.nodes.length + 2 ≤ fuel) :
    ∃ h' F', trim_tree fuel h root = .ok h' ∧ IsTree h' root F' ∧
      (∀ q ∈ root :: F.nodes, (q ∈ root :: F'.nodes ↔
        (q = root ∨ (h q).hits_ ≠ [] ∨
          2 ≤ ((h q).children_.filter
            (fun c => hasHits h c || (F.sub c).anyHit (hasHits h))).length))) ∧
      (∀ q ∈ F'.nodes, q ∈ F.nodes) ∧
      (∀ q ∈ F'.nodes, ∃ N a T, Chain h q (N ++ a :: T) ∧ (h' q).parent_ = some a ∧
        a ∈ root :: F'.nodes ∧ ∀ x ∈ N, x ∉ root :: F'.nodes) := by
  obtain ⟨h', e, t', _⟩ := trim_tree_spec t hany fuel hfuel
  have hperm := Forest.trimmed_links_perm (hasHits h) F root
  have hnodes : ∀ q, q ∈ (F.trimmed (hasHits h)).nodes ↔ q ∈ F.survives (hasHits h) := by
    intro q
    rw [← Forest.links_map_fst _ root, ← Forest.nearest_map_fst (hasHits h) F root]
    exact (hperm.map Prod.fst).mem_iff
  have hndF : F.nodes.Nodup := (List.nodup_cons.1 t.nodup).2
  have hrootF : root ∉ F.nodes := (List.nodup_cons.1 t.nodup).1
  refine ⟨h', F.trimmed (hasHits h), e, t', ?_, F.trimmed_nodes_subset (hasHits h), ?_⟩
  · intro q hq
    rcases List.mem_cons.1 hq with rfl | hqF
    · simp
    · have hqr : q ≠ root := fun e => hrootF (e ▸ hqF)
      obtain ⟨hch, _, hnds, hsubF, _⟩ := Rep_sub h q F root t.rep t.nodup hqF
      have hlive := Forest.liveCount_eq_filter (hasHits h) (F.sub q) (List.nodup_cons.1 hnds).2
      have hfil : (F.sub q).roots.filter
            (fun c => hasHits h c || ((F.sub q).sub c).anyHit (hasHits h))
          = (F.sub q).roots.filter (fun c => hasHits h c || (F.sub c).anyHit (hasHits h)) := by
        apply List.filter_congr
        intro c hc
        rw [Forest.sub_sub q c F hndF ((F.sub q).roots_subset_nodes c hc)]
      rw [hfil, ← hch] at hlive
      simp only [List.mem_cons, hqr, false_or]
      rw [hnodes, F.mem_survives_iff (hasHits h) hndF q hqF, Bool.or_eq_true, hasHits_iff,
        decide_eq_true_eq, hlive]
  · intro q hq
    have hq' : q ∈ ((F.trimmed (hasHits h)).links root).map Prod.fst := by
      rw [Forest.links_map_fst]; exact hq
    obtain ⟨x, hx, rfl⟩ := List.mem_map.1 hq'
    have hpar := Rep_links h' _ root t'.rep x hx
    have hxn : x ∈ F.nearest (hasHits h) root := hperm.mem_iff.1 hx
    have hall := Forest.survives_forall (hasHits h) F (root :: (F.trimmed (hasHits h)).nodes)
      hndF (by
        intro y hy hyS
        rcases List.mem_cons.1 hyS with rfl | hyS
        · exact absurd hy hrootF
        · exact (hnodes y).1 hyS)
    obtain ⟨N, T, hchain, hN⟩ := nearest_chain (hasHits h) h
      (fun y => y ∉ root :: (F.trimmed (hasHits h)).nodes) F root root [] [] [] t.rep
      t.root_parent rfl (by simp) hall x hxn
    refine ⟨N, x.2, T, hchain, hpar, ?_, hN⟩
    rcases Forest.nearest_target (hasHits h) F root x hxn with e2 | hm
    · rw [e2]; exact List.mem_cons_self _ _
    · exact List.mem_cons_of_mem _ ((hnodes _).2 hm)

/-- C19 on the example tree. -/
theorem trim_tree_survivors_witness :
    ∃ h' F', trim_tree 9 exampleHeap 0 = .ok h' ∧ IsTree h' 0 F' ∧
      (∀ q ∈ 0 :: exampleForest.nodes, (q ∈ 0 :: F'.nodes ↔
        (q = 0 ∨ (exampleHeap q).hits_ ≠ [] ∨
          2 ≤ ((exampleHeap q).children_.filter
            (fun c => hasHits exampleHeap c
              || (exampleForest.sub c).anyHit (hasHits exampleHeap))).length))) ∧
      (∀ q ∈ F'.nodes, q ∈ exampleForest.nodes) ∧
      (∀ q ∈ F'.nodes, ∃ N a T, Chain exampleHeap q (N ++ a :: T) ∧
        (h' q).parent_ = some a ∧ a ∈ 0 :: F'.nodes ∧ ∀ x ∈ N, x ∉ 0 :: F'.nodes) :=
  trim_tree_survivors exampleTree exampleTree_hasHit 9 (by decide)

/-! ## One call on a leaf parent below the root -/

/-- A call of `merge_leafparent_Mar03` on a leaf parent `L` below the root of a
well-formed tree returns `true` and dissolves `L` into its parent `P0`: `L` leaves the
children of `P0`, the surviving mergeable nodes `M` are appended to them as childless
children of `P0`, and the tree has one node with children less. -/
theorem merge_leafparent_dissolve (sqrt : ℚ → ℚ) (hs : HitStore) (maxr : ℚ) {h : Heap}
    {root : Nat} {F : Forest} (t : IsTree h root F) (L : Nat) (hL : L ∈ F.nodes)
    (hlp : isLeafParent h L = true) :
    ∃ h' F' P0 A B M, merge_leafparent_Mar03 sqrt hs h L maxr = .ok (h', true) ∧
      MergeStep h root F h' F' ∧ F'.internal < F.internal ∧
      (h L).parent_ = some P0 ∧ P0 ∈ root :: F.nodes ∧ (h P0).children_ = A ++ L :: B ∧
      L ∉ A ∧ L ∉ B ∧
      h' P0 = { h P0 with children_ := A ++ B ++ M } ∧ M ≠ [] ∧
      M.Sublist ((h L).children_ ++ [L]) ∧
      (∀ q ∈ M, (h' q).parent_ = some P0 ∧ (h' q).children_ = []) ∧
      (h' L).children_ = [] ∧
      (∀ q, q ∉ (h L).children_ → q ≠ L → q ≠ P0 → h' q = h q) ∧
      (∀ q ∈ M, (h q).hits_ ≠ [] → (h' q).hits_ ≠ []) ∧
      (L ∈ M → (h L).hits_ ≠ []) ∧
      (∀ q, q ∉ M → (h' q).parent_ = (h q).parent_) ∧
      P0 ≠ L ∧ P0 ∉ (h L).children_ := by
  have hne : L ≠ root := fun e => (List.nodup_cons.1 t.nodup).1 (e ▸ hL)
  have hL' : L ∈ root :: F.nodes := List.mem_cons_of_mem _ hL
  obtain ⟨lp, _, hinner⟩ := leafParent_of_tree t L hL' hlp
  obtain ⟨P0, A, B, hpar, hP0m, hch, hLA, hLB, hP0, hP0c⟩ := hinner hne
  obtain ⟨h', M, e, hsub, hMne, _, hP', hM, hLc, _, hframe, _, _, _, hkeep, hLM, hparM⟩ :=
    merge_leafparent_inner sqrt hs h L P0 (h L).children_ A B maxr lp hpar hch hLA hLB hP0
      hP0c
  have hmem := mem_leafParents h F root t.rep L hL hlp
  have hnd : F.leafParents.Nodup :=
    (List.nodup_cons.1 t.nodup).2.sublist F.leafParents_sublist
  obtain ⟨h2, b2, F', e2, s, _, _, hint⟩ :=
    merge_leafparents_tree sqrt hs maxr (fun q => q == L) t false
  rw [filter_beq_nodup F.leafParents L hnd hmem] at e2 hint
  simp only [List.foldlM_cons, List.foldlM_nil, e, bind_ok, pure, Except.pure] at e2
  have hh : h2 = h' := by
    have := Except.ok.inj e2
    exact (congrArg Prod.fst this).symm
  subst hh
  simp only [List.length_singleton] at hint
  exact ⟨h2, F', P0, A, B, M, e, s, by omega, hpar, hP0m, hch, hLA, hLB, hP', hMne, hsub, hM,
    hLc, hframe, hkeep, hLM, hparM, hP0, hP0c⟩

/-! ## Claim on the shape of the tree after merging -/

/-- C22: on a well-formed tree with at least two nodes, `merging_algo_Mar03` returns
(given fuel for its loops), and whenever it has returned, the result is a well-formed
tree in which every node below the root is a childless child of the root, whatever the
hits and the square root are (the radius of the run is the default `10` of
`merge_leafparent_Mar03`).  The reason: for every radius `maxr`, a call on a leaf parent
`L` that is not the root returns `true` and dissolves `L` into its parent `P0`, whose
children become the former ones without `L`, followed by the surviving mergeable nodes
`M`, which are childless children of `P0`. -/
theorem merging_algo_flattens (sqrt : ℚ → ℚ) (hs : HitStore) {h : Heap} {root : Nat}
    {F : Forest} (t : IsTree h root F) (h2 : 2 ≤ (root :: F.nodes).length) :
    (∃ h1, ∀ fuel, F.nodes.length + 3 ≤ fuel →
      merging_algo_Mar03 sqrt hs fuel h root = .ok h1) ∧
    (∀ fuel h1, merging_algo_Mar03 sqrt hs fuel h root = .ok h1 →
      ∃ F1, IsTree h1 root F1 ∧
        ∀ q ∈ F1.nodes, q ∈ (h1 root).children_ ∧ (h1 q).parent_ = some root ∧
          (h1 q).children_ = []) ∧
    (∀ (maxr : ℚ) (L : Nat), L ∈ F.nodes → isLeafParent h L = true →
      ∃ h' P0 A B M, merge_leafparent_Mar03 sqrt hs h L maxr = .ok (h', true) ∧
        (h L).parent_ = some P0 ∧ (h P0).children_ = A ++ L :: B ∧ L ∉ A ∧ L ∉ B ∧
        (h' P0).children_ = A ++ B ++ M ∧ (h' L).children_ = [] ∧
        ∀ q ∈ M, (h' q).parent_ = some P0 ∧ (h' q).children_ = []) := by
  have hF : F.isNil = false := by
    cases F with
    | nil => simp [Forest.nodes] at h2
    | cons p kids rest => rfl
  obtain ⟨h', M, s, _, _, _, e, _⟩ := merging_algo_tree sqrt hs t hF
  refine ⟨⟨h', e⟩, ?_, ?_⟩
  · intro fuel h1 e1
    have hh : h1 = h' := by
      have a := merging_algo_mono sqrt hs fuel (F.nodes.length + 3) h root h1 e1
      have b := e (fuel + (F.nodes.length + 3)) (by omega)
      rw [a] at b
      exact Except.ok.inj b
    subst hh
    refine ⟨Forest.leaves M, s.tree, ?_⟩
    intro q hq
    have hroots : q ∈ (Forest.leaves M).roots := by
      rw [Forest.leaves_roots]; rw [Forest.leaves_nodes] at hq; exact hq
    refine ⟨by rw [s.tree.root_children]; exact hroots,
      Rep_roots h1 _ root s.tree.rep q hroots, ?_⟩
    have hrep := Rep_children h1 (Forest.leaves M) root s.tree.rep
      (List.nodup_cons.1 s.tree.nodup).2 q hq
    obtain ⟨a, b, c, d, _⟩ := Rep_sub h1 q (Forest.leaves M) root s.tree.rep s.tree.nodup hq
    rw [a]
    have : ∀ (l : List Nat), q ∈ l → ((Forest.leaves l).sub q).roots = [] := by
      intro l
      induction l with
      | nil => intro hm; simp at hm
      | cons x l ih =>
        intro hm
        by_cases hx : x = q
        · simp [Forest.leaves, Forest.sub, hx, Forest.roots]
        · have hm' : q ∈ l := by
            rcases List.mem_cons.1 hm with e' | hm'
            · exact absurd e'.symm hx
            · exact hm'
          simp [Forest.leaves, Forest.sub, hx, Forest.nodes, ih hm']
    rw [Forest.leaves_nodes] at hq
    exact this M hq
  · intro maxr L hL hlp
    obtain ⟨h1, F', P0, A, B, M1, e1, _, _, hpar, _, hch, hLA, hLB, hP', _, _, hM, hLc, _⟩ :=
      merge_leafparent_dissolve sqrt hs maxr t L hL hlp
    exact ⟨h1, P0, A, B, M1, e1, hpar, hch, hLA, hLB, by rw [hP'], hLc, hM⟩

/-- C22 on the example tree. -/
theorem merging_algo_flattens_witness :
    (∃ h1, ∀ fuel, exampleForest.nodes.length + 3 ≤ fuel →
      merging_algo_Mar03 (fun q => q) exampleHits fuel exampleHeap 0 = .ok h1) ∧
    (∀ fuel h1, merging_algo_Mar03 (fun q => q) exampleHits fuel exampleHeap 0 = .ok h1 →
      ∃ F1, IsTree h1 0 F1 ∧
        ∀ q ∈ F1.nodes, q ∈ (h1 0).children_ ∧ (h1 q).parent_ = some 0 ∧
          (h1 q).children_ = []) ∧
    (∀ (maxr : ℚ) (L : Nat), L ∈ exampleForest.nodes → isLeafParent exampleHeap L = true →
      ∃ h' P0 A B M, merge_leafparent_Mar03 (fun q => q) exampleHits exampleHeap L maxr
          = .ok (h', true) ∧
        (exampleHeap L).parent_ = some P0 ∧ (exampleHeap P0).children_ = A ++ L :: B ∧
        L ∉ A ∧ L ∉ B ∧
        (h' P0).children_ = A ++ B ++ M ∧ (h' L).children_ = [] ∧
        ∀ q ∈ M, (h' q).parent_ = some P0 ∧ (h' q).children_ = []) :=
  merging_algo_flattens (fun q => q) exampleHits exampleTree (by decide)

/-! ## The loop flag of `merging_algo_Mar03` -/

/-- A loop of calls that overwrites a flag and ends with the flag `true` leaves what the
loop that accumulates the flag by OR leaves. -/
theorem foldlM_or_of_last (f : Heap → Nat → Res (Heap × Bool)) (l : List Nat) :
    ∀ (h : Heap) (b c : Bool) (h' : Heap), l ≠ [] →
      l.foldlM (fun (s : Heap × Bool) x => f s.1 x) (h, b) = .ok (h', true) →
      l.foldlM (fun (s : Heap × Bool) x => do
          let r ← f s.1 x
          .ok (r.1, s.2 || r.2)) (h, c) = .ok (h', true) := by
  induction l with
  | nil => intro h b c h' hne; exact absurd rfl hne
  | cons x l ih =>
    intro h b c h' _ e
    simp only [List.foldlM_cons] at e ⊢
    cases hf : f h x with
    | error err => rw [hf] at e; cases e
    | ok r =>
      rw [hf, bind_ok] at e
      rw [bind_ok, bind_ok]
      cases l with
      | nil =>
        simp only [List.foldlM_nil, pure, Except.pure] at e ⊢
        have e' := Except.ok.inj e
        rw [e']
        simp
      | cons y l =>
        exact ih r.1 r.2 (c || r.2) h' (List.cons_ne_nil _ _) e

/-- The list of leaf parents `merging_algo_Mar03` collects, whenever the traversal
returns: the root when it is a leaf parent, then the leaf parents below the root. -/
theorem leafparents_list {h : Heap} {root : Nat} {F : Forest} (t : IsTree h root F)
    (fuel : Nat) (lps : List Nat)
    (e : rangeFor h (leafparentsBody h) fuel (Node.begin root) [] = .ok lps) :
    lps = if F.isNil then [] else if F.isLeaves then [root] else F.leafParents := by
  have a := rangeFor_mono h (leafparentsBody h) (leafparentsBody h) (fun _ _ _ _ x => x)
    (F.nodes.length + 2) fuel (Node.begin root) [] lps e
  cases hF : F.isNil with
  | false =>
    have b := leafparents_tree t hF fuel
    rw [show F.nodes.length + 2 + fuel = fuel + (F.nodes.length + 2) by omega, a] at b
    simp only [Bool.false_eq_true, if_false]
    exact Except.ok.inj b
  | true =>
    have hnil := (Forest.isNil_iff F).1 hF
    subst hnil
    have b := rangeFor_tree t (leafparentsBody h) [] fuel
    rw [show Forest.nil.nodes.length + 2 + fuel = fuel + (Forest.nil.nodes.length + 2) by omega,
      a] at b
    have hlp : isLeafParent h root = false := by
      rw [isLeafParent_rep h root Forest.nil t.root_children t.rep]; rfl
    simp only [Forest.walk, List.foldlM_cons, List.foldlM_nil, leafparentsBody, hlp,
      Bool.not_false, if_true, bind_ok, pure, Except.pure] at b
    simp only [if_true]
    exact Except.ok.inj b

/-- One turn of the loop of `merging_algo_Mar03` on a tree whose root has children leaves
the heap and the flag that the turn with the accumulated flag leaves, for every fuel. -/
theorem mergingPass_eq_or (sqrt : ℚ → ℚ) (hs : HitStore) {h : Heap} {root : Nat} {F : Forest}
    (t : IsTree h root F) (hF : F.isNil = false) (fuel : Nat) (b : Bool) :
    mergingPass sqrt hs fuel h root b = mergingPassOr sqrt hs fuel h root := by
  unfold mergingPass mergingPassOr
  cases hr : rangeFor h (leafparentsBody h) fuel (Node.begin root) [] with
  | error err => rfl
  | ok lps =>
    have hl := leafparents_list t fuel lps hr
    rw [hF] at hl
    simp only [Bool.false_eq_true, if_false] at hl
    rw [bind_ok, bind_ok]
    cases hlv : F.isLeaves with
    | true =>
      rw [hlv] at hl
      simp only [if_true] at hl
      subst hl
      simp only [List.foldlM_cons, List.foldlM_nil]
      cases merge_leafparent_Mar03 sqrt hs h root 10 with
      | error err => rfl
      | ok r => simp [bind_ok, pure, Except.pure]
    | false =>
      rw [hlv] at hl
      simp only [Bool.false_eq_true, if_false] at hl
      subst hl
      obtain ⟨h', b', F', e, _, ba, _, _⟩ :=
        merge_leafparents_tree sqrt hs 10 (fun _ => true) t b
      rw [List.filter_true] at e ba
      have hne := F.leafParents_ne_nil hlv
      rw [ba hne] at e
      rw [e]
      exact (foldlM_or_of_last (fun g x => merge_leafparent_Mar03 sqrt hs g x 10)
        F.leafParents h b false h' hne e).symm

/-- The loop of `merging_algo_Mar03` on a tree whose root has children returns what the
loop with the accumulated flag returns, for every fuel and number of turns. -/
theorem mergingLoop_eq_or (sqrt : ℚ → ℚ) (hs : HitStore) (fuel : Nat) (root : Nat) :
    ∀ (turns : Nat) (h : Heap) (F : Forest) (b : Bool), IsTree h root F → F.isNil = false →
      mergingLoop sqrt hs fuel root turns h b = mergingLoopOr sqrt hs fuel root turns h b := by
  intro turns
  induction turns with
  | zero => intro h F b _ _; rfl
  | succ n ih =>
    intro h F b t hF
    unfold mergingLoop mergingLoopOr
    cases b with
    | false => rfl
    | true =>
      simp only [if_true]
      rw [mergingPass_eq_or sqrt hs t hF fuel true]
      cases hp : mergingPassOr sqrt hs fuel h root with
      | error err => rfl
      | ok r =>
        obtain ⟨h1, d⟩ := r
        have hp' : mergingPass sqrt hs fuel h root true = .ok (h1, d) := by
          rw [mergingPass_eq_or sqrt hs t hF fuel true]; exact hp
        obtain ⟨h2, b2, F2, e2, s, _⟩ := mergingPass_tree sqrt hs t hF fuel true
        have a := mergingPass_mono sqrt hs fuel (F.nodes.length + 2) h root true _ hp'
        rw [show F.nodes.length + 2 + fuel = fuel + (F.nodes.length + 2) by omega, a] at e2
        have e3 := Except.ok.inj e2
        have hh : h1 = h2 := congrArg Prod.fst e3
        subst hh
        exact ih h1 F2 d s.tree (s.nonempty hF)

/-- C24: in a turn of the loop of `merging_algo_Mar03` over a well-formed tree, the list
of leaf parents is non-empty exactly when the root has children, and the root is in it
only as its sole member; a call on a leaf parent below the root returns `true`; so, when
the list is non-empty, the turn, which leaves in `didUpdate` the value returned by its
last call, leaves the heap and the flag of the turn that accumulates the values returned
by all its calls with OR, for every fuel (with enough fuel both return), and the whole
loop returns what the loop with the accumulated flag returns. -/
theorem didUpdate_overwrite_is_or (sqrt : ℚ → ℚ) (hs : HitStore) {h : Heap} {root : Nat}
    {F : Forest} (t : IsTree h root F) :
    (∀ fuel lps, rangeFor h (leafparentsBody h) fuel (Node.begin root) [] = .ok lps →
      (lps ≠ [] ↔ F.isNil = false) ∧ (root ∈ lps → lps = [root])) ∧
    (∀ (maxr : ℚ) (L : Nat), L ∈ F.nodes → isLeafParent h L = true →
      ∃ h', merge_leafparent_Mar03 sqrt hs h L maxr = .ok (h', true)) ∧
    (F.isNil = false → ∀ fuel b,
      mergingPass sqrt hs fuel h root b = mergingPassOr sqrt hs fuel h root) ∧
    (F.isNil = false → ∃ r, ∀ fuel b, F.nodes.length + 2 ≤ fuel →
      mergingPass sqrt hs fuel h root b = .ok r) ∧
    (F.isNil = false → ∀ fuel,
      merging_algo_Mar03 sqrt hs fuel h root = merging_algo_Mar03_or sqrt hs fuel h root) := by
  have hroot : root ∉ F.nodes := (List.nodup_cons.1 t.nodup).1
  refine ⟨?_, ?_, ?_, ?_, ?_⟩
  · intro fuel lps e
    have hl := leafparents_list t fuel lps e
    cases hF : F.isNil with
    | true =>
      rw [hF] at hl
      simp only [if_true] at hl
      subst hl
      simp
    | false =>
      rw [hF] at hl
      simp only [Bool.false_eq_true, if_false] at hl
      cases hlv : F.isLeaves with
      | true =>
        rw [hlv] at hl
        simp only [if_true] at hl
        subst hl
        simp
      | false =>
        rw [hlv] at hl
        simp only [Bool.false_eq_true, if_false] at hl
        subst hl
        refine ⟨⟨fun _ => rfl, fun _ => F.leafParents_ne_nil hlv⟩, fun hm => ?_⟩
        exact absurd (F.leafParents_subset root hm) hroot
  · intro maxr L hL hlp
    obtain ⟨h', _, _, _, _, _, e, _⟩ := merge_leafparent_dissolve sqrt hs maxr t L hL hlp
    exact ⟨h', e⟩
  · intro hF fuel b
    exact mergingPass_eq_or sqrt hs t hF fuel b
  · intro hF
    obtain ⟨h0, b0, _, e0, _⟩ := mergingPass_tree sqrt hs t hF 0 false
    refine ⟨(h0, b0), ?_⟩
    intro fuel b hfuel
    have e1 : mergingPass sqrt hs fuel h root false = .ok (h0, b0) := by
      have := mergingPass_mono sqrt hs (F.nodes.length + 2 + 0) (fuel - (F.nodes.length + 2))
        h root false _ e0
      rw [show F.nodes.length + 2 + 0 + (fuel - (F.nodes.length + 2)) = fuel by omega] at this
      exact this
    rw [mergingPass_eq_or sqrt hs t hF fuel b, ← mergingPass_eq_or sqrt hs t hF fuel false]
    exact e1
  · intro hF fuel
    exact mergingLoop_eq_or sqrt hs fuel root fuel h F true t hF

/-- C24 on the example tree, whose root has children. -/
theorem didUpdate_overwrite_is_or_witness :
    (∀ fuel lps, rangeFor exampleHeap (leafparentsBody exampleHeap) fuel (Node.begin 0) []
        = .ok lps →
      (lps ≠ [] ↔ exampleForest.isNil = false) ∧ (0 ∈ lps → lps = [0])) ∧
    (∀ (maxr : ℚ) (L : Nat), L ∈ exampleForest.nodes → isLeafParent exampleHeap L = true →
      ∃ h', merge_leafparent_Mar03 (fun q => q) exampleHits exampleHeap L maxr
        = .ok (h', true)) ∧
    (∀ fuel b,
      mergingPass (fun q => q) exampleHits fuel exampleHeap 0 b
        = mergingPassOr (fun q => q) exampleHits fuel exampleHeap 0) ∧
    (∃ r, ∀ fuel b, exampleForest.nodes.length + 2 ≤ fuel →
      mergingPass (fun q => q) exampleHits fuel exampleHeap 0 b = .ok r) ∧
    (∀ fuel,
      merging_algo_Mar03 (fun q => q) exampleHits fuel exampleHeap 0
        = merging_algo_Mar03_or (fun q => q) exampleHits fuel exampleHeap 0) :=
  ⟨(didUpdate_overwrite_is_or (fun q => q) exampleHits exampleTree).1,
    (didUpdate_overwrite_is_or (fun q => q) exampleHits exampleTree).2.1,
    (didUpdate_overwrite_is_or (fun q => q) exampleHits exampleTree).2.2.1 rfl,
    (didUpdate_overwrite_is_or (fun q => q) exampleHits exampleTree).2.2.2.1 rfl,
    (didUpdate_overwrite_is_or (fun q => q) exampleHits exampleTree).2.2.2.2 rfl⟩

/-! ## The measure of `merging_algo_Mar03` -/

theorem Rep_internal (h : Heap) (F : Forest) :
    ∀ P, Rep h P F → (F.nodes.filter (fun q => hasChildren h q)).length = F.internal := by
  induction F with
  | nil => intro P _; rfl
  | cons p kids rest ihk ihr =>
    intro P hrep
    obtain ⟨_, r2, r3, r4⟩ := hrep
    have hp : hasChildren h p = !kids.isNil := by
      unfold hasChildren
      rw [r2]
      cases kids <;> rfl
    have e1 := ihk p r3
    have e2 := ihr P r4
    simp only [Forest.nodes, Forest.internal, List.filter_cons, List.filter_append, hp]
    cases kids.isNil
    · simp only [Bool.not_false, if_true, List.length_cons, List.length_append,
        Bool.false_eq_true, if_false]
      omega
    · simp only [Bool.not_true, Bool.false_eq_true, if_false, List.length_append, if_true]
      omega

theorem IsTree.nodesWithChildren_eq {h : Heap} {root : Nat} {F : Forest}
    (t : IsTree h root F) :
    nodesWithChildren h root F = (if F.isNil then 0 else 1) + F.internal := by
  have hr : hasChildren h root = !F.isNil := by
    unfold hasChildren
    rw [t.root_children]
    cases F <;> rfl
  unfold nodesWithChildren
  simp only [List.filter_cons, hr]
  have e1 := Rep_internal h F root t.rep
  cases F.isNil
  · simp only [Bool.not_false, if_true, List.length_cons, Bool.false_eq_true, if_false]
    omega
  · simp only [Bool.not_true, Bool.false_eq_true, if_false, if_true]
    omega

/-- C23: on a well-formed tree with at least two nodes, `merging_algo_Mar03` returns
(given fuel for its traversals and turns; leaves without hits do not prevent it).  The
pair (number of nodes that have children, number of nodes) decreases in the
lexicographic order with the calls that keep the loop going: a call of
`merge_leafparent_Mar03` on a leaf parent below the root returns `true` and leaves a
well-formed tree with fewer nodes that have children; a call on the root, when it is a
leaf parent, leaves a well-formed tree with as many nodes that have children, and with
fewer nodes when it returns `true`. -/
theorem merging_algo_terminates (sqrt : ℚ → ℚ) (hs : HitStore) {h : Heap} {root : Nat}
    {F : Forest} (t : IsTree h root F) (h2 : 2 ≤ (root :: F.nodes).length) :
    (∃ h', ∀ fuel, F.nodes.length + 3 ≤ fuel →
      merging_algo_Mar03 sqrt hs fuel h root = .ok h') ∧
    (∀ (maxr : ℚ) (L : Nat), L ∈ F.nodes → isLeafParent h L = true →
      ∃ h' F', merge_leafparent_Mar03 sqrt hs h L maxr = .ok (h', true) ∧
        IsTree h' root F' ∧ 2 ≤ (root :: F'.nodes).length ∧
        nodesWithChildren h' root F' < nodesWithChildren h root F) ∧
    (∀ (maxr : ℚ), isLeafParent h root = true →
      ∃ h' b F', merge_leafparent_Mar03 sqrt hs h root maxr = .ok (h', b) ∧
        IsTree h' root F' ∧ 2 ≤ (root :: F'.nodes).length ∧
        nodesWithChildren h' root F' = nodesWithChildren h root F ∧
        (b = true → (root :: F'.nodes).length < (root :: F.nodes).length)) := by
  have hF : F.isNil = false := by
    cases F with
    | nil => simp [Forest.nodes] at h2
    | cons p kids rest => rfl
  have hlen : ∀ G : Forest, G.isNil = false → 2 ≤ (root :: G.nodes).length := by
    intro G hG
    cases G with
    | nil => simp [Forest.isNil] at hG
    | cons p kids rest => simp [Forest.nodes]
  refine ⟨?_, ?_, ?_⟩
  · obtain ⟨h', M, _, _, _, _, e, _⟩ := merging_algo_tree sqrt hs t hF
    exact ⟨h', e⟩
  · intro maxr L hL hlp
    obtain ⟨h', F', _, _, _, _, e, s, hint, _⟩ :=
      merge_leafparent_dissolve sqrt hs maxr t L hL hlp
    refine ⟨h', F', e, s.tree, hlen F' (s.nonempty hF), ?_⟩
    rw [s.tree.nodesWithChildren_eq, t.nodesWithChildren_eq, hF, s.nonempty hF]
    simp only [Bool.false_eq_true, if_false]
    omega
  · intro maxr hlp
    rw [isLeafParent_rep h root F t.root_children t.rep] at hlp
    simp only [Bool.and_eq_true, Bool.not_eq_true'] at hlp
    obtain ⟨h', M, e, s, hsub, _⟩ := merge_leafparent_flat sqrt hs maxr t hlp.1 hlp.2
    refine ⟨h', _, Forest.leaves M, e, s.tree, hlen _ (s.nonempty hF), ?_, ?_⟩
    · rw [s.tree.nodesWithChildren_eq, t.nodesWithChildren_eq, hF, s.nonempty hF,
        F.isLeaves_internal hlp.2, (Forest.leaves M).isLeaves_internal (Forest.leaves_isLeaves M)]
    · intro hb
      have hlt : M.length < F.roots.length := by simpa using hb
      have hn : F.nodes = F.roots := by
        rw [F.isLeaves_eq_leaves hlp.2, Forest.leaves_nodes, Forest.leaves_roots]
      simp only [List.length_cons, Forest.leaves_nodes, hn]
      omega

/-- C23 on the example tree, with the call on its leaf parent `1`, and on the root of the
flat example tree. -/
theorem merging_algo_terminates_witness :
    (∃ h', ∀ fuel, exampleForest.nodes.length + 3 ≤ fuel →
      merging_algo_Mar03 (fun q => q) exampleHits fuel exampleHeap 0 = .ok h') ∧
    (∃ h' F', merge_leafparent_Mar03 (fun q => q) exampleHits exampleHeap 1 10
          = .ok (h', true) ∧
        IsTree h' 0 F' ∧ 2 ≤ (0 :: F'.nodes).length ∧
        nodesWithChildren h' 0 F' < nodesWithChildren exampleHeap 0 exampleForest) ∧
    (∃ h' b F', merge_leafparent_Mar03 (fun q => q) flatHits flatHeap 0 10 = .ok (h', b) ∧
        IsTree h' 0 F' ∧ 2 ≤ (0 :: F'.nodes).length ∧
        nodesWithChildren h' 0 F' = nodesWithChildren flatHeap 0 (Forest.leaves [1, 2, 3]) ∧
        (b = true → (0 :: F'.nodes).length < (0 :: (Forest.leaves [1, 2, 3]).nodes).length)) :=
  ⟨(merging_algo_terminates (fun q => q) exampleHits exampleTree (by decide)).1,
    (merging_algo_terminates (fun q => q) exampleHits exampleTree (by decide)).2.1 10 1
      (by decide) (by decide),
    (merging_algo_terminates (fun q => q) flatHits flatTree (by decide)).2.2 10 (by decide)⟩

/-! ## The checks of the distance and centroid computations never fail -/

theorem nodeHitcentroid_checked_eq (hs : HitStore) (h : Heap) (p : Nat)
    (hp : (h p).hits_ ≠ []) : nodeHitcentroid_checked hs h p = nodeHitcentroid hs h p := by
  unfold nodeHitcentroid_checked nodeHitcentroid recomputeHitcentroid_checked
    recomputeHitcentroid hitcentroid_checked
  have : ((h p).hits_.map hs).isEmpty = false := by
    cases hh : (h p).hits_ with
    | nil => exact absurd hh hp
    | cons a l => rfl
  rw [this]
  rfl

theorem distance_checked_eq (sqrt : ℚ → ℚ) (hs : HitStore) (h : Heap) (a b : Nat)
    (ha : (h a).hits_ ≠ []) (hb : (h b).hits_ ≠ []) :
    distance_checked sqrt hs h a b = distance sqrt hs h a b := by
  unfold distance_checked distance
  have h1 : hasHits h a = true := (hasHits_iff h a).2 ha
  have h2 : hasHits h b = true := (hasHits_iff h b).2 hb
  rw [h1, h2]
  simp only [Bool.and_self, Bool.not_true, Bool.false_eq_true, if_false]
  rw [nodeHitcentroid_checked_eq hs h a ha]
  obtain ⟨g, e, c⟩ := nodeHitcentroid_spec hs h a
  rw [e, bind_ok, bind_ok]
  have hg : (g b).hits_ ≠ [] := by
    rw [(c b).1]; exact hb
  simp only []
  rw [nodeHitcentroid_checked_eq hs g b hg]

theorem scanInner_checked_eq (sqrt : ℚ → ℚ) (hs : HitStore) (left : Nat) (rest : List Nat) :
    ∀ st : ScanState, (st.heap left).hits_ ≠ [] → (∀ q ∈ rest, (st.heap q).hits_ ≠ []) →
      scanInner_checked sqrt hs left rest st = scanInner sqrt hs left rest st := by
  induction rest with
  | nil => intro st _ _; rfl
  | cons right rest ih =>
    intro st hl hr
    unfold scanInner_checked scanInner
    rw [distance_checked_eq sqrt hs st.heap left right hl (hr right (List.mem_cons_self _ _))]
    obtain ⟨g, e, c⟩ := distance_spec sqrt hs st.heap left right
    rw [e, bind_ok, bind_ok]
    have hg : ∀ q, (g q).hits_ = (st.heap q).hits_ := fun q => by rw [(c q).1]
    simp only []
    split
    · exact ih _ (by rw [hg]; exact hl)
        (fun q hq => by rw [hg]; exact hr q (List.mem_cons_of_mem _ hq))
    · exact ih _ (by rw [hg]; exact hl)
        (fun q hq => by rw [hg]; exact hr q (List.mem_cons_of_mem _ hq))

theorem scanOuter_checked_eq (sqrt : ℚ → ℚ) (hs : HitStore) (M : List Nat) :
    ∀ st : ScanState, (∀ q ∈ M, (st.heap q).hits_ ≠ []) →
      scanOuter_checked sqrt hs M st = scanOuter sqrt hs M st := by
  induction M with
  | nil => intro st _; rfl
  | cons left rest ih =>
    intro st hM
    unfold scanOuter_checked scanOuter
    rw [scanInner_checked_eq sqrt hs left rest st (hM left (List.mem_cons_self _ _))
      (fun q hq => hM q (List.mem_cons_of_mem _ hq))]
    obtain ⟨st1, e, c, _⟩ := scanInner_spec sqrt hs left rest st
    rw [e, bind_ok, bind_ok]
    exact ih st1 (fun q hq => by rw [(c q).1]; exact hM q (List.mem_cons_of_mem _ hq))

/-- A merge of a pair that leaves the first node with a hit passes the check. -/
theorem mergePair_checked_eq (hs : HitStore) (h h6 : Heap) (first second : Nat)
    (e : mergePair hs h first second = .ok h6) (hf : (h6 first).hits_ ≠ []) :
    mergePair_checked hs h first second = .ok h6 := by
  unfold mergePair at e
  unfold mergePair_checked
  simp only [] at e ⊢
  split at e
  · cases e
  · rename_i h5 hb
    obtain ⟨c, hc⟩ := hitcentroid_ok ((h5 first).hits_.map hs)
    have hrec : recomputeHitcentroid hs h5 first
        = .ok (Function.update h5 first
            { h5 first with hitcentroid_ := c, hitcentroidCalculated_ := true }, c) := by
      unfold recomputeHitcentroid
      rw [hc]; rfl
    rw [hrec] at e
    simp only [] at e
    have e6 := Except.ok.inj e
    have hf5 : (h5 first).hits_ ≠ [] := by
      rw [← e6] at hf
      simpa using hf
    have hrec' : recomputeHitcentroid_checked hs h5 first = recomputeHitcentroid hs h5 first := by
      unfold recomputeHitcentroid_checked recomputeHitcentroid hitcentroid_checked
      have : ((h5 first).hits_.map hs).isEmpty = false := by
        cases hh : (h5 first).hits_ with
        | nil => exact absurd hh hf5
        | cons a l => rfl
      rw [this]
      rfl
    rw [hrec', hrec]
    simp only []
    rw [e6]

/-- The checks never fail in the loop of `merge_leafparent_Mar03` when every mergeable
node has a hit: the loop with the checks does what the loop does, whatever the fuel. -/
theorem mergeLoop_checked_eq (sqrt : ℚ → ℚ) (hs : HitStore) (maxr : ℚ) (L : Nat) :
    ∀ (fuel : Nat) (h : Heap) (M : List Nat) (b : Bool),
      LoopInv L h M → (∀ q ∈ M, (h q).hits_ ≠ []) →
      mergeLoop_checked sqrt hs maxr fuel h M b = mergeLoop sqrt hs maxr fuel h M b := by
  intro fuel
  induction fuel with
  | zero => intro h M b _ _; rfl
  | succ fuel ih =>
    intro h M b i hM
    obtain ⟨st, e, c, _, _, hyes⟩ := mergeTurn_spec sqrt hs maxr L h M b i
    have es := scanOuter_checked_eq sqrt hs M
      { heap := h, minr := maxr, pairToMerge := none, didUpdate := b,
        didUpdateThisIteration := false } hM
    rw [e] at es
    have hfields : ∀ q, (st.heap q).hits_ = (h q).hits_ := by
      intro q; rw [(c q).1]
    have hlinks : ∀ q, (st.heap q).children_ = (h q).children_ ∧
        (st.heap q).parent_ = (h q).parent_ := by
      intro q; rw [(c q).1]; exact ⟨rfl, rfl⟩
    rw [mergeLoop_checked, mergeLoop, es, e, bind_ok, bind_ok]
    cases hflag : st.didUpdateThisIteration with
    | false => rfl
    | true =>
      obtain ⟨first, second, h6, hp, hf, hs2, hne, _, _, _, e6, _, i6, hh6, _⟩ := hyes hflag
      have hf6 : (h6 first).hits_ ≠ [] := by
        rw [hh6]
        intro hcon
        exact hM first hf (List.append_eq_nil.1 hcon).1
      simp only [Bool.not_true, Bool.false_eq_true, if_false, hp, e6,
        mergePair_checked_eq hs st.heap h6 first second e6 hf6]
      refine ih h6 _ st.didUpdate i6 ?_
      intro q hq
      have hqM := (List.mem_filter.1 hq).1
      have hq2 : q ≠ second := by
        have := (List.mem_filter.1 hq).2
        simpa using this
      exact mergeTurn_hits hs L st.heap M (i.of_links hlinks) first second hs2 hne h6 e6 q hq2
        (by rw [hfields]; exact hM q hqM)

/-- The checks never fail in a call of `merge_leafparent_Mar03` on a leaf parent whose
children all have a hit. -/
theorem merge_leafparent_checked_eq (sqrt : ℚ → ℚ) (hs : HitStore) (h : Heap) (L : Nat)
    (cs : List Nat) (maxr : ℚ) (lp : LeafParent h L cs) (hhits : ∀ c ∈ cs, (h c).hits_ ≠ []) :
    merge_leafparent_Mar03_checked sqrt hs h L maxr = merge_leafparent_Mar03 sqrt hs h L maxr := by
  let h1 : Heap := Function.update h L { h L with children_ := [] }
  have hL1 : h1 L = { h L with children_ := [] } := Function.update_same _ _ _
  have hq1 : ∀ q, q ≠ L → h1 q = h q := fun q hq => Function.update_noteq hq _ _
  have hcs : ∀ c ∈ cs, (h1 c).hits_ ≠ [] := by
    intro c hc
    rw [hq1 c (fun e => lp.notSelf (e ▸ hc))]
    exact hhits c hc
  have key : ∀ M0 : List Nat,
      M0 = (if (hasParent h1 L && hasHits h1 L) = true then cs ++ [L] else cs) →
      mergeLoop_checked sqrt hs maxr (M0.length + 1) h1 M0 false
        = mergeLoop sqrt hs maxr (M0.length + 1) h1 M0 false := by
    intro M0 hM0
    cases hcond : (hasParent h1 L && hasHits h1 L) with
    | false =>
      rw [hcond] at hM0
      simp only [Bool.false_eq_true, if_false] at hM0
      rw [hM0]
      exact mergeLoop_checked_eq sqrt hs maxr L _ h1 cs false lp.loopInv_root hcs
    | true =>
      rw [hcond] at hM0
      simp only [if_true] at hM0
      rw [hM0]
      simp only [Bool.and_eq_true] at hcond
      have hpar : ∃ P0, (h L).parent_ = some P0 := by
        have := hcond.1
        simp only [hasParent, hL1] at this
        exact Option.isSome_iff_exists.1 this
      obtain ⟨P0, hpar⟩ := hpar
      refine mergeLoop_checked_eq sqrt hs maxr L _ h1 (cs ++ [L]) false
        (lp.loopInv_inner hpar (cs ++ [L]) (Or.inr rfl)) ?_
      intro q hq
      rcases List.mem_append.1 hq with hq | hq
      · exact hcs q hq
      · rw [List.mem_singleton.1 hq]
        exact (hasHits_iff h1 L).1 hcond.2
  unfold merge_leafparent_Mar03_checked merge_leafparent_Mar03
  simp only [lp.children]
  rw [key _ rfl]

/-! ## Leaves with hits, call by call -/

/-- The children of a node of a well-formed tree are nodes below the root. -/
theorem IsTree.child_mem {h : Heap} {root : Nat} {F : Forest} (t : IsTree h root F)
    (p : Nat) (hp : p ∈ root :: F.nodes) (c : Nat) (hc : c ∈ (h p).children_) :
    c ∈ F.nodes := by
  rcases List.mem_cons.1 hp with rfl | hp
  · rw [t.root_children] at hc
    exact F.roots_subset_nodes c hc
  · obtain ⟨a, _, _, d, _⟩ := Rep_sub h p F root t.rep t.nodup hp
    rw [a] at hc
    exact d c ((F.sub p).roots_subset_nodes c hc)

theorem leafParents_isLeafParent (h : Heap) (F : Forest) :
    ∀ P, Rep h P F → ∀ L ∈ F.leafParents, isLeafParent h L = true := by
  induction F with
  | nil => intro P _ L hL; simp [Forest.leafParents] at hL
  | cons p kids rest ihk ihr =>
    intro P hrep L hL
    obtain ⟨_, r2, r3, r4⟩ := hrep
    simp only [Forest.leafParents, List.mem_append] at hL
    rcases hL with hL | hL | hL
    · split at hL
      · rename_i hc
        rw [List.mem_singleton.1 hL, isLeafParent_rep h p kids r2 r3]
        exact hc
      · simp at hL
    · exact ihk p r3 L hL
    · exact ihr P r4 L hL

/-- Nodes that stay in the tree: when the nodes `X` are closed under taking children, and
the children outside `X` of every node outside `X` are still among its children in `h'`,
every node of the forest outside `X` is a node of the tree in `h'`. -/
theorem stay_forest (h h' : Heap) (root : Nat) (F' : Forest) (t' : IsTree h' root F')
    (X : List Nat)
    (H1 : ∀ p, p ∉ X → ∀ c ∈ (h p).children_, c ∉ X → c ∈ (h' p).children_)
    (H2 : ∀ p, p ∈ X → ∀ c ∈ (h p).children_, c ∈ X) (G : Forest) :
    ∀ P, Rep h P G →
      (P ∉ X → P ∈ root :: F'.nodes ∧ ∀ r ∈ G.roots, r ∉ X → r ∈ (h' P).children_) →
      (P ∈ X → ∀ r ∈ G.roots, r ∈ X) →
      ∀ q ∈ G.nodes, q ∉ X → q ∈ F'.nodes := by
  induction G with
  | nil => intro P _ _ _ q hq; simp [Forest.nodes] at hq
  | cons p kids rest ihk ihr =>
    intro P hrep hout hin q hq hqX
    obtain ⟨_, r2, r3, r4⟩ := hrep
    have hpmem : p ∉ X → p ∈ F'.nodes := by
      intro hpX
      by_cases hPX : P ∈ X
      · exact absurd (hin hPX p (by simp [Forest.roots])) hpX
      · obtain ⟨hP, hr⟩ := hout hPX
        exact t'.child_mem P hP p (hr p (by simp [Forest.roots]) hpX)
    simp only [Forest.nodes, List.mem_cons, List.mem_append] at hq
    rcases hq with rfl | hq | hq
    · exact hpmem hqX
    · refine ihk p r3 ?_ ?_ q hq hqX
      · intro hpX
        refine ⟨List.mem_cons_of_mem _ (hpmem hpX), ?_⟩
        intro r hr hrX
        exact H1 p hpX r (by rw [r2]; exact hr) hrX
      · intro hpX r hr
        exact H2 p hpX r (by rw [r2]; exact hr)
    · refine ihr P r4 ?_ ?_ q hq hqX
      · intro hPX
        obtain ⟨hP, hr⟩ := hout hPX
        exact ⟨hP, fun r hr' hrX => hr r (by simp [Forest.roots, hr']) hrX⟩
      · intro hPX r hr
        exact hin hPX r (by simp [Forest.roots, hr])

/-- A call of `merge_leafparent_Mar03` on a leaf parent below the root of a well-formed
tree in which every leaf has a hit: no check fails, every leaf of the tree it returns has
a hit, the nodes other than the leaf parent and its children stay in the tree, and the
other leaf parents stay leaf parents. -/
theorem merge_leafparent_inner_leaves (sqrt : ℚ → ℚ) (hs : HitStore) (maxr : ℚ) {h : Heap}
    {root : Nat} {F : Forest} (t : IsTree h root F) (hl : leavesHaveHits h root F) (L : Nat)
    (hL : L ∈ F.nodes) (hlp : isLeafParent h L = true) :
    ∃ h' F', merge_leafparent_Mar03 sqrt hs h L maxr = .ok (h', true) ∧
      merge_leafparent_Mar03_checked sqrt hs h L maxr = .ok (h', true) ∧
      MergeStep h root F h' F' ∧ leavesHaveHits h' root F' ∧
      (∀ q ∈ F.nodes, q ∉ L :: (h L).children_ → q ∈ F'.nodes) ∧
      (∀ x ∈ F.nodes, x ≠ L → isLeafParent h x = true → isLeafParent h' x = true) := by
  have hroot : root ∉ F.nodes := (List.nodup_cons.1 t.nodup).1
  have hne : L ≠ root := fun e => hroot (e ▸ hL)
  have hL' : L ∈ root :: F.nodes := List.mem_cons_of_mem _ hL
  obtain ⟨lp, _, _⟩ := leafParent_of_tree t L hL' hlp
  obtain ⟨h', F', P0, A, B, M, e, s, _, hpar, hP0m, hch, hLA, hLB, hP', hMne, hsub, hM, hLc,
    hframe, hkeep, hLM, hparM, hP0L, hP0c⟩ := merge_leafparent_dissolve sqrt hs maxr t L hL hlp
  have hits_of_leaf : ∀ q ∈ root :: F.nodes, (h q).children_ = [] → (h q).hits_ ≠ [] := by
    intro q hq hc
    exact (hasHits_iff h q).1 (hl q hq (by simp [isLeaf, hc]))
  have hcs : ∀ c ∈ (h L).children_, (h c).hits_ ≠ [] := fun c hc =>
    hits_of_leaf c (List.mem_cons_of_mem _ (t.child_mem L hL' c hc)) (lp.leaf c hc)
  have hchk := merge_leafparent_checked_eq sqrt hs h L (h L).children_ maxr lp hcs
  have hLkids : (h L).children_ ≠ [] := lp.nonempty
  have hP0kids : (h P0).children_ ≠ [] := by rw [hch]; simp
  -- what the call leaves of the children lists
  have H1 : ∀ p, p ∉ L :: (h L).children_ → ∀ c ∈ (h p).children_,
      c ∉ L :: (h L).children_ → c ∈ (h' p).children_ := by
    intro p hp c hc hcX
    have hpL : p ≠ L := fun e => hp (e ▸ List.mem_cons_self _ _)
    have hpc : p ∉ (h L).children_ := fun hm => hp (List.mem_cons_of_mem _ hm)
    by_cases hpP : p = P0
    · subst hpP
      rw [hP']
      show c ∈ A ++ B ++ M
      rw [hch] at hc
      have hcL : c ≠ L := fun e => hcX (e ▸ List.mem_cons_self _ _)
      rcases List.mem_append.1 hc with hc | hc
      · exact List.mem_append_left _ (List.mem_append_left _ hc)
      · rcases List.mem_cons.1 hc with hc | hc
        · exact absurd hc hcL
        · exact List.mem_append_left _ (List.mem_append_right _ hc)
    · rw [hframe p hpc hpL hpP]; exact hc
  have H2 : ∀ p, p ∈ L :: (h L).children_ → ∀ c ∈ (h p).children_,
      c ∈ L :: (h L).children_ := by
    intro p hp c hc
    rcases List.mem_cons.1 hp with rfl | hp
    · exact List.mem_cons_of_mem _ hc
    · rw [lp.leaf p hp] at hc
      simp at hc
  have hrootX : root ∉ L :: (h L).children_ := by
    intro hm
    rcases List.mem_cons.1 hm with e' | hm
    · exact hne e'.symm
    · have := lp.parent root hm
      rw [t.root_parent] at this
      cases this
  have hstay : ∀ q ∈ F.nodes, q ∉ L :: (h L).children_ → q ∈ F'.nodes := by
    refine stay_forest h h' root F' s.tree (L :: (h L).children_) H1 H2 F root t.rep ?_ ?_
    · intro _
      refine ⟨List.mem_cons_self _ _, ?_⟩
      intro r hr hrX
      exact H1 root hrootX r (by rw [t.root_children]; exact hr) hrX
    · intro hm; exact absurd hm hrootX
  refine ⟨h', F', e, by rw [hchk]; exact e, s, ?_, hstay, ?_⟩
  · -- every leaf of the new tree has a hit
    intro q hq hleaf
    have hqc : (h' q).children_ = [] := by
      simpa [isLeaf] using hleaf
    have hqF : q ∈ root :: F.nodes := by
      rcases List.mem_cons.1 hq with e' | hq
      · rw [e']; exact List.mem_cons_self _ _
      · exact List.mem_cons_of_mem _ (s.sub q hq)
    refine (hasHits_iff h' q).2 ?_
    by_cases hqM : q ∈ M
    · refine hkeep q hqM ?_
      have := hsub.subset hqM
      rcases List.mem_append.1 this with hc | hc
      · exact hcs q hc
      · rw [List.mem_singleton.1 hc] at hqM ⊢
        exact hLM hqM
    · by_cases hqP : q = P0
      · exfalso
        rw [hqP, hP'] at hqc
        have : A ++ B ++ M = [] := hqc
        exact hMne (List.append_eq_nil.1 this).2
      · by_cases hqX : q ∈ L :: (h L).children_
        · exfalso
          have hqr : q ≠ root := fun e' => hrootX (e' ▸ hqX)
          have hqF' : q ∈ F'.nodes := by
            rcases List.mem_cons.1 hq with e' | hq
            · exact absurd e' hqr
            · exact hq
          obtain ⟨p, _, hp1, hp2⟩ := s.tree.invariant.once q hqF'
          have hmem : q ∈ (h' p).children_ := by
            by_contra hcon
            rw [List.count_eq_zero_of_not_mem hcon] at hp2
            cases hp2
          rw [hparM q hqM] at hp1
          rcases List.mem_cons.1 hqX with e' | hqc'
          · rw [e', hpar] at hp1
            have hp0 : p = P0 := (Option.some.inj hp1).symm
            rw [hp0, hP', e'] at hmem
            have hmem' : L ∈ A ++ B ++ M := hmem
            rcases List.mem_append.1 hmem' with hm | hm
            · rcases List.mem_append.1 hm with hm | hm
              · exact hLA hm
              · exact hLB hm
            · exact hqM (e' ▸ hm)
          · rw [lp.parent q hqc'] at hp1
            have hp0 : p = L := (Option.some.inj hp1).symm
            rw [hp0, hLc] at hmem
            simp at hmem
        · have hqL : q ≠ L := fun e' => hqX (e' ▸ List.mem_cons_self _ _)
          have hqcs : q ∉ (h L).children_ := fun hm => hqX (List.mem_cons_of_mem _ hm)
          rw [hframe q hqcs hqL hqP] at hqc ⊢
          exact hits_of_leaf q hqF hqc
  · -- the other leaf parents
    intro x hx hxL hxlp
    have hxkids : (h x).children_ ≠ [] := by
      intro hcon
      simp [isLeafParent, isLeaf, hcon] at hxlp
    have hxall : ∀ c ∈ (h x).children_, (h c).children_ = [] := by
      intro c hc
      have : isLeaf h x = false := by simp [isLeaf, hxkids]
      simp only [isLeafParent, this, Bool.false_eq_true, if_false, List.all_eq_true,
        hasChildren, Bool.not_not, List.isEmpty_iff] at hxlp
      exact hxlp c hc
    have hxcs : x ∉ (h L).children_ := fun hm => hxkids (lp.leaf x hm)
    have hxP : x ≠ P0 := by
      intro e'
      have hLin : L ∈ (h x).children_ := by rw [e', hch]; simp
      exact hLkids (hxall L hLin)
    have hx' : h' x = h x := hframe x hxcs hxL hxP
    have hpx := (Rep_children h F root t.rep (List.nodup_cons.1 t.nodup).2 x hx).2
    have hkids' : ∀ c ∈ (h x).children_, h' c = h c := by
      intro c hc
      refine hframe c ?_ ?_ ?_
      · intro hm
        have a1 := lp.parent c hm
        rw [hpx c hc] at a1
        exact hxL (Option.some.inj a1)
      · intro e'
        exact hLkids (e' ▸ hxall c hc)
      · intro e'
        exact hP0kids (e' ▸ hxall c hc)
    have : isLeaf h' x = false := by simp [isLeaf, hx', hxkids]
    simp only [isLeafParent, this, Bool.false_eq_true, if_false, List.all_eq_true,
      hasChildren, Bool.not_not, List.isEmpty_iff]
    intro c hc
    rw [hx'] at hc
    rw [hkids' c hc]
    exact hxall c hc

/-- A call of `merge_leafparent_Mar03` on the root of a flat well-formed tree whose leaves
all have a hit: no check fails, and every leaf of the tree it returns has a hit. -/
theorem merge_leafparent_root_leaves (sqrt : ℚ → ℚ) (hs : HitStore) (maxr : ℚ) {h : Heap}
    {root : Nat} {F : Forest} (t : IsTree h root F) (hl : leavesHaveHits h root F)
    (hF : F.isNil = false) (hlv : F.isLeaves = true) :
    ∃ h' b F', merge_leafparent_Mar03 sqrt hs h root maxr = .ok (h', b) ∧
      merge_leafparent_Mar03_checked sqrt hs h root maxr = .ok (h', b) ∧
      MergeStep h root F h' F' ∧ leavesHaveHits h' root F' := by
  have hnd := List.nodup_cons.1 t.nodup
  have lp : LeafParent h root F.roots :=
    LeafParent.of_rep h root F t.root_children t.rep hF hlv hnd.2 hnd.1
  have hcs : ∀ c ∈ F.roots, (h c).hits_ ≠ [] := by
    intro c hc
    refine (hasHits_iff h c).1 (hl c (List.mem_cons_of_mem _ (F.roots_subset_nodes c hc)) ?_)
    simp [isLeaf, lp.leaf c hc]
  obtain ⟨h', M, e, s, hsub, _, _, _, hkeep⟩ := merge_leafparent_flat sqrt hs maxr t hF hlv
  have hchk := merge_leafparent_checked_eq sqrt hs h root F.roots maxr lp hcs
  refine ⟨h', _, Forest.leaves M, e, by rw [hchk]; exact e, s, ?_⟩
  intro q hq hleaf
  have hqc : (h' q).children_ = [] := by
    simpa [isLeaf] using hleaf
  rcases List.mem_cons.1 hq with e' | hq
  · exfalso
    rw [e', s.tree.root_children] at hqc
    exact Forest.isNil_roots _ (s.nonempty hF) hqc
  · rw [Forest.leaves_nodes] at hq
    exact (hasHits_iff h' q).2 (hkeep q hq (hcs q (hsub.subset hq)))

/-- The calls of one turn of `merging_algo_Mar03` on leaf parents below the root of a
well-formed tree whose leaves all have a hit: no check fails, and the turn leaves a
well-formed tree whose leaves all have a hit. -/
theorem mergePass_checked_eq (sqrt : ℚ → ℚ) (hs : HitStore) (maxr : ℚ) (root : Nat) :
    ∀ (l : List Nat) (h : Heap) (F : Forest) (b : Bool),
      IsTree h root F → leavesHaveHits h root F → l.Nodup →
      (∀ x ∈ l, x ∈ F.nodes ∧ isLeafParent h x = true) →
      ∃ h' b' F',
        l.foldlM (fun (s : Heap × Bool) node => merge_leafparent_Mar03 sqrt hs s.1 node maxr)
          (h, b) = .ok (h', b') ∧
        l.foldlM
          (fun (s : Heap × Bool) node => merge_leafparent_Mar03_checked sqrt hs s.1 node maxr)
          (h, b) = .ok (h', b') ∧
        IsTree h' root F' ∧ leavesHaveHits h' root F' := by
  intro l
  induction l with
  | nil => intro h F b t hl _ _; exact ⟨h, b, F, rfl, rfl, t, hl⟩
  | cons L l ih =>
    intro h F b t hl hnd hmem
    have hnd1 := List.nodup_cons.1 hnd
    obtain ⟨hL, hlp⟩ := hmem L (List.mem_cons_self _ _)
    obtain ⟨h1, F1, e, ec, s, hl1, hstay, hother⟩ :=
      merge_leafparent_inner_leaves sqrt hs maxr t hl L hL hlp
    have hL' : L ∈ root :: F.nodes := List.mem_cons_of_mem _ hL
    obtain ⟨lp, _, _⟩ := leafParent_of_tree t L hL' hlp
    have hnext : ∀ x ∈ l, x ∈ F1.nodes ∧ isLeafParent h1 x = true := by
      intro x hx
      obtain ⟨hxF, hxlp⟩ := hmem x (List.mem_cons_of_mem _ hx)
      have hxL : x ≠ L := fun e' => hnd1.1 (e' ▸ hx)
      refine ⟨hstay x hxF ?_, hother x hxF hxL hxlp⟩
      intro hm
      rcases List.mem_cons.1 hm with e' | hm
      · exact hxL e'
      · have := lp.leaf x hm
        simp [isLeafParent, isLeaf, this] at hxlp
    obtain ⟨h', b', F', e2, ec2, t', hl'⟩ := ih h1 F1 true s.tree hl1 hnd1.2 hnext
    refine ⟨h', b', F', ?_, ?_, t', hl'⟩
    · simp only [List.foldlM_cons, e, bind_ok]
      exact e2
    · simp only [List.foldlM_cons, ec, bind_ok]
      exact ec2

/-- One turn of the loop of `merging_algo_Mar03` on a well-formed tree whose leaves all
have a hit: no check fails, whatever the fuel, and when the turn returns it leaves a
well-formed tree whose leaves all have a hit. -/
theorem mergingPass_checked_eq (sqrt : ℚ → ℚ) (hs : HitStore) {h : Heap} {root : Nat}
    {F : Forest} (t : IsTree h root F) (hl : leavesHaveHits h root F) (fuel : Nat) (b : Bool) :
    mergingPass_checked sqrt hs fuel h root b = mergingPass sqrt hs fuel h root b ∧
    ∀ h' b', mergingPass sqrt hs fuel h root b = .ok (h', b') →
      ∃ F', IsTree h' root F' ∧ leavesHaveHits h' root F' := by
  unfold mergingPass_checked mergingPass
  cases hr : rangeFor h (leafparentsBody h) fuel (Node.begin root) [] with
  | error err =>
    refine ⟨rfl, ?_⟩
    intro h' b' e
    cases e
  | ok lps =>
    have hlist := leafparents_list t fuel lps hr
    rw [bind_ok, bind_ok]
    cases hF : F.isNil with
    | true =>
      rw [hF] at hlist
      simp only [if_true] at hlist
      subst hlist
      refine ⟨rfl, ?_⟩
      intro h' b' e
      simp only [List.foldlM_nil, pure, Except.pure] at e
      have := Except.ok.inj e
      have hh : h = h' := congrArg Prod.fst this
      subst hh
      exact ⟨F, t, hl⟩
    | false =>
      rw [hF] at hlist
      simp only [Bool.false_eq_true, if_false] at hlist
      cases hlv : F.isLeaves with
      | true =>
        rw [hlv] at hlist
        simp only [if_true] at hlist
        subst hlist
        obtain ⟨h1, b1, F1, e, ec, s, hl1⟩ :=
          merge_leafparent_root_leaves sqrt hs 10 t hl hF hlv
        simp only [List.foldlM_cons, List.foldlM_nil, e, ec, bind_ok]
        refine ⟨trivial, ?_⟩
        intro h' b' e'
        simp only [pure, Except.pure] at e'
        have := Except.ok.inj e'
        have hh : h1 = h' := congrArg Prod.fst this
        subst hh
        exact ⟨F1, s.tree, hl1⟩
      | false =>
        rw [hlv] at hlist
        simp only [Bool.false_eq_true, if_false] at hlist
        subst hlist
        have hnd : F.leafParents.Nodup :=
          (List.nodup_cons.1 t.nodup).2.sublist F.leafParents_sublist
        obtain ⟨h1, b1, F1, e, ec, t1, hl1⟩ :=
          mergePass_checked_eq sqrt hs 10 root F.leafParents h F b t hl hnd
            (fun x hx => ⟨F.leafParents_subset x hx, leafParents_isLeafParent h F root t.rep x hx⟩)
        rw [e, ec]
        refine ⟨rfl, ?_⟩
        intro h' b' e'
        have := Except.ok.inj e'
        have hh : h1 = h' := congrArg Prod.fst this
        subst hh
        exact ⟨F1, t1, hl1⟩

/-- The loop of `merging_algo_Mar03` on a well-formed tree whose leaves all have a hit: no
check fails, whatever the fuel and the number of turns. -/
theorem mergingLoop_checked_eq (sqrt : ℚ → ℚ) (hs : HitStore) (fuel : Nat) (root : Nat) :
    ∀ (turns : Nat) (h : Heap) (F : Forest) (b : Bool), IsTree h root F →
      leavesHaveHits h root F →
      mergingLoop_checked sqrt hs fuel root turns h b = mergingLoop sqrt hs fuel root turns h b := by
  intro turns
  induction turns with
  | zero => intro h F b _ _; rfl
  | succ n ih =>
    intro h F b t hl
    unfold mergingLoop_checked mergingLoop
    cases b with
    | false => rfl
    | true =>
      simp only [if_true]
      obtain ⟨hp, hnext⟩ := mergingPass_checked_eq sqrt hs t hl fuel true
      rw [hp]
      cases hm : mergingPass sqrt hs fuel h root true with
      | error err => rfl
      | ok r =>
        obtain ⟨h1, d⟩ := r
        obtain ⟨F1, t1, hl1⟩ := hnext h1 d hm
        exact ih h1 F1 d t1 hl1

/-- Every leaf of the tree `trim_tree` returns has a hit. -/
theorem trim_tree_leaves {h : Heap} {root : Nat} {F : Forest} (t : IsTree h root F)
    (fuel : Nat) (h1 : Heap) (e : trim_tree fuel h root = .ok h1) :
    ∃ F1, IsTree h1 root F1 ∧ leavesHaveHits h1 root F1 := by
  have hany := trim_tree_ok_hasHit t fuel h1 e
  obtain ⟨h', e', t', lo⟩ :=
    trim_tree_spec t hany (fuel + (F.nodes.length + 2)) (by omega)
  rw [trim_tree_mono fuel (F.nodes.length + 2) h root h1 e] at e'
  have hh : h1 = h' := Except.ok.inj e'
  subst hh
  obtain ⟨p1, _, p3⟩ := trim_tree_result_props hany lo
  refine ⟨F.trimmed (hasHits h), t', ?_⟩
  intro q hq hleaf
  have hqc : (h1 q).children_ = [] := by
    simpa [isLeaf] using hleaf
  rcases List.mem_cons.1 hq with e1 | hq
  · subst e1
    rw [t'.root_children] at hqc
    have hnil : (F.trimmed (hasHits h)).nodes = [] := by
      cases hF : F.trimmed (hasHits h) with
      | nil => rfl
      | cons p kids rest => rw [hF] at hqc; simp [Forest.roots] at hqc
    obtain ⟨x, hx, hne⟩ := p1
    rw [hnil, List.mem_singleton] at hx
    subst hx
    exact (hasHits_iff h1 x).2 hne
  · have := Rep_forall h1 _ (fun q => hasHits h1 q = true ∨ 2 ≤ (h1 q).children_.length) _
      (fun p kids hp hc => by
        show _ ∨ 2 ≤ (h1 p).children_.length
        rw [hc]; exact hp) root t'.rep p3 q hq
    rcases this with hh | hl
    · exact hh
    · rw [hqc] at hl
      simp at hl

/-! ## Claim on the nodes `distance` is called on -/

/-- C21: in the run of `merging_algo_Mar03` on a well-formed tree whose leaves all have at
least one hit, every call of `distance` is on two nodes with at least one hit and no
centroid is computed from an empty list of hits: the run with the checks
(`merging_algo_Mar03_checked`, in which `distance` fails on a node without hits and
`::hitcentroid` fails on an empty list) is the run without them, for every fuel, so no
check ever fails, also in a run that is cut short.  The property is kept by every call
of `merge_leafparent_Mar03` on a leaf parent, for every radius: the call returns, no check
fails in it, and it leaves a well-formed tree whose leaves all have a hit.  The property
holds of the tree that `trim_tree` returns. -/
theorem distance_only_on_hits (sqrt : ℚ → ℚ) (hs : HitStore) {h : Heap} {root : Nat}
    {F : Forest} (t : IsTree h root F) :
    (leavesHaveHits h root F →
      (∀ fuel, merging_algo_Mar03_checked sqrt hs fuel h root
        = merging_algo_Mar03 sqrt hs fuel h root) ∧
      (∀ (maxr : ℚ) (L : Nat), L ∈ root :: F.nodes → isLeafParent h L = true →
        ∃ h' b F', merge_leafparent_Mar03 sqrt hs h L maxr = .ok (h', b) ∧
          merge_leafparent_Mar03_checked sqrt hs h L maxr = .ok (h', b) ∧
          IsTree h' root F' ∧ leavesHaveHits h' root F')) ∧
    (∀ fuel h1, trim_tree fuel h root = .ok h1 →
      ∃ F1, IsTree h1 root F1 ∧ leavesHaveHits h1 root F1) := by
  refine ⟨fun hl => ⟨?_, ?_⟩, fun fuel h1 e => trim_tree_leaves t fuel h1 e⟩
  · intro fuel
    exact mergingLoop_checked_eq sqrt hs fuel root fuel h F true t hl
  · intro maxr L hL hlp
    rcases List.mem_cons.1 hL with e | hL
    · subst e
      rw [isLeafParent_rep h L F t.root_children t.rep] at hlp
      simp only [Bool.and_eq_true, Bool.not_eq_true'] at hlp
      obtain ⟨h', b, F', e1, e2, s, hl'⟩ :=
        merge_leafparent_root_leaves sqrt hs maxr t hl hlp.1 hlp.2
      exact ⟨h', b, F', e1, e2, s.tree, hl'⟩
    · obtain ⟨h', F', e1, e2, s, hl', _⟩ :=
        merge_leafparent_inner_leaves sqrt hs maxr t hl L hL hlp
      exact ⟨h', true, F', e1, e2, s.tree, hl'⟩

/-- The checks do fail on a tree with a leaf without hits: in the example tree the leaf
`2` has no hit, and the run with the checks ends with the failure of a check. -/
theorem merging_algo_checked_example :
    (match merging_algo_Mar03_checked (fun q => q) exampleHits 10 exampleHeap 0 with
      | .error .exception => true
      | _ => false) = true ∧
    (merging_algo_Mar03 (fun q => q) exampleHits 10 exampleHeap 0).toOption.isSome = true := by
  constructor <;> decide!

/-- The only leaf of the chain `0 → 1 → 2` has a hit. -/
theorem pdgTree_leaves :
    leavesHaveHits pdgHeap 0 (.cons 1 (.cons 2 .nil .nil) .nil) := by
  unfold leavesHaveHits
  decide

/-- C21 on the chain `0 → 1 → 2`, whose leaf `2` has a hit, with the call on the leaf
parent `1`, and on the example tree for `trim_tree`. -/
theorem distance_only_on_hits_witness :
    ((∀ fuel, merging_algo_Mar03_checked (fun q => q) flatHits fuel pdgHeap 0
        = merging_algo_Mar03 (fun q => q) flatHits fuel pdgHeap 0) ∧
      (∃ h' b F', merge_leafparent_Mar03 (fun q => q) flatHits pdgHeap 1 10 = .ok (h', b) ∧
          merge_leafparent_Mar03_checked (fun q => q) flatHits pdgHeap 1 10 = .ok (h', b) ∧
          IsTree h' 0 F' ∧ leavesHaveHits h' 0 F')) ∧
    (∀ fuel h1, trim_tree fuel exampleHeap 0 = .ok h1 →
      ∃ F1, IsTree h1 0 F1 ∧ leavesHaveHits h1 0 F1) :=
  ⟨⟨((distance_only_on_hits (fun q => q) flatHits pdgTree).1 pdgTree_leaves).1,
      ((distance_only_on_hits (fun q => q) flatHits pdgTree).1 pdgTree_leaves).2 10 1
        (by decide) (by decide)⟩,
    (distance_only_on_hits (fun q => q) flatHits exampleTree).2⟩

/-! ## A centroid that is not finite -/

theorem zeroTree : IsTree zeroHeap 0 (Forest.leaves [1, 2, 3]) := by
  refine ⟨rfl, rfl, ?_, by decide, by decide⟩
  simp [Rep, Forest.leaves, zeroHeap, zeroNodes, Forest.roots, Node.mk3]

/-- C17, counterexample: in the flat tree `0 → [1, 2, 3]` the leaf `1` holds two hits of
energy `0`, so that `::hitcentroid` divides by a zero energy sum and its centroid is not
finite; the leaves `2` and `3` hold one hit each, at `(0,0,0)` and `(1,0,0)`.  The call of
`merge_leafparent_Mar03` on the root with radius `10` merges `2` into `3` and returns
`true` with the children `1` and `3`, and the distance of these two survivors is NaN: it
is not at least the radius, and in the first turn the pair that is merged, at distance
`1`, is compared with no distance of the pairs of the leaf `1`. -/
theorem nearest_pair_not_finite :
    isLeafParent zeroHeap 0 = true ∧
    (hitcentroid_ieee ((zeroHeap 1).hits_.map zeroHits)) = none ∧
    (distance_ieee (fun q => q) zeroHits ⟨zeroHeap, fun _ => false⟩ 1 2).2 = none ∧
    (distance_ieee (fun q => q) zeroHits ⟨zeroHeap, fun _ => false⟩ 2 3).2 = some 1 ∧
    ((merge_leafparent_Mar03_ieee (fun q => q) zeroHits ⟨zeroHeap, fun _ => false⟩ 0
        10).toOption.map
      (fun r => ((r.1.heap 0).children_, (r.1.heap 3).hits_, r.2,
        (distance_ieee (fun q => q) zeroHits r.1 1 3).2)))
      = some ([1, 3], [3, 2], true, none) := by
  refine ⟨rfl, ?_, ?_, ?_, ?_⟩ <;> decide!

/-! ## With hits of positive energy no centroid is divided by zero -/

theorem foldl_energy_pos (hits : List Hit) (hpos : ∀ hit ∈ hits, 0 < hit.energy_)
    (hne : hits ≠ []) : 0 < hits.foldl (fun s hit => s + hit.energy_) 0 := by
  rw [foldl_energy, zero_add]
  cases hits with
  | nil => exact absurd rfl hne
  | cons a l =>
    have h1 : 0 < a.energy_ := hpos a (List.mem_cons_self _ _)
    have h2 : 0 ≤ (l.map Hit.energy_).sum := by
      apply List.sum_nonneg
      intro x hx
      obtain ⟨hit, hm, rfl⟩ := List.mem_map.1 hx
      exact le_of_lt (hpos hit (List.mem_cons_of_mem _ hm))
    simp only [List.map_cons, List.sum_cons]
    linarith

theorem foldlM_floatDiv (S : ℚ) (hS : S ≠ 0) (hits : List Hit) :
    ∀ c : GlobalPoint,
      hits.foldlM
        (fun (c : GlobalPoint) hit => do
          let weight ← floatDiv hit.energy_ S
          some (⟨c.x + weight * hit.x_, c.y + weight * hit.y_, c.z + weight * hit.z_⟩ :
            GlobalPoint)) c
      = some (hits.foldl
        (fun (c : GlobalPoint) hit =>
          let weight := hit.energy_ / S
          ⟨c.x + weight * hit.x_, c.y + weight * hit.y_, c.z + weight * hit.z_⟩) c) := by
  have hf : ∀ (c : GlobalPoint) (hit : Hit),
      (do
        let weight ← floatDiv hit.energy_ S
        some (⟨c.x + weight * hit.x_, c.y + weight * hit.y_, c.z + weight * hit.z_⟩ :
          GlobalPoint))
      = some ⟨c.x + hit.energy_ / S * hit.x_, c.y + hit.energy_ / S * hit.y_,
          c.z + hit.energy_ / S * hit.z_⟩ := by
    intro c hit
    simp [floatDiv, hS]
  induction hits with
  | nil => intro c; rfl
  | cons a l ih =>
    intro c
    rw [List.foldlM_cons, hf c a]
    exact ih _

/-- On hits of positive energy the division of IEEE 754 is the division of the
rationals: `::hitcentroid` returns the same finite point with both. -/
theorem hitcentroid_ieee_eq (hits : List Hit) (hpos : ∀ hit ∈ hits, 0 < hit.energy_) :
    ∃ c, hitcentroid hits = .ok c ∧ hitcentroid_ieee hits = some c := by
  match hits, hpos with
  | [], _ => exact ⟨⟨0, 0, 0⟩, rfl, rfl⟩
  | [hit], _ => exact ⟨_, rfl, rfl⟩
  | a :: b :: l, hpos =>
    have hS := ne_of_gt (foldl_energy_pos (a :: b :: l) hpos (List.cons_ne_nil _ _))
    refine ⟨_, rfl, ?_⟩
    unfold hitcentroid_ieee
    exact foldlM_floatDiv _ hS (a :: b :: l) ⟨0, 0, 0⟩

theorem update_false_self (p : Nat) :
    Function.update (fun _ : Nat => false) p false = fun _ => false := by
  funext q
  by_cases hq : q = p
  · subst hq; simp
  · simp [Function.update_noteq hq]

theorem recomputeHitcentroid_ieee_eq (hs : HitStore) (hpos : ∀ i, 0 < (hs i).energy_)
    (h : Heap) (p : Nat) :
    ∃ h' c, recomputeHitcentroid hs h p = .ok (h', c) ∧
      recomputeHitcentroid_ieee hs (FloatHeap.finite h) p = (FloatHeap.finite h', some c) := by
  obtain ⟨c, e1, e2⟩ := hitcentroid_ieee_eq ((h p).hits_.map hs) (by
    intro hit hm
    obtain ⟨i, _, rfl⟩ := List.mem_map.1 hm
    exact hpos i)
  refine ⟨Function.update h p { h p with hitcentroid_ := c, hitcentroidCalculated_ := true },
    c, ?_, ?_⟩
  · unfold recomputeHitcentroid
    rw [e1]; rfl
  · unfold recomputeHitcentroid_ieee
    simp only [FloatHeap.finite, e2, update_false_self]

theorem nodeHitcentroid_ieee_eq (hs : HitStore) (hpos : ∀ i, 0 < (hs i).energy_)
    (h : Heap) (p : Nat) :
    ∃ h' c, nodeHitcentroid hs h p = .ok (h', c) ∧
      nodeHitcentroid_ieee hs (FloatHeap.finite h) p = (FloatHeap.finite h', some c) := by
  unfold nodeHitcentroid nodeHitcentroid_ieee
  cases hc : (h p).hitcentroidCalculated_ with
  | true =>
    refine ⟨h, (h p).hitcentroid_, by simp, ?_⟩
    simp [FloatHeap.finite, hc]
  | false =>
    obtain ⟨h', c, e1, e2⟩ := recomputeHitcentroid_ieee_eq hs hpos h p
    refine ⟨h', c, by simp [e1], ?_⟩
    simp only [FloatHeap.finite, hc, Bool.false_eq_true, if_false]
    exact e2

/-- With hits of positive energy, and no cached centroid that is not finite, `distance`
returns the same number with the division of IEEE 754 as with that of the rationals. -/
theorem distance_ieee_eq (sqrt : ℚ → ℚ) (hs : HitStore) (hpos : ∀ i, 0 < (hs i).energy_)
    (h : Heap) (a b : Nat) :
    ∃ h' r, distance sqrt hs h a b = .ok (h', r) ∧
      distance_ieee sqrt hs (FloatHeap.finite h) a b = (FloatHeap.finite h', some r) := by
  obtain ⟨h1, p1, e1, f1⟩ := nodeHitcentroid_ieee_eq hs hpos h a
  obtain ⟨h2, p2, e2, f2⟩ := nodeHitcentroid_ieee_eq hs hpos h1 b
  refine ⟨h2, sqrt ((p1.x - p2.x) ^ 2 + (p1.y - p2.y) ^ 2 + (p1.z - p2.z) ^ 2), ?_, ?_⟩
  · unfold distance
    rw [e1, bind_ok]
    simp only []
    rw [e2, bind_ok]
  · unfold distance_ieee
    simp only [f1, f2]

theorem scanInner_ieee_eq (sqrt : ℚ → ℚ) (hs : HitStore) (hpos : ∀ i, 0 < (hs i).energy_)
    (left : Nat) (rest : List Nat) :
    ∀ st : ScanState, ∃ st', scanInner sqrt hs left rest st = .ok st' ∧
      scanInner_ieee sqrt hs left rest st.finite = st'.finite := by
  induction rest with
  | nil => intro st; exact ⟨st, rfl, rfl⟩
  | cons right rest ih =>
    intro st
    obtain ⟨h1, r, e, f⟩ := distance_ieee_eq sqrt hs hpos st.heap left right
    unfold scanInner scanInner_ieee
    have f' : distance_ieee sqrt hs st.finite.fheap left right = (FloatHeap.finite h1, some r) := f
    rw [e, bind_ok]
    simp only [f']
    by_cases hlt : r < st.minr
    · have hlt' : r < st.finite.minr := hlt
      simp only [if_pos hlt, if_pos hlt']
      exact ih _
    · have hlt' : ¬ r < st.finite.minr := hlt
      simp only [if_neg hlt, if_neg hlt']
      exact ih _

theorem scanOuter_ieee_eq (sqrt : ℚ → ℚ) (hs : HitStore) (hpos : ∀ i, 0 < (hs i).energy_)
    (M : List Nat) :
    ∀ st : ScanState, ∃ st', scanOuter sqrt hs M st = .ok st' ∧
      scanOuter_ieee sqrt hs M st.finite = st'.finite := by
  induction M with
  | nil => intro st; exact ⟨st, rfl, rfl⟩
  | cons left rest ih =>
    intro st
    obtain ⟨st1, e1, f1⟩ := scanInner_ieee_eq sqrt hs hpos left rest st
    obtain ⟨st2, e2, f2⟩ := ih st1
    refine ⟨st2, ?_, ?_⟩
    · unfold scanOuter
      rw [e1, bind_ok]
      exact e2
    · unfold scanOuter_ieee
      rw [f1]
      exact f2

theorem mergePair_ieee_eq (hs : HitStore) (hpos : ∀ i, 0 < (hs i).energy_) (h : Heap)
    (first second : Nat) :
    mergePair_ieee hs (FloatHeap.finite h) first second
      = Except.map FloatHeap.finite (mergePair hs h first second) := by
  unfold mergePair_ieee mergePair
  simp only [FloatHeap.finite]
  split
  · rfl
  · rename_i h5 _
    obtain ⟨h6, c, e1, e2⟩ := recomputeHitcentroid_ieee_eq hs hpos h5 first
    simp only [FloatHeap.finite] at e2
    rw [e1, e2]
    rfl

theorem mergeLoop_ieee_eq (sqrt : ℚ → ℚ) (hs : HitStore) (hpos : ∀ i, 0 < (hs i).energy_)
    (maxr : ℚ) :
    ∀ (fuel : Nat) (h : Heap) (M : List Nat) (b : Bool),
      mergeLoop_ieee sqrt hs maxr fuel (FloatHeap.finite h) M b
        = Except.map (fun r => (FloatHeap.finite r.1, r.2.1, r.2.2))
            (mergeLoop sqrt hs maxr fuel h M b) := by
  intro fuel
  induction fuel with
  | zero => intro h M b; rfl
  | succ fuel ih =>
    intro h M b
    obtain ⟨st, e, f⟩ := scanOuter_ieee_eq sqrt hs hpos M
      { heap := h, minr := maxr, pairToMerge := none, didUpdate := b,
        didUpdateThisIteration := false }
    have f' : scanOuter_ieee sqrt hs M
        { fheap := FloatHeap.finite h, minr := maxr, pairToMerge := none, didUpdate := b,
          didUpdateThisIteration := false } = st.finite := f
    rw [mergeLoop_ieee, mergeLoop, e, bind_ok, f']
    simp only [ScanState.finite]
    cases hflag : st.didUpdateThisIteration with
    | false => rfl
    | true =>
      simp only [Bool.not_true, Bool.false_eq_true, if_false]
      cases hp : st.pairToMerge with
      | none => rfl
      | some pr =>
        obtain ⟨first, second⟩ := pr
        simp only [mergePair_ieee_eq hs hpos st.heap first second]
        cases hm : mergePair hs st.heap first second with
        | error err => rfl
        | ok h6 =>
          simp only [Except.map]
          exact ih h6 _ st.didUpdate

/-- With hits of positive energy, and no cached centroid that is not finite,
`merge_leafparent_Mar03` does with the division of IEEE 754 what it does with the division
of the rationals. -/
theorem merge_leafparent_ieee_eq (sqrt : ℚ → ℚ) (hs : HitStore)
    (hpos : ∀ i, 0 < (hs i).energy_) (h : Heap) (L : Nat) (maxr : ℚ) :
    merge_leafparent_Mar03_ieee sqrt hs (FloatHeap.finite h) L maxr
      = Except.map (fun r => (FloatHeap.finite r.1, r.2))
          (merge_leafparent_Mar03 sqrt hs h L maxr) := by
  unfold merge_leafparent_Mar03_ieee merge_leafparent_Mar03
  simp only [FloatHeap.finite]
  have key := mergeLoop_ieee_eq sqrt hs hpos maxr
  simp only [FloatHeap.finite] at key
  simp only [key]
  cases mergeLoop sqrt hs maxr _ _ _ false with
  | error err => rfl
  | ok r =>
    obtain ⟨h2, M, d⟩ := r
    simp only [Except.map, bind, Except.bind]
    split
    · rfl
    · split
      · rfl
      · cases break_from_parent (inheritPdgid h2 L M) L <;> rfl

/-! ## Claim on the selection of the nearest pair -/

theorem flatHits_pos : ∀ i, 0 < (flatHits i).energy_ := by
  intro i
  unfold flatHits
  split <;> norm_num

/-- C17, amended: with hits of positive energy, and no cached centroid that is NaN or
infinite, no centroid is divided by zero: `distance` and `merge_leafparent_Mar03` do with
the division of IEEE 754 what they do with the division of the rationals, and every
distance is a number.  Then, in every turn of the `while(true)` loop of
`merge_leafparent_Mar03`, from a state `(h, M)` that satisfies the loop invariant: if two
distinct nodes of the mergeable set `M` are at a distance below `maxr`, the scan selects
a pair of distinct nodes of `M` whose distance is below `maxr` and at most the distance
of any two distinct nodes of `M`, merges it and goes on from a state that satisfies the
invariant; if no two are, the loop ends without merging.  The invariant holds at the
first turn of a call on a leaf parent of a well-formed tree, and on return of such a call
any two surviving mergeable nodes are at a distance of at least `maxr`. -/
theorem nearest_pair_selection (sqrt : ℚ → ℚ) (hs : HitStore) (maxr : ℚ)
    (hpos : ∀ i, 0 < (hs i).energy_) :
    (∀ (h : Heap) (x y : Nat),
      (distance_ieee sqrt hs (FloatHeap.finite h) x y).2 = some (distOf sqrt hs h x y)) ∧
    (∀ (fuel : Nat) (h : Heap) (M : List Nat) (b : Bool),
      mergeLoop_ieee sqrt hs maxr fuel (FloatHeap.finite h) M b
        = Except.map (fun r => (FloatHeap.finite r.1, r.2.1, r.2.2))
            (mergeLoop sqrt hs maxr fuel h M b)) ∧
    (∀ (h : Heap) (L : Nat),
      merge_leafparent_Mar03_ieee sqrt hs (FloatHeap.finite h) L maxr
        = Except.map (fun r => (FloatHeap.finite r.1, r.2))
            (merge_leafparent_Mar03 sqrt hs h L maxr)) ∧
    (∀ (L : Nat) (h : Heap) (M : List Nat) (b : Bool), LoopInv L h M →
      ∃ st, scanOuter sqrt hs M
          { heap := h, minr := maxr, pairToMerge := none, didUpdate := b,
            didUpdateThisIteration := false } = .ok st ∧
        ((∃ x ∈ M, ∃ y ∈ M, x ≠ y ∧ distOf sqrt hs h x y < maxr) →
          ∃ first second h6, st.didUpdateThisIteration = true ∧
            st.pairToMerge = some (first, second) ∧
            first ∈ M ∧ second ∈ M ∧ first ≠ second ∧
            distOf sqrt hs h first second < maxr ∧
            (∀ x ∈ M, ∀ y ∈ M, x ≠ y →
              distOf sqrt hs h first second ≤ distOf sqrt hs h x y) ∧
            mergePair hs st.heap first second = .ok h6 ∧
            (∀ fuel, mergeLoop sqrt hs maxr (fuel + 1) h M b
              = mergeLoop sqrt hs maxr fuel h6 (M.filter (fun c => c != second)) true) ∧
            LoopInv L h6 (M.filter (fun c => c != second))) ∧
        ((¬ ∃ x ∈ M, ∃ y ∈ M, x ≠ y ∧ distOf sqrt hs h x y < maxr) →
          st.didUpdateThisIteration = false ∧
          ∀ fuel, mergeLoop sqrt hs maxr (fuel + 1) h M b = .ok (st.heap, M, b))) ∧
    (∀ (h : Heap) (root : Nat) (F : Forest), IsTree h root F →
      ∀ L ∈ root :: F.nodes, isLeafParent h L = true →
        LoopInv L (Function.update h L { h L with children_ := [] }) (mergeableSet h L) ∧
        ∃ h' b' M, merge_leafparent_Mar03 sqrt hs h L maxr = .ok (h', b') ∧
          M.Sublist ((h L).children_ ++ [L]) ∧
          (∀ x ∈ M, ∀ y ∈ M, x ≠ y → maxr ≤ distOf sqrt hs h' x y) ∧
          (L = root → (h' L).children_ = M) ∧
          (L ≠ root → ∃ P0 A B, (h L).parent_ = some P0 ∧ (h P0).children_ = A ++ L :: B ∧
            (h' P0).children_ = A ++ B ++ M)) := by
  refine ⟨?_, mergeLoop_ieee_eq sqrt hs hpos maxr,
    fun h L => merge_leafparent_ieee_eq sqrt hs hpos h L maxr, ?_, ?_⟩
  · intro h x y
    obtain ⟨h1, r, e, f⟩ := distance_ieee_eq sqrt hs hpos h x y
    obtain ⟨h2, e2, _⟩ := distance_spec sqrt hs h x y
    rw [e] at e2
    have := Except.ok.inj e2
    rw [f]
    exact congrArg some (congrArg Prod.snd this)
  · intro L h M b i
    obtain ⟨st, e, _, hiff, hno, hyes⟩ := mergeTurn_spec sqrt hs maxr L h M b i
    refine ⟨st, e, ?_, ?_⟩
    · intro hex
      have hflag := hiff.1 hex
      obtain ⟨first, second, h6, hp, hf, hs2, hne, hlt, hmin, _, e6, hloop, i6, _⟩ := hyes hflag
      exact ⟨first, second, h6, hflag, hp, hf, hs2, hne, hlt, hmin, e6, hloop, i6⟩
    · intro hnex
      have hflag : st.didUpdateThisIteration = false := by
        cases hc : st.didUpdateThisIteration with
        | false => rfl
        | true => exact absurd (hiff.2 hc) hnex
      exact ⟨hflag, hno hflag⟩
  · intro h root F t L hL hlp
    obtain ⟨h', b', M, e, hsub, hpw, hr, hi⟩ :=
      merge_leafparent_survivors sqrt hs maxr t L hL hlp
    exact ⟨(mergeInv_entry t L hL hlp).1, h', b', M, e, hsub,
      fun x hx y hy hxy => not_lt.1 (hpw x hx y hy hxy), hr, hi⟩

/-- C17, amended, on the flat example, leaves at `(0,0,0)`, `(1,0,0)` and `(100,0,0)`
with hits of energy `1` and radius `10`: the distance of the leaves `1` and `2` is the
number `1` with the division of IEEE 754; the call on the root returns with survivors any
two of which are at a distance of at least the radius; two children are left, the node
`2` holding the hits of the first two leaves and the node `3` its own hit, with the
division of IEEE 754 as with that of the rationals (the square root of the example is
the identity, so the distance of the centroids `(1/2,0,0)` and `(100,0,0)` reads
`39601/4`). -/
theorem nearest_pair_selection_witness :
    (distance_ieee (fun q => q) flatHits (FloatHeap.finite flatHeap) 1 2).2
      = some (distOf (fun q => q) flatHits flatHeap 1 2) ∧
    (∃ h' b' M, merge_leafparent_Mar03 (fun q => q) flatHits flatHeap 0 10 = .ok (h', b') ∧
      M.Sublist ((flatHeap 0).children_ ++ [0]) ∧
      (∀ x ∈ M, ∀ y ∈ M, x ≠ y → 10 ≤ distOf (fun q => q) flatHits h' x y) ∧
      (0 = 0 → (h' 0).children_ = M) ∧
      (0 ≠ 0 → ∃ P0 A B, (flatHeap 0).parent_ = some P0 ∧
        (flatHeap P0).children_ = A ++ 0 :: B ∧ (h' P0).children_ = A ++ B ++ M)) ∧
    ((merge_leafparent_Mar03 (fun q => q) flatHits flatHeap 0 10).toOption.map
      (fun r => ((r.1 0).children_, (r.1 2).hits_, (r.1 3).hits_, (r.1 1).hits_)))
      = some ([2, 3], [1, 0], [2], []) ∧
    ((merge_leafparent_Mar03_ieee (fun q => q) flatHits (FloatHeap.finite flatHeap) 0
        10).toOption.map
      (fun r => ((r.1.heap 0).children_, (r.1.heap 2).hits_, (r.1.heap 3).hits_,
        (distance_ieee (fun q => q) flatHits r.1 2 3).2)))
      = some ([2, 3], [1, 0], [2], some (39601 / 4)) :=
  ⟨(nearest_pair_selection (fun q => q) flatHits 10 flatHits_pos).1 flatHeap 1 2,
    ((nearest_pair_selection (fun q => q) flatHits 10 flatHits_pos).2.2.2.2 flatHeap 0 _
      flatTree 0 (by decide) (by decide)).2, by decide!, by decide!⟩

end SimMerging
